import Mathlib

/-!
The template expander tsub: a shallow embedding of `tsub.cc` / `tsub.h`

The template expander of `dianpeng/tsub` is embedded as pure Lean functions.

Conventions of the embedding

* A `std::string` is the list of its bytes (`Str`), each `char` written as the `Char`
  with the same code.  Positions are byte offsets (`Nat`); the `int`/`size_t` casts of
  the source are not modelled (sources shorter than `2^31` bytes).
* A C++ function `bool f(Value* output)` of class `Interp` becomes a function from the
  interpreter state to a `Result`: `Result.ret (some v) I` is `return true` with
  `*output = v`, `Result.ret none I` is `return false`; `I` is the state left behind
  (scanner, dollar pointer, error string), which the callers of the source go on using.
  `Result.crash` is an execution that does not return to its caller in a defined way: a
  failed `assert`, a thrown `std::out_of_range`, the trap of the division of `INT_MIN` by
  `-1`, undefined behaviour (a read of the storage of a function that has returned, a
  write beyond the buffer of `ReportError`), or the recursion budget of the embedding
  running out.
* The recursion `InterpExp -> ... -> InterpAtomic -> InterpExp` is tied by a budget
  (`fuel`): every function below `InterpExp` takes the recursive call as its parameter
  `exp`, and `InterpExp (fuel+1)` passes `InterpExp fuel` for it.  The `do ... while(true)`
  operator loops spend one unit of the same budget per iteration.
* `dollar_value_` is a raw pointer in the source.  It is modelled by `Dollar`: `null`,
  `obj d` (a pointer to the `Value` object that is `d` objects deep in the stack of live
  `Value` locals), `elem d v` (a pointer to an element, of content `v`, of the list held by
  the object at depth `d` while that list is mapped), `spare d` (a pointer to the local
  `to` of the list literal whose object is at depth `d`, while the end of a range is not
  under evaluation) and `dead` (a pointer into the storage of a function that has
  returned, or to a deleted list).  The contents of the live objects below the current one
  are the parameter `env`; an object on which a callee works is not written by anyone else
  meanwhile.
* A local `Value` declared in the body of a `do` loop (`rhs`, `val`, `to`) is destroyed at
  the end of an iteration and constructed again, in the same storage of the same function
  call, by the next one: a pointer to it goes on pointing to the new local, which holds
  the initial null until it is written.  When the function returns, the storage is gone
  and the pointer is `dead`; what a read through it finds depends on what the stack holds
  by then, and the embedding gives it no result (`Crash.undefined`).
* `assert`s that guard the consistency of token and scanner (`Scanner::Move`,
  `ParseNumber`, `ParseString`, ...) hold by construction of the scanner and are not
  modelled; the `assert` of `InterpTenery` and the `UNREACHABLE` defaults are.
* `int` arithmetic wraps to 32 bits (`wrap32`), except the division of `INT_MIN` by `-1`,
  which traps (`Crash.trap`); `long` is 64 bits wide.
* `Interp::ReportError` formats its message with `vsprintf` into a buffer of 1024 bytes.
  The messages without a `%s` argument and those that name a token are shorter; the four
  messages that carry an identifier or the error text of the host go through
  `ReportFormatted`, which has no result (`Crash.undefined`) when the message and its
  terminator do not fit.
-/

namespace tsub

/-- The bytes of a `std::string`. -/
abbrev Str := List Char

/-- The tagged union `tsub::Value` (tsub.h); `ValueList` is a `std::vector<Value>`. -/
inductive Value where
  | VALUE_STRING (s : Str)
  | VALUE_NUMBER (n : Int)
  | VALUE_LIST (l : List Value)
  | VALUE_NULL
deriving Repr, Inhabited

open Value

mutual
/-- Decidable equality of values (the derive handler does not cover nested types). -/
def Value.decEq : (a b : Value) → Decidable (a = b)
  | VALUE_STRING s, VALUE_STRING t =>
    if h : s = t then isTrue (by rw [h]) else isFalse (by intro e; cases e; exact h rfl)
  | VALUE_NUMBER n, VALUE_NUMBER m =>
    if h : n = m then isTrue (by rw [h]) else isFalse (by intro e; cases e; exact h rfl)
  | VALUE_LIST l, VALUE_LIST k =>
    match Value.decEqList l k with
    | isTrue h => isTrue (by rw [h])
    | isFalse h => isFalse (by intro e; cases e; exact h rfl)
  | VALUE_NULL, VALUE_NULL => isTrue rfl
  | VALUE_STRING _, VALUE_NUMBER _ => isFalse (by intro e; cases e)
  | VALUE_STRING _, VALUE_LIST _ => isFalse (by intro e; cases e)
  | VALUE_STRING _, VALUE_NULL => isFalse (by intro e; cases e)
  | VALUE_NUMBER _, VALUE_STRING _ => isFalse (by intro e; cases e)
  | VALUE_NUMBER _, VALUE_LIST _ => isFalse (by intro e; cases e)
  | VALUE_NUMBER _, VALUE_NULL => isFalse (by intro e; cases e)
  | VALUE_LIST _, VALUE_STRING _ => isFalse (by intro e; cases e)
  | VALUE_LIST _, VALUE_NUMBER _ => isFalse (by intro e; cases e)
  | VALUE_LIST _, VALUE_NULL => isFalse (by intro e; cases e)
  | VALUE_NULL, VALUE_STRING _ => isFalse (by intro e; cases e)
  | VALUE_NULL, VALUE_NUMBER _ => isFalse (by intro e; cases e)
  | VALUE_NULL, VALUE_LIST _ => isFalse (by intro e; cases e)
/-- Decidable equality of value lists. -/
def Value.decEqList : (a b : List Value) → Decidable (a = b)
  | [], [] => isTrue rfl
  | [], _ :: _ => isFalse (by intro e; cases e)
  | _ :: _, [] => isFalse (by intro e; cases e)
  | x :: xs, y :: ys =>
    match Value.decEq x y with
    | isTrue h =>
      match Value.decEqList xs ys with
      | isTrue h2 => isTrue (by rw [h, h2])
      | isFalse h2 => isFalse (by intro e; cases e; exact h2 rfl)
    | isFalse h => isFalse (by intro e; cases e; exact h rfl)
end

instance : DecidableEq Value := Value.decEq

/-- Conversion `static_cast<int>` / 32-bit wrap-around of `int` arithmetic. -/
def wrap32 (x : Int) : Int := (x + 2147483648) % 4294967296 - 2147483648

/-- The enum `TokenId`. -/
inductive TokenId where
  | TK_ADD | TK_SUB | TK_MUL | TK_DIV
  | TK_LT | TK_LET | TK_GT | TK_GET | TK_EQ | TK_NEQ
  | TK_AND | TK_OR | TK_NOT | TK_QUESTION | TK_COLON
  | TK_STRING | TK_VARIABLE | TK_NUMBER
  | TK_LPAR | TK_RPAR | TK_COMMA | TK_DOLLAR
  | TK_LSQR | TK_RSQR | TK_LBRA | TK_RBRA | TK_TO
  | TK_EOF | TK_UNKNOWN
deriving DecidableEq, Repr, Inhabited

open TokenId

/-- The function `GetTokenName`. -/
def GetTokenName : TokenId → Str
  | TK_ADD => "+".toList
  | TK_SUB => "-".toList
  | TK_MUL => "*".toList
  | TK_DIV => "/".toList
  | TK_LT => "<".toList
  | TK_LET => "<=".toList
  | TK_GT => ">".toList
  | TK_GET => ">=".toList
  | TK_EQ => "==".toList
  | TK_NEQ => "!=".toList
  | TK_AND => "&&".toList
  | TK_OR => "||".toList
  | TK_NOT => "!".toList
  | TK_STRING => "<string>".toList
  | TK_VARIABLE => "<variable>".toList
  | TK_NUMBER => "<number>".toList
  | TK_LPAR => "(".toList
  | TK_RPAR => ")".toList
  | TK_LSQR => "[".toList
  | TK_RSQR => "]".toList
  | TK_LBRA => "\x7b".toList
  | TK_RBRA => "\x7d".toList
  | TK_TO => "..".toList
  | TK_COMMA => ",".toList
  | TK_QUESTION => "?".toList
  | TK_COLON => ":".toList
  | TK_DOLLAR => "$".toList
  | TK_EOF => "<eof>".toList
  | TK_UNKNOWN => "<unknown>".toList

/-- The struct `Lexme`: a token and its length in bytes. -/
structure Lexme where
  token : TokenId
  offset : Nat
deriving DecidableEq, Repr, Inhabited

/-- The default constructor `Lexme()`. -/
def Lexme.unknown : Lexme := ⟨TK_UNKNOWN, 0⟩

/-- The C library `isalpha` in the "C" locale. -/
def isalpha (ch : Char) : Bool :=
  (decide (97 ≤ ch.toNat) && decide (ch.toNat ≤ 122)) ||
  (decide (65 ≤ ch.toNat) && decide (ch.toNat ≤ 90))

/-- The C library `isdigit`. -/
def isdigit (ch : Char) : Bool := decide (48 ≤ ch.toNat) && decide (ch.toNat ≤ 57)

/-- The C library `isspace` in the "C" locale: space, `\t`, `\n`, `\v`, `\f`, `\r`. -/
def isspace (ch : Char) : Bool :=
  ch.toNat == 32 || (decide (9 ≤ ch.toNat) && decide (ch.toNat ≤ 13))

/-- The function `IsIdInitialChar`. -/
def IsIdInitialChar (ch : Char) : Bool := ch == '_' || isalpha ch

/-- The function `IsIdRestChar`. -/
def IsIdRestChar (ch : Char) : Bool := IsIdInitialChar ch || isdigit ch

/-- The class `Scanner` (its `source_` is passed separately: it never changes). -/
structure Scanner where
  lexme_ : Lexme
  position_ : Nat
  start_position_ : Nat
deriving DecidableEq, Repr, Inhabited

namespace Scanner

/-- The method `Scanner::NChar`: the byte at `pos`, or 0 past the end. -/
def NChar (source : Str) (pos : Nat) : Char := source.getD pos (Char.ofNat 0)

/-- The method `Scanner::SkipSpace`: the position after the run of `isspace` bytes. -/
def SkipSpace (source : Str) (position : Nat) : Nat :=
  position + ((source.drop position).takeWhile isspace).length

/-- The cases `case c: return Lexme(tk, 1);` of the `switch` of `Scanner::Peek`. -/
def single : List (Char × TokenId) :=
  [('+', TK_ADD), ('-', TK_SUB), ('*', TK_MUL), ('$', TK_DOLLAR), ('/', TK_DIV),
   ('?', TK_QUESTION), (':', TK_COLON), (',', TK_COMMA), ('(', TK_LPAR), (')', TK_RPAR),
   ('[', TK_LSQR), (']', TK_RSQR), ('\x7b', TK_LBRA), ('\x7d', TK_RBRA)]

/-- The cases `case c: if (NChar(position_+1) == d) return Lexme(tk, 2); else return l;`
of the `switch` of `Scanner::Peek`, as `(c, (d, tk, l))`. -/
def paired : List (Char × Char × TokenId × Lexme) :=
  [('>', '=', TK_GET, ⟨TK_GT, 1⟩), ('<', '=', TK_LET, ⟨TK_LT, 1⟩),
   ('=', '=', TK_EQ, Lexme.unknown), ('!', '=', TK_NEQ, ⟨TK_NOT, 1⟩),
   ('&', '&', TK_AND, Lexme.unknown), ('|', '|', TK_OR, Lexme.unknown),
   ('.', '.', TK_TO, Lexme.unknown)]

/-- The cases of the `switch` of `Scanner::Peek` that return a lexeme: `cha` is the byte
at the position and `next` the byte after it. -/
def PeekToken (cha next : Char) : Lexme :=
  if cha.toNat = 0 then ⟨TK_EOF, 0⟩
  else
    match single.lookup cha with
    | some tk => ⟨tk, 1⟩
    | none =>
      match paired.lookup cha with
      | some (d, tk, l) => if next = d then ⟨tk, 2⟩ else l
      | none =>
        if cha = '\"' then ⟨TK_STRING, 0⟩
        else if isdigit cha then ⟨TK_NUMBER, 0⟩
        else if IsIdInitialChar cha then ⟨TK_VARIABLE, 0⟩
        else Lexme.unknown

/-- One pass through the `switch` of `Scanner::Peek`; `none` is the whitespace case, which
skips the blanks and goes round again. -/
def PeekCase (cha next : Char) : Option Lexme :=
  if cha = '\r' ∨ cha = '\n' ∨ cha = '\t' ∨ cha = ' ' ∨ cha = '\x0b' then none
  else some (PeekToken cha next)

/-- The method `Scanner::Peek`: the lexeme at `position` and the position the call leaves
in the `mutable position_` (whitespace is skipped in place).  The loop of the source goes
round at most twice, `SkipSpace` stopping on a byte that is not a blank; the last branch
stands for a third round. -/
def Peek (source : Str) (position : Nat) : Lexme × Nat :=
  match PeekCase (NChar source position) (NChar source (position + 1)) with
  | some l => (l, position)
  | none =>
    let p := SkipSpace source position
    match PeekCase (NChar source p) (NChar source (p + 1)) with
    | some l => (l, p)
    | none => (Lexme.unknown, p)

/-- The method `Scanner::Next`. -/
def Next (source : Str) (s : Scanner) : Scanner :=
  { s with lexme_ := (Peek source s.position_).1, position_ := (Peek source s.position_).2 }

/-- The constructor `Scanner(source, pos)`. -/
def init (source : Str) (pos : Nat) : Scanner :=
  Next source { lexme_ := Lexme.unknown, position_ := pos, start_position_ := pos }

/-- The method `Scanner::Move()`: step over the current lexeme. -/
def Move (source : Str) (s : Scanner) : Scanner :=
  Next source { s with position_ := s.position_ + s.lexme_.offset }

/-- The method `Scanner::Move(offset)`. -/
def MoveBy (source : Str) (s : Scanner) (offset : Nat) : Scanner :=
  Next source { s with position_ := s.position_ + offset }

/-- The method `Scanner::Set`. -/
def Set (source : Str) (s : Scanner) (offset : Nat) : Scanner :=
  Next source { s with position_ := offset }

/-- The method `Scanner::GetLocation`: 1-based line and column of `position_`, counted
from `start_position_`. -/
def GetLocation (source : Str) (s : Scanner) : Nat × Nat :=
  (((source.drop s.start_position_).take (s.position_ - s.start_position_)).foldl
    (fun (lp : Nat × Nat) (c : Char) => if c = '\n' then (lp.1 + 1, 1) else (lp.1, lp.2 + 1))
    (1, 1))

end Scanner

/-- What a host call did: `ok v` is `return true` with the result stored, `fail error` is
`return false`, `abort` is a host that does not return (a failed `assert` in it). -/
inductive HostResult where
  | ok (v : Value)
  | fail (error : Str)
  | abort
deriving Repr, Inhabited

/-- The abstract class `Context` (tsub.h): the host, here without state of its own. -/
structure Context where
  GetVariable : Str → HostResult
  ExecFunction : Str → List Value → HostResult

/-- The class `TestContext` of the tests of `tsub.cc`: `GetVariable` asserts that the name
is `abcd` and gives 5; `ExecFunction` asserts that the name is `func` and gives
`par[0].GetNumber() + 1`, where `GetNumber` asserts that `par[0]` is a number. -/
def TestContext : Context where
  GetVariable := fun var =>
    if var = "abcd".toList then HostResult.ok (VALUE_NUMBER 5) else HostResult.abort
  ExecFunction := fun func_name par =>
    if func_name = "func".toList then
      match par with
      | VALUE_NUMBER n :: _ => HostResult.ok (VALUE_NUMBER (wrap32 (n + 1)))
      | _ => HostResult.abort
    else HostResult.abort

/-- The pointer `dollar_value_`. -/
inductive Dollar where
  | null
  | elem (owner : Nat) (v : Value)
  | obj (depth : Nat)
  | spare (owner : Nat)
  | dead
deriving DecidableEq, Repr, Inhabited

/-- The function that works on the object at depth `d` returns, or a callee of it has
returned: the objects deeper than `d` in the stack of live `Value` locals are gone with
their storage, and a pointer to one of them dangles.  The local `to` of a list literal
goes with the call of `InterpList` on the object at depth `d`. -/
def Dollar.kill (d : Nat) : Dollar → Dollar
  | Dollar.obj j => if d < j then Dollar.dead else Dollar.obj j
  | Dollar.elem j v => if d < j then Dollar.dead else Dollar.elem j v
  | Dollar.spare j => if d ≤ j then Dollar.dead else Dollar.spare j
  | x => x

/-- The end of an iteration of the `do` loop of `InterpList` on the object at depth `d`.
The locals `val` (depth `d + 1`) and `to` (depth `d + 2`) are destroyed and the next
iteration constructs them again in the same storage: a pointer to `val` stays what it is,
a pointer to `to` becomes `spare d`, a pointer to anything deeper dangles. -/
def Dollar.rest (d : Nat) : Dollar → Dollar
  | Dollar.obj j =>
    if j = d + 2 then Dollar.spare d else if d + 2 < j then Dollar.dead else Dollar.obj j
  | Dollar.elem j v => if d < j then Dollar.dead else Dollar.elem j v
  | Dollar.spare j => if d < j then Dollar.dead else Dollar.spare j
  | x => x

/-- The local `to` of the list literal on the object at depth `d` becomes the output object
of `InterpExp`, at depth `d + 2`: a pointer to it is a pointer to that object. -/
def Dollar.wake (d : Nat) : Dollar → Dollar
  | Dollar.spare j => if j = d then Dollar.obj (d + 2) else Dollar.spare j
  | x => x

/-- The list held by the object at depth `d` is deleted (`output->SetList(new_list)`) and
the objects deeper than `d` are destroyed. -/
def Dollar.killList (d : Nat) : Dollar → Dollar
  | Dollar.elem j v => if d ≤ j then Dollar.dead else Dollar.elem j v
  | x => Dollar.kill d x

/-- Why an execution did not return. -/
inductive Crash where
  | fuel
  | assertion
  | undefined
  | exception
  | trap
deriving DecidableEq, Repr, Inhabited

/-- The mutable members of class `Interp`; `source_` and `context_` never change and are
passed separately, `error_` is the content of the string `*error_`. -/
structure Interp where
  scanner_ : Scanner
  dollar_value_ : Dollar
  error_ : Str
deriving DecidableEq, Repr, Inhabited

/-- The outcome of a `bool f(Value* output)` member of `Interp`. -/
inductive Result where
  | ret (output : Option Value) (self : Interp)
  | crash (c : Crash)
deriving DecidableEq, Repr, Inhabited

/-- The type of `InterpExp` once the budget is fixed: stack of live objects, state. -/
abbrev Eval := List Value → Interp → Result

/-- The C library `strtol(s, &pend, 10)` with `long` 64 bits wide: the value (`none` when
`errno` is set to `ERANGE`) and the number of bytes up to `pend`. -/
def strtol (s : Str) : Option Int × Nat :=
  let ws := (s.takeWhile isspace).length
  let s1 := s.drop ws
  let neg := s1.head? = some '-'
  let sl := if s1.head? = some '-' ∨ s1.head? = some '+' then 1 else 0
  let ds := (s1.drop sl).takeWhile isdigit
  if ds = [] then (some 0, 0)
  else
    let n : Int := ds.foldl (fun (a : Int) (c : Char) => a * 10 + ((c.toNat : Int) - 48)) 0
    let v : Int := if neg then -n else n
    if v < -9223372036854775808 ∨ 9223372036854775807 < v then (none, ws + sl + ds.length)
    else (some v, ws + sl + ds.length)

/-- The output of `sprintf(buf, "%d", num)`, also of `stream << int`. -/
def sprintf_d (num : Int) : Str :=
  if num < 0 then '-' :: Nat.toDigits 10 num.natAbs else Nat.toDigits 10 num.toNat

/-- The comparison `operator<` of `std::string`: lexicographic, bytes compared as
`unsigned char`. -/
def Str.lt : Str → Str → Bool
  | [], [] => false
  | [], _ :: _ => true
  | _ :: _, [] => false
  | a :: as, b :: bs =>
    if a.toNat < b.toNat then true else if b.toNat < a.toNat then false else Str.lt as bs

namespace Interp

/-- The token of the current lexeme, `scanner_.lexme().token`. -/
def token (I : Interp) : TokenId := I.scanner_.lexme_.token

/-- The call `scanner_.Move()`. -/
def Move (source : Str) (I : Interp) : Interp :=
  { I with scanner_ := I.scanner_.Move source }

/-- The call `scanner_.Set(offset)`. -/
def Set (source : Str) (I : Interp) (offset : Nat) : Interp :=
  { I with scanner_ := I.scanner_.Set source offset }

/-- The objects deeper than `d` go out of scope. -/
def kill (d : Nat) (I : Interp) : Interp :=
  { I with dollar_value_ := I.dollar_value_.kill d }

/-- The end of an iteration of the loop of the list literal on the object at depth `d`. -/
def rest (d : Nat) (I : Interp) : Interp :=
  { I with dollar_value_ := I.dollar_value_.rest d }

/-- The local `to` of the list literal on the object at depth `d` comes under evaluation. -/
def wake (d : Nat) (I : Interp) : Interp :=
  { I with dollar_value_ := I.dollar_value_.wake d }

/-- The constructor `Interp(source, pos, context, error)`. -/
def init (source : Str) (pos : Nat) (error : Str) : Interp :=
  { scanner_ := Scanner.init source pos, dollar_value_ := Dollar.null, error_ := error }

/-- The method `Interp::ReportError`, `msg` being the formatted message. -/
def ReportError (source : Str) (I : Interp) (msg : Str) : Interp :=
  { I with error_ :=
      "[Module:Interp,Location:(".toList ++ sprintf_d (I.scanner_.GetLocation source).1 ++
      ",".toList ++ sprintf_d (I.scanner_.GetLocation source).2 ++ ")]:\n".toList ++
      msg ++ "\n".toList }

/-- The bytes that `%s` prints of `s.c_str()`: those before the first zero byte. -/
def c_str (s : Str) : Str := s.takeWhile (fun c => c ≠ Char.ofNat 0)

/-- A call `ReportError(format, ...)` with a `%s` argument of any length, followed by
`return false`; `msg` is the formatted message.  `vsprintf` writes the message and its
terminator into `char msg[1024]`: a message of 1024 bytes or more runs over the end of the
buffer. -/
def ReportFormatted (source : Str) (I : Interp) (msg : Str) : Result :=
  if 1024 ≤ msg.length then Result.crash Crash.undefined
  else Result.ret none (ReportError source I msg)

/-- The method `Interp::IsEscapeChar`. -/
def IsEscapeChar (cha : Char) : Bool :=
  cha = 'n' ∨ cha = 't' ∨ cha = 'r' ∨ cha = 'b' ∨ cha = '\"' ∨ cha = '\\'

/-- The method `Interp::ToBool`. -/
def ToBool : Value → Bool
  | VALUE_STRING _ => true
  | VALUE_LIST _ => true
  | VALUE_NUMBER n => n ≠ 0
  | VALUE_NULL => false

/-- The method `Interp::ParseNumber`. -/
def ParseNumber (source : Str) (I : Interp) : Result :=
  match strtol (source.drop I.scanner_.position_) with
  | (none, _) => Result.ret none I
  | (some val, n) =>
    Result.ret (some (VALUE_NUMBER (wrap32 val)))
      { I with scanner_ := I.scanner_.MoveBy source n }

/-- The method `Interp::ParseVariable`: the identifier and the state after it. -/
def ParseVariable (source : Str) (I : Interp) : Str × Interp :=
  let i := I.scanner_.position_ + 1 +
    ((source.drop (I.scanner_.position_ + 1)).takeWhile IsIdRestChar).length
  ((source.drop I.scanner_.position_).take (i - I.scanner_.position_), I.Set source i)

/-- The `for` loop of `Interp::ParseString` over the bytes from offset `i` on: the
decoded buffer and the offset of the closing quote, or `none` when the end is reached. -/
def ParseString.scan : Str → Nat → Str → Option (Str × Nat)
  | [], _, _ => none
  | [c], i, buffer => if c = '\"' then some (buffer, i) else none
  | c :: d :: rest, i, buffer =>
    if c = '\\' ∧ IsEscapeChar d then ParseString.scan rest (i + 2) (buffer ++ [d])
    else if c = '\"' then some (buffer, i)
    else ParseString.scan (d :: rest) (i + 1) (buffer ++ [c])

/-- The method `Interp::ParseString`. -/
def ParseString (source : Str) (I : Interp) : Result :=
  match ParseString.scan (source.drop (I.scanner_.position_ + 1)) (I.scanner_.position_ + 1) [] with
  | none => Result.ret none I
  | some (buffer, i) => Result.ret (some (VALUE_STRING buffer)) (I.Set source (i + 1))

/-- The method `Interp::InterpListRange`; `env` is the stack below the local `to`, which
lies two objects above the object of the list literal. -/
def InterpListRange (source : Str) (exp : Eval) (env : List Value) (I : Interp) : Result :=
  if I.token ≠ TK_TO then Result.ret none I
  else exp env ((I.Move source).wake (env.length - 2))

/-- What one item of a list literal did: `add vs I` adds the values `vs` to the list `vl`,
`fail I` is a `return false` of `InterpList`, `crash` an execution that does not return. -/
inductive ItemResult where
  | add (vs : List Value) (self : Interp)
  | fail (self : Interp)
  | crash (c : Crash)
deriving DecidableEq, Repr, Inhabited

/-- One item of the list literal (the body of the `do` loop of `Interp::InterpList` up to
the test for `,` or `]`).  The locals `val` and `to` lie on top of the output object, which
still holds its initial null; when the item is added, the state is the one at the end of
the iteration (`rest`); a `return false` leaves the function. -/
def InterpList.item (source : Str) (exp : Eval) (env : List Value) (I : Interp) : ItemResult :=
  match exp (env ++ [VALUE_NULL]) I with
  | Result.crash c => ItemResult.crash c
  | Result.ret none I1 => ItemResult.fail (I1.kill env.length)
  | Result.ret (some val) I1 =>
    match InterpListRange source exp (env ++ [VALUE_NULL, val]) I1 with
    | Result.crash c => ItemResult.crash c
    | Result.ret none I2 => ItemResult.add [val] (I2.rest env.length)
    | Result.ret (some to_) I2 =>
      match val, to_ with
      | VALUE_NUMBER fr, VALUE_NUMBER en =>
        if fr ≥ en then
          ItemResult.fail (ReportError source (I2.kill env.length)
            "\"..\" operator must have a strictly less than relation for its left and right operands".toList)
        else
          ItemResult.add ((List.range (en - fr).toNat).map
            (fun (k : Nat) => VALUE_NUMBER (fr + (k : Int)))) (I2.rest env.length)
      | _, _ =>
        ItemResult.fail (ReportError source (I2.kill env.length)
          "\"..\" operator can have operand number".toList)

/-- The `do ... while(true)` loop of `Interp::InterpList`, `vl` being the list so far.  On
`,` the next iteration follows; on `]` and on any other token the function returns and its
locals are gone. -/
def InterpList.loop (source : Str) (exp : Eval) :
    Nat → List Value → List Value → Interp → Result
  | 0, _, _, _ => Result.crash Crash.fuel
  | n + 1, env, vl, I =>
    match InterpList.item source exp env I with
    | ItemResult.crash c => Result.crash c
    | ItemResult.fail I1 => Result.ret none I1
    | ItemResult.add added I1 =>
      if I1.token = TK_COMMA then InterpList.loop source exp n env (vl ++ added) (I1.Move source)
      else if I1.token = TK_RSQR then
        Result.ret (some (VALUE_LIST (vl ++ added))) ((I1.kill env.length).Move source)
      else
        Result.ret none (ReportError source (I1.kill env.length)
          ("list literal has unexpected token:".toList ++ GetTokenName I1.token))

/-- The method `Interp::InterpList`. -/
def InterpList (source : Str) (exp : Eval) (fuel : Nat) (env : List Value) (I : Interp) :
    Result :=
  if (I.Move source).token = TK_RSQR then
    Result.ret none (ReportError source (I.Move source) "List should not be empty!".toList)
  else InterpList.loop source exp fuel env [] (I.Move source)

/-- The end of `Interp::InterpFunc`: the call of the host with the parameters `par`. -/
def InterpFunc.call (source : Str) (context : Option Context) (func_name : Str)
    (par : List Value) (I : Interp) : Result :=
  match context with
  | none =>
    ReportFormatted source I
      ("Function:".toList ++ c_str func_name ++ " doesn't have context to be executed".toList)
  | some c =>
    match c.ExecFunction func_name par with
    | HostResult.ok v => Result.ret (some v) I
    | HostResult.fail error =>
      ReportFormatted source I
        ("Function:".toList ++ c_str func_name ++ " cannot be executed with error:".toList ++
          c_str error)
    | HostResult.abort => Result.crash Crash.assertion

/-- The `do ... while(true)` loop of `Interp::InterpFunc`; the local `val` lies on top of
the output object.  On `,` the next iteration constructs `val` again in the same storage;
otherwise the loop is left and `val` is gone. -/
def InterpFunc.loop (source : Str) (context : Option Context) (exp : Eval) (func_name : Str) :
    Nat → List Value → List Value → Interp → Result
  | 0, _, _, _ => Result.crash Crash.fuel
  | n + 1, env, par, I =>
    match exp (env ++ [VALUE_NULL]) I with
    | Result.crash c => Result.crash c
    | Result.ret none I1 => Result.ret none (I1.kill env.length)
    | Result.ret (some val) I1 =>
      if (I1.kill env.length).token = TK_COMMA then
        InterpFunc.loop source context exp func_name n env (par ++ [val])
          ((I1.kill (env.length + 1)).Move source)
      else if (I1.kill env.length).token = TK_RPAR then
        InterpFunc.call source context func_name (par ++ [val])
          ((I1.kill env.length).Move source)
      else
        Result.ret none (ReportError source (I1.kill env.length)
          ("Unexpected token:".toList ++ GetTokenName (I1.kill env.length).token))

/-- The method `Interp::InterpFunc`. -/
def InterpFunc (source : Str) (context : Option Context) (exp : Eval) (fuel : Nat)
    (env : List Value) (func_name : Str) (I : Interp) : Result :=
  InterpFunc.loop source context exp func_name fuel env [] (I.Move source)

/-- The method `Interp::InterpPF`. -/
def InterpPF (source : Str) (context : Option Context) (exp : Eval) (fuel : Nat)
    (env : List Value) (I : Interp) : Result :=
  if (ParseVariable source I).2.token = TK_LPAR then
    InterpFunc source context exp fuel env (ParseVariable source I).1 (ParseVariable source I).2
  else
    match context with
    | none =>
      ReportFormatted source (ParseVariable source I).2
        ("Variable:".toList ++ c_str (ParseVariable source I).1 ++
          " doesn't have context to look up".toList)
    | some c =>
      match c.GetVariable (ParseVariable source I).1 with
      | HostResult.ok v => Result.ret (some v) (ParseVariable source I).2
      | HostResult.fail _ =>
        ReportFormatted source (ParseVariable source I).2
          ("Variable:".toList ++ c_str (ParseVariable source I).1 ++ " is not existed".toList)
      | HostResult.abort => Result.crash Crash.assertion

/-- The method `Interp::InterpAtomic`.  For `$` the pointer is read: a pointer to an
object below the current one reads that object in `env`; a pointer to the output object
itself makes `*output = *dollar_value_` a self-assignment, which leaves the initial null;
a pointer to the local `to` of a list literal, outside the evaluation of the end of a
range, reads its initial null. -/
def InterpAtomic (source : Str) (context : Option Context) (exp : Eval) (fuel : Nat)
    (env : List Value) (I : Interp) : Result :=
  match I.token with
  | TK_LSQR => InterpList source exp fuel env I
  | TK_DOLLAR =>
    match I.dollar_value_ with
    | Dollar.null => Result.ret none (ReportError source I "Dollar value is not set!".toList)
    | Dollar.elem _ v => Result.ret (some v) (I.Move source)
    | Dollar.obj j =>
      match env.get? j with
      | some v => Result.ret (some v) (I.Move source)
      | none => Result.ret (some VALUE_NULL) (I.Move source)
    | Dollar.spare _ => Result.ret (some VALUE_NULL) (I.Move source)
    | Dollar.dead => Result.crash Crash.undefined
  | TK_VARIABLE => InterpPF source context exp fuel env I
  | TK_NUMBER => ParseNumber source I
  | TK_STRING => ParseString source I
  | TK_LPAR =>
    match exp env (I.Move source) with
    | Result.crash c => Result.crash c
    | Result.ret none I1 => Result.ret none I1
    | Result.ret (some v) I1 =>
      if I1.token ≠ TK_RPAR then Result.ret none (ReportError source I1 "Expect ')'".toList)
      else Result.ret (some v) (I1.Move source)
  | tk => Result.ret none (ReportError source I ("Unexpected token:".toList ++ GetTokenName tk))

/-- The method `Interp::InterpUnary`. -/
def InterpUnary (source : Str) (context : Option Context) (exp : Eval) (fuel : Nat)
    (env : List Value) (I : Interp) : Result :=
  match I.token with
  | TK_ADD =>
    match InterpAtomic source context exp fuel env (I.Move source) with
    | Result.crash c => Result.crash c
    | Result.ret none I1 => Result.ret none I1
    | Result.ret (some output) I1 =>
      match output with
      | VALUE_NUMBER n => Result.ret (some (VALUE_NUMBER n)) I1
      | _ => Result.ret none (ReportError source I1 "Cannot prefix +/- for string".toList)
  | TK_SUB =>
    match InterpAtomic source context exp fuel env (I.Move source) with
    | Result.crash c => Result.crash c
    | Result.ret none I1 => Result.ret none I1
    | Result.ret (some output) I1 =>
      match output with
      | VALUE_NUMBER n => Result.ret (some (VALUE_NUMBER (wrap32 (-n)))) I1
      | _ => Result.ret none (ReportError source I1 "Cannot prefix +/- for string".toList)
  | TK_NOT =>
    match InterpAtomic source context exp fuel env (I.Move source) with
    | Result.crash c => Result.crash c
    | Result.ret none I1 => Result.ret none I1
    | Result.ret (some output) I1 =>
      match output with
      | VALUE_NUMBER n => Result.ret (some (VALUE_NUMBER (if n = 0 then 1 else 0))) I1
      | VALUE_STRING _ => Result.ret (some (VALUE_NUMBER 0)) I1
      | VALUE_NULL => Result.ret (some (VALUE_NUMBER 1)) I1
      | VALUE_LIST _ => Result.ret (some (VALUE_NUMBER 1)) I1
  | _ => Result.crash Crash.assertion

/-- The method `Interp::InterpFactor`. -/
def InterpFactor (source : Str) (context : Option Context) (exp : Eval) (fuel : Nat)
    (env : List Value) (I : Interp) : Result :=
  if I.token = TK_ADD ∨ I.token = TK_SUB ∨ I.token = TK_NOT then
    InterpUnary source context exp fuel env I
  else InterpAtomic source context exp fuel env I

/-- The `do ... while(true)` loop of `Interp::InterpTerm`; `output` is the left operand so
far, the local `rhs` lies on top of it: the next iteration constructs it again in the same
storage, and it is gone when the function returns.  The division guards the divisor 0
only: `INT_MIN / -1` traps. -/
def InterpTerm.loop (source : Str) (factor : Eval) :
    Nat → List Value → Value → Interp → Result
  | 0, _, _, _ => Result.crash Crash.fuel
  | n + 1, env, output, I =>
    if I.token = TK_MUL ∨ I.token = TK_DIV then
      match factor (env ++ [output]) (I.Move source) with
      | Result.crash c => Result.crash c
      | Result.ret none I1 => Result.ret none (I1.kill env.length)
      | Result.ret (some rhs) I1 =>
        match output, rhs with
        | VALUE_NUMBER a, VALUE_NUMBER b =>
          if I.token = TK_MUL then
            InterpTerm.loop source factor n env (VALUE_NUMBER (wrap32 (a * b)))
              (I1.kill (env.length + 1))
          else if b = 0 then
            Result.ret none (ReportError source (I1.kill env.length) "Divide zero!".toList)
          else if a = -2147483648 ∧ b = -1 then Result.crash Crash.trap
          else
            InterpTerm.loop source factor n env (VALUE_NUMBER (wrap32 (Int.tdiv a b)))
              (I1.kill (env.length + 1))
        | _, _ =>
          Result.ret none (ReportError source (I1.kill env.length)
            "* / can only be used with operand number".toList)
    else Result.ret (some output) (I.kill env.length)

/-- The method `Interp::InterpTerm`. -/
def InterpTerm (source : Str) (context : Option Context) (exp : Eval) (fuel : Nat)
    (env : List Value) (I : Interp) : Result :=
  match InterpFactor source context exp fuel env I with
  | Result.crash c => Result.crash c
  | Result.ret none I1 => Result.ret none I1
  | Result.ret (some output) I1 =>
    InterpTerm.loop source (InterpFactor source context exp fuel) fuel env output I1

/-- The `do ... while(true)` loop of `Interp::InterpComp`; the local `rhs` as in
`InterpTerm`. -/
def InterpComp.loop (source : Str) (term : Eval) :
    Nat → List Value → Value → Interp → Result
  | 0, _, _, _ => Result.crash Crash.fuel
  | n + 1, env, output, I =>
    if I.token = TK_ADD ∨ I.token = TK_SUB then
      match term (env ++ [output]) (I.Move source) with
      | Result.crash c => Result.crash c
      | Result.ret none I1 => Result.ret none (I1.kill env.length)
      | Result.ret (some rhs) I1 =>
        match output, rhs with
        | VALUE_NUMBER a, VALUE_NUMBER b =>
          if I.token = TK_ADD then
            InterpComp.loop source term n env (VALUE_NUMBER (wrap32 (a + b)))
              (I1.kill (env.length + 1))
          else
            InterpComp.loop source term n env (VALUE_NUMBER (wrap32 (a - b)))
              (I1.kill (env.length + 1))
        | _, _ =>
          Result.ret none (ReportError source (I1.kill env.length)
            "+ - can only work with number operand".toList)
    else Result.ret (some output) (I.kill env.length)

/-- The method `Interp::InterpComp`. -/
def InterpComp (source : Str) (context : Option Context) (exp : Eval) (fuel : Nat)
    (env : List Value) (I : Interp) : Result :=
  match InterpTerm source context exp fuel env I with
  | Result.crash c => Result.crash c
  | Result.ret none I1 => Result.ret none I1
  | Result.ret (some output) I1 =>
    InterpComp.loop source (InterpTerm source context exp fuel) fuel env output I1

/-- The macro `_DO(tk, Number)` of `InterpLogic`: the comparison of two `int`s. -/
def compareNumber (op : TokenId) (a b : Int) : Option Int :=
  match op with
  | TK_LT => some (if a < b then 1 else 0)
  | TK_LET => some (if a ≤ b then 1 else 0)
  | TK_GT => some (if a > b then 1 else 0)
  | TK_GET => some (if a ≥ b then 1 else 0)
  | TK_EQ => some (if a = b then 1 else 0)
  | TK_NEQ => some (if a ≠ b then 1 else 0)
  | _ => none

/-- The macro `_DO(tk, String)` of `InterpLogic`: the comparison of two `std::string`s. -/
def compareString (op : TokenId) (a b : Str) : Option Int :=
  match op with
  | TK_LT => some (if Str.lt a b then 1 else 0)
  | TK_LET => some (if Str.lt b a then 0 else 1)
  | TK_GT => some (if Str.lt b a then 1 else 0)
  | TK_GET => some (if Str.lt a b then 0 else 1)
  | TK_EQ => some (if a = b then 1 else 0)
  | TK_NEQ => some (if a ≠ b then 1 else 0)
  | _ => none

/-- Whether the token is one of the six relational operators. -/
def isRelational (tk : TokenId) : Bool :=
  tk = TK_LT ∨ tk = TK_LET ∨ tk = TK_GT ∨ tk = TK_GET ∨ tk = TK_EQ ∨ tk = TK_NEQ

/-- The `do ... while(true)` loop of `Interp::InterpLogic`; the local `rhs` as in
`InterpTerm`. -/
def InterpLogic.loop (source : Str) (comp : Eval) :
    Nat → List Value → Value → Interp → Result
  | 0, _, _, _ => Result.crash Crash.fuel
  | n + 1, env, output, I =>
    if isRelational I.token then
      match comp (env ++ [output]) (I.Move source) with
      | Result.crash c => Result.crash c
      | Result.ret none I1 => Result.ret none (I1.kill env.length)
      | Result.ret (some rhs) I1 =>
        match rhs with
        | VALUE_STRING b =>
          match output with
          | VALUE_STRING a =>
            match compareString I.token a b with
            | some r =>
              InterpLogic.loop source comp n env (VALUE_NUMBER r) (I1.kill (env.length + 1))
            | none => Result.crash Crash.assertion
          | _ =>
            Result.ret none (ReportError source (I1.kill env.length)
              "String can only compared to string".toList)
        | VALUE_NUMBER b =>
          match output with
          | VALUE_NUMBER a =>
            match compareNumber I.token a b with
            | some r =>
              InterpLogic.loop source comp n env (VALUE_NUMBER r) (I1.kill (env.length + 1))
            | none => Result.crash Crash.assertion
          | _ =>
            Result.ret none (ReportError source (I1.kill env.length)
              "Number can only compared to number".toList)
        | _ =>
          Result.ret none (ReportError source (I1.kill env.length)
            "Only string/number can do comparison!".toList)
    else Result.ret (some output) (I.kill env.length)

/-- The method `Interp::InterpLogic`. -/
def InterpLogic (source : Str) (context : Option Context) (exp : Eval) (fuel : Nat)
    (env : List Value) (I : Interp) : Result :=
  match InterpComp source context exp fuel env I with
  | Result.crash c => Result.crash c
  | Result.ret none I1 => Result.ret none I1
  | Result.ret (some output) I1 =>
    InterpLogic.loop source (InterpComp source context exp fuel) fuel env output I1

/-- The value of `output && rhs` in `InterpTenery`. -/
def logicAnd (output rhs : Value) : Int :=
  if output = VALUE_NUMBER 0 then 0 else if rhs = VALUE_NUMBER 0 then 0 else 1

/-- The value of `output || rhs` in `InterpTenery`: 1 only for a number other than 0 on
either side. -/
def logicOr (output rhs : Value) : Int :=
  match output with
  | VALUE_NUMBER a =>
    if a ≠ 0 then 1
    else match rhs with
      | VALUE_NUMBER b => if b ≠ 0 then 1 else 0
      | _ => 0
  | _ =>
    match rhs with
    | VALUE_NUMBER b => if b ≠ 0 then 1 else 0
    | _ => 0

/-- The `do ... while(true)` loop of `Interp::InterpTenery` (the level of `&&` and `||`);
the local `rhs` as in `InterpTerm`. -/
def InterpTenery.loop (source : Str) (logic : Eval) :
    Nat → List Value → Value → Interp → Result
  | 0, _, _, _ => Result.crash Crash.fuel
  | n + 1, env, output, I =>
    if I.token = TK_AND ∨ I.token = TK_OR then
      match logic (env ++ [output]) (I.Move source) with
      | Result.crash c => Result.crash c
      | Result.ret none I1 => Result.ret none (I1.kill env.length)
      | Result.ret (some rhs) I1 =>
        if output = VALUE_NULL ∨ rhs = VALUE_NULL then Result.crash Crash.assertion
        else if I.token = TK_AND then
          InterpTenery.loop source logic n env (VALUE_NUMBER (logicAnd output rhs))
            (I1.kill (env.length + 1))
        else
          InterpTenery.loop source logic n env (VALUE_NUMBER (logicOr output rhs))
            (I1.kill (env.length + 1))
    else Result.ret (some output) (I.kill env.length)

/-- The method `Interp::InterpTenery`. -/
def InterpTenery (source : Str) (context : Option Context) (exp : Eval) (fuel : Nat)
    (env : List Value) (I : Interp) : Result :=
  match InterpLogic source context exp fuel env I with
  | Result.crash c => Result.crash c
  | Result.ret none I1 => Result.ret none I1
  | Result.ret (some output) I1 =>
    InterpTenery.loop source (InterpLogic source context exp fuel) fuel env output I1

/-- The method `Interp::InterpPostExp`; the locals `l` and `r` lie on top of the output
object, which holds the condition. -/
def InterpPostExp (source : Str) (context : Option Context) (exp : Eval) (fuel : Nat)
    (env : List Value) (I : Interp) : Result :=
  match InterpTenery source context exp fuel env I with
  | Result.crash c => Result.crash c
  | Result.ret none I1 => Result.ret none I1
  | Result.ret (some output) I1 =>
    if I1.token = TK_QUESTION then
      match exp (env ++ [output]) (I1.Move source) with
      | Result.crash c => Result.crash c
      | Result.ret none I2 => Result.ret none (I2.kill env.length)
      | Result.ret (some l) I2 =>
        if I2.token ≠ TK_COLON then
          Result.ret none (ReportError source (I2.kill env.length)
            "Tenery expression requires \":\"".toList)
        else
          match exp (env ++ [output, l]) (I2.Move source) with
          | Result.crash c => Result.crash c
          | Result.ret none I3 => Result.ret none (I3.kill env.length)
          | Result.ret (some r) I3 =>
            Result.ret (some (if ToBool output then l else r)) (I3.kill env.length)
    else Result.ret (some output) I1

/-- The `for` loop of `Interp::InterpExp` over the elements of the mapped list: `body` is
`InterpExp` on the local `new_val`, `pos` the offset of the body, `end_` the offset recorded
by the first iteration (`none` while `check_end` is true), `new_list` the results so far.
After the loop the scanner is set to `end_` (not initialised when the list is empty) and
the mapped list is deleted. -/
def InterpExp.each (source : Str) (body : Interp → Result) (d : Nat) (pos : Nat) :
    List Value → Option Nat → List Value → Interp → Result
  | [], none, _, _ => Result.crash Crash.undefined
  | [], some e, new_list, I =>
    Result.ret (some (VALUE_LIST new_list))
      { (I.Set source e) with dollar_value_ := I.dollar_value_.killList d }
  | x :: xs, end_, new_list, I =>
    match body { I with dollar_value_ := Dollar.elem d x } with
    | Result.crash c => Result.crash c
    | Result.ret none I1 => Result.ret none (I1.kill d)
    | Result.ret (some new_val) I1 =>
      match end_ with
      | none =>
        if I1.token ≠ TK_RBRA then
          Result.ret none (ReportError source (I1.kill d)
            "Post expression needs \x7d to close the body".toList)
        else
          InterpExp.each source body d pos xs (some (I1.Move source).scanner_.position_)
            (new_list ++ [new_val]) ((I1.Move source).Set source pos)
      | some e =>
        InterpExp.each source body d pos xs (some e) (new_list ++ [new_val])
          (I1.Set source pos)

/-- The method `Interp::InterpExp`. -/
def InterpExp (source : Str) (context : Option Context) : Nat → Eval
  | 0, _, _ => Result.crash Crash.fuel
  | fuel + 1, env, I =>
    match InterpPostExp source context (InterpExp source context fuel) fuel env I with
    | Result.crash c => Result.crash c
    | Result.ret none I1 => Result.ret none I1
    | Result.ret (some output) I1 =>
      if I1.token = TK_LBRA then
        match output with
        | VALUE_LIST l =>
          InterpExp.each source (InterpExp source context fuel (env ++ [output])) env.length
            (I1.Move source).scanner_.position_ l none [] (I1.Move source)
        | _ =>
          match InterpExp source context fuel (env ++ [output])
              { (I1.Move source) with dollar_value_ := Dollar.obj env.length } with
          | Result.crash c => Result.crash c
          | Result.ret none I2 => Result.ret none (I2.kill env.length)
          | Result.ret (some new_val) I2 =>
            if I2.token ≠ TK_RBRA then
              Result.ret none (ReportError source (I2.kill env.length)
                "Post expression needs \x7d to close the body".toList)
            else Result.ret (some new_val) ((I2.kill env.length).Move source)
      else Result.ret (some output) I1

/-- The method `Interp::DoInterp` of an interpreter constructed at `pos`: the value and
`*cur_pos`, which is the position of the scanner in the state returned. -/
def DoInterp (source : Str) (context : Option Context) (fuel : Nat) (pos : Nat)
    (error : Str) : Result :=
  InterpExp source context fuel [] (Interp.init source pos error)

end Interp

/-- The members of class `TextProcessor` that change: a reference `const std::string*`
into the pool is the rank of the string in the order of insertion. -/
structure TextProcessor where
  result_set_ : List (List Nat)
  str_pool_ : List Str
  error_desp_ : Str
  position_ : Nat
deriving DecidableEq, Repr, Inhabited

/-- What `Run` did: `ok output error` is `return true` with `*output` and the content of
`*error_desp` it leaves, `fail error` is `return false`. -/
inductive RunResult where
  | ok (output : List Str) (error : Str)
  | fail (error : Str)
  | crash (c : Crash)
deriving DecidableEq, Repr, Inhabited

namespace TextProcessor

/-- The call `str_pool_.find(str)`: the reference to the string of the pool that is equal
to `str`, if there is one. -/
def find : List Str → Str → Option Nat
  | [], _ => none
  | x :: xs, str => if x = str then some 0 else (find xs str).map (fun i => i + 1)

/-- The method `TextProcessor::GetString`: the reference and the pool after the call. -/
def GetString (pool : List Str) (str : Str) : Nat × List Str :=
  match find pool str with
  | some i => (i, pool)
  | none => (pool.length, pool ++ [str])

/-- The string a reference points to. -/
def deref (pool : List Str) (ref : Nat) : Str := pool.getD ref []

/-- The method `TextProcessor::IsEscapeChar`. -/
def IsEscapeChar (cha : Char) : Bool := cha = '\\' ∨ cha = '\x60'

/-- The method `TextProcessor::ReportError`, `msg` being the formatted message. -/
def ReportError (T : TextProcessor) (msg : Str) : TextProcessor :=
  { T with error_desp_ := "[Module:TextProcessor]:".toList ++ msg }

/-- The method `TextProcessor::NumberToString`. -/
def NumberToString (pool : List Str) (num : Int) : Nat × List Str :=
  GetString pool (sprintf_d num)

mutual
/-- The method `TextProcessor::ValueToStringList`: the references pushed on `output` and
the pool after the call; `none` is the `UNREACHABLE` default, reached by a null value. -/
def ValueToStringList (pool : List Str) : Value → List Nat → Option (List Nat × List Str)
  | VALUE_STRING s, output => some (output ++ [(GetString pool s).1], (GetString pool s).2)
  | VALUE_NUMBER n, output =>
    some (output ++ [(NumberToString pool n).1], (NumberToString pool n).2)
  | VALUE_LIST vl, output => ValueToStringList.each pool vl output
  | VALUE_NULL, _ => none
/-- The `for` loop of `ValueToStringList` over the elements of a list. -/
def ValueToStringList.each (pool : List Str) : List Value → List Nat → Option (List Nat × List Str)
  | [], output => some (output, pool)
  | v :: vs, output =>
    match ValueToStringList pool v output with
    | none => none
    | some (output1, pool1) => ValueToStringList.each pool1 vs output1
end

/-- The method `TextProcessor::Expand`. -/
def Expand (result_set : List (List Nat)) (str : Nat) : List (List Nat) :=
  if result_set = [] then [[str]] else result_set.map (fun rep => rep ++ [str])

/-- The method `TextProcessor::Concatenate`. -/
def Concatenate (result_set : List (List Nat)) (slist : List Nat) : List (List Nat) :=
  if result_set = [] then slist.map (fun s => [s])
  else (slist.map (fun s => result_set.map (fun rep => rep ++ [s]))).flatten

/-- The method `TextProcessor::JoinString`. -/
def JoinString (pool : List Str) (rep : List Nat) : Str :=
  (rep.map (deref pool)).flatten

/-- The method `TextProcessor::GenerateResult`. -/
def GenerateResult (T : TextProcessor) : List Str :=
  T.result_set_.map (JoinString T.str_pool_)

/-- The method `TextProcessor::ProcessExp`: the value and the processor after the call
(`some`), or the processor after a `return false` (`none`). -/
def ProcessExp (input : Str) (context : Option Context) (fuel : Nat) (T : TextProcessor) :
    Except Crash (Option Value × TextProcessor) :=
  match Interp.DoInterp input context fuel T.position_ T.error_desp_ with
  | Result.crash c => Except.error c
  | Result.ret none I => Except.ok (none, { T with error_desp_ := I.error_ })
  | Result.ret (some val) I =>
    if input.length ≤ I.scanner_.position_ then Except.error Crash.exception
    else if input.getD I.scanner_.position_ '\x60' ≠ '\x60' then
      Except.ok (none, ReportError { T with error_desp_ := I.error_ }
        "The expression needs to be ended with \"\x60\"".toList)
    else
      Except.ok (some val, { T with error_desp_ := I.error_, position_ := I.scanner_.position_ })

/-- The `for` loop of `TextProcessor::Run`; `n` bounds the number of iterations, each of
which moves `position_` forward. -/
def Run.loop (input : Str) (context : Option Context) (fuel : Nat) :
    Nat → TextProcessor → Str → RunResult
  | 0, _, _ => RunResult.crash Crash.fuel
  | n + 1, T, segment =>
    if T.position_ < input.length then
      if input.getD T.position_ ' ' = '\\' then
        if T.position_ + 1 < input.length ∧ IsEscapeChar (input.getD (T.position_ + 1) ' ') then
          Run.loop input context fuel n { T with position_ := T.position_ + 2 }
            (segment ++ [input.getD (T.position_ + 1) ' '])
        else
          Run.loop input context fuel n { T with position_ := T.position_ + 1 } segment
      else if input.getD T.position_ ' ' = '\x60' then
        match ProcessExp input context fuel
            (if segment ≠ [] then
              { T with position_ := T.position_ + 1,
                       result_set_ := Expand T.result_set_ (GetString T.str_pool_ segment).1,
                       str_pool_ := (GetString T.str_pool_ segment).2 }
             else { T with position_ := T.position_ + 1 }) with
        | Except.error c => RunResult.crash c
        | Except.ok (none, T1) => RunResult.fail T1.error_desp_
        | Except.ok (some val, T1) =>
          match ValueToStringList T1.str_pool_ val [] with
          | none => RunResult.crash Crash.assertion
          | some (str_list, pool) =>
            Run.loop input context fuel n
              { T1 with position_ := T1.position_ + 1,
                        result_set_ := Concatenate T1.result_set_ str_list,
                        str_pool_ := pool } []
      else
        Run.loop input context fuel n { T with position_ := T.position_ + 1 }
          (segment ++ [input.getD T.position_ ' '])
    else if segment ≠ [] then
      RunResult.ok
        (GenerateResult
          { T with result_set_ := Expand T.result_set_ (GetString T.str_pool_ segment).1,
                   str_pool_ := (GetString T.str_pool_ segment).2 })
        T.error_desp_
    else RunResult.ok (GenerateResult T) T.error_desp_

/-- The method `TextProcessor::Run` of a processor constructed on `input`, `context` and
an error string of content `error`. -/
def Run (input : Str) (context : Option Context) (fuel : Nat) (error : Str) : RunResult :=
  Run.loop input context fuel (input.length + 1)
    { result_set_ := [], str_pool_ := [], error_desp_ := error, position_ := 0 } []

end TextProcessor

/-- The loop of the test `TestScanner`: `Next`, stop at the end of the text, print the name
of the token, `Move`; `none` when the `assert` of `Scanner::Move` fails on a lexeme of
length 0 (or when the budget `n` of iterations runs out). -/
def TestScanner.loop (txt : Str) : Nat → Scanner → Option (List Str)
  | 0, _ => none
  | n + 1, scanner =>
    if (scanner.Next txt).lexme_.token = TK_EOF then some []
    else if (scanner.Next txt).lexme_.offset = 0 then none
    else
      (TestScanner.loop txt n ((scanner.Next txt).Move txt)).map
        (fun names => GetTokenName (scanner.Next txt).lexme_.token :: names)

/-- The test `TestScanner`: the names it prints before `We are done!`. -/
def TestScanner : Option (List Str) :=
  TestScanner.loop "(),+-*/ ><>=>===!= ! && ||".toList
    ("(),+-*/ ><>=>===!= ! && ||".toList.length + 1)
    (Scanner.init "(),+-*/ ><>=>===!= ! && ||".toList 0)

/-- The function `tsub::Run`; `fuel` is the recursion budget given to each expression. -/
def Run (fuel : Nat) (context : Option Context) (input : Str) (error : Str) : RunResult :=
  TextProcessor.Run input context fuel error

/-- The strings a value flattens to: `ValueToStringList` on an empty pool and output, the
references followed; `none` for a value that holds a null. -/
def value_to_strings (v : Value) : Option (List Str) :=
  match TextProcessor.ValueToStringList [] v [] with
  | none => none
  | some (refs, pool) => some (refs.map (TextProcessor.deref pool))

end tsub

namespace tsub
open Value TokenId

/-! ## Notions used by the statements -/

/-- The lexeme stored in a scanner is the one `Peek` finds at its position, and the
position is inside the source: the state every call of `Next` leaves. -/
def Scanner.Consistent (source : Str) (s : Scanner) : Prop :=
  Scanner.Peek source s.position_ = (s.lexme_, s.position_) ∧ s.position_ ≤ source.length

/-- The text that follows an expression: nothing, or text that starts with a backtick. -/
def Stop (suf : Str) : Prop := ∀ c, suf.head? = some c → c = '\x60'

/-- Two lexemes are the same up to the end of the text: where the expression text ends,
the scanner of the text alone sees the end of input and the scanner of the template sees
the backtick, an unknown token. -/
def LexRel (l1 l2 : Lexme) : Prop :=
  l1 = l2 ∨ (l1 = ⟨TK_EOF, 0⟩ ∧ l2 = Lexme.unknown)

/-- The states of an interpreter on the expression text `s1` and of an interpreter on the
template `pre ++ s1 ++ suf` correspond: same place in the expression, same dollar
pointer.  The error strings are not compared. -/
def Rel (s1 pre suf : Str) (I1 I2 : Interp) : Prop :=
  Scanner.Consistent s1 I1.scanner_ ∧ Scanner.Consistent (pre ++ s1 ++ suf) I2.scanner_ ∧
  I2.scanner_.position_ = I1.scanner_.position_ + pre.length ∧
  I2.dollar_value_ = I1.dollar_value_

/-- The outcomes of the two interpreters correspond. -/
def RelRes (s1 pre suf : Str) : Result → Result → Prop
  | Result.ret o1 I1, Result.ret o2 I2 => o1 = o2 ∧ Rel s1 pre suf I1 I2
  | Result.crash c1, Result.crash c2 => c1 = c2
  | _, _ => False

/-- The interpreter of the text alone has failed on a string literal that does not end. -/
def Poisoned : Result → Prop
  | Result.ret none I1 => I1.token = TK_STRING
  | _ => False

/-- The outcomes correspond, or the text alone ends inside a string literal which the
text after it, holding a double quote, may close. -/
def SimRes (s1 pre suf : Str) (r1 r2 : Result) : Prop :=
  RelRes s1 pre suf r1 r2 ∨ ('\"' ∈ suf ∧ Poisoned r1)

/-- The two evaluators correspond on corresponding states. -/
def SimEval (s1 pre suf : Str) (f1 f2 : Eval) : Prop :=
  ∀ env I1 I2, Rel s1 pre suf I1 I2 → SimRes s1 pre suf (f1 env I1) (f2 env I2)

/-- The two scanners read corresponding lexemes, or both skip blanks. -/
def OptLexRel : Option Lexme → Option Lexme → Prop
  | none, none => True
  | some l1, some l2 => LexRel l1 l2
  | _, _ => False

/-- The outcomes of one list item correspond. -/
def ItemRel (s1 pre suf : Str) : Interp.ItemResult → Interp.ItemResult → Prop
  | Interp.ItemResult.add v1 I1, Interp.ItemResult.add v2 I2 => v1 = v2 ∧ Rel s1 pre suf I1 I2
  | Interp.ItemResult.fail I1, Interp.ItemResult.fail I2 => Rel s1 pre suf I1 I2
  | Interp.ItemResult.crash c1, Interp.ItemResult.crash c2 => c1 = c2
  | _, _ => False

/-- The item of the text alone has stopped on a string literal that does not end. -/
def ItemPoisoned : Interp.ItemResult → Prop
  | Interp.ItemResult.add _ I1 => I1.token = TK_STRING
  | Interp.ItemResult.fail I1 => I1.token = TK_STRING
  | Interp.ItemResult.crash _ => False

/-- The outcomes of one list item correspond, up to a string literal that does not end. -/
def ItemSim (s1 pre suf : Str) (r1 r2 : Interp.ItemResult) : Prop :=
  ItemRel s1 pre suf r1 r2 ∨ ('\"' ∈ suf ∧ ItemPoisoned r1)

/-- The text that a literal piece of a template stands for, read by the words of the
specification: `\\` stands for a backslash and `\x60` preceded by a backslash for a
backtick, every other byte for itself; `none` when the piece holds a backtick that is not
escaped or a backslash that does not start one of the two escapes. -/
def unescape : Str → Option Str
  | [] => some []
  | [c] => if c = '\\' ∨ c = '\x60' then none else some [c]
  | c :: d :: rest =>
    if c = '\\' then
      (if d = '\\' ∨ d = '\x60' then (unescape rest).map (fun t => d :: t) else none)
    else if c = '\x60' then none
    else (unescape (d :: rest)).map (fun t => c :: t)

mutual
/-- The strings of a value from left to right, without the pool: `none` for a value that
holds a null. -/
def Value.flat : Value → Option (List Str)
  | VALUE_STRING s => some [s]
  | VALUE_NUMBER n => some [sprintf_d n]
  | VALUE_LIST l => Value.flatList l
  | VALUE_NULL => none
/-- The strings of the values of a list from left to right. -/
def Value.flatList : List Value → Option (List Str)
  | [] => some []
  | v :: vs =>
    match Value.flat v with
    | none => none
    | some a =>
      match Value.flatList vs with
      | none => none
      | some b => some (a ++ b)
end

/-- Every reference of the result set points into the pool. -/
def TextProcessor.Valid (T : TextProcessor) : Prop :=
  ∀ rep ∈ T.result_set_, ∀ r ∈ rep, r < T.str_pool_.length

/-- The outputs after `Expand` of a segment, given the outputs before: a segment that is
empty is not expanded. -/
def expandOut (outs : List Str) (segment : Str) : List Str :=
  if segment = [] then outs
  else if outs = [] then [segment] else outs.map (fun o => o ++ segment)

/-- The outputs after `Concatenate` of the strings of a value, given the outputs before. -/
def concatOut (outs : List Str) (strs : List Str) : List Str :=
  if outs = [] then strs else (strs.map (fun s => outs.map (fun o => o ++ s))).flatten

/-- The expression text `E`, evaluated alone from offset 0 (with an empty error string),
succeeds with the value `v`, and the evaluator stops at the end of `E`: all of `E` is
consumed, trailing blanks included. -/
def EvalsTo (context : Option Context) (fuel : Nat) (E : Str) (v : Value) : Prop :=
  match Interp.DoInterp E context fuel 0 [] with
  | Result.ret (some w) I => w = v ∧ I.scanner_.position_ = E.length
  | _ => False

instance (context : Option Context) (fuel : Nat) (E : Str) (v : Value) :
    Decidable (EvalsTo context fuel E v) := by
  unfold EvalsTo
  split <;> infer_instance

/-- The expression text `E`, evaluated alone from offset 0, fails (`DoInterp` returns
false). -/
def EvalFails (context : Option Context) (fuel : Nat) (E : Str) : Prop :=
  match Interp.DoInterp E context fuel 0 [] with
  | Result.ret none _ => True
  | _ => False

instance (context : Option Context) (fuel : Nat) (E : Str) :
    Decidable (EvalFails context fuel E) := by
  unfold EvalFails
  split <;> infer_instance

/-- Two states of the interpreter with the same lexeme, position and dollar pointer: they
differ at most in the error string and in the start position, which only serve the
diagnostics. -/
def SameCore (I J : Interp) : Prop :=
  I.scanner_.lexme_ = J.scanner_.lexme_ ∧ I.scanner_.position_ = J.scanner_.position_ ∧
  I.dollar_value_ = J.dollar_value_

/-- An invariant of the evaluator: a property `P` of the dollar pointer and a property `G`
of values that every step of the evaluator keeps. -/
structure DollarInv (P : Dollar → Prop) (G : Value → Prop) : Prop where
  kill : ∀ d D, P D → P (Dollar.kill d D)
  killList : ∀ d D, P D → P (Dollar.killList d D)
  elem : ∀ d l x, G (VALUE_LIST l) → x ∈ l → P (Dollar.elem d x)
  obj : ∀ d, P (Dollar.obj d)
  spare : ∀ d, P (Dollar.spare d)
  read : ∀ o v, P (Dollar.elem o v) → G v
  null : G VALUE_NULL
  number : ∀ n, G (VALUE_NUMBER n)
  string : ∀ s, G (VALUE_STRING s)
  list : ∀ l, l ≠ [] → (∀ x ∈ l, G x) → G (VALUE_LIST l)

/-- The values the host returns have the property `G`. -/
def HostInv (G : Value → Prop) (context : Option Context) : Prop :=
  ∀ c, context = some c →
    (∀ name v, c.GetVariable name = HostResult.ok v → G v) ∧
    (∀ name par v, c.ExecFunction name par = HostResult.ok v → G v)

/-- The outcome of a member of `Interp` keeps the invariant: the pointer of the state
returned has `P` and the value returned has `G`. -/
def InvRes (P : Dollar → Prop) (G : Value → Prop) : Result → Prop
  | Result.crash _ => True
  | Result.ret none K => P K.dollar_value_
  | Result.ret (some v) K => P K.dollar_value_ ∧ G v

/-- An evaluator keeps the invariant, on a stack of values that have `G`. -/
def InvEval (P : Dollar → Prop) (G : Value → Prop) (exp : Eval) : Prop :=
  ∀ env I, (∀ x ∈ env, G x) → P I.dollar_value_ → InvRes P G (exp env I)

/-- The outcome of one list item keeps the invariant; the values added are at least one. -/
def ItemInv (P : Dollar → Prop) (G : Value → Prop) : Interp.ItemResult → Prop
  | Interp.ItemResult.add vs K => P K.dollar_value_ ∧ vs ≠ [] ∧ ∀ x ∈ vs, G x
  | Interp.ItemResult.fail K => P K.dollar_value_
  | Interp.ItemResult.crash _ => True

mutual
/-- No list inside the value is empty. -/
def Value.good : Value → Bool
  | VALUE_LIST l => !l.isEmpty && Value.goodList l
  | _ => true
/-- No list inside the values of the list is empty. -/
def Value.goodList : List Value → Bool
  | [] => true
  | v :: vs => Value.good v && Value.goodList vs
end

/-- The mapped element the pointer holds, if it points to one, has no empty list inside. -/
def Dollar.good : Dollar → Prop
  | Dollar.elem _ v => Value.good v = true
  | _ => True

/-- The number of strings a value flattens to. -/
def stringCount (v : Value) : Nat := ((value_to_strings v).getD []).length

/-- The `for` loop of `TextProcessor::Run` with two ghost variables: `vs`, the values of
the expression regions met so far, in order, and `lit`, whether a segment that is not empty
was folded into the result set.  The result is their final content when the loop ends with
`return true`, and `none` otherwise. -/
def TextProcessor.Run.regions (input : Str) (context : Option Context) (fuel : Nat) :
    Nat → TextProcessor → Str → List Value → Bool → Option (List Value × Bool)
  | 0, _, _, _, _ => none
  | n + 1, T, segment, vs, lit =>
    if T.position_ < input.length then
      if input.getD T.position_ ' ' = '\\' then
        if T.position_ + 1 < input.length ∧
            TextProcessor.IsEscapeChar (input.getD (T.position_ + 1) ' ') then
          TextProcessor.Run.regions input context fuel n { T with position_ := T.position_ + 2 }
            (segment ++ [input.getD (T.position_ + 1) ' ']) vs lit
        else
          TextProcessor.Run.regions input context fuel n { T with position_ := T.position_ + 1 }
            segment vs lit
      else if input.getD T.position_ ' ' = '\x60' then
        match TextProcessor.ProcessExp input context fuel
            (if segment ≠ [] then
              { T with position_ := T.position_ + 1,
                       result_set_ := TextProcessor.Expand T.result_set_
                         (TextProcessor.GetString T.str_pool_ segment).1,
                       str_pool_ := (TextProcessor.GetString T.str_pool_ segment).2 }
             else { T with position_ := T.position_ + 1 }) with
        | Except.error _ => none
        | Except.ok (none, _) => none
        | Except.ok (some val, T1) =>
          match TextProcessor.ValueToStringList T1.str_pool_ val [] with
          | none => none
          | some (str_list, pool) =>
            TextProcessor.Run.regions input context fuel n
              { T1 with position_ := T1.position_ + 1,
                        result_set_ := TextProcessor.Concatenate T1.result_set_ str_list,
                        str_pool_ := pool } [] (vs ++ [val]) (lit || decide (segment ≠ []))
      else
        TextProcessor.Run.regions input context fuel n { T with position_ := T.position_ + 1 }
          (segment ++ [input.getD T.position_ ' ']) vs lit
    else some (vs, lit || decide (segment ≠ []))

/-- The expression regions of a template, in order, with the values they evaluate to, and
whether the template has a literal segment that is not empty, when `Run` succeeds on it. -/
def regionsOf (fuel : Nat) (context : Option Context) (input : Str) (error : Str) :
    Option (List Value × Bool) :=
  TextProcessor.Run.regions input context fuel (input.length + 1)
    { result_set_ := [], str_pool_ := [], error_desp_ := error, position_ := 0 } [] [] false

/-- The line and the column of the byte that follows the text `seg`, both counted from 1:
the line is 1 more than the number of newlines of `seg`, the column 1 more than the number
of bytes of `seg` after its last newline. -/
def lineCol (seg : Str) : Nat × Nat :=
  (1 + seg.count '\n', 1 + (seg.reverse.takeWhile (fun c => c ≠ '\n')).length)

/-- The arguments of a call, evaluated from left to right: from the state `I` (after `(`,
or after a comma) the arguments evaluate to the values `vs`, which are at least one; each
is followed by a comma but the last, which is followed by `)`; `K` is the state after
that `)`. -/
def ArgsChain (source : Str) (exp : Eval) (env : List Value) :
    Interp → List Value → Interp → Prop
  | _, [], _ => False
  | I, [v], K =>
    ∃ J, exp (env ++ [VALUE_NULL]) I = Result.ret (some v) J ∧
      (J.kill env.length).token = TK_RPAR ∧ K = (J.kill env.length).Move source
  | I, v :: w :: vs, K =>
    ∃ J, exp (env ++ [VALUE_NULL]) I = Result.ret (some v) J ∧
      (J.kill env.length).token = TK_COMMA ∧
      ArgsChain source exp env ((J.kill (env.length + 1)).Move source) (w :: vs) K

/-- The lexicographic order of byte strings, by its textbook definition: `a` is before `b`
when `a` is a proper prefix of `b`, or when, after a common prefix, the next byte of `a` is
smaller than the next byte of `b`. -/
def lexLt (a b : Str) : Prop :=
  (∃ c t, b = a ++ c :: t) ∨
  (∃ p x s y t, a = p ++ x :: s ∧ b = p ++ y :: t ∧ x.toNat < y.toNat)

/-- What a relational operator says of two integers. -/
def relInt (op : TokenId) (a b : Int) : Prop :=
  match op with
  | TK_LT => a < b
  | TK_LET => a ≤ b
  | TK_GT => a > b
  | TK_GET => a ≥ b
  | TK_EQ => a = b
  | TK_NEQ => a ≠ b
  | _ => False

/-- What a relational operator says of two strings, in the lexicographic order. -/
def relStr (op : TokenId) (a b : Str) : Prop :=
  match op with
  | TK_LT => lexLt a b
  | TK_LET => lexLt a b ∨ a = b
  | TK_GT => lexLt b a
  | TK_GET => lexLt b a ∨ a = b
  | TK_EQ => a = b
  | TK_NEQ => a ≠ b
  | _ => False

/-- The body of a string literal decoded, read by the words of the specification: the
text after the opening quote is read from left to right up to the first double quote that
is not escaped; a backslash followed by one of `n t r b " \` gives that second byte alone,
a backslash followed by another byte gives both bytes, every other byte gives itself.
The result is the decoded text and the number of bytes read, closing quote included;
`none` when there is no closing quote. -/
def decodeString : Str → Option (Str × Nat)
  | [] => none
  | [c] => if c = '\"' then some ([], 1) else none
  | c :: d :: rest =>
    if c = '\"' then some ([], 1)
    else if c = '\\' then
      if Interp.IsEscapeChar d then
        (decodeString rest).map (fun (r : Str × Nat) => (d :: r.1, r.2 + 2))
      else (decodeString rest).map (fun (r : Str × Nat) => ('\\' :: d :: r.1, r.2 + 2))
    else (decodeString (d :: rest)).map (fun (r : Str × Nat) => (c :: r.1, r.2 + 1))

mutual
/-- No null inside the value. -/
def Value.noNull : Value → Bool
  | VALUE_NULL => false
  | VALUE_LIST l => Value.noNullList l
  | _ => true
/-- No null inside the values of the list. -/
def Value.noNullList : List Value → Bool
  | [] => true
  | v :: vs => Value.noNull v && Value.noNullList vs
end

/-- The 24 tokens of operators and punctuation. -/
def operatorTokens : List TokenId :=
  [TK_ADD, TK_SUB, TK_MUL, TK_DIV, TK_LT, TK_LET, TK_GT, TK_GET, TK_EQ, TK_NEQ, TK_AND, TK_OR,
   TK_NOT, TK_QUESTION, TK_COLON, TK_LPAR, TK_RPAR, TK_COMMA, TK_DOLLAR, TK_LSQR, TK_RSQR,
   TK_LBRA, TK_RBRA, TK_TO]

/-- One of the five blanks of the `switch` of `Scanner::Peek`. -/
def isBlank (c : Char) : Bool :=
  c = '\r' ∨ c = '\n' ∨ c = '\t' ∨ c = '\x0b' ∨ c = ' '

/-- The token is one of `>`, `<`, `!` and the text goes on with `=`: the longer operator
is the one that is read. -/
def extends_ (t : TokenId) (rest : Str) : Prop :=
  (t = TK_GT ∨ t = TK_LT ∨ t = TK_NOT) ∧ rest.head? = some '='

end tsub

namespace tsub
open Value TokenId

/-- The strings of a list interned one after the other with `GetString`: the references
returned, in the order of the calls, and the pool after the last call. -/
def internAll : List Str → List Str → List Nat × List Str
  | pool, [] => ([], pool)
  | pool, s :: ss =>
    ((TextProcessor.GetString pool s).1 :: (internAll (TextProcessor.GetString pool s).2 ss).1,
      (internAll (TextProcessor.GetString pool s).2 ss).2)

mutual
/-- The scalars of a value from left to right. -/
def Value.scalars : Value → List Value
  | VALUE_LIST l => Value.scalarsList l
  | v => [v]
/-- The scalars of the values of a list from left to right. -/
def Value.scalarsList : List Value → List Value
  | [] => []
  | v :: vs => Value.scalars v ++ Value.scalarsList vs
end

mutual
/-- The value is not null, and every list in it at any depth is non-empty and holds no
null. -/
def Value.strict : Value → Bool
  | VALUE_NULL => false
  | VALUE_LIST l => !l.isEmpty && Value.strictList l
  | _ => true
/-- Every value of the list is strict. -/
def Value.strictList : List Value → Bool
  | [] => true
  | v :: vs => Value.strict v && Value.strictList vs
end

/-- The base-10 text of a natural number, without leading zeros. -/
def dec (n : Nat) : Str := Nat.toDigits 10 n

/-- The value of a text of decimal digits, as the loop of `strtol` computes it. -/
def digitsVal (ds : Str) : Int :=
  ds.foldl (fun (a : Int) (c : Char) => a * 10 + ((c.toNat : Int) - 48)) 0

/-- The state of an interpreter without a `$` whose scanner was set to the offset `q`. -/
def Interp.atPos (source : Str) (start : Nat) (err : Str) (q : Nat) : Interp :=
  ⟨⟨(Scanner.Peek source q).1, (Scanner.Peek source q).2, start⟩, Dollar.null, err⟩

/-- The rank of a token among the operators that follow an operand, the higher binding the
tighter: `* /`, then `+ -`, then the six relational operators, then `&& ||`; 1 for the `?`
and the brace that follow an expression, 0 for every other token. -/
def lvl : TokenId → Nat
  | TK_MUL => 5
  | TK_DIV => 5
  | TK_ADD => 4
  | TK_SUB => 4
  | TK_LT => 3
  | TK_LET => 3
  | TK_GT => 3
  | TK_GET => 3
  | TK_EQ => 3
  | TK_NEQ => 3
  | TK_AND => 2
  | TK_OR => 2
  | TK_QUESTION => 1
  | TK_LBRA => 1
  | _ => 0

/-- What the evaluation of an expression over integers comes to: a value, a failure
(`return false`), or the trap of the division of `INT_MIN` by `-1`. -/
inductive Out where
  | val (v : Int)
  | fail
  | trap
deriving DecidableEq, Repr, Inhabited

/-- What a binary operator does on two integers: a division by zero fails, the division of
`-2147483648` by `-1` traps, every other operation has a value. -/
def binop (op : TokenId) (a b : Int) : Out :=
  match op with
  | TK_MUL => Out.val (wrap32 (a * b))
  | TK_DIV =>
    if b = 0 then Out.fail
    else if a = -2147483648 ∧ b = -1 then Out.trap
    else Out.val (wrap32 (Int.tdiv a b))
  | TK_ADD => Out.val (wrap32 (a + b))
  | TK_SUB => Out.val (wrap32 (a - b))
  | TK_AND => Out.val (Interp.logicAnd (VALUE_NUMBER a) (VALUE_NUMBER b))
  | TK_OR => Out.val (Interp.logicOr (VALUE_NUMBER a) (VALUE_NUMBER b))
  | op =>
    match Interp.compareNumber op a b with
    | some r => Out.val r
    | none => Out.fail

/-- An expression of binary operators over integer literals, fully grouped. -/
inductive Tree where
  | lit (n : Nat)
  | bin (op : TokenId) (l r : Tree)
deriving DecidableEq, Repr, Inhabited

/-- The value of a literal: `strtol` fails beyond the range of `long`, the result is
stored in an `int`. -/
def litVal (n : Nat) : Out :=
  if (n : Int) ≤ 9223372036854775807 then Out.val (wrap32 n) else Out.fail

/-- An operator on the outcomes of its operands, the left one first: the first operand
that fails or traps decides. -/
def Out.join (op : TokenId) (l r : Out) : Out :=
  match l with
  | Out.fail => Out.fail
  | Out.trap => Out.trap
  | Out.val a =>
    match r with
    | Out.fail => Out.fail
    | Out.trap => Out.trap
    | Out.val b => binop op a b

/-- The outcome of a grouped expression, the left operand first. -/
def Tree.eval : Tree → Out
  | Tree.lit n => litVal n
  | Tree.bin op l r => Out.join op l.eval r.eval

/-- The text of a grouped expression without any parenthesis. -/
def Tree.flatText : Tree → Str
  | Tree.lit n => dec n
  | Tree.bin op l r => l.flatText ++ GetTokenName op ++ r.flatText

/-- The text of a grouped expression with every operator and its two operands between
parentheses. -/
def Tree.parenText : Tree → Str
  | Tree.lit n => dec n
  | Tree.bin op l r => '(' :: (l.parenText ++ GetTokenName op ++ r.parenText ++ [')'])

/-- The number of operators of a grouped expression. -/
def Tree.size : Tree → Nat
  | Tree.lit _ => 0
  | Tree.bin _ l r => l.size + r.size + 1

/-- One pass over a chain of operands separated by operators: the operators of rank `k`
are applied from left to right with `join`, the other ones stay in the chain. -/
def passG {α : Type} (join : TokenId → α → α → α) (k : Nat) :
    α → List (TokenId × α) → α × List (TokenId × α)
  | cur, [] => (cur, [])
  | cur, (op, x) :: rest =>
    if lvl op = k then passG join k (join op cur x) rest
    else (cur, (op, (passG join k x rest).1) :: (passG join k x rest).2)

/-- The four passes, the tightest rank first. -/
def passAll {α : Type} (join : TokenId → α → α → α) (cur : α) (rest : List (TokenId × α)) :
    α × List (TokenId × α) :=
  passG join 2 (passG join 3 (passG join 4 (passG join 5 cur rest).1
    (passG join 5 cur rest).2).1 (passG join 4 (passG join 5 cur rest).1
    (passG join 5 cur rest).2).2).1 (passG join 3 (passG join 4 (passG join 5 cur rest).1
    (passG join 5 cur rest).2).1 (passG join 4 (passG join 5 cur rest).1
    (passG join 5 cur rest).2).2).2

/-- The full parenthesisation of the chain `n0 op1 n1 op2 n2 ...`: `* /` bind tighter than
`+ -`, which bind tighter than the relational operators, which bind tighter than `&& ||`,
and every rank associates to the left. -/
def group (n0 : Nat) (c : List (TokenId × Nat)) : Tree :=
  (passAll Tree.bin (Tree.lit n0) (c.map (fun x => (x.1, Tree.lit x.2)))).1

/-- The text of the chain `n0 op1 n1 op2 n2 ...`. -/
def chainText (n0 : Nat) (c : List (TokenId × Nat)) : Str :=
  dec n0 ++ (c.map (fun x => GetTokenName x.1 ++ dec x.2)).flatten

/-- A text and the outcome of its evaluation. -/
abbrev Item := Str × Out

/-- Two items joined by an operator. -/
def joinItem (op : TokenId) (a b : Item) : Item :=
  (a.1 ++ GetTokenName op ++ b.1, Out.join op a.2 b.2)

/-- The result `r` is the outcome `val`, in the state `K` for a success. -/
def Yields (r : Result) (val : Out) (K : Interp) : Prop :=
  match val with
  | Out.val v => r = Result.ret (some (VALUE_NUMBER v)) K
  | Out.fail => ∃ J, r = Result.ret none J
  | Out.trap => r = Result.crash Crash.trap

/-- The text stops at the offset `q` for an evaluator of rank `k`: the byte there is not a
digit and the token there is not an operator of rank `k` or more. -/
def EndsAt (source : Str) (k : Nat) (q : Nat) : Prop :=
  isdigit (Scanner.NChar source q) = false ∧ lvl (Scanner.Peek source q).1.token < k

/-- The evaluator `F` of rank `k` evaluates the text of the item, wherever it stands in
the source, to the value of the item, and stops behind it. -/
def Parses (source : Str) (F : Eval) (k : Nat) (it : Item) : Prop :=
  ∀ (q : Nat) (rest : Str) (env : List Value) (start : Nat) (err : Str),
    source.drop q = it.1 ++ rest → EndsAt source k (q + it.1.length) →
    Yields (F env (Interp.atPos source start err q)) it.2
      (Interp.atPos source start err (q + it.1.length))

/-- The text is not empty and does not begin with `=`. -/
def Starts (text : Str) : Prop :=
  ∃ c rest, text = c :: rest ∧ c ≠ '='

/-- What the loop of an operator of rank `k` does in one round on an integer `a`, its
operands being evaluated by `S`. -/
def LoopSpec (source : Str) (k : Nat) (loop : Nat → List Value → Value → Interp → Result)
    (S : Eval) : Prop :=
  (∀ n env a I, lvl I.token ≠ k →
    loop (n + 1) env (VALUE_NUMBER a) I =
      Result.ret (some (VALUE_NUMBER a)) (I.kill env.length)) ∧
  (∀ n env a I b I1, lvl I.token = k →
    S (env ++ [VALUE_NUMBER a]) (I.Move source) = Result.ret (some (VALUE_NUMBER b)) I1 →
    (∀ r, binop I.token a b = Out.val r →
      loop (n + 1) env (VALUE_NUMBER a) I =
        loop n env (VALUE_NUMBER r) (I1.kill (env.length + 1))) ∧
    (binop I.token a b = Out.fail →
      ∃ J, loop (n + 1) env (VALUE_NUMBER a) I = Result.ret none J) ∧
    (binop I.token a b = Out.trap →
      loop (n + 1) env (VALUE_NUMBER a) I = Result.crash Crash.trap)) ∧
  (∀ n env a I I1, lvl I.token = k →
    S (env ++ [VALUE_NUMBER a]) (I.Move source) = Result.ret none I1 →
    ∃ J, loop (n + 1) env (VALUE_NUMBER a) I = Result.ret none J) ∧
  (∀ n env a I c, lvl I.token = k →
    S (env ++ [VALUE_NUMBER a]) (I.Move source) = Result.crash c →
    loop (n + 1) env (VALUE_NUMBER a) I = Result.crash c)

/-- The text of a chain of items. -/
def itemsText (cur : Item) (rest : List (TokenId × Item)) : Str :=
  cur.1 ++ (rest.map (fun x => GetTokenName x.1 ++ x.2.1)).flatten

/-- The evaluator `F` of rank `k`, made of `S` for the operands and of `loop` for the
operators, has read the text of the item as its left operand after `j` rounds of the loop
started with the budget `f`. -/
def InRun (source : Str) (F : Eval) (loop : Nat → List Value → Value → Interp → Result)
    (k f : Nat) (it : Item) (j : Nat) : Prop :=
  ∀ (q : Nat) (rest : Str) (env : List Value) (start : Nat) (err : Str),
    source.drop q = it.1 ++ rest →
    isdigit (Scanner.NChar source (q + it.1.length)) = false →
    lvl (Scanner.Peek source (q + it.1.length)).1.token ≤ k →
    match it.2 with
    | Out.val v =>
      F env (Interp.atPos source start err q) =
        loop (f - j) env (VALUE_NUMBER v) (Interp.atPos source start err (q + it.1.length))
    | Out.fail => ∃ J, F env (Interp.atPos source start err q) = Result.ret none J
    | Out.trap => F env (Interp.atPos source start err q) = Result.crash Crash.trap

/-- An operator of rank at most `k` followed by an operand that `S` evaluates. -/
def OkSep (source : Str) (S : Eval) (k : Nat) (x : TokenId × Item) : Prop :=
  x.1 ∈ operatorTokens ∧ 2 ≤ lvl x.1 ∧ lvl x.1 ≤ k ∧ Parses source S (k + 1) x.2 ∧ Starts x.2.1

/-- The operators of a grouped expression. -/
def Tree.ops : Tree → List TokenId
  | Tree.lit _ => []
  | Tree.bin op l r => op :: (l.ops ++ r.ops)

/-- The parenthesised text of a grouped expression with its value. -/
def itemP (t : Tree) : Item := (t.parenText, t.eval)

/-- The text without parentheses of a grouped expression with its value. -/
def itemF (t : Tree) : Item := (t.flatText, t.eval)

end tsub

namespace tsub
open Value TokenId

/-- The outcome of a member of `Interp` called with the scanner at the offset `p`: the
scanner it leaves is consistent and not before `p`, at least `d` bytes after `p` on a
success; the execution does not stop for want of budget when the budget is as `ok` says. -/
def Adv (source : Str) (ok : Prop) (d p : Nat) : Result → Prop
  | Result.crash c => ok → c ≠ Crash.fuel
  | Result.ret none K => Scanner.Consistent source K.scanner_ ∧ p ≤ K.scanner_.position_
  | Result.ret (some _) K =>
    Scanner.Consistent source K.scanner_ ∧ p + d ≤ K.scanner_.position_

/-- The evaluator `exp`, which is `InterpExp` with the budget `f`, advances; the budget is
enough when it exceeds the number of bytes left by 2. -/
def AdvEval (source : Str) (f : Nat) (exp : Eval) : Prop :=
  ∀ env (I : Interp), Scanner.Consistent source I.scanner_ →
    Adv source (source.length - I.scanner_.position_ + 2 ≤ f) 1 I.scanner_.position_ (exp env I)

/-- A member of `Interp` below `InterpExp`, working with the budget `f`, advances; the
budget is enough when it exceeds the number of bytes left by 1. -/
def AdvLevel (source : Str) (f : Nat) (F : Eval) : Prop :=
  ∀ env (I : Interp), Scanner.Consistent source I.scanner_ →
    Adv source (source.length - I.scanner_.position_ + 1 ≤ f) 1 I.scanner_.position_ (F env I)

/-- The outcome of one item of a list literal started at the offset `p`. -/
def AdvItem (source : Str) (ok : Prop) (p : Nat) : Interp.ItemResult → Prop
  | Interp.ItemResult.add _ K =>
    Scanner.Consistent source K.scanner_ ∧ p + 1 ≤ K.scanner_.position_
  | Interp.ItemResult.fail K => Scanner.Consistent source K.scanner_ ∧ p ≤ K.scanner_.position_
  | Interp.ItemResult.crash c => ok → c ≠ Crash.fuel

/-- What one round of the loop of `TextProcessor::Run`, started at the offset `p` with `n`
more rounds allowed, comes to: the loop goes on from a greater offset, not past the end of
the input, or `Run` returns false, or the execution does not return; it does not stop for
want of budget when the budget of the evaluator exceeds the length of the input by 2. -/
def StepsTo (input : Str) (context : Option Context) (fuel n p : Nat) (r : RunResult) : Prop :=
  (∃ T1 segment1, r = TextProcessor.Run.loop input context fuel n T1 segment1 ∧
    p < T1.position_ ∧ T1.position_ ≤ input.length) ∨
  (∃ e, r = RunResult.fail e) ∨
  (∃ c, r = RunResult.crash c ∧ (input.length + 2 ≤ fuel → c ≠ Crash.fuel))

/-- The evaluator `e2` returns what `e1` returns wherever `e1` does not stop for want of
budget. -/
def Ext (e1 e2 : Eval) : Prop :=
  ∀ env (I : Interp), e1 env I ≠ Result.crash Crash.fuel → e2 env I = e1 env I

/-- The loop `loop f n`, of budget `n` over operands evaluated with budget `f`, never uses
up its budget when both are at least one more than the bytes left after the scanner. -/
def LoopBounded (source : Str)
    (loop : Nat → Nat → List Value → Value → Interp → Result) : Prop :=
  ∀ (f n : Nat) (env : List Value) (output : Value) (I : Interp),
    Scanner.Consistent source I.scanner_ →
    source.length - I.scanner_.position_ + 1 ≤ f →
    source.length - I.scanner_.position_ + 1 ≤ n →
    loop f n env output I ≠ Result.crash Crash.fuel

end tsub

namespace tsub
open Value TokenId

/-! ## The scanner -/

theorem NChar_eq_head (s : Str) (p : Nat) :
    Scanner.NChar s p = ((s.drop p).head?).getD (Char.ofNat 0) := by
  simp [Scanner.NChar, List.head?_drop]

theorem isspace_zero : isspace (Char.ofNat 0) = false := by decide

theorem takeWhile_length_le {α : Type} (f : α → Bool) (l : List α) :
    (l.takeWhile f).length ≤ l.length := by
  induction l with
  | nil => simp
  | cons a t ih =>
    rw [List.takeWhile_cons]
    split
    · simp only [List.length_cons]; omega
    · simp

theorem drop_takeWhile_length {α : Type} (f : α → Bool) (l : List α) :
    l.drop (l.takeWhile f).length = l.dropWhile f := by
  induction l with
  | nil => simp
  | cons a t ih =>
    rw [List.takeWhile_cons, List.dropWhile_cons]
    split
    · simpa using ih
    · simp

theorem SkipSpace_ge (s : Str) (p : Nat) : p ≤ Scanner.SkipSpace s p := by
  simp [Scanner.SkipSpace]

theorem SkipSpace_le (s : Str) (p : Nat) (h : p ≤ s.length) :
    Scanner.SkipSpace s p ≤ s.length := by
  have := takeWhile_length_le isspace (s.drop p)
  simp only [List.length_drop] at this
  simp only [Scanner.SkipSpace]
  omega

theorem drop_SkipSpace (s : Str) (p : Nat) :
    s.drop (Scanner.SkipSpace s p) = (s.drop p).dropWhile isspace := by
  rw [Scanner.SkipSpace, ← List.drop_drop, drop_takeWhile_length]

theorem NChar_SkipSpace (s : Str) (p : Nat) :
    isspace (Scanner.NChar s (Scanner.SkipSpace s p)) = false := by
  rw [NChar_eq_head, drop_SkipSpace]
  cases h : ((s.drop p).dropWhile isspace).head? with
  | none => simpa using isspace_zero
  | some c =>
    have := List.head?_dropWhile_not isspace (s.drop p)
    rw [h] at this
    simpa using this

theorem PeekCase_eq_none {cha next : Char} (h : Scanner.PeekCase cha next = none) :
    isspace cha = true := by
  by_cases hws : cha = '\r' ∨ cha = '\n' ∨ cha = '\t' ∨ cha = ' ' ∨ cha = '\x0b'
  · rcases hws with h2 | h2 | h2 | h2 | h2 <;> subst h2 <;> decide
  · simp [Scanner.PeekCase, hws] at h

theorem PeekCase_SkipSpace (s : Str) (p : Nat) (next : Char) :
    Scanner.PeekCase (Scanner.NChar s (Scanner.SkipSpace s p)) next ≠ none := by
  intro h
  have := PeekCase_eq_none h
  rw [NChar_SkipSpace] at this
  exact absurd this (by simp)

theorem Peek_idem (s : Str) (p : Nat) :
    Scanner.Peek s (Scanner.Peek s p).2 = Scanner.Peek s p := by
  unfold Scanner.Peek
  cases h : Scanner.PeekCase (Scanner.NChar s p) (Scanner.NChar s (p + 1)) with
  | some l => simp [h]
  | none =>
    simp only []
    cases h2 : Scanner.PeekCase (Scanner.NChar s (Scanner.SkipSpace s p))
        (Scanner.NChar s (Scanner.SkipSpace s p + 1)) with
    | none => exact absurd h2 (PeekCase_SkipSpace s p _)
    | some l => simp [h2]

theorem Peek_pos_ge (s : Str) (p : Nat) : p ≤ (Scanner.Peek s p).2 := by
  unfold Scanner.Peek
  split
  · simp
  · simp only []
    split <;> exact SkipSpace_ge s p

theorem Peek_pos_le (s : Str) (p : Nat) (h : p ≤ s.length) : (Scanner.Peek s p).2 ≤ s.length := by
  unfold Scanner.Peek
  split
  · simpa
  · simp only []
    split <;> exact SkipSpace_le s p h

theorem lookup_mem {α β : Type} [BEq α] [LawfulBEq α] (l : List (α × β)) (a : α) (b : β)
    (h : l.lookup a = some b) : (a, b) ∈ l := by
  induction l with
  | nil => simp at h
  | cons x t ih =>
    obtain ⟨k, v⟩ := x
    rw [List.lookup_cons] at h
    split at h
    · rename_i hk
      simp at hk h
      subst hk; subst h
      simp
    · simp [ih h]

theorem PeekToken_offset (cha next : Char) :
    (Scanner.PeekToken cha next).offset ≤ 2 ∧
    (1 ≤ (Scanner.PeekToken cha next).offset → cha.toNat ≠ 0) ∧
    (2 ≤ (Scanner.PeekToken cha next).offset → next.toNat ≠ 0) := by
  unfold Scanner.PeekToken
  by_cases h0 : cha.toNat = 0
  · simp [h0]
  · rw [if_neg h0]
    cases h1 : Scanner.single.lookup cha with
    | some tk => simp [h0]
    | none =>
      cases h2 : Scanner.paired.lookup cha with
      | some e =>
        obtain ⟨d, tk, l⟩ := e
        have hm := lookup_mem _ _ _ h2
        have hall : ∀ x ∈ Scanner.paired, x.2.1.toNat ≠ 0 ∧ x.2.2.2.offset ≤ 1 := by decide
        have := hall _ hm
        simp only at this
        simp only []
        split
        · rename_i hn
          subst hn
          simp [h0, this.1]
        · refine ⟨by omega, fun _ => h0, fun h => ?_⟩
          omega
      | none =>
        simp only []
        split_ifs <;> simp [Lexme.unknown, h0]

theorem NChar_ne_zero_lt (s : Str) (p : Nat) (h : (Scanner.NChar s p).toNat ≠ 0) : p < s.length := by
  by_contra hp
  apply h
  simp only [Scanner.NChar, List.getD_eq_getElem?_getD]
  rw [List.getElem?_eq_none (by omega)]
  rfl

/-- A lexeme found by `Peek` lies inside the source. -/
theorem Peek_offset_le (s : Str) (p : Nat) (h : p ≤ s.length) :
    (Scanner.Peek s p).2 + (Scanner.Peek s p).1.offset ≤ s.length := by
  have key : ∀ q, q ≤ s.length → ∀ l,
      Scanner.PeekCase (Scanner.NChar s q) (Scanner.NChar s (q + 1)) = some l →
      q + l.offset ≤ s.length := by
    intro q hq l hl
    unfold Scanner.PeekCase at hl
    split at hl
    · cases hl
    · simp only [Option.some.injEq] at hl
      subst hl
      have := PeekToken_offset (Scanner.NChar s q) (Scanner.NChar s (q + 1))
      have h1 := fun h => NChar_ne_zero_lt s q (this.2.1 h)
      have h2 := fun h => NChar_ne_zero_lt s (q + 1) (this.2.2 h)
      omega
  unfold Scanner.Peek
  split
  · rename_i l hl
    exact key p h l hl
  · simp only []
    split
    · rename_i l hl
      exact key _ (SkipSpace_le s p h) l hl
    · simpa [Lexme.unknown] using SkipSpace_le s p h

theorem Next_Consistent (source : Str) (s : Scanner) (h : s.position_ ≤ source.length) :
    Scanner.Consistent source (Scanner.Next source s) := by
  simp only [Scanner.Consistent, Scanner.Next]
  exact ⟨Peek_idem source s.position_, Peek_pos_le source _ h⟩

theorem Move_Consistent (source : Str) (s : Scanner) (h : Scanner.Consistent source s) :
    Scanner.Consistent source (Scanner.Move source s) := by
  apply Next_Consistent
  have := Peek_offset_le source s.position_ h.2
  rw [h.1] at this
  simpa using this

theorem Set_Consistent (source : Str) (s : Scanner) (i : Nat) (h : i ≤ source.length) :
    Scanner.Consistent source (Scanner.Set source s i) := by
  apply Next_Consistent
  simpa using h

theorem MoveBy_Consistent (source : Str) (s : Scanner) (n : Nat)
    (h : s.position_ + n ≤ source.length) :
    Scanner.Consistent source (Scanner.MoveBy source s n) := by
  apply Next_Consistent
  simpa using h

theorem init_Consistent (source : Str) (p : Nat) (h : p ≤ source.length) :
    Scanner.Consistent source (Scanner.init source p) := by
  apply Next_Consistent
  simpa using h

end tsub

namespace tsub
open Value TokenId

/-! ## The scanner of the text alone and the scanner of the template -/

theorem drop_embed (s1 pre suf : Str) (p : Nat) (h : p ≤ s1.length) :
    (pre ++ s1 ++ suf).drop (p + pre.length) = s1.drop p ++ suf := by
  rw [List.append_assoc, Nat.add_comm, List.drop_append, List.drop_append_of_le_length h]

theorem Stop_isspace {suf : Str} (hs : Stop suf) (c : Char) (h : suf.head? = some c) :
    isspace c = false := by
  rw [hs c h]; decide

theorem takeWhile_append_stop (f : Char → Bool) (hf : f '\x60' = false) {suf : Str}
    (hs : Stop suf) (v : Str) : (v ++ suf).takeWhile f = v.takeWhile f := by
  induction v with
  | nil =>
    cases suf with
    | nil => rfl
    | cons c t =>
      have : c = '\x60' := hs c rfl
      subst this
      simp [List.takeWhile_cons, hf]
  | cons a t ih =>
    simp only [List.cons_append, List.takeWhile_cons]
    split
    · rw [ih]
    · rfl

theorem NChar_embed_lt (s1 pre suf : Str) (p : Nat) (h : p < s1.length) :
    Scanner.NChar (pre ++ s1 ++ suf) (p + pre.length) = Scanner.NChar s1 p := by
  rw [NChar_eq_head, NChar_eq_head, drop_embed _ _ _ _ (Nat.le_of_lt h)]
  cases h2 : s1.drop p with
  | nil =>
    have := congrArg List.length h2
    simp at this
    omega
  | cons c t => simp

theorem NChar_embed_end (s1 pre suf : Str) (hs : Stop suf) :
    Scanner.NChar (pre ++ s1 ++ suf) (s1.length + pre.length) = Char.ofNat 0 ∨
    Scanner.NChar (pre ++ s1 ++ suf) (s1.length + pre.length) = '\x60' := by
  rw [NChar_eq_head, drop_embed _ _ _ _ (Nat.le_refl _)]
  simp only [List.drop_length, List.nil_append]
  cases h2 : suf.head? with
  | none => left; rfl
  | some c => right; simpa using hs c h2

theorem NChar_end (s1 : Str) (p : Nat) (h : s1.length ≤ p) :
    Scanner.NChar s1 p = Char.ofNat 0 := by
  simp only [Scanner.NChar, List.getD_eq_getElem?_getD]
  rw [List.getElem?_eq_none h]
  rfl

theorem PeekToken_next (cha n1 n2 : Char)
    (h : ∀ x ∈ Scanner.paired, (n1 = x.2.1 ↔ n2 = x.2.1)) :
    Scanner.PeekToken cha n1 = Scanner.PeekToken cha n2 := by
  unfold Scanner.PeekToken
  split
  · rfl
  · cases h1 : Scanner.single.lookup cha with
    | some tk => rfl
    | none =>
      cases h2 : Scanner.paired.lookup cha with
      | none => rfl
      | some e =>
        obtain ⟨d, tk, l⟩ := e
        have := h _ (lookup_mem _ _ _ h2)
        simp only at this
        simp only [this]

theorem PeekCase_next (cha n1 n2 : Char)
    (h : ∀ x ∈ Scanner.paired, (n1 = x.2.1 ↔ n2 = x.2.1)) :
    Scanner.PeekCase cha n1 = Scanner.PeekCase cha n2 := by
  unfold Scanner.PeekCase
  rw [PeekToken_next cha n1 n2 h]

theorem inert_zero : ∀ x ∈ Scanner.paired, ¬ (Char.ofNat 0 = x.2.1) := by decide

theorem inert_backtick : ∀ x ∈ Scanner.paired, ¬ ('\x60' = x.2.1) := by decide

theorem PeekCase_zero (next : Char) :
    Scanner.PeekCase (Char.ofNat 0) next = some ⟨TK_EOF, 0⟩ := by
  rfl

theorem PeekCase_backtick (next : Char) :
    Scanner.PeekCase '\x60' next = some Lexme.unknown := by
  rfl

theorem OptLexRel_refl (r : Option Lexme) : OptLexRel r r := by
  cases r with
  | none => trivial
  | some l => exact Or.inl rfl

theorem PeekCase_embed (s1 pre suf : Str) (hs : Stop suf) (p : Nat) (h : p ≤ s1.length) :
    OptLexRel (Scanner.PeekCase (Scanner.NChar s1 p) (Scanner.NChar s1 (p + 1)))
      (Scanner.PeekCase (Scanner.NChar (pre ++ s1 ++ suf) (p + pre.length))
        (Scanner.NChar (pre ++ s1 ++ suf) (p + pre.length + 1))) := by
  by_cases hp : p < s1.length
  · rw [NChar_embed_lt s1 pre suf p hp]
    by_cases hp1 : p + 1 < s1.length
    · have : p + pre.length + 1 = (p + 1) + pre.length := by omega
      rw [this, NChar_embed_lt s1 pre suf (p + 1) hp1]
      exact OptLexRel_refl _
    · have e1 : p + 1 = s1.length := by omega
      have : p + pre.length + 1 = s1.length + pre.length := by omega
      rw [this, e1, NChar_end s1 s1.length (Nat.le_refl _)]
      rcases NChar_embed_end s1 pre suf hs with h0 | h0 <;> rw [h0]
      · exact OptLexRel_refl _
      · rw [PeekCase_next _ (Char.ofNat 0) '\x60'
          (fun x hx => ⟨fun e => absurd e (inert_zero x hx), fun e => absurd e (inert_backtick x hx)⟩)]
        exact OptLexRel_refl _
  · have e1 : p = s1.length := by omega
    subst e1
    rw [NChar_end s1 s1.length (Nat.le_refl _), PeekCase_zero]
    rcases NChar_embed_end s1 pre suf hs with h0 | h0 <;> rw [h0]
    · rw [PeekCase_zero]; exact Or.inl rfl
    · rw [PeekCase_backtick]; exact Or.inr ⟨rfl, rfl⟩

theorem SkipSpace_embed (s1 pre suf : Str) (hs : Stop suf) (p : Nat) (h : p ≤ s1.length) :
    Scanner.SkipSpace (pre ++ s1 ++ suf) (p + pre.length) = Scanner.SkipSpace s1 p + pre.length := by
  simp only [Scanner.SkipSpace]
  rw [drop_embed _ _ _ _ h, takeWhile_append_stop isspace (by decide) hs]
  omega

theorem Peek_embed (s1 pre suf : Str) (hs : Stop suf) (p : Nat) (h : p ≤ s1.length) :
    (Scanner.Peek (pre ++ s1 ++ suf) (p + pre.length)).2 = (Scanner.Peek s1 p).2 + pre.length ∧
    LexRel (Scanner.Peek s1 p).1 (Scanner.Peek (pre ++ s1 ++ suf) (p + pre.length)).1 := by
  have h1 := PeekCase_embed s1 pre suf hs p h
  have h2 := PeekCase_embed s1 pre suf hs (Scanner.SkipSpace s1 p) (SkipSpace_le s1 p h)
  unfold Scanner.Peek
  rw [SkipSpace_embed s1 pre suf hs p h]
  cases e1 : Scanner.PeekCase (Scanner.NChar s1 p) (Scanner.NChar s1 (p + 1)) with
  | some l1 =>
    rw [e1] at h1
    cases e2 : Scanner.PeekCase (Scanner.NChar (pre ++ s1 ++ suf) (p + pre.length))
        (Scanner.NChar (pre ++ s1 ++ suf) (p + pre.length + 1)) with
    | none => rw [e2] at h1; exact absurd h1 (by simp [OptLexRel])
    | some l2 => rw [e2] at h1; exact ⟨rfl, h1⟩
  | none =>
    rw [e1] at h1
    cases e2 : Scanner.PeekCase (Scanner.NChar (pre ++ s1 ++ suf) (p + pre.length))
        (Scanner.NChar (pre ++ s1 ++ suf) (p + pre.length + 1)) with
    | some l2 => rw [e2] at h1; exact absurd h1 (by simp [OptLexRel])
    | none =>
      simp only []
      cases e3 : Scanner.PeekCase (Scanner.NChar s1 (Scanner.SkipSpace s1 p))
          (Scanner.NChar s1 (Scanner.SkipSpace s1 p + 1)) with
      | none => exact absurd e3 (PeekCase_SkipSpace s1 p _)
      | some l1 =>
        rw [e3] at h2
        cases e4 : Scanner.PeekCase
            (Scanner.NChar (pre ++ s1 ++ suf) (Scanner.SkipSpace s1 p + pre.length))
            (Scanner.NChar (pre ++ s1 ++ suf) (Scanner.SkipSpace s1 p + pre.length + 1)) with
        | none => rw [e4] at h2; exact absurd h2 (by simp [OptLexRel])
        | some l2 => rw [e4] at h2; exact ⟨rfl, h2⟩

/-! ## Corresponding states -/

theorem LexRel_offset {l1 l2 : Lexme} (h : LexRel l1 l2) : l2.offset = l1.offset := by
  rcases h with h | ⟨h1, h2⟩
  · rw [h]
  · rw [h1, h2]; rfl

theorem Rel_lex {s1 pre suf : Str} (hs : Stop suf) {I1 I2 : Interp} (h : Rel s1 pre suf I1 I2) :
    LexRel I1.scanner_.lexme_ I2.scanner_.lexme_ := by
  obtain ⟨c1, c2, hp, _⟩ := h
  have := (Peek_embed s1 pre suf hs I1.scanner_.position_ c1.2).2
  rw [← hp, c1.1, c2.1] at this
  exact this

/-- The token of the template side, given the token of the text side. -/
theorem Rel_token {s1 pre suf : Str} (hs : Stop suf) {I1 I2 : Interp} (h : Rel s1 pre suf I1 I2) :
    I2.token = I1.token ∨ (I1.token = TK_EOF ∧ I2.token = TK_UNKNOWN) := by
  rcases Rel_lex hs h with h | ⟨h1, h2⟩
  · left; simp [Interp.token, h]
  · right; simp [Interp.token, h1, h2, Lexme.unknown]

theorem Rel_next (s1 pre suf : Str) (hs : Stop suf) (sc1 sc2 : Scanner) (D : Dollar)
    (e1 e2 : Str) (hp : sc1.position_ ≤ s1.length)
    (hk : sc2.position_ = sc1.position_ + pre.length) :
    Rel s1 pre suf ⟨Scanner.Next s1 sc1, D, e1⟩ ⟨Scanner.Next (pre ++ s1 ++ suf) sc2, D, e2⟩ := by
  refine ⟨Next_Consistent s1 sc1 hp, Next_Consistent _ sc2 ?_, ?_, rfl⟩
  · rw [hk]; simp only [List.length_append]; omega
  · simp only [Scanner.Next]
    rw [hk]
    exact (Peek_embed s1 pre suf hs sc1.position_ hp).1

theorem Rel_Move {s1 pre suf : Str} (hs : Stop suf) {I1 I2 : Interp} (h : Rel s1 pre suf I1 I2) :
    Rel s1 pre suf (I1.Move s1) (I2.Move (pre ++ s1 ++ suf)) := by
  have hl := LexRel_offset (Rel_lex hs h)
  obtain ⟨c1, c2, hp, hd⟩ := h
  have hb := Peek_offset_le s1 I1.scanner_.position_ c1.2
  rw [c1.1] at hb
  simp only [Interp.Move, Scanner.Move]
  rw [hd]
  apply Rel_next s1 pre suf hs
  · exact hb
  · simp only [hp, hl]; omega

theorem Rel_Set {s1 pre suf : Str} (hs : Stop suf) {I1 I2 : Interp} (h : Rel s1 pre suf I1 I2)
    (i : Nat) (hi : i ≤ s1.length) :
    Rel s1 pre suf (I1.Set s1 i) (I2.Set (pre ++ s1 ++ suf) (i + pre.length)) := by
  obtain ⟨c1, c2, hp, hd⟩ := h
  simp only [Interp.Set, Scanner.Set]
  rw [hd]
  exact Rel_next s1 pre suf hs _ _ _ _ _ hi rfl

theorem Rel_MoveBy {s1 pre suf : Str} (hs : Stop suf) {I1 I2 : Interp} (h : Rel s1 pre suf I1 I2)
    (n : Nat) (hn : I1.scanner_.position_ + n ≤ s1.length) :
    Rel s1 pre suf { I1 with scanner_ := I1.scanner_.MoveBy s1 n }
      { I2 with scanner_ := I2.scanner_.MoveBy (pre ++ s1 ++ suf) n } := by
  obtain ⟨c1, c2, hp, hd⟩ := h
  simp only [Scanner.MoveBy]
  rw [hd]
  apply Rel_next s1 pre suf hs _ _ _ _ _ hn
  simp only [hp]; omega

theorem Rel_kill {s1 pre suf : Str} {I1 I2 : Interp} (h : Rel s1 pre suf I1 I2) (d : Nat) :
    Rel s1 pre suf (I1.kill d) (I2.kill d) := by
  obtain ⟨c1, c2, hp, hd⟩ := h
  exact ⟨c1, c2, hp, by simp [Interp.kill, hd]⟩

theorem Rel_rest {s1 pre suf : Str} {I1 I2 : Interp} (h : Rel s1 pre suf I1 I2) (d : Nat) :
    Rel s1 pre suf (I1.rest d) (I2.rest d) := by
  obtain ⟨c1, c2, hp, hd⟩ := h
  exact ⟨c1, c2, hp, by simp [Interp.rest, hd]⟩

theorem Rel_wake {s1 pre suf : Str} {I1 I2 : Interp} (h : Rel s1 pre suf I1 I2) (d : Nat) :
    Rel s1 pre suf (I1.wake d) (I2.wake d) := by
  obtain ⟨c1, c2, hp, hd⟩ := h
  exact ⟨c1, c2, hp, by simp [Interp.wake, hd]⟩

theorem Rel_ReportError {s1 pre suf : Str} {I1 I2 : Interp} (h : Rel s1 pre suf I1 I2)
    (src1 src2 m1 m2 : Str) :
    Rel s1 pre suf (Interp.ReportError src1 I1 m1) (Interp.ReportError src2 I2 m2) := by
  obtain ⟨c1, c2, hp, hd⟩ := h
  exact ⟨c1, c2, hp, hd⟩

theorem Rel_dollar {s1 pre suf : Str} {I1 I2 : Interp} (h : Rel s1 pre suf I1 I2) (D : Dollar) :
    Rel s1 pre suf { I1 with dollar_value_ := D } { I2 with dollar_value_ := D } := by
  obtain ⟨c1, c2, hp, hd⟩ := h
  exact ⟨c1, c2, hp, rfl⟩

end tsub

namespace tsub
open Value TokenId

/-! ## The payload parsers on the text alone and in the template -/

theorem Consistent_lt {s : Str} {sc : Scanner} (h : Scanner.Consistent s sc)
    (ht : sc.lexme_.token ≠ TK_EOF) : sc.position_ < s.length := by
  by_contra hp
  have e := NChar_end s sc.position_ (by omega)
  have h1 := h.1
  unfold Scanner.Peek at h1
  rw [e, PeekCase_zero] at h1
  simp only [Prod.mk.injEq] at h1
  exact ht (by rw [← h1.1])

theorem strtol_append {suf : Str} (hs : Stop suf) (v : Str) :
    strtol (v ++ suf) = strtol v := by
  have hw := takeWhile_append_stop isspace (by decide) hs v
  have hwl := takeWhile_length_le isspace v
  unfold strtol
  simp only [hw]
  rw [List.drop_append_of_le_length hwl]
  generalize List.drop (List.takeWhile isspace v).length v = w
  have hh : ((w ++ suf).head? = some '-' ↔ w.head? = some '-') ∧
      ((w ++ suf).head? = some '+' ↔ w.head? = some '+') := by
    cases w with
    | cons a t => simp
    | nil =>
      simp only [List.nil_append, List.head?_nil]
      cases h2 : suf.head? with
      | none => simp
      | some c =>
        have := hs c h2
        subst this
        simp
  simp only [hh.1, hh.2]
  have hd : List.takeWhile isdigit (List.drop (if w.head? = some '-' ∨ w.head? = some '+' then 1 else 0)
      (w ++ suf)) = List.takeWhile isdigit (List.drop
        (if w.head? = some '-' ∨ w.head? = some '+' then 1 else 0) w) := by
    split
    · rename_i hc
      cases w with
      | nil => simp at hc
      | cons a t =>
        simp only [List.cons_append, List.drop_succ_cons, List.drop_zero]
        exact takeWhile_append_stop isdigit (by decide) hs t
    · simp only [List.drop_zero]
      exact takeWhile_append_stop isdigit (by decide) hs w
  simp only [hd]

theorem strtol_le (v : Str) : (strtol v).2 ≤ v.length := by
  unfold strtol
  simp only []
  set ws := (List.takeWhile isspace v).length with hws
  have hwl : ws ≤ v.length := takeWhile_length_le isspace v
  set w := List.drop ws v with hw
  have hwlen : w.length = v.length - ws := by simp [hw]
  set sl := (if w.head? = some '-' ∨ w.head? = some '+' then 1 else 0) with hsl
  have h3 : sl ≤ w.length := by
    rw [hsl]
    split
    · rename_i hc
      cases hv : w with
      | nil => rw [hv] at hc; simp at hc
      | cons a t => simp
    · omega
  set ds := List.takeWhile isdigit (List.drop sl w) with hds
  have h2 : ds.length ≤ w.length - sl := by
    have := takeWhile_length_le isdigit (List.drop sl w)
    simpa using this
  split_ifs <;> simp only [] <;> omega

theorem ParseNumber_sim {s1 pre suf : Str} (hs : Stop suf) {I1 I2 : Interp}
    (h : Rel s1 pre suf I1 I2) :
    RelRes s1 pre suf (Interp.ParseNumber s1 I1) (Interp.ParseNumber (pre ++ s1 ++ suf) I2) := by
  have hp := h.2.2.1
  have hle := h.1.2
  unfold Interp.ParseNumber
  rw [hp, drop_embed _ _ _ _ hle, strtol_append hs]
  have hb := strtol_le (s1.drop I1.scanner_.position_)
  simp only [List.length_drop] at hb
  cases hst : strtol (s1.drop I1.scanner_.position_) with
  | mk o n =>
    rw [hst] at hb
    cases o with
    | none => exact ⟨rfl, h⟩
    | some v =>
      refine ⟨rfl, Rel_MoveBy hs h n ?_⟩
      simp only at hb
      omega

theorem ParseVariable_sim {s1 pre suf : Str} (hs : Stop suf) {I1 I2 : Interp}
    (h : Rel s1 pre suf I1 I2) (ht : I1.token ≠ TK_EOF) :
    (Interp.ParseVariable (pre ++ s1 ++ suf) I2).1 = (Interp.ParseVariable s1 I1).1 ∧
    Rel s1 pre suf (Interp.ParseVariable s1 I1).2 (Interp.ParseVariable (pre ++ s1 ++ suf) I2).2 := by
  have hp := h.2.2.1
  have hlt := Consistent_lt h.1 ht
  have hrun := takeWhile_length_le IsIdRestChar (s1.drop (I1.scanner_.position_ + 1))
  simp only [List.length_drop] at hrun
  unfold Interp.ParseVariable
  simp only []
  have e1 : I2.scanner_.position_ + 1 = (I1.scanner_.position_ + 1) + pre.length := by omega
  rw [e1, drop_embed _ _ _ _ (by omega), takeWhile_append_stop IsIdRestChar (by decide) hs]
  constructor
  · rw [hp, drop_embed _ _ _ _ (by omega)]
    have e2 : I1.scanner_.position_ + 1 + pre.length +
        (List.takeWhile IsIdRestChar (List.drop (I1.scanner_.position_ + 1) s1)).length -
        (I1.scanner_.position_ + pre.length) =
        I1.scanner_.position_ + 1 +
        (List.takeWhile IsIdRestChar (List.drop (I1.scanner_.position_ + 1) s1)).length -
        I1.scanner_.position_ := by omega
    rw [e2]
    apply List.take_append_of_le_length
    simp only [List.length_drop]
    omega
  · have e3 : I1.scanner_.position_ + 1 + pre.length +
        (List.takeWhile IsIdRestChar (List.drop (I1.scanner_.position_ + 1) s1)).length =
        (I1.scanner_.position_ + 1 +
        (List.takeWhile IsIdRestChar (List.drop (I1.scanner_.position_ + 1) s1)).length) + pre.length := by
      omega
    rw [e3]
    exact Rel_Set hs h _ (by omega)

theorem scan_append_some (suf : Str) : ∀ (l : Str) (i : Nat) (buf : Str) (r : Str × Nat),
    Interp.ParseString.scan l i buf = some r →
    Interp.ParseString.scan (l ++ suf) i buf = some r ∧ r.2 < i + l.length
  | [], _, _, _, h => by simp [Interp.ParseString.scan] at h
  | [c], i, buf, r, h => by
    simp only [Interp.ParseString.scan] at h
    split at h
    · rename_i hc
      subst hc
      simp only [Option.some.injEq] at h
      subst h
      cases suf with
      | nil => simp [Interp.ParseString.scan]
      | cons d t => simp [Interp.ParseString.scan]
    · cases h
  | c :: d :: rest, i, buf, r, h => by
    simp only [Interp.ParseString.scan] at h
    simp only [List.cons_append, Interp.ParseString.scan]
    split
    · rename_i hc
      rw [if_pos hc] at h
      have := scan_append_some suf rest (i + 2) (buf ++ [d]) r h
      refine ⟨this.1, ?_⟩
      simp only [List.length_cons]
      omega
    · rename_i hc
      rw [if_neg hc] at h
      split
      · rename_i hq
        rw [if_pos hq] at h
        simp only [Option.some.injEq] at h
        subst h
        simp
      · rename_i hq
        rw [if_neg hq] at h
        have := scan_append_some suf (d :: rest) (i + 1) (buf ++ [c]) r h
        refine ⟨this.1, ?_⟩
        simp only [List.length_cons] at this ⊢
        omega

theorem scan_no_quote : ∀ (l : Str) (i : Nat) (buf : Str), '\"' ∉ l →
    Interp.ParseString.scan l i buf = none
  | [], _, _, _ => by simp [Interp.ParseString.scan]
  | [c], i, buf, h => by
    simp only [List.mem_singleton] at h
    simp only [Interp.ParseString.scan]
    rw [if_neg (fun e => h e.symm)]
  | c :: d :: rest, i, buf, h => by
    simp only [List.mem_cons, not_or] at h
    simp only [Interp.ParseString.scan]
    split
    · exact scan_no_quote rest _ _ h.2.2
    · rw [if_neg (fun e => h.1 e.symm)]
      exact scan_no_quote (d :: rest) _ _ (by simp only [List.mem_cons, not_or]; exact h.2)

theorem scan_append_none {suf : Str} (hs : Stop suf) (hq : '\"' ∉ suf) :
    ∀ (l : Str) (i : Nat) (buf : Str),
    Interp.ParseString.scan l i buf = none →
    Interp.ParseString.scan (l ++ suf) i buf = none
  | [], i, buf, _ => by simpa using scan_no_quote suf i buf hq
  | [c], i, buf, h => by
    simp only [Interp.ParseString.scan] at h
    split at h
    · cases h
    · rename_i hc
      cases suf with
      | nil => simp [Interp.ParseString.scan, hc]
      | cons d t =>
        have hd : d = '\x60' := hs d rfl
        subst hd
        simp only [List.singleton_append, Interp.ParseString.scan]
        rw [if_neg (by simp [Interp.IsEscapeChar]), if_neg hc]
        exact scan_no_quote _ _ _ hq
  | c :: d :: rest, i, buf, h => by
    simp only [Interp.ParseString.scan] at h
    simp only [List.cons_append, Interp.ParseString.scan]
    split
    · rename_i hc
      rw [if_pos hc] at h
      exact scan_append_none hs hq rest _ _ h
    · rename_i hc
      rw [if_neg hc] at h
      split
      · rename_i hq2
        rw [if_pos hq2] at h
        cases h
      · rename_i hq2
        rw [if_neg hq2] at h
        exact scan_append_none hs hq (d :: rest) _ _ h

theorem scan_shift (k : Nat) : ∀ (l : Str) (i : Nat) (buf : Str),
    Interp.ParseString.scan l (i + k) buf =
      (Interp.ParseString.scan l i buf).map (fun r => (r.1, r.2 + k))
  | [], _, _ => by simp [Interp.ParseString.scan]
  | [c], i, buf => by
    simp only [Interp.ParseString.scan]
    split <;> simp
  | c :: d :: rest, i, buf => by
    simp only [Interp.ParseString.scan]
    split
    · have := scan_shift k rest (i + 2) (buf ++ [d])
      rw [← this]
      congr 1
      omega
    · split
      · simp
      · have := scan_shift k (d :: rest) (i + 1) (buf ++ [c])
        rw [← this]
        congr 1
        omega

theorem ParseString_sim {s1 pre suf : Str} (hs : Stop suf) {I1 I2 : Interp}
    (h : Rel s1 pre suf I1 I2) (ht : I1.token = TK_STRING) :
    SimRes s1 pre suf (Interp.ParseString s1 I1) (Interp.ParseString (pre ++ s1 ++ suf) I2) := by
  have hp := h.2.2.1
  have hlt := Consistent_lt h.1 (by rw [← Interp.token, ht]; decide)
  unfold Interp.ParseString
  have e1 : I2.scanner_.position_ + 1 = (I1.scanner_.position_ + 1) + pre.length := by omega
  rw [e1, drop_embed _ _ _ _ (by omega),
    scan_shift pre.length (List.drop (I1.scanner_.position_ + 1) s1 ++ suf)
      (I1.scanner_.position_ + 1) []]
  cases hsc : Interp.ParseString.scan (s1.drop (I1.scanner_.position_ + 1))
      (I1.scanner_.position_ + 1) [] with
  | some r =>
    obtain ⟨buf, i⟩ := r
    have := scan_append_some suf _ _ _ _ hsc
    have hb := this.2
    simp only [List.length_drop] at hb
    left
    rw [this.1]
    simp only [Option.map_some']
    have e2 : i + pre.length + 1 = (i + 1) + pre.length := by omega
    rw [e2]
    exact ⟨rfl, Rel_Set hs h _ (by omega)⟩
  | none =>
    by_cases hq : '\"' ∈ suf
    · right
      exact ⟨hq, ht⟩

    · left
      rw [scan_append_none hs hq _ _ _ hsc]
      exact ⟨rfl, h⟩

end tsub

namespace tsub
open Value TokenId

/-! ## The evaluator on the text alone and in the template -/

theorem Poisoned_ret_none {I : Interp} (h : I.token = TK_STRING) :
    Poisoned (Result.ret none I) := h

theorem kill_token (d : Nat) (I : Interp) : (I.kill d).token = I.token := rfl

theorem ReportError_token (src : Str) (I : Interp) (m : Str) :
    (Interp.ReportError src I m).token = I.token := rfl

/-- Sequencing: a call whose outcomes correspond, followed by continuations that
correspond, gives outcomes that correspond. -/
theorem sim_bind {s1 pre suf : Str} (g1 g2 : Interp → Interp) (K1 K2 : Value → Interp → Result)
    (hg : ∀ J1 J2, Rel s1 pre suf J1 J2 → Rel s1 pre suf (g1 J1) (g2 J2))
    (hgt : ∀ J, (g1 J).token = J.token)
    (hK : ∀ v J1 J2, Rel s1 pre suf J1 J2 → SimRes s1 pre suf (K1 v J1) (K2 v J2)) :
    ∀ (r1 r2 : Result), SimRes s1 pre suf r1 r2 →
    SimRes s1 pre suf
      (match r1 with
        | Result.crash c => Result.crash c
        | Result.ret none I1 => Result.ret none (g1 I1)
        | Result.ret (some v) I1 => K1 v I1)
      (match r2 with
        | Result.crash c => Result.crash c
        | Result.ret none I1 => Result.ret none (g2 I1)
        | Result.ret (some v) I1 => K2 v I1) := by
  intro r1 r2 h
  rcases h with h | ⟨hq, hp⟩
  · cases r1 with
    | crash c1 =>
      cases r2 with
      | crash c2 => exact Or.inl h
      | ret o2 J2 => exact absurd h (by simp [RelRes])
    | ret o1 J1 =>
      cases r2 with
      | crash c2 => exact absurd h (by simp [RelRes])
      | ret o2 J2 =>
        obtain ⟨ho, hr⟩ := h
        subst ho
        cases o1 with
        | none => exact Or.inl ⟨rfl, hg _ _ hr⟩
        | some v => exact hK v _ _ hr
  · cases r1 with
    | crash c1 => exact absurd hp (by simp [Poisoned])
    | ret o1 J1 =>
      cases o1 with
      | some v => exact absurd hp (by simp [Poisoned])
      | none =>
        right
        refine ⟨hq, ?_⟩
        show (g1 J1).token = TK_STRING
        rw [hgt]
        exact hp

theorem Rel_token_iff {s1 pre suf : Str} (hs : Stop suf) {I1 I2 : Interp}
    (h : Rel s1 pre suf I1 I2) (t : TokenId) (h1 : t ≠ TK_EOF) (h2 : t ≠ TK_UNKNOWN) :
    I2.token = t ↔ I1.token = t := by
  rcases Rel_token hs h with ht | ⟨ht1, ht2⟩
  · rw [ht]
  · rw [ht1, ht2]
    exact ⟨fun e => absurd e.symm h2, fun e => absurd e.symm h1⟩

theorem sim_fail {s1 pre suf : Str} {I1 I2 : Interp} (h : Rel s1 pre suf I1 I2) :
    SimRes s1 pre suf (Result.ret none I1) (Result.ret none I2) := Or.inl ⟨rfl, h⟩

theorem sim_ok {s1 pre suf : Str} {I1 I2 : Interp} (h : Rel s1 pre suf I1 I2) (v : Value) :
    SimRes s1 pre suf (Result.ret (some v) I1) (Result.ret (some v) I2) := Or.inl ⟨rfl, h⟩

theorem sim_error {s1 pre suf : Str} {I1 I2 : Interp} (h : Rel s1 pre suf I1 I2)
    (src1 src2 m1 m2 : Str) :
    SimRes s1 pre suf (Result.ret none (Interp.ReportError src1 I1 m1))
      (Result.ret none (Interp.ReportError src2 I2 m2)) :=
  Or.inl ⟨rfl, Rel_ReportError h _ _ _ _⟩

theorem sim_formatted {s1 pre suf : Str} {I1 I2 : Interp} (h : Rel s1 pre suf I1 I2)
    (src1 src2 m : Str) :
    SimRes s1 pre suf (Interp.ReportFormatted src1 I1 m) (Interp.ReportFormatted src2 I2 m) := by
  unfold Interp.ReportFormatted
  split
  · exact Or.inl rfl
  · exact sim_error h _ _ _ _

theorem InterpTerm_loop_sim {s1 pre suf : Str} (hs : Stop suf) (f1 f2 : Eval)
    (hf : SimEval s1 pre suf f1 f2) :
    ∀ (n : Nat) (env : List Value) (output : Value) (I1 I2 : Interp),
      Rel s1 pre suf I1 I2 →
      SimRes s1 pre suf (Interp.InterpTerm.loop s1 f1 n env output I1)
        (Interp.InterpTerm.loop (pre ++ s1 ++ suf) f2 n env output I2) := by
  intro n
  induction n with
  | zero => intro env output I1 I2 h; exact Or.inl rfl
  | succ n ih =>
    intro env output I1 I2 h
    unfold Interp.InterpTerm.loop
    simp only [Rel_token_iff hs h TK_MUL (by decide) (by decide),
      Rel_token_iff hs h TK_DIV (by decide) (by decide)]
    split
    · refine sim_bind (Interp.kill env.length) (Interp.kill env.length) _ _ ?_ ?_ ?_ _ _
        (hf _ _ _ (Rel_Move hs h))
      · intro J1 J2 hJ; exact Rel_kill hJ _
      · intro J; rfl
      · intro rhs J1 J2 hJ
        cases output <;> cases rhs <;> simp only [] <;>
          try (exact sim_error (Rel_kill hJ _) _ _ _ _)
        split
        · exact ih _ _ _ _ (Rel_kill hJ _)
        · split
          · exact sim_error (Rel_kill hJ _) _ _ _ _
          · split
            · exact Or.inl rfl
            · exact ih _ _ _ _ (Rel_kill hJ _)
    · exact sim_ok (Rel_kill h _) _

theorem InterpComp_loop_sim {s1 pre suf : Str} (hs : Stop suf) (f1 f2 : Eval)
    (hf : SimEval s1 pre suf f1 f2) :
    ∀ (n : Nat) (env : List Value) (output : Value) (I1 I2 : Interp),
      Rel s1 pre suf I1 I2 →
      SimRes s1 pre suf (Interp.InterpComp.loop s1 f1 n env output I1)
        (Interp.InterpComp.loop (pre ++ s1 ++ suf) f2 n env output I2) := by
  intro n
  induction n with
  | zero => intro env output I1 I2 h; exact Or.inl rfl
  | succ n ih =>
    intro env output I1 I2 h
    unfold Interp.InterpComp.loop
    simp only [Rel_token_iff hs h TK_ADD (by decide) (by decide),
      Rel_token_iff hs h TK_SUB (by decide) (by decide)]
    split
    · refine sim_bind (Interp.kill env.length) (Interp.kill env.length) _ _ ?_ ?_ ?_ _ _
        (hf _ _ _ (Rel_Move hs h))
      · intro J1 J2 hJ; exact Rel_kill hJ _
      · intro J; rfl
      · intro rhs J1 J2 hJ
        cases output <;> cases rhs <;> simp only [] <;>
          try (exact sim_error (Rel_kill hJ _) _ _ _ _)
        split
        · exact ih _ _ _ _ (Rel_kill hJ _)
        · exact ih _ _ _ _ (Rel_kill hJ _)
    · exact sim_ok (Rel_kill h _) _

theorem isRelational_sim {s1 pre suf : Str} (hs : Stop suf) {I1 I2 : Interp}
    (h : Rel s1 pre suf I1 I2) : Interp.isRelational I2.token = Interp.isRelational I1.token := by
  rcases Rel_token hs h with ht | ⟨ht1, ht2⟩
  · rw [ht]
  · rw [ht1, ht2]; rfl

theorem InterpLogic_loop_sim {s1 pre suf : Str} (hs : Stop suf) (f1 f2 : Eval)
    (hf : SimEval s1 pre suf f1 f2) :
    ∀ (n : Nat) (env : List Value) (output : Value) (I1 I2 : Interp),
      Rel s1 pre suf I1 I2 →
      SimRes s1 pre suf (Interp.InterpLogic.loop s1 f1 n env output I1)
        (Interp.InterpLogic.loop (pre ++ s1 ++ suf) f2 n env output I2) := by
  intro n
  induction n with
  | zero => intro env output I1 I2 h; exact Or.inl rfl
  | succ n ih =>
    intro env output I1 I2 h
    unfold Interp.InterpLogic.loop
    rw [isRelational_sim hs h]
    split
    · rename_i hrel
      have htok : I2.token = I1.token := by
        rcases Rel_token hs h with ht | ⟨ht1, ht2⟩
        · exact ht
        · rw [ht1] at hrel; exact absurd hrel (by decide)
      rw [htok]
      refine sim_bind (Interp.kill env.length) (Interp.kill env.length) _ _ ?_ ?_ ?_ _ _
        (hf _ _ _ (Rel_Move hs h))
      · intro J1 J2 hJ; exact Rel_kill hJ _
      · intro J; rfl
      · intro rhs J1 J2 hJ
        cases rhs <;> cases output <;> simp only [] <;>
          try (exact sim_error (Rel_kill hJ _) _ _ _ _)
        · split
          · exact ih _ _ _ _ (Rel_kill hJ _)
          · exact Or.inl rfl
        · split
          · exact ih _ _ _ _ (Rel_kill hJ _)
          · exact Or.inl rfl
    · exact sim_ok (Rel_kill h _) _

theorem InterpTenery_loop_sim {s1 pre suf : Str} (hs : Stop suf) (f1 f2 : Eval)
    (hf : SimEval s1 pre suf f1 f2) :
    ∀ (n : Nat) (env : List Value) (output : Value) (I1 I2 : Interp),
      Rel s1 pre suf I1 I2 →
      SimRes s1 pre suf (Interp.InterpTenery.loop s1 f1 n env output I1)
        (Interp.InterpTenery.loop (pre ++ s1 ++ suf) f2 n env output I2) := by
  intro n
  induction n with
  | zero => intro env output I1 I2 h; exact Or.inl rfl
  | succ n ih =>
    intro env output I1 I2 h
    unfold Interp.InterpTenery.loop
    simp only [Rel_token_iff hs h TK_AND (by decide) (by decide),
      Rel_token_iff hs h TK_OR (by decide) (by decide)]
    split
    · refine sim_bind (Interp.kill env.length) (Interp.kill env.length) _ _ ?_ ?_ ?_ _ _
        (hf _ _ _ (Rel_Move hs h))
      · intro J1 J2 hJ; exact Rel_kill hJ _
      · intro J; rfl
      · intro rhs J1 J2 hJ
        split
        · exact Or.inl rfl
        · split
          · exact ih _ _ _ _ (Rel_kill hJ _)
          · exact ih _ _ _ _ (Rel_kill hJ _)
    · exact sim_ok (Rel_kill h _) _

/-- A level of binary operators: the first operand, then the loop. -/
theorem level_sim {s1 pre suf : Str} (f1 f2 : Eval) (L1 L2 : List Value → Value → Interp → Result)
    (hf : SimEval s1 pre suf f1 f2)
    (hL : ∀ env output I1 I2, Rel s1 pre suf I1 I2 →
      SimRes s1 pre suf (L1 env output I1) (L2 env output I2)) :
    ∀ env I1 I2, Rel s1 pre suf I1 I2 →
    SimRes s1 pre suf
      (match f1 env I1 with
        | Result.crash c => Result.crash c
        | Result.ret none J => Result.ret none J
        | Result.ret (some output) J => L1 env output J)
      (match f2 env I2 with
        | Result.crash c => Result.crash c
        | Result.ret none J => Result.ret none J
        | Result.ret (some output) J => L2 env output J) := by
  intro env I1 I2 h
  exact sim_bind id id _ _ (fun _ _ hJ => hJ) (fun _ => rfl) (fun v J1 J2 hJ => hL env v J1 J2 hJ)
    _ _ (hf env I1 I2 h)

end tsub

namespace tsub
open Value TokenId

theorem SimRes_cases {s1 pre suf : Str} {r1 r2 : Result} (h : SimRes s1 pre suf r1 r2) :
    (∃ c, r1 = Result.crash c ∧ r2 = Result.crash c) ∨
    (∃ J1 J2, r1 = Result.ret none J1 ∧ r2 = Result.ret none J2 ∧ Rel s1 pre suf J1 J2) ∨
    (∃ v J1 J2, r1 = Result.ret (some v) J1 ∧ r2 = Result.ret (some v) J2 ∧
      Rel s1 pre suf J1 J2) ∨
    ('\"' ∈ suf ∧ ∃ J1, r1 = Result.ret none J1 ∧ J1.token = TK_STRING) := by
  rcases h with h | ⟨hq, hp⟩
  · cases r1 with
    | crash c1 =>
      cases r2 with
      | crash c2 => left; exact ⟨c1, rfl, by rw [show c1 = c2 from h]⟩
      | ret o2 J2 => exact absurd h (by simp [RelRes])
    | ret o1 J1 =>
      cases r2 with
      | crash c2 => exact absurd h (by simp [RelRes])
      | ret o2 J2 =>
        obtain ⟨ho, hr⟩ := h
        subst ho
        cases o1 with
        | none => right; left; exact ⟨J1, J2, rfl, rfl, hr⟩
        | some v => right; right; left; exact ⟨v, J1, J2, rfl, rfl, hr⟩
  · cases r1 with
    | crash c1 => exact absurd hp (by simp [Poisoned])
    | ret o1 J1 =>
      cases o1 with
      | some v => exact absurd hp (by simp [Poisoned])
      | none => right; right; right; exact ⟨hq, J1, rfl, hp⟩

theorem InterpListRange_sim {s1 pre suf : Str} (hs : Stop suf) (f1 f2 : Eval)
    (hf : SimEval s1 pre suf f1 f2) (env : List Value) {I1 I2 : Interp}
    (h : Rel s1 pre suf I1 I2) :
    SimRes s1 pre suf (Interp.InterpListRange s1 f1 env I1)
      (Interp.InterpListRange (pre ++ s1 ++ suf) f2 env I2) := by
  unfold Interp.InterpListRange
  simp only [ne_eq, Rel_token_iff hs h TK_TO (by decide) (by decide)]
  split
  · exact sim_fail h
  · exact hf _ _ _ (Rel_wake (Rel_Move hs h) _)

theorem InterpList_item_sim {s1 pre suf : Str} (hs : Stop suf) (f1 f2 : Eval)
    (hf : SimEval s1 pre suf f1 f2) (env : List Value) {I1 I2 : Interp}
    (h : Rel s1 pre suf I1 I2) :
    ItemSim s1 pre suf (Interp.InterpList.item s1 f1 env I1)
      (Interp.InterpList.item (pre ++ s1 ++ suf) f2 env I2) := by
  unfold Interp.InterpList.item
  rcases SimRes_cases (hf (env ++ [VALUE_NULL]) I1 I2 h) with
    ⟨c, e1, e2⟩ | ⟨J1, J2, e1, e2, hJ⟩ | ⟨val, J1, J2, e1, e2, hJ⟩ | ⟨hq, J1, e1, ht⟩
  · rw [e1, e2]; exact Or.inl rfl
  · rw [e1, e2]; exact Or.inl (Rel_kill hJ _)
  · rw [e1, e2]
    simp only []
    rcases SimRes_cases (InterpListRange_sim hs f1 f2 hf (env ++ [VALUE_NULL, val]) hJ) with
      ⟨c, e3, e4⟩ | ⟨K1, K2, e3, e4, hK⟩ | ⟨to_, K1, K2, e3, e4, hK⟩ | ⟨hq, K1, e3, ht⟩
    · rw [e3, e4]; exact Or.inl rfl
    · rw [e3, e4]; exact Or.inl ⟨rfl, Rel_rest hK _⟩
    · rw [e3, e4]
      cases val <;> cases to_ <;> simp only [] <;>
        try (exact Or.inl (Rel_ReportError (Rel_kill hK _) _ _ _ _))
      split
      · exact Or.inl (Rel_ReportError (Rel_kill hK _) _ _ _ _)
      · exact Or.inl ⟨rfl, Rel_rest hK _⟩
    · rw [e3]
      exact Or.inr ⟨hq, ht⟩
  · rw [e1]
    exact Or.inr ⟨hq, ht⟩

theorem InterpList_loop_sim {s1 pre suf : Str} (hs : Stop suf) (f1 f2 : Eval)
    (hf : SimEval s1 pre suf f1 f2) :
    ∀ (n : Nat) (env vl : List Value) (I1 I2 : Interp),
      Rel s1 pre suf I1 I2 →
      SimRes s1 pre suf (Interp.InterpList.loop s1 f1 n env vl I1)
        (Interp.InterpList.loop (pre ++ s1 ++ suf) f2 n env vl I2) := by
  intro n
  induction n with
  | zero => intro env vl I1 I2 h; exact Or.inl rfl
  | succ n ih =>
    intro env vl I1 I2 h
    unfold Interp.InterpList.loop
    rcases InterpList_item_sim hs f1 f2 hf env h with hi | ⟨hq, hp⟩
    · cases e1 : Interp.InterpList.item s1 f1 env I1 with
      | crash c1 =>
        cases e2 : Interp.InterpList.item (pre ++ s1 ++ suf) f2 env I2 with
        | crash c2 =>
          rw [e1, e2] at hi
          exact Or.inl hi
        | add v2 J2 => rw [e1, e2] at hi; exact absurd hi (by simp [ItemRel])
        | fail J2 => rw [e1, e2] at hi; exact absurd hi (by simp [ItemRel])
      | fail J1 =>
        cases e2 : Interp.InterpList.item (pre ++ s1 ++ suf) f2 env I2 with
        | crash c2 => rw [e1, e2] at hi; exact absurd hi (by simp [ItemRel])
        | add v2 J2 => rw [e1, e2] at hi; exact absurd hi (by simp [ItemRel])
        | fail J2 =>
          rw [e1, e2] at hi
          exact sim_fail hi
      | add v1 J1 =>
        cases e2 : Interp.InterpList.item (pre ++ s1 ++ suf) f2 env I2 with
        | crash c2 => rw [e1, e2] at hi; exact absurd hi (by simp [ItemRel])
        | fail J2 => rw [e1, e2] at hi; exact absurd hi (by simp [ItemRel])
        | add v2 J2 =>
          rw [e1, e2] at hi
          obtain ⟨hv, hJ⟩ := hi
          subst hv
          simp only [Rel_token_iff hs hJ TK_COMMA (by decide) (by decide),
            Rel_token_iff hs hJ TK_RSQR (by decide) (by decide)]
          split
          · exact ih _ _ _ _ (Rel_Move hs hJ)
          · split
            · exact sim_ok (Rel_Move hs (Rel_kill hJ _)) _
            · exact sim_error (Rel_kill hJ _) _ _ _ _
    · right
      refine ⟨hq, ?_⟩
      cases e1 : Interp.InterpList.item s1 f1 env I1 with
      | crash c1 => rw [e1] at hp; exact absurd hp (by simp [ItemPoisoned])
      | fail J1 => rw [e1] at hp; exact hp
      | add v1 J1 =>
        rw [e1] at hp
        have hp2 : J1.token = TK_STRING := hp
        simp only [hp2, reduceCtorEq, if_false]
        exact hp2

theorem InterpList_sim {s1 pre suf : Str} (hs : Stop suf) (f1 f2 : Eval)
    (hf : SimEval s1 pre suf f1 f2) (fuel : Nat) :
    SimEval s1 pre suf (Interp.InterpList s1 f1 fuel) (Interp.InterpList (pre ++ s1 ++ suf) f2 fuel) := by
  intro env I1 I2 h
  unfold Interp.InterpList
  have hm := Rel_Move hs h
  simp only [Rel_token_iff hs hm TK_RSQR (by decide) (by decide)]
  split
  · exact sim_error hm _ _ _ _
  · exact InterpList_loop_sim hs f1 f2 hf _ _ _ _ _ hm

theorem InterpFunc_call_sim {s1 pre suf : Str} (context : Option Context) (func_name : Str)
    (par : List Value) {I1 I2 : Interp} (h : Rel s1 pre suf I1 I2) :
    SimRes s1 pre suf (Interp.InterpFunc.call s1 context func_name par I1)
      (Interp.InterpFunc.call (pre ++ s1 ++ suf) context func_name par I2) := by
  unfold Interp.InterpFunc.call
  cases context with
  | none => exact sim_formatted h _ _ _
  | some c =>
    simp only []
    cases c.ExecFunction func_name par with
    | ok v => exact sim_ok h _
    | fail e => exact sim_formatted h _ _ _
    | abort => exact Or.inl rfl

theorem InterpFunc_loop_sim {s1 pre suf : Str} (hs : Stop suf) (context : Option Context)
    (f1 f2 : Eval) (hf : SimEval s1 pre suf f1 f2) (func_name : Str) :
    ∀ (n : Nat) (env par : List Value) (I1 I2 : Interp),
      Rel s1 pre suf I1 I2 →
      SimRes s1 pre suf (Interp.InterpFunc.loop s1 context f1 func_name n env par I1)
        (Interp.InterpFunc.loop (pre ++ s1 ++ suf) context f2 func_name n env par I2) := by
  intro n
  induction n with
  | zero => intro env par I1 I2 h; exact Or.inl rfl
  | succ n ih =>
    intro env par I1 I2 h
    unfold Interp.InterpFunc.loop
    refine sim_bind (Interp.kill env.length) (Interp.kill env.length) _ _ ?_ ?_ ?_ _ _
      (hf _ _ _ h)
    · intro J1 J2 hJ; exact Rel_kill hJ _
    · intro J; rfl
    · intro val J1 J2 hJ
      have hk := Rel_kill hJ env.length
      simp only [Rel_token_iff hs hk TK_COMMA (by decide) (by decide),
        Rel_token_iff hs hk TK_RPAR (by decide) (by decide)]
      split
      · exact ih _ _ _ _ (Rel_Move hs (Rel_kill hJ _))
      · split
        · exact InterpFunc_call_sim context func_name _ (Rel_Move hs hk)
        · exact sim_error hk _ _ _ _

theorem InterpPF_sim {s1 pre suf : Str} (hs : Stop suf) (context : Option Context)
    (f1 f2 : Eval) (hf : SimEval s1 pre suf f1 f2) (fuel : Nat) (env : List Value)
    {I1 I2 : Interp} (h : Rel s1 pre suf I1 I2) (ht : I1.token = TK_VARIABLE) :
    SimRes s1 pre suf (Interp.InterpPF s1 context f1 fuel env I1)
      (Interp.InterpPF (pre ++ s1 ++ suf) context f2 fuel env I2) := by
  obtain ⟨hn, hr⟩ := ParseVariable_sim hs h (by rw [ht]; decide)
  unfold Interp.InterpPF
  simp only [Rel_token_iff hs hr TK_LPAR (by decide) (by decide), hn]
  split
  · unfold Interp.InterpFunc
    exact InterpFunc_loop_sim hs context f1 f2 hf _ _ _ _ _ _ (Rel_Move hs hr)
  · cases context with
    | none => exact sim_formatted hr _ _ _
    | some c =>
      simp only []
      cases c.GetVariable (Interp.ParseVariable s1 I1).1 with
      | ok v => exact sim_ok hr _
      | fail e => exact sim_formatted hr _ _ _
      | abort => exact Or.inl rfl

end tsub

namespace tsub
open Value TokenId

theorem InterpAtomic_sim {s1 pre suf : Str} (hs : Stop suf) (context : Option Context)
    (f1 f2 : Eval) (hf : SimEval s1 pre suf f1 f2) (fuel : Nat) :
    SimEval s1 pre suf (Interp.InterpAtomic s1 context f1 fuel)
      (Interp.InterpAtomic (pre ++ s1 ++ suf) context f2 fuel) := by
  intro env I1 I2 h
  have hd : I2.dollar_value_ = I1.dollar_value_ := h.2.2.2
  unfold Interp.InterpAtomic
  rcases Rel_token hs h with ht | ⟨ht1, ht2⟩
  · rw [ht]
    cases htk : I1.token <;> simp only [] <;> try (exact sim_error h _ _ _ _)
    · exact ParseString_sim hs h htk
    · exact InterpPF_sim hs context f1 f2 hf fuel env h htk
    · exact Or.inl (ParseNumber_sim hs h)
    · refine sim_bind id id _ _ (fun _ _ hJ => hJ) (fun _ => rfl) ?_ _ _
        (hf _ _ _ (Rel_Move hs h))
      intro v J1 J2 hJ
      simp only [ne_eq, Rel_token_iff hs hJ TK_RPAR (by decide) (by decide)]
      split
      · exact sim_error hJ _ _ _ _
      · exact sim_ok (Rel_Move hs hJ) _
    · rw [hd]
      cases I1.dollar_value_ with
      | null => exact sim_error h _ _ _ _
      | elem j v => exact sim_ok (Rel_Move hs h) _
      | obj j =>
        simp only []
        cases env.get? j with
        | none => exact sim_ok (Rel_Move hs h) _
        | some v => exact sim_ok (Rel_Move hs h) _
      | spare j => exact sim_ok (Rel_Move hs h) _
      | dead => exact Or.inl rfl
    · exact InterpList_sim hs f1 f2 hf fuel env I1 I2 h
  · rw [ht1, ht2]
    exact sim_error h _ _ _ _

theorem InterpUnary_sim {s1 pre suf : Str} (hs : Stop suf) (context : Option Context)
    (f1 f2 : Eval) (hf : SimEval s1 pre suf f1 f2) (fuel : Nat) :
    SimEval s1 pre suf (Interp.InterpUnary s1 context f1 fuel)
      (Interp.InterpUnary (pre ++ s1 ++ suf) context f2 fuel) := by
  intro env I1 I2 h
  have ha := InterpAtomic_sim hs context f1 f2 hf fuel env _ _ (Rel_Move hs h)
  unfold Interp.InterpUnary
  rcases Rel_token hs h with ht | ⟨ht1, ht2⟩
  · rw [ht]
    cases htk : I1.token <;> simp only [] <;> try (exact Or.inl rfl)
    · refine sim_bind id id _ _ (fun _ _ hJ => hJ) (fun _ => rfl) ?_ _ _ ha
      intro v J1 J2 hJ
      cases v <;> simp only [] <;> first | exact sim_ok hJ _ | exact sim_error hJ _ _ _ _
    · refine sim_bind id id _ _ (fun _ _ hJ => hJ) (fun _ => rfl) ?_ _ _ ha
      intro v J1 J2 hJ
      cases v <;> simp only [] <;> first | exact sim_ok hJ _ | exact sim_error hJ _ _ _ _
    · refine sim_bind id id _ _ (fun _ _ hJ => hJ) (fun _ => rfl) ?_ _ _ ha
      intro v J1 J2 hJ
      cases v <;> simp only [] <;> exact sim_ok hJ _
  · rw [ht1, ht2]
    exact Or.inl rfl

theorem InterpFactor_sim {s1 pre suf : Str} (hs : Stop suf) (context : Option Context)
    (f1 f2 : Eval) (hf : SimEval s1 pre suf f1 f2) (fuel : Nat) :
    SimEval s1 pre suf (Interp.InterpFactor s1 context f1 fuel)
      (Interp.InterpFactor (pre ++ s1 ++ suf) context f2 fuel) := by
  intro env I1 I2 h
  unfold Interp.InterpFactor
  simp only [Rel_token_iff hs h TK_ADD (by decide) (by decide),
    Rel_token_iff hs h TK_SUB (by decide) (by decide),
    Rel_token_iff hs h TK_NOT (by decide) (by decide)]
  split
  · exact InterpUnary_sim hs context f1 f2 hf fuel env I1 I2 h
  · exact InterpAtomic_sim hs context f1 f2 hf fuel env I1 I2 h

theorem InterpTerm_sim {s1 pre suf : Str} (hs : Stop suf) (context : Option Context)
    (f1 f2 : Eval) (hf : SimEval s1 pre suf f1 f2) (fuel : Nat) :
    SimEval s1 pre suf (Interp.InterpTerm s1 context f1 fuel)
      (Interp.InterpTerm (pre ++ s1 ++ suf) context f2 fuel) := by
  have h0 := InterpFactor_sim hs context f1 f2 hf fuel
  intro env I1 I2 h
  unfold Interp.InterpTerm
  exact level_sim _ _ _ _ h0
    (fun env output J1 J2 hJ => InterpTerm_loop_sim hs _ _ h0 fuel env output J1 J2 hJ) env I1 I2 h

theorem InterpComp_sim {s1 pre suf : Str} (hs : Stop suf) (context : Option Context)
    (f1 f2 : Eval) (hf : SimEval s1 pre suf f1 f2) (fuel : Nat) :
    SimEval s1 pre suf (Interp.InterpComp s1 context f1 fuel)
      (Interp.InterpComp (pre ++ s1 ++ suf) context f2 fuel) := by
  have h0 := InterpTerm_sim hs context f1 f2 hf fuel
  intro env I1 I2 h
  unfold Interp.InterpComp
  exact level_sim _ _ _ _ h0
    (fun env output J1 J2 hJ => InterpComp_loop_sim hs _ _ h0 fuel env output J1 J2 hJ) env I1 I2 h

theorem InterpLogic_sim {s1 pre suf : Str} (hs : Stop suf) (context : Option Context)
    (f1 f2 : Eval) (hf : SimEval s1 pre suf f1 f2) (fuel : Nat) :
    SimEval s1 pre suf (Interp.InterpLogic s1 context f1 fuel)
      (Interp.InterpLogic (pre ++ s1 ++ suf) context f2 fuel) := by
  have h0 := InterpComp_sim hs context f1 f2 hf fuel
  intro env I1 I2 h
  unfold Interp.InterpLogic
  exact level_sim _ _ _ _ h0
    (fun env output J1 J2 hJ => InterpLogic_loop_sim hs _ _ h0 fuel env output J1 J2 hJ) env I1 I2 h

theorem InterpTenery_sim {s1 pre suf : Str} (hs : Stop suf) (context : Option Context)
    (f1 f2 : Eval) (hf : SimEval s1 pre suf f1 f2) (fuel : Nat) :
    SimEval s1 pre suf (Interp.InterpTenery s1 context f1 fuel)
      (Interp.InterpTenery (pre ++ s1 ++ suf) context f2 fuel) := by
  have h0 := InterpLogic_sim hs context f1 f2 hf fuel
  intro env I1 I2 h
  unfold Interp.InterpTenery
  exact level_sim _ _ _ _ h0
    (fun env output J1 J2 hJ => InterpTenery_loop_sim hs _ _ h0 fuel env output J1 J2 hJ) env I1 I2 h

theorem InterpPostExp_sim {s1 pre suf : Str} (hs : Stop suf) (context : Option Context)
    (f1 f2 : Eval) (hf : SimEval s1 pre suf f1 f2) (fuel : Nat) :
    SimEval s1 pre suf (Interp.InterpPostExp s1 context f1 fuel)
      (Interp.InterpPostExp (pre ++ s1 ++ suf) context f2 fuel) := by
  intro env I1 I2 h
  unfold Interp.InterpPostExp
  refine sim_bind id id _ _ (fun _ _ hJ => hJ) (fun _ => rfl) ?_ _ _
    (InterpTenery_sim hs context f1 f2 hf fuel env I1 I2 h)
  intro output J1 J2 hJ
  simp only [Rel_token_iff hs hJ TK_QUESTION (by decide) (by decide)]
  split
  · refine sim_bind (Interp.kill env.length) (Interp.kill env.length) _ _
      (fun _ _ hK => Rel_kill hK _) (fun _ => rfl) ?_ _ _ (hf _ _ _ (Rel_Move hs hJ))
    intro l K1 K2 hK
    simp only [ne_eq, Rel_token_iff hs hK TK_COLON (by decide) (by decide)]
    split
    · exact sim_error (Rel_kill hK _) _ _ _ _
    · refine sim_bind (Interp.kill env.length) (Interp.kill env.length) _ _
        (fun _ _ hL => Rel_kill hL _) (fun _ => rfl) ?_ _ _ (hf _ _ _ (Rel_Move hs hK))
      intro r L1 L2 hL
      exact sim_ok (Rel_kill hL _) _
  · exact sim_ok hJ _

theorem InterpExp_each_sim {s1 pre suf : Str} (hs : Stop suf) (b1 b2 : Interp → Result)
    (hb : ∀ J1 J2, Rel s1 pre suf J1 J2 → SimRes s1 pre suf (b1 J1) (b2 J2))
    (d pos : Nat) (hpos : pos ≤ s1.length) :
    ∀ (l : List Value) (end_ : Option Nat) (new_list : List Value) (I1 I2 : Interp),
      (∀ e, end_ = some e → e ≤ s1.length) →
      Rel s1 pre suf I1 I2 →
      SimRes s1 pre suf (Interp.InterpExp.each s1 b1 d pos l end_ new_list I1)
        (Interp.InterpExp.each (pre ++ s1 ++ suf) b2 d (pos + pre.length) l
          (end_.map (fun e => e + pre.length)) new_list I2) := by
  intro l
  induction l with
  | nil =>
    intro end_ new_list I1 I2 he h
    cases end_ with
    | none => exact Or.inl rfl
    | some e =>
      simp only [Option.map_some', Interp.InterpExp.each]
      have := Rel_dollar (Rel_Set hs h e (he e rfl)) (I1.dollar_value_.killList d)
      rw [h.2.2.2]
      exact sim_ok this _
  | cons x xs ih =>
    intro end_ new_list I1 I2 he h
    unfold Interp.InterpExp.each
    refine sim_bind (Interp.kill d) (Interp.kill d) _ _
      (fun _ _ hK => Rel_kill hK _) (fun _ => rfl) ?_ _ _ (hb _ _ (Rel_dollar h _))
    intro new_val J1 J2 hJ
    cases end_ with
    | none =>
      simp only [Option.map_none', ne_eq, Rel_token_iff hs hJ TK_RBRA (by decide) (by decide)]
      split
      · exact sim_error (Rel_kill hJ _) _ _ _ _
      · have hm := Rel_Move hs hJ
        have := ih (some (Interp.Move s1 J1).scanner_.position_) (new_list ++ [new_val])
          _ _ (fun e he => by cases he; exact hm.1.2) (Rel_Set hs hm pos hpos)
        simp only [Option.map_some'] at this
        rw [hm.2.2.1]
        exact this
    | some e =>
      simp only [Option.map_some']
      have := ih (some e) (new_list ++ [new_val]) _ _ he (Rel_Set hs hJ pos hpos)
      simpa using this

theorem InterpExp_sim {s1 pre suf : Str} (hs : Stop suf) (context : Option Context) :
    ∀ fuel, SimEval s1 pre suf (Interp.InterpExp s1 context fuel)
      (Interp.InterpExp (pre ++ s1 ++ suf) context fuel) := by
  intro fuel
  induction fuel with
  | zero => intro env I1 I2 h; exact Or.inl rfl
  | succ fuel ih =>
    intro env I1 I2 h
    unfold Interp.InterpExp
    refine sim_bind id id _ _ (fun _ _ hJ => hJ) (fun _ => rfl) ?_ _ _
      (InterpPostExp_sim hs context _ _ ih fuel env I1 I2 h)
    intro output J1 J2 hJ
    simp only [Rel_token_iff hs hJ TK_LBRA (by decide) (by decide)]
    have hm := Rel_Move hs hJ
    split
    · have hscalar : SimRes s1 pre suf
          (match Interp.InterpExp s1 context fuel (env ++ [output])
              { (J1.Move s1) with dollar_value_ := Dollar.obj env.length } with
          | Result.crash c => Result.crash c
          | Result.ret none I2 => Result.ret none (I2.kill env.length)
          | Result.ret (some new_val) I2 =>
            if I2.token ≠ TK_RBRA then
              Result.ret none (Interp.ReportError s1 (I2.kill env.length)
                "Post expression needs \x7d to close the body".toList)
            else Result.ret (some new_val) ((I2.kill env.length).Move s1))
          (match Interp.InterpExp (pre ++ s1 ++ suf) context fuel (env ++ [output])
              { (J2.Move (pre ++ s1 ++ suf)) with dollar_value_ := Dollar.obj env.length } with
          | Result.crash c => Result.crash c
          | Result.ret none I2 => Result.ret none (I2.kill env.length)
          | Result.ret (some new_val) I2 =>
            if I2.token ≠ TK_RBRA then
              Result.ret none (Interp.ReportError (pre ++ s1 ++ suf) (I2.kill env.length)
                "Post expression needs \x7d to close the body".toList)
            else Result.ret (some new_val) ((I2.kill env.length).Move (pre ++ s1 ++ suf))) := by
        refine sim_bind (Interp.kill env.length) (Interp.kill env.length) _ _
          (fun _ _ hK => Rel_kill hK _) (fun _ => rfl) ?_ _ _ (ih _ _ _ (Rel_dollar hm _))
        intro new_val K1 K2 hK
        simp only [ne_eq, Rel_token_iff hs hK TK_RBRA (by decide) (by decide)]
        split
        · exact sim_error (Rel_kill hK _) _ _ _ _
        · exact sim_ok (Rel_Move hs (Rel_kill hK _)) _
      cases output with
      | VALUE_LIST l =>
        simp only []
        have := InterpExp_each_sim hs _ _ (fun K1 K2 hK => ih (env ++ [VALUE_LIST l]) K1 K2 hK)
          env.length (Interp.Move s1 J1).scanner_.position_ hm.1.2 l none [] _ _
          (fun e he => by cases he) hm
        simp only [Option.map_none'] at this
        rw [hm.2.2.1]
        exact this
      | VALUE_STRING s => exact hscalar
      | VALUE_NUMBER n => exact hscalar
      | VALUE_NULL => exact hscalar
    · exact sim_ok hJ _

theorem init_Rel (s1 pre suf : Str) (hs : Stop suf) (p : Nat) (hp : p ≤ s1.length) (e1 e2 : Str) :
    Rel s1 pre suf (Interp.init s1 p e1) (Interp.init (pre ++ s1 ++ suf) (p + pre.length) e2) := by
  unfold Interp.init Scanner.init
  exact Rel_next s1 pre suf hs _ _ _ _ _ hp rfl

/-- The evaluator gives corresponding outcomes on the text alone and inside a template. -/
theorem DoInterp_sim (s1 pre suf : Str) (hs : Stop suf) (context : Option Context) (fuel : Nat)
    (p : Nat) (hp : p ≤ s1.length) (e1 e2 : Str) :
    SimRes s1 pre suf (Interp.DoInterp s1 context fuel p e1)
      (Interp.DoInterp (pre ++ s1 ++ suf) context fuel (p + pre.length) e2) := by
  unfold Interp.DoInterp
  exact InterpExp_sim hs context fuel [] _ _ (init_Rel s1 pre suf hs p hp e1 e2)

end tsub

namespace tsub
open Value TokenId

/-! ## The string pool and the flattening of values -/

theorem deref_append (pool t : List Str) (i : Nat) (h : i < pool.length) :
    TextProcessor.deref (pool ++ t) i = TextProcessor.deref pool i := by
  simp only [TextProcessor.deref, List.getD_eq_getElem?_getD]
  rw [List.getElem?_append_left h]

theorem find_spec : ∀ (pool : List Str) (s : Str) (i : Nat),
    TextProcessor.find pool s = some i → i < pool.length ∧ TextProcessor.deref pool i = s
  | [], s, i, h => by simp [TextProcessor.find] at h
  | x :: xs, s, i, h => by
    simp only [TextProcessor.find] at h
    split at h
    · rename_i hx
      simp only [Option.some.injEq] at h
      subst h
      simp [TextProcessor.deref, hx]
    · cases hf : TextProcessor.find xs s with
      | none => rw [hf] at h; simp at h
      | some j =>
        rw [hf] at h
        simp only [Option.map_some', Option.some.injEq] at h
        subst h
        have := find_spec xs s j hf
        simp only [TextProcessor.deref, List.getD_eq_getElem?_getD] at this
        simp only [TextProcessor.deref, List.getD_eq_getElem?_getD, List.length_cons,
          List.getElem?_cons_succ]
        exact ⟨by omega, this.2⟩

theorem GetString_spec (pool : List Str) (s : Str) :
    TextProcessor.deref (TextProcessor.GetString pool s).2 (TextProcessor.GetString pool s).1 = s ∧
    (TextProcessor.GetString pool s).1 < (TextProcessor.GetString pool s).2.length ∧
    ∃ t, (TextProcessor.GetString pool s).2 = pool ++ t := by
  unfold TextProcessor.GetString
  cases hf : TextProcessor.find pool s with
  | some i =>
    have := find_spec pool s i hf
    exact ⟨this.2, this.1, [], by simp⟩
  | none =>
    refine ⟨?_, by simp, [s], rfl⟩
    simp [TextProcessor.deref]

mutual
theorem VTSL_some : ∀ (v : Value) (pool : List Str) (out : List Nat) (strs : List Str),
    v.flat = some strs →
    ∃ refs pool', TextProcessor.ValueToStringList pool v out = some (out ++ refs, pool') ∧
      (∃ t, pool' = pool ++ t) ∧ refs.map (TextProcessor.deref pool') = strs ∧
      ∀ r ∈ refs, r < pool'.length
  | VALUE_STRING s, pool, out, strs, h => by
    simp only [Value.flat, Option.some.injEq] at h
    subst h
    obtain ⟨h1, h2, h3⟩ := GetString_spec pool s
    exact ⟨[(TextProcessor.GetString pool s).1], (TextProcessor.GetString pool s).2,
      by simp [TextProcessor.ValueToStringList], h3, by simp [h1], by simpa using h2⟩
  | VALUE_NUMBER n, pool, out, strs, h => by
    simp only [Value.flat, Option.some.injEq] at h
    subst h
    obtain ⟨h1, h2, h3⟩ := GetString_spec pool (sprintf_d n)
    exact ⟨[(TextProcessor.GetString pool (sprintf_d n)).1],
      (TextProcessor.GetString pool (sprintf_d n)).2,
      by simp [TextProcessor.ValueToStringList, TextProcessor.NumberToString], h3,
      by simp [h1], by simpa using h2⟩
  | VALUE_LIST l, pool, out, strs, h => by
    simp only [Value.flat] at h
    simp only [TextProcessor.ValueToStringList]
    exact VTSL_each_some l pool out strs h
  | VALUE_NULL, pool, out, strs, h => by simp [Value.flat] at h
theorem VTSL_each_some : ∀ (l : List Value) (pool : List Str) (out : List Nat) (strs : List Str),
    Value.flatList l = some strs →
    ∃ refs pool', TextProcessor.ValueToStringList.each pool l out = some (out ++ refs, pool') ∧
      (∃ t, pool' = pool ++ t) ∧ refs.map (TextProcessor.deref pool') = strs ∧
      ∀ r ∈ refs, r < pool'.length
  | [], pool, out, strs, h => by
    simp only [Value.flatList, Option.some.injEq] at h
    subst h
    exact ⟨[], pool, by simp [TextProcessor.ValueToStringList.each], ⟨[], by simp⟩, rfl, by simp⟩
  | v :: vs, pool, out, strs, h => by
    simp only [Value.flatList] at h
    cases hv : v.flat with
    | none => rw [hv] at h; simp at h
    | some a =>
      rw [hv] at h
      cases hvs : Value.flatList vs with
      | none => rw [hvs] at h; simp at h
      | some b =>
        rw [hvs] at h
        simp only [Option.some.injEq] at h
        subst h
        obtain ⟨r1, p1, e1, ⟨t1, ht1⟩, m1, b1⟩ := VTSL_some v pool out a hv
        obtain ⟨r2, p2, e2, ⟨t2, ht2⟩, m2, b2⟩ := VTSL_each_some vs p1 (out ++ r1) b hvs
        refine ⟨r1 ++ r2, p2, ?_, ⟨t1 ++ t2, by rw [ht2, ht1, List.append_assoc]⟩, ?_, ?_⟩
        · simp only [TextProcessor.ValueToStringList.each, e1, e2, List.append_assoc]
        · rw [List.map_append, m2]
          congr 1
          rw [← m1]
          apply List.map_congr_left
          intro r hr
          rw [ht2]
          exact deref_append _ _ _ (b1 r hr)
        · intro r hr
          rcases List.mem_append.mp hr with hr | hr
          · have := b1 r hr
            rw [ht2]
            simp only [List.length_append]
            omega
          · exact b2 r hr
end

mutual
theorem VTSL_none : ∀ (v : Value) (pool : List Str) (out : List Nat),
    v.flat = none → TextProcessor.ValueToStringList pool v out = none
  | VALUE_STRING s, pool, out, h => by simp [Value.flat] at h
  | VALUE_NUMBER n, pool, out, h => by simp [Value.flat] at h
  | VALUE_LIST l, pool, out, h => by
    simp only [Value.flat] at h
    simp only [TextProcessor.ValueToStringList]
    exact VTSL_each_none l pool out h
  | VALUE_NULL, pool, out, h => by simp [TextProcessor.ValueToStringList]
theorem VTSL_each_none : ∀ (l : List Value) (pool : List Str) (out : List Nat),
    Value.flatList l = none → TextProcessor.ValueToStringList.each pool l out = none
  | [], pool, out, h => by simp [Value.flatList] at h
  | v :: vs, pool, out, h => by
    simp only [Value.flatList] at h
    simp only [TextProcessor.ValueToStringList.each]
    cases hv : v.flat with
    | none => rw [VTSL_none v pool out hv]
    | some a =>
      rw [hv] at h
      obtain ⟨r1, p1, e1, _, _, _⟩ := VTSL_some v pool out a hv
      rw [e1]
      simp only []
      cases hvs : Value.flatList vs with
      | none => exact VTSL_each_none vs p1 _ hvs
      | some b => rw [hvs] at h; simp at h
end

theorem value_to_strings_eq_flat (v : Value) : value_to_strings v = v.flat := by
  unfold value_to_strings
  cases h : v.flat with
  | none => rw [VTSL_none v [] [] h]
  | some strs =>
    obtain ⟨refs, pool', e, _, m, _⟩ := VTSL_some v [] [] strs h
    rw [e]
    simp [m]

end tsub

namespace tsub
open Value TokenId

/-! ## The loop of `Run` on literal text -/

theorem drop_cons_get (input : Str) (p : Nat) (c : Char) (tl : Str) (d : Char)
    (h : input.drop p = c :: tl) :
    p < input.length ∧ input.getD p d = c ∧ input.drop (p + 1) = tl := by
  have hlt : p < input.length := by
    by_contra hp
    rw [List.drop_eq_nil_of_le (by omega)] at h
    cases h
  refine ⟨hlt, ?_, ?_⟩
  · have := congrArg List.head? h
    rw [List.head?_drop] at this
    simp only [List.getD_eq_getElem?_getD, this, List.head?_cons, Option.getD_some]
  · rw [← List.drop_drop, h]
    rfl

theorem unescape_length : ∀ (t out : Str), unescape t = some out →
    out.length ≤ t.length ∧ (out = [] → t = [])
  | [], out, h => by
    simp only [unescape, Option.some.injEq] at h
    subst h
    simp
  | [c], out, h => by
    simp only [unescape] at h
    split at h
    · cases h
    · simp only [Option.some.injEq] at h
      subst h
      simp
  | c :: d :: rest, out, h => by
    simp only [unescape] at h
    split at h
    · split at h
      · cases hr : unescape rest with
        | none => rw [hr] at h; simp at h
        | some t =>
          rw [hr] at h
          simp only [Option.map_some', Option.some.injEq] at h
          subst h
          have := (unescape_length rest t hr).1
          simp only [List.length_cons]
          exact ⟨by omega, by simp⟩
      · cases h
    · split at h
      · cases h
      · cases hr : unescape (d :: rest) with
        | none => rw [hr] at h; simp at h
        | some t =>
          rw [hr] at h
          simp only [Option.map_some', Option.some.injEq] at h
          subst h
          have := (unescape_length (d :: rest) t hr).1
          simp only [List.length_cons] at this ⊢
          exact ⟨by omega, by simp⟩

theorem loop_plain (input : Str) (context : Option Context) (fuel n : Nat) (T : TextProcessor)
    (seg : Str) (c : Char) (tl : Str) (h : input.drop T.position_ = c :: tl)
    (h1 : c ≠ '\\') (h2 : c ≠ '\x60') :
    TextProcessor.Run.loop input context fuel (n + 1) T seg =
      TextProcessor.Run.loop input context fuel n { T with position_ := T.position_ + 1 }
        (seg ++ [c]) := by
  obtain ⟨hlt, hg, _⟩ := drop_cons_get input T.position_ c tl ' ' h
  rw [TextProcessor.Run.loop]
  rw [if_pos hlt, hg, if_neg h1, if_neg h2]

theorem loop_escape (input : Str) (context : Option Context) (fuel n : Nat) (T : TextProcessor)
    (seg : Str) (d : Char) (tl : Str) (h : input.drop T.position_ = '\\' :: d :: tl)
    (h1 : d = '\\' ∨ d = '\x60') :
    TextProcessor.Run.loop input context fuel (n + 1) T seg =
      TextProcessor.Run.loop input context fuel n { T with position_ := T.position_ + 2 }
        (seg ++ [d]) := by
  obtain ⟨hlt, hg, hd⟩ := drop_cons_get input T.position_ '\\' (d :: tl) ' ' h
  obtain ⟨hlt2, hg2, _⟩ := drop_cons_get input (T.position_ + 1) d tl ' ' hd
  rw [TextProcessor.Run.loop]
  rw [if_pos hlt, hg, if_pos rfl, hg2, if_pos ⟨hlt2, by simpa [TextProcessor.IsEscapeChar] using h1⟩]

theorem loop_literal (input : Str) (context : Option Context) (fuel : Nat) :
    ∀ (text lit : Str), unescape text = some lit →
    ∀ (n : Nat) (T : TextProcessor) (seg rest : Str),
      input.drop T.position_ = text ++ rest →
      TextProcessor.Run.loop input context fuel (n + lit.length) T seg =
        TextProcessor.Run.loop input context fuel n
          { T with position_ := T.position_ + text.length } (seg ++ lit)
  | [], lit, h => by
    simp only [unescape, Option.some.injEq] at h
    subst h
    intro n T seg rest _
    simp
  | [c], lit, h => by
    simp only [unescape] at h
    split at h
    · cases h
    · rename_i hc
      simp only [Option.some.injEq] at h
      subst h
      intro n T seg rest hd
      simp only [not_or] at hc
      exact loop_plain input context fuel n T seg c rest hd hc.1 hc.2
  | c :: d :: r, lit, h => by
    simp only [unescape] at h
    intro n T seg rest hd
    split at h
    · rename_i hc
      subst hc
      split at h
      · rename_i hdd
        cases hr : unescape r with
        | none => rw [hr] at h; simp at h
        | some t =>
          rw [hr] at h
          simp only [Option.map_some', Option.some.injEq] at h
          subst h
          have hd2 : input.drop (T.position_ + 2) = r ++ rest := by
            have : T.position_ + 2 = T.position_ + 1 + 1 := by omega
            rw [this]
            have h1 := (drop_cons_get input T.position_ '\\' (d :: (r ++ rest)) ' ' hd).2.2
            exact (drop_cons_get input (T.position_ + 1) d (r ++ rest) ' ' h1).2.2
          have e : n + (d :: t).length = (n + t.length) + 1 := by simp only [List.length_cons]; omega
          rw [e, loop_escape input context fuel _ T seg d (r ++ rest) hd hdd]
          rw [loop_literal input context fuel r t hr n { T with position_ := T.position_ + 2 }
            (seg ++ [d]) rest hd2]
          simp only [List.length_cons, List.append_assoc, List.singleton_append]
          congr 2
          omega
      · cases h
    · rename_i hc
      split at h
      · cases h
      · rename_i hc2
        cases hr : unescape (d :: r) with
        | none => rw [hr] at h; simp at h
        | some t =>
          rw [hr] at h
          simp only [Option.map_some', Option.some.injEq] at h
          subst h
          have hd2 : input.drop (T.position_ + 1) = (d :: r) ++ rest :=
            (drop_cons_get input T.position_ c ((d :: r) ++ rest) ' ' hd).2.2
          have e : n + (c :: t).length = (n + t.length) + 1 := by simp only [List.length_cons]; omega
          rw [e, loop_plain input context fuel _ T seg c ((d :: r) ++ rest) hd hc hc2]
          rw [loop_literal input context fuel (d :: r) t hr n { T with position_ := T.position_ + 1 }
            (seg ++ [c]) rest hd2]
          simp only [List.length_cons, List.append_assoc, List.singleton_append]
          congr 2
          omega

theorem loop_end (input : Str) (context : Option Context) (fuel n : Nat) (T : TextProcessor)
    (seg : Str) (h : input.length ≤ T.position_) :
    TextProcessor.Run.loop input context fuel (n + 1) T seg =
      if seg ≠ [] then
        RunResult.ok
          (TextProcessor.GenerateResult
            { T with result_set_ := TextProcessor.Expand T.result_set_
                        (TextProcessor.GetString T.str_pool_ seg).1,
                     str_pool_ := (TextProcessor.GetString T.str_pool_ seg).2 })
          T.error_desp_
      else RunResult.ok (TextProcessor.GenerateResult T) T.error_desp_ := by
  rw [TextProcessor.Run.loop, if_neg (by omega)]

/-- C10: a template without expression region, in which every backslash starts one of the
two escapes, gives for every host the single string in which each escape is replaced by
its second byte, and no output at all when it is empty; the error string is left as it
was. -/
theorem literal_template (context : Option Context) (fuel : Nat) (error t out : Str)
    (h : unescape t = some out) :
    Run fuel context t error = RunResult.ok (if t = [] then [] else [out]) error := by
  obtain ⟨hlen, hnil⟩ := unescape_length t out h
  unfold Run TextProcessor.Run
  have e : t.length + 1 = (t.length - out.length) + 1 + out.length := by omega
  rw [e, loop_literal t context fuel t out h _ _ [] [] (by simp)]
  rw [loop_end _ _ _ _ _ _ (by simp)]
  by_cases ht : t = []
  · subst ht
    simp only [unescape, Option.some.injEq] at h
    subst h
    rfl
  · have ho : out ≠ [] := fun e => ht (hnil e)
    simp only [List.nil_append, ne_eq, ho, not_false_eq_true, if_true, ht, if_false]
    simp [TextProcessor.GenerateResult, TextProcessor.Expand, TextProcessor.GetString,
      TextProcessor.find, TextProcessor.JoinString, TextProcessor.deref]

/-- C10, witness: the template `a\\b\x60c` (with its two escapes) gives `a\bx60c` read as
one string, for any host. -/
theorem literal_template_witness :
    unescape "a\\\\b\\\x60c".toList = some "a\\b\x60c".toList ∧
    Run 0 none "a\\\\b\\\x60c".toList [] = RunResult.ok ["a\\b\x60c".toList] [] :=
  ⟨by decide, literal_template none 0 [] "a\\\\b\\\x60c".toList "a\\b\x60c".toList (by decide)⟩

end tsub

namespace tsub
open Value TokenId

/-! ## The result set, read through the pool -/

theorem JoinString_append (pool t : List Str) (rep : List Nat)
    (h : ∀ r ∈ rep, r < pool.length) :
    TextProcessor.JoinString (pool ++ t) rep = TextProcessor.JoinString pool rep := by
  unfold TextProcessor.JoinString
  congr 1
  apply List.map_congr_left
  intro r hr
  exact deref_append pool t r (h r hr)

theorem JoinString_snoc (pool : List Str) (rep : List Nat) (r : Nat) :
    TextProcessor.JoinString pool (rep ++ [r]) =
      TextProcessor.JoinString pool rep ++ TextProcessor.deref pool r := by
  simp [TextProcessor.JoinString]

theorem GenerateResult_nil (T : TextProcessor) :
    TextProcessor.GenerateResult T = [] ↔ T.result_set_ = [] := by
  simp [TextProcessor.GenerateResult]

/-- The effect of `Expand(GetString(segment))` on the outputs. -/
theorem expand_spec (T : TextProcessor) (hv : T.Valid) (seg : Str) (hs : seg ≠ []) :
    TextProcessor.Valid { T with
        result_set_ := TextProcessor.Expand T.result_set_
          (TextProcessor.GetString T.str_pool_ seg).1,
        str_pool_ := (TextProcessor.GetString T.str_pool_ seg).2 } ∧
    TextProcessor.GenerateResult { T with
        result_set_ := TextProcessor.Expand T.result_set_
          (TextProcessor.GetString T.str_pool_ seg).1,
        str_pool_ := (TextProcessor.GetString T.str_pool_ seg).2 } =
      expandOut (TextProcessor.GenerateResult T) seg := by
  obtain ⟨h1, h2, t, h3⟩ := GetString_spec T.str_pool_ seg
  have hlen : T.str_pool_.length ≤ (TextProcessor.GetString T.str_pool_ seg).2.length := by
    rw [h3]; simp
  unfold expandOut
  rw [if_neg hs]
  by_cases hrs : T.result_set_ = []
  · constructor
    · intro rep hrep r hr
      simp only [TextProcessor.Expand, hrs, if_true, List.mem_singleton] at hrep
      subst hrep
      simp only [List.mem_singleton] at hr
      subst hr
      exact h2
    · rw [if_pos ((GenerateResult_nil T).mpr hrs)]
      simp [TextProcessor.GenerateResult, TextProcessor.Expand, hrs, TextProcessor.JoinString, h1]
  · constructor
    · intro rep hrep r hr
      simp only [TextProcessor.Expand, hrs, if_false, List.mem_map] at hrep
      obtain ⟨rep0, hrep0, e⟩ := hrep
      subst e
      rcases List.mem_append.mp hr with hr | hr
      · exact Nat.lt_of_lt_of_le (hv rep0 hrep0 r hr) hlen
      · simp only [List.mem_singleton] at hr
        subst hr
        exact h2
    · rw [if_neg (fun e => hrs ((GenerateResult_nil T).mp e))]
      simp only [TextProcessor.GenerateResult, TextProcessor.Expand, hrs, if_false, List.map_map]
      apply List.map_congr_left
      intro rep hrep
      simp only [Function.comp]
      rw [JoinString_snoc, h1, h3, JoinString_append _ _ _ (hv rep hrep)]

/-- The effect of `ValueToStringList` followed by `Concatenate` on the outputs. -/
theorem concat_spec (T : TextProcessor) (hv : T.Valid) (v : Value) (strs : List Str)
    (hf : v.flat = some strs) :
    ∃ refs pool, TextProcessor.ValueToStringList T.str_pool_ v [] = some (refs, pool) ∧
      TextProcessor.Valid { T with
        result_set_ := TextProcessor.Concatenate T.result_set_ refs, str_pool_ := pool } ∧
      TextProcessor.GenerateResult { T with
        result_set_ := TextProcessor.Concatenate T.result_set_ refs, str_pool_ := pool } =
        concatOut (TextProcessor.GenerateResult T) strs := by
  obtain ⟨refs, pool, e, ⟨t, ht⟩, hm, hb⟩ := VTSL_some v T.str_pool_ [] strs hf
  simp only [List.nil_append] at e
  refine ⟨refs, pool, e, ?_, ?_⟩
  · intro rep hrep r hr
    simp only [TextProcessor.Concatenate] at hrep
    split at hrep
    · simp only [List.mem_map] at hrep
      obtain ⟨s, hs, e2⟩ := hrep
      subst e2
      simp only [List.mem_singleton] at hr
      subst hr
      exact hb _ hs
    · simp only [List.mem_flatten, List.mem_map] at hrep
      obtain ⟨l, ⟨s, hs, e2⟩, hl⟩ := hrep
      subst e2
      simp only [List.mem_map] at hl
      obtain ⟨rep0, hrep0, e3⟩ := hl
      subst e3
      rcases List.mem_append.mp hr with hr | hr
      · have := hv rep0 hrep0 r hr
        show r < pool.length
        rw [ht]
        simp only [List.length_append]
        omega
      · simp only [List.mem_singleton] at hr
        subst hr
        exact hb _ hs
  · unfold concatOut
    by_cases hrs : T.result_set_ = []
    · rw [if_pos ((GenerateResult_nil T).mpr hrs)]
      simp only [TextProcessor.GenerateResult, TextProcessor.Concatenate, hrs, if_true,
        List.map_map]
      rw [← hm]
      apply List.map_congr_left
      intro r _
      simp [TextProcessor.JoinString]
    · rw [if_neg (fun e => hrs ((GenerateResult_nil T).mp e))]
      simp only [TextProcessor.GenerateResult, TextProcessor.Concatenate, hrs, if_false]
      rw [← hm, List.map_flatten, List.map_map, List.map_map]
      congr 1
      apply List.map_congr_left
      intro r _
      simp only [Function.comp, List.map_map]
      apply List.map_congr_left
      intro rep hrep
      simp only [Function.comp]
      rw [JoinString_snoc, ht, JoinString_append _ _ _ (hv rep hrep)]

end tsub

namespace tsub
open Value TokenId

/-! ## An expression region of a template -/

theorem Stop_backtick (suf : Str) : Stop ('\x60' :: suf) := by
  intro c h
  simp only [List.head?_cons, Option.some.injEq] at h
  exact h.symm

theorem input_split (input : Str) (p : Nat) (rest : Str) (h : input.drop p = rest)
    (hp : p ≤ input.length) :
    input.take p ++ rest = input ∧ (input.take p).length = p := by
  constructor
  · rw [← h]; exact List.take_append_drop p input
  · simp [hp]

/-- The evaluator on the template, at a region whose text evaluates alone. -/
theorem DoInterp_region (input : Str) (context : Option Context) (fuel : Nat) (p : Nat)
    (E suf : Str) (v : Value) (I1 : Interp) (e1 e2 : Str)
    (hd : input.drop p = E ++ '\x60' :: suf) (hp : p ≤ input.length)
    (hev : Interp.DoInterp E context fuel 0 e1 = Result.ret (some v) I1) :
    ∃ I2, Interp.DoInterp input context fuel p e2 = Result.ret (some v) I2 ∧
      I2.scanner_.position_ = I1.scanner_.position_ + p := by
  obtain ⟨hin, hlen⟩ := input_split input p _ hd hp
  have hsim := DoInterp_sim E (input.take p) ('\x60' :: suf) (Stop_backtick suf) context fuel 0
    (Nat.zero_le _) e1 e2
  rw [← List.append_assoc] at hin
  rw [hin, hlen, Nat.zero_add] at hsim
  rcases SimRes_cases hsim with ⟨c, h1, _⟩ | ⟨J1, J2, h1, _, _⟩ | ⟨w, J1, J2, h1, h2, hr⟩ |
    ⟨_, J1, h1, _⟩
  · rw [hev] at h1; cases h1
  · rw [hev] at h1; cases h1
  · rw [hev] at h1
    cases h1
    refine ⟨J2, h2, ?_⟩
    have := hr.2.2.1
    rw [hlen] at this
    exact this
  · rw [hev] at h1; cases h1

/-- The evaluator on the template, at a region whose text fails alone. -/
theorem DoInterp_region_fail (input : Str) (context : Option Context) (fuel : Nat) (p : Nat)
    (E suf : Str) (I1 : Interp) (e1 e2 : Str)
    (hd : input.drop p = E ++ '\x60' :: suf) (hp : p ≤ input.length) (hq : '\"' ∉ suf)
    (hev : Interp.DoInterp E context fuel 0 e1 = Result.ret none I1) :
    ∃ I2, Interp.DoInterp input context fuel p e2 = Result.ret none I2 := by
  obtain ⟨hin, hlen⟩ := input_split input p _ hd hp
  have hsim := DoInterp_sim E (input.take p) ('\x60' :: suf) (Stop_backtick suf) context fuel 0
    (Nat.zero_le _) e1 e2
  rw [← List.append_assoc] at hin
  rw [hin, hlen, Nat.zero_add] at hsim
  rcases SimRes_cases hsim with ⟨c, h1, _⟩ | ⟨J1, J2, h1, h2, _⟩ | ⟨w, J1, J2, h1, h2, hr⟩ |
    ⟨hq2, J1, h1, _⟩
  · rw [hev] at h1; cases h1
  · exact ⟨J2, h2⟩
  · rw [hev] at h1; cases h1
  · simp only [List.mem_cons, reduceCtorEq] at hq2
    rcases hq2 with hq2 | hq2
    · exact absurd hq2 (by decide)
    · exact absurd hq2 hq

theorem ProcessExp_region (input : Str) (context : Option Context) (fuel : Nat)
    (T : TextProcessor) (E suf : Str) (v : Value) (I1 : Interp) (e1 : Str)
    (hd : input.drop T.position_ = E ++ '\x60' :: suf) (hp : T.position_ ≤ input.length)
    (hev : Interp.DoInterp E context fuel 0 e1 = Result.ret (some v) I1)
    (hend : I1.scanner_.position_ = E.length) :
    ∃ err, TextProcessor.ProcessExp input context fuel T =
      Except.ok (some v, { T with error_desp_ := err, position_ := T.position_ + E.length }) := by
  obtain ⟨I2, h2, hpos⟩ := DoInterp_region input context fuel T.position_ E suf v I1 e1
    T.error_desp_ hd hp hev
  have hd2 : input.drop I2.scanner_.position_ = '\x60' :: suf := by
    rw [hpos, hend, Nat.add_comm, ← List.drop_drop, hd]
    simp
  obtain ⟨hlt, hg, _⟩ := drop_cons_get input _ _ _ '\x60' hd2
  refine ⟨I2.error_, ?_⟩
  unfold TextProcessor.ProcessExp
  rw [h2]
  simp only []
  rw [if_neg (by omega), hg]
  simp only [ne_eq, not_true_eq_false, if_false]
  rw [hpos, hend, Nat.add_comm]

theorem ProcessExp_region_fail (input : Str) (context : Option Context) (fuel : Nat)
    (T : TextProcessor) (E suf : Str) (I1 : Interp) (e1 : Str)
    (hd : input.drop T.position_ = E ++ '\x60' :: suf) (hp : T.position_ ≤ input.length)
    (hq : '\"' ∉ suf)
    (hev : Interp.DoInterp E context fuel 0 e1 = Result.ret none I1) :
    ∃ T1, TextProcessor.ProcessExp input context fuel T = Except.ok (none, T1) := by
  obtain ⟨I2, h2⟩ := DoInterp_region_fail input context fuel T.position_ E suf I1 e1
    T.error_desp_ hd hp hq hev
  unfold TextProcessor.ProcessExp
  rw [h2]
  exact ⟨_, rfl⟩

/-- One round of the loop of `Run` at the backtick that opens a region whose text
evaluates alone to a value without null. -/
theorem loop_region (input : Str) (context : Option Context) (fuel n : Nat)
    (T : TextProcessor) (seg E suf : Str) (v : Value) (I1 : Interp) (e1 : Str)
    (strs : List Str)
    (hd : input.drop T.position_ = '\x60' :: (E ++ '\x60' :: suf))
    (hev : Interp.DoInterp E context fuel 0 e1 = Result.ret (some v) I1)
    (hend : I1.scanner_.position_ = E.length)
    (hf : v.flat = some strs) (hv : T.Valid) :
    ∃ T1, TextProcessor.Run.loop input context fuel (n + 1) T seg =
        TextProcessor.Run.loop input context fuel n T1 [] ∧
      T1.Valid ∧ T1.position_ = T.position_ + E.length + 2 ∧
      TextProcessor.GenerateResult T1 =
        concatOut (expandOut (TextProcessor.GenerateResult T) seg) strs := by
  obtain ⟨hlt, hg, hd1⟩ := drop_cons_get input T.position_ _ _ ' ' hd
  have key : ∀ (T0 : TextProcessor), T0.Valid → T0.position_ = T.position_ + 1 →
      ∃ T1, (match TextProcessor.ProcessExp input context fuel T0 with
        | Except.error c => RunResult.crash c
        | Except.ok (none, T1) => RunResult.fail T1.error_desp_
        | Except.ok (some val, T1) =>
          match TextProcessor.ValueToStringList T1.str_pool_ val [] with
          | none => RunResult.crash Crash.assertion
          | some (str_list, pool) =>
            TextProcessor.Run.loop input context fuel n
              { T1 with position_ := T1.position_ + 1,
                        result_set_ := TextProcessor.Concatenate T1.result_set_ str_list,
                        str_pool_ := pool } []) =
          TextProcessor.Run.loop input context fuel n T1 [] ∧
        T1.Valid ∧ T1.position_ = T.position_ + E.length + 2 ∧
        TextProcessor.GenerateResult T1 = concatOut (TextProcessor.GenerateResult T0) strs := by
    intro T0 hv0 hp0
    obtain ⟨err, hpe⟩ := ProcessExp_region input context fuel T0 E suf v I1 e1
      (by rw [hp0]; exact hd1) (by omega) hev hend
    rw [hpe]
    simp only []
    obtain ⟨refs, pool, hvt, hval, hgen⟩ := concat_spec
      { T0 with error_desp_ := err, position_ := T0.position_ + E.length } hv0 v strs hf
    simp only [] at hvt
    rw [hvt]
    exact ⟨_, rfl, hval, by simp only [hp0]; omega, hgen⟩
  rw [TextProcessor.Run.loop, if_pos hlt, hg, if_neg (by decide), if_pos rfl]
  by_cases hseg : seg = []
  · subst hseg
    simp only [ne_eq, not_true_eq_false, if_false]
    obtain ⟨T1, h1, h2, h3, h4⟩ := key { T with position_ := T.position_ + 1 } hv rfl
    refine ⟨T1, h1, h2, h3, ?_⟩
    rw [h4]
    simp [expandOut, TextProcessor.GenerateResult]
  · simp only [ne_eq, hseg, not_false_eq_true, if_true]
    obtain ⟨hval, hgen⟩ := expand_spec T hv seg hseg
    obtain ⟨T1, h1, h2, h3, h4⟩ := key { T with
        position_ := T.position_ + 1,
        result_set_ := TextProcessor.Expand T.result_set_
          (TextProcessor.GetString T.str_pool_ seg).1,
        str_pool_ := (TextProcessor.GetString T.str_pool_ seg).2 } hval rfl
    refine ⟨T1, h1, h2, h3, ?_⟩
    rw [h4]
    congr 1

end tsub

namespace tsub
open Value TokenId

theorem EvalsTo_elim {context : Option Context} {fuel : Nat} {E : Str} {v : Value}
    (h : EvalsTo context fuel E v) :
    ∃ I, Interp.DoInterp E context fuel 0 [] = Result.ret (some v) I ∧
      I.scanner_.position_ = E.length := by
  unfold EvalsTo at h
  split at h
  · rename_i w I hw
    exact ⟨I, by rw [hw, h.1], h.2⟩
  · exact absurd h id

theorem EvalFails_elim {context : Option Context} {fuel : Nat} {E : Str}
    (h : EvalFails context fuel E) :
    ∃ I, Interp.DoInterp E context fuel 0 [] = Result.ret none I := by
  unfold EvalFails at h
  split at h
  · rename_i I hw
    exact ⟨I, hw⟩
  · exact absurd h id

/-- One round of the loop of `Run` at the backtick that opens a region whose text fails
alone and is followed by text without double quote. -/
theorem loop_region_fail (input : Str) (context : Option Context) (fuel n : Nat)
    (T : TextProcessor) (seg E suf : Str) (I1 : Interp) (e1 : Str)
    (hd : input.drop T.position_ = '\x60' :: (E ++ '\x60' :: suf)) (hq : '\"' ∉ suf)
    (hev : Interp.DoInterp E context fuel 0 e1 = Result.ret none I1) :
    ∃ e, TextProcessor.Run.loop input context fuel (n + 1) T seg = RunResult.fail e := by
  obtain ⟨hlt, hg, hd1⟩ := drop_cons_get input T.position_ _ _ ' ' hd
  have key : ∀ (T0 : TextProcessor), T0.position_ = T.position_ + 1 →
      ∃ e, (match TextProcessor.ProcessExp input context fuel T0 with
        | Except.error c => RunResult.crash c
        | Except.ok (none, T1) => RunResult.fail T1.error_desp_
        | Except.ok (some val, T1) =>
          match TextProcessor.ValueToStringList T1.str_pool_ val [] with
          | none => RunResult.crash Crash.assertion
          | some (str_list, pool) =>
            TextProcessor.Run.loop input context fuel n
              { T1 with position_ := T1.position_ + 1,
                        result_set_ := TextProcessor.Concatenate T1.result_set_ str_list,
                        str_pool_ := pool } []) = RunResult.fail e := by
    intro T0 hp0
    obtain ⟨T1, hpe⟩ := ProcessExp_region_fail input context fuel T0 E suf I1 e1
      (by rw [hp0]; exact hd1) (by omega) hq hev
    rw [hpe]
    exact ⟨_, rfl⟩
  rw [TextProcessor.Run.loop, if_pos hlt, hg, if_neg (by decide), if_pos rfl]
  exact key _ (by split <;> rfl)

theorem value_flat_of {v : Value} {outs : List Str} (h : value_to_strings v = some outs) :
    v.flat = some outs := by
  rw [← value_to_strings_eq_flat]; exact h

theorem init_Valid (error : Str) :
    TextProcessor.Valid { result_set_ := [], str_pool_ := [], error_desp_ := error, position_ := 0 } := by
  intro rep hrep
  simp at hrep

theorem around_out (P S : Str) (outs : List Str) (h : outs ≠ []) :
    expandOut (concatOut (expandOut [] P) outs) S = outs.map (fun s => P ++ s ++ S) := by
  have h1 : concatOut (expandOut [] P) outs = outs.map (fun s => P ++ s) := by
    unfold expandOut concatOut
    by_cases hP : P = []
    · subst hP
      simp
    · simp only [hP, if_false, if_true, List.cons_ne_nil, List.map_cons, List.map_nil]
      induction outs with
      | nil => rfl
      | cons a t ih =>
        cases t with
        | nil => simp
        | cons b t2 =>
          have := ih (by simp)
          simp only [List.map_cons, List.flatten_cons, List.singleton_append] at this ⊢
          rw [this]
  rw [h1]
  unfold expandOut
  by_cases hS : S = []
  · subst hS
    simp
  · rw [if_neg hS, if_neg (by simpa using h), List.map_map]
    rfl

/-- C2, as amended (literal text around one expression region, for a value that flattens
to at least one string): for literal text `P` and `S` in which
every backslash starts one of the two escapes and no backtick is left unescaped, and an
expression `E` that evaluated alone gives a value flattening to the strings `s1..sn`
(`n >= 1`), `Run` on `P`, backtick, `E`, backtick, `S` succeeds with exactly the outputs
`P' ++ si ++ S'` in that order, `P'` and `S'` being the unescaped texts. -/
theorem literal_around_expression (context : Option Context) (fuel : Nat)
    (P S P' S' E error : Str) (v : Value) (outs : List Str)
    (hP : unescape P = some P') (hS : unescape S = some S')
    (hev : EvalsTo context fuel E v) (hout : value_to_strings v = some outs)
    (hne : outs ≠ []) :
    ∃ e, Run fuel context (P ++ '\x60' :: (E ++ '\x60' :: S)) error =
      RunResult.ok (outs.map (fun s => P' ++ s ++ S')) e := by
  obtain ⟨I1, h1, hend⟩ := EvalsTo_elim hev
  have hPl := (unescape_length P P' hP).1
  have hSl := (unescape_length S S' hS).1
  unfold Run TextProcessor.Run
  generalize hin : P ++ '\x60' :: (E ++ '\x60' :: S) = input
  have hlen : input.length = P.length + E.length + S.length + 2 := by
    rw [← hin]
    simp only [List.length_append, List.length_cons]
    omega
  have e1 : input.length + 1 =
      ((((input.length + 1 - (P'.length + S'.length + 2)) + 1) + S'.length) + 1) + P'.length := by
    omega
  rw [e1, loop_literal input context fuel P P' hP _ _ [] ('\x60' :: (E ++ '\x60' :: S))
    (by simp [hin])]
  obtain ⟨T1, hl, hval, hpos, hgen⟩ := loop_region input context fuel
    (((input.length + 1 - (P'.length + S'.length + 2)) + 1) + S'.length)
    { result_set_ := [], str_pool_ := [], error_desp_ := error, position_ := 0 + P.length }
    ([] ++ P') E S v I1 [] outs
    (by simp only [Nat.zero_add]; rw [← hin]; simp) h1 hend (value_flat_of hout)
    (by intro rep hrep; simp at hrep)
  rw [hl]
  have hd3 : input.drop T1.position_ = S ++ [] := by
    rw [hpos, ← hin]
    simp only [Nat.zero_add, List.append_nil]
    have : P.length + E.length + 2 = P.length + (1 + (E.length + 1)) := by omega
    rw [this, List.drop_append, ← List.drop_drop]
    simp
  rw [loop_literal input context fuel S S' hS _ T1 [] [] hd3]
  rw [loop_end _ _ _ _ _ _ (by simp only [hpos, hlen]; omega)]
  simp only [List.nil_append]
  have hfin : ∀ (T2 : TextProcessor), T2.Valid →
      TextProcessor.GenerateResult T2 = TextProcessor.GenerateResult T1 →
      (if S' ≠ [] then
        RunResult.ok
          (TextProcessor.GenerateResult
            { T2 with
                result_set_ := TextProcessor.Expand T2.result_set_
                  (TextProcessor.GetString T2.str_pool_ S').1,
                str_pool_ := (TextProcessor.GetString T2.str_pool_ S').2 })
          T2.error_desp_
      else RunResult.ok (TextProcessor.GenerateResult T2) T2.error_desp_) =
      RunResult.ok (outs.map (fun s => P' ++ s ++ S')) T2.error_desp_ := by
    intro T2 hv2 hg2
    rw [← around_out P' S' outs hne]
    have hgen' : TextProcessor.GenerateResult T2 = concatOut (expandOut [] P') outs := by
      rw [hg2, hgen]
      simp [TextProcessor.GenerateResult]
    by_cases hS' : S' = []
    · subst hS'
      simp only [ne_eq, not_true_eq_false, if_false, hgen']
      simp [expandOut]
    · simp only [ne_eq, hS', not_false_eq_true, if_true]
      rw [(expand_spec T2 hv2 S' hS').2, hgen']
  exact ⟨_, hfin _ hval rfl⟩

end tsub

namespace tsub
open Value TokenId

/-- C2 as amended, witness (the test of `main`): the template
`c\x60[ 1==1 ? 2:3 ..5 , 1{$*100}]x60.http`, its first backtick escaped by a backslash,
with no host gives `c` followed by a backtick and `2.http`, then the same with `3`, `4`
and `100`. -/
theorem literal_around_expression_witness :
    ∃ e, Run 50 none "c\\\x60\x60[ 1==1 ? 2:3 ..5 , 1\x7b$*100\x7d]\x60.http".toList [] =
      RunResult.ok ["c\x602.http".toList, "c\x603.http".toList, "c\x604.http".toList,
        "c\x60100.http".toList] e :=
  literal_around_expression none 50 "c\\\x60".toList ".http".toList "c\x60".toList
    ".http".toList "[ 1==1 ? 2:3 ..5 , 1\x7b$*100\x7d]".toList []
    (VALUE_LIST [VALUE_NUMBER 2, VALUE_NUMBER 3, VALUE_NUMBER 4, VALUE_NUMBER 100])
    ["2".toList, "3".toList, "4".toList, "100".toList]
    (by decide!) (by decide!) (by decide!) (by decide!) (by decide!)

/-- C2, as stated, fails for a value that flattens to no string: with a host in which
every variable holds the empty list, `x` evaluates to the empty list, which flattens to
no string, and the template `a`, region `x`, `b` gives the one output `b` instead of no
output.  It also fails for a prefix with a backslash that starts no escape: the prefix
`a\b` before the region `1` and the suffix `c` gives `ab1c`, without the backslash. -/
theorem literal_around_expression_counterexample :
    EvalsTo (some ⟨fun _ => HostResult.ok (VALUE_LIST []), fun _ _ => HostResult.abort⟩) 50
      "x".toList (VALUE_LIST []) ∧
    value_to_strings (VALUE_LIST []) = some [] ∧
    Run 50 (some ⟨fun _ => HostResult.ok (VALUE_LIST []), fun _ _ => HostResult.abort⟩)
      "a\x60x\x60b".toList [] = RunResult.ok ["b".toList] [] ∧
    Run 50 none "a\\b\x601\x60c".toList [] = RunResult.ok ["ab1c".toList] [] := by
  decide!

/-- C3, counterexample: with no host the template of the two regions `[1,2]` and `[10,20]`
gives `110`, `210`, `120`, `220` in that order, not `110`, `120`, `210`, `220`.  And when
the first region flattens to no string (a host whose variables hold the empty list) the
regions `x` and `[10,20]` give the two outputs `10` and `20`, not `0 * 2` outputs. -/
theorem product_order_counterexample :
    Run 50 none "\x60[1,2]\x60\x60[10,20]\x60".toList [] =
      RunResult.ok ["110".toList, "210".toList, "120".toList, "220".toList] [] ∧
    (¬ ∃ e, Run 50 none "\x60[1,2]\x60\x60[10,20]\x60".toList [] =
      RunResult.ok ["110".toList, "120".toList, "210".toList, "220".toList] e) ∧
    Run 50 (some ⟨fun _ => HostResult.ok (VALUE_LIST []), fun _ _ => HostResult.abort⟩)
      "\x60x\x60\x60[10,20]\x60".toList [] = RunResult.ok ["10".toList, "20".toList] [] := by
  have h : Run 50 none "\x60[1,2]\x60\x60[10,20]\x60".toList [] =
      RunResult.ok ["110".toList, "210".toList, "120".toList, "220".toList] [] := by decide!
  refine ⟨h, ?_, by decide!⟩
  rintro ⟨e, he⟩
  rw [h] at he
  simp only [RunResult.ok.injEq] at he
  exact absurd he.1 (by decide)

/-- C3, as amended: for a template made of two adjacent expression regions whose values
flatten to `a1..am` (`m >= 1`) and `b1..bn`, `Run` returns the `m*n` outputs with the
strings of the second region as the major index: `a1b1, a2b1, ..., amb1, a1b2, ..., ambn`. -/
theorem product_order (context : Option Context) (fuel : Nat) (E1 E2 error : Str)
    (v1 v2 : Value) (as bs : List Str)
    (h1 : EvalsTo context fuel E1 v1) (h2 : EvalsTo context fuel E2 v2)
    (ha : value_to_strings v1 = some as) (hb : value_to_strings v2 = some bs)
    (hne : as ≠ []) :
    ∃ e, Run fuel context ('\x60' :: (E1 ++ '\x60' :: '\x60' :: (E2 ++ ['\x60']))) error =
      RunResult.ok ((bs.map (fun b => as.map (fun a => a ++ b))).flatten) e := by
  obtain ⟨I1, he1, hend1⟩ := EvalsTo_elim h1
  obtain ⟨I2, he2, hend2⟩ := EvalsTo_elim h2
  unfold Run TextProcessor.Run
  generalize hin : '\x60' :: (E1 ++ '\x60' :: '\x60' :: (E2 ++ ['\x60'])) = input
  have hlen : input.length = E1.length + E2.length + 4 := by
    rw [← hin]
    simp only [List.length_append, List.length_cons, List.length_nil]
    omega
  have e1 : input.length + 1 = ((input.length - 2) + 1 + 1) + 1 := by omega
  rw [e1]
  obtain ⟨T1, hl1, hval1, hpos1, hgen1⟩ := loop_region input context fuel
    ((input.length - 2) + 1 + 1)
    { result_set_ := [], str_pool_ := [], error_desp_ := error, position_ := 0 } [] E1
    ('\x60' :: (E2 ++ ['\x60'])) v1 I1 [] as (by rw [← hin]; rfl) he1 hend1
    (value_flat_of ha) (init_Valid error)
  rw [hl1]
  have hd2 : input.drop T1.position_ = '\x60' :: (E2 ++ '\x60' :: []) := by
    rw [hpos1, ← hin]
    simp only [Nat.zero_add]
    have : E1.length + 2 = 1 + (E1.length + 1) := by omega
    rw [this, ← List.drop_drop]
    simp only [List.drop_succ_cons, List.drop_zero]
    rw [List.drop_append]
    rfl
  obtain ⟨T2, hl2, hval2, hpos2, hgen2⟩ := loop_region input context fuel
    ((input.length - 2) + 1) T1 [] E2 [] v2 I2 [] bs hd2 he2 hend2 (value_flat_of hb) hval1
  rw [hl2, loop_end _ _ _ _ _ _ (by simp only [hpos2, hpos1, hlen]; omega)]
  simp only [ne_eq, not_true_eq_false, if_false]
  refine ⟨T2.error_desp_, ?_⟩
  rw [hgen2, hgen1]
  have : as ≠ [] := hne
  simp [concatOut, expandOut, TextProcessor.GenerateResult, this]

/-- C3 as amended, witness: the two regions `[1,2]` and `[10,20]`. -/
theorem product_order_witness :
    ∃ e, Run 50 none "\x60[1,2]\x60\x60[10,20]\x60".toList [] =
      RunResult.ok ["110".toList, "210".toList, "120".toList, "220".toList] e :=
  product_order none 50 "[1,2]".toList "[10,20]".toList []
    (VALUE_LIST [VALUE_NUMBER 1, VALUE_NUMBER 2]) (VALUE_LIST [VALUE_NUMBER 10, VALUE_NUMBER 20])
    ["1".toList, "2".toList] ["10".toList, "20".toList]
    (by decide!) (by decide!) (by decide!) (by decide!) (by decide!)

end tsub

namespace tsub
open Value TokenId

/-- C9 (code defect): a range whose end fails to evaluate does not make the list literal
fail.  With no host the templates of the list literals `[1..]` (end missing), `[1..1/0]`
(division by zero) and `[1..x]` (unknown name) all make `Run` return success with the
single output `1`, after the diagnostic has been written to the error string. -/
theorem range_error_not_fatal :
    Run 50 none "\x60[1..]\x60".toList [] =
      RunResult.ok ["1".toList]
        "[Module:Interp,Location:(1,5)]:\nUnexpected token:]\n".toList ∧
    Run 50 none "\x60[1..1/0]\x60".toList [] =
      RunResult.ok ["1".toList] "[Module:Interp,Location:(1,8)]:\nDivide zero!\n".toList ∧
    Run 50 none "\x60[1..x]\x60".toList [] =
      RunResult.ok ["1".toList]
        "[Module:Interp,Location:(1,6)]:\nVariable:x doesn't have context to look up\n".toList := by
  decide!

/-- C8 (range law): for a list item `A..B` in which `A` evaluates to `va` and `B` to `vb`:
if both are integers `a < b`, the item adds exactly the `b - a` integers `a, a+1, ..., b-1`
in increasing order; if both are integers and `a >= b`, the list literal fails; if one of
them is not an integer, the list literal fails. -/
theorem range_law (source : Str) (exp : Eval) (env : List Value) (I I1 I2 : Interp)
    (va vb : Value)
    (hA : exp (env ++ [VALUE_NULL]) I = Result.ret (some va) I1)
    (hto : I1.token = TK_TO)
    (hB : exp (env ++ [VALUE_NULL, va]) ((I1.Move source).wake env.length) =
      Result.ret (some vb) I2) :
    (∀ a b, va = VALUE_NUMBER a → vb = VALUE_NUMBER b → a < b →
      ∃ vs, Interp.InterpList.item source exp env I =
          Interp.ItemResult.add vs (I2.rest env.length) ∧
        vs.length = (b - a).toNat ∧
        ∀ k, k < vs.length → vs[k]? = some (VALUE_NUMBER (a + (k : Int)))) ∧
    (∀ a b, va = VALUE_NUMBER a → vb = VALUE_NUMBER b → b ≤ a →
      ∀ n vl, ∃ J, Interp.InterpList.loop source exp (n + 1) env vl I = Result.ret none J) ∧
    ((∀ a, va ≠ VALUE_NUMBER a) ∨ (∀ b, vb ≠ VALUE_NUMBER b) →
      ∀ n vl, ∃ J, Interp.InterpList.loop source exp (n + 1) env vl I = Result.ret none J) := by
  have hr : Interp.InterpListRange source exp (env ++ [VALUE_NULL, va]) I1 =
      Result.ret (some vb) I2 := by
    have hl : (env ++ [VALUE_NULL, va]).length - 2 = env.length := by simp
    unfold Interp.InterpListRange
    rw [if_neg (by simp [hto]), hl, hB]
  refine ⟨?_, ?_, ?_⟩
  · intro a b ha hb hab
    subst ha; subst hb
    refine ⟨(List.range (b - a).toNat).map (fun (k : Nat) => VALUE_NUMBER (a + (k : Int))), ?_,
      by simp, ?_⟩
    · unfold Interp.InterpList.item
      rw [hA]
      simp only []
      rw [hr]
      simp only [ge_iff_le]
      rw [if_neg (by omega)]
    · intro k hk
      simp only [List.length_map, List.length_range] at hk
      simp [List.getElem?_map, List.getElem?_range hk]
  · intro a b ha hb hab n vl
    subst ha; subst hb
    unfold Interp.InterpList.loop Interp.InterpList.item
    rw [hA]
    simp only []
    rw [hr]
    simp only [ge_iff_le]
    rw [if_pos hab]
    exact ⟨_, rfl⟩
  · intro hnot n vl
    unfold Interp.InterpList.loop Interp.InterpList.item
    rw [hA]
    simp only []
    rw [hr]
    rcases hnot with hnot | hnot
    · cases va with
      | VALUE_NUMBER a => exact absurd rfl (hnot a)
      | VALUE_STRING s => exact ⟨_, rfl⟩
      | VALUE_LIST l => exact ⟨_, rfl⟩
      | VALUE_NULL => exact ⟨_, rfl⟩
    · cases vb with
      | VALUE_NUMBER b => exact absurd rfl (hnot b)
      | VALUE_STRING s => cases va <;> exact ⟨_, rfl⟩
      | VALUE_LIST l => cases va <;> exact ⟨_, rfl⟩
      | VALUE_NULL => cases va <;> exact ⟨_, rfl⟩

/-- C8, witness: in `[1..3]` the item `1..3` adds two values, the `k`-th being `1 + k`;
and the template of `[1..3]` gives `1` and `2`. -/
theorem range_law_witness :
    (∃ vs, Interp.InterpList.item "[1..3]".toList (Interp.InterpExp "[1..3]".toList none 10) []
          ⟨⟨⟨TK_NUMBER, 0⟩, 1, 0⟩, Dollar.null, []⟩ =
        Interp.ItemResult.add vs
          (Interp.rest 0 ⟨⟨⟨TK_RSQR, 1⟩, 5, 0⟩, Dollar.null, []⟩) ∧
      vs.length = 2 ∧ ∀ k, k < vs.length → vs[k]? = some (VALUE_NUMBER (1 + (k : Int)))) ∧
    Run 50 none "\x60[1..3]\x60".toList [] = RunResult.ok ["1".toList, "2".toList] [] :=
  ⟨(range_law "[1..3]".toList (Interp.InterpExp "[1..3]".toList none 10) []
      ⟨⟨⟨TK_NUMBER, 0⟩, 1, 0⟩, Dollar.null, []⟩ ⟨⟨⟨TK_TO, 2⟩, 2, 0⟩, Dollar.null, []⟩
      ⟨⟨⟨TK_RSQR, 1⟩, 5, 0⟩, Dollar.null, []⟩ (VALUE_NUMBER 1) (VALUE_NUMBER 3)
      (by decide!) (by decide!) (by decide!)).1 1 3 rfl rfl (by decide),
   by decide!⟩

/-- C6 (map over a scalar): if `E` evaluates to an integer or a string `v` and `{` follows,
then inside the body `$` reads `v`; the body `B` is evaluated once, on the state after `{`;
if it succeeds with `r` and `}` follows, the value of `E{B}` is `r` itself (not a list) and
the scanner is moved over the `}`; if `B` fails, or is not followed by `}`, `E{B}` fails. -/
theorem map_over_scalar (source : Str) (context : Option Context) (fuel : Nat)
    (env : List Value) (I I1 : Interp) (v : Value)
    (hE : Interp.InterpPostExp source context (Interp.InterpExp source context fuel) fuel env I =
      Result.ret (some v) I1)
    (hv : (∃ n, v = VALUE_NUMBER n) ∨ (∃ s, v = VALUE_STRING s))
    (hbr : I1.token = TK_LBRA) :
    (∀ J : Interp, J.token = TK_DOLLAR → J.dollar_value_ = Dollar.obj env.length →
      Interp.InterpAtomic source context (Interp.InterpExp source context fuel) fuel
        (env ++ [v]) J = Result.ret (some v) (J.Move source)) ∧
    (∀ r I2, Interp.InterpExp source context fuel (env ++ [v])
        { (I1.Move source) with dollar_value_ := Dollar.obj env.length } =
          Result.ret (some r) I2 → I2.token = TK_RBRA →
      Interp.InterpExp source context (fuel + 1) env I =
        Result.ret (some r) ((I2.kill env.length).Move source)) ∧
    (∀ I2, Interp.InterpExp source context fuel (env ++ [v])
        { (I1.Move source) with dollar_value_ := Dollar.obj env.length } = Result.ret none I2 →
      ∃ K, Interp.InterpExp source context (fuel + 1) env I = Result.ret none K) ∧
    (∀ r I2, Interp.InterpExp source context fuel (env ++ [v])
        { (I1.Move source) with dollar_value_ := Dollar.obj env.length } =
          Result.ret (some r) I2 → I2.token ≠ TK_RBRA →
      ∃ K, Interp.InterpExp source context (fuel + 1) env I = Result.ret none K) := by
  have hunf : Interp.InterpExp source context (fuel + 1) env I =
      (match Interp.InterpExp source context fuel (env ++ [v])
          { (I1.Move source) with dollar_value_ := Dollar.obj env.length } with
        | Result.crash c => Result.crash c
        | Result.ret none I2 => Result.ret none (I2.kill env.length)
        | Result.ret (some new_val) I2 =>
          if I2.token ≠ TK_RBRA then
            Result.ret none (Interp.ReportError source (I2.kill env.length)
              "Post expression needs \x7d to close the body".toList)
          else Result.ret (some new_val) ((I2.kill env.length).Move source)) := by
    rw [Interp.InterpExp, hE]
    simp only []
    rw [if_pos hbr]
    rcases hv with ⟨n, hn⟩ | ⟨s, hs⟩
    · subst hn; rfl
    · subst hs; rfl
  refine ⟨?_, ?_, ?_, ?_⟩
  · intro J hJ hD
    unfold Interp.InterpAtomic
    rw [hJ]
    simp only []
    rw [hD]
    simp
  · intro r I2 hb ht
    rw [hunf, hb]
    simp only []
    rw [if_neg (by simp [ht])]
  · intro I2 hb
    rw [hunf, hb]
    exact ⟨_, rfl⟩
  · intro r I2 hb ht
    rw [hunf, hb]
    simp only []
    rw [if_pos ht]
    exact ⟨_, rfl⟩

/-- C6, witness: `1{$*100}` evaluates to the integer 100. -/
theorem map_over_scalar_witness :
    Interp.InterpExp "1\x7b$*100\x7d".toList none 11 [] (Interp.init "1\x7b$*100\x7d".toList 0 []) =
      Result.ret (some (VALUE_NUMBER 100))
        (Interp.Move "1\x7b$*100\x7d".toList
          (Interp.kill 0 ⟨⟨⟨TK_RBRA, 1⟩, 7, 0⟩, Dollar.obj 0, []⟩)) :=
  (map_over_scalar "1\x7b$*100\x7d".toList none 10 [] (Interp.init "1\x7b$*100\x7d".toList 0 [])
    ⟨⟨⟨TK_LBRA, 1⟩, 1, 0⟩, Dollar.null, []⟩ (VALUE_NUMBER 1) (by decide!) (Or.inl ⟨1, rfl⟩)
    (by decide!)).2.1 (VALUE_NUMBER 100) ⟨⟨⟨TK_RBRA, 1⟩, 7, 0⟩, Dollar.obj 0, []⟩
    (by decide!) (by decide!)

end tsub

namespace tsub
open Value TokenId

/-- The evaluator does not read the error string nor the start position: from two states
with the same lexeme, position and dollar pointer it returns the same value and again
such states. -/
theorem InterpExp_core (source : Str) (context : Option Context) (fuel : Nat)
    (env : List Value) (J0 J : Interp) (hc : Scanner.Consistent source J0.scanner_)
    (hs : SameCore J J0) (o : Option Value) (K0 : Interp)
    (h : Interp.InterpExp source context fuel env J0 = Result.ret o K0) :
    ∃ K, Interp.InterpExp source context fuel env J = Result.ret o K ∧ SameCore K K0 := by
  have hrel : Rel source [] [] J0 J := by
    refine ⟨hc, ?_, ?_, hs.2.2⟩
    · simp only [List.nil_append, List.append_nil]
      refine ⟨?_, by rw [hs.2.1]; exact hc.2⟩
      rw [hs.2.1, hs.1]
      exact hc.1
    · simpa using hs.2.1
  have hsim := @InterpExp_sim source [] []
    (fun c hc => by simp at hc) context fuel env J0 J hrel
  simp only [List.nil_append, List.append_nil] at hsim
  rcases SimRes_cases hsim with ⟨c, h1, _⟩ | ⟨J1, J2, h1, h2, hr⟩ | ⟨w, J1, J2, h1, h2, hr⟩ |
    ⟨hq, _⟩
  · rw [h] at h1; cases h1
  · rw [h] at h1
    cases h1
    refine ⟨J2, h2, ?_, by simpa using hr.2.2.1, hr.2.2.2⟩
    have h3 := hr.2.1.1
    have h4 := hr.1.1
    simp only [List.nil_append, List.append_nil] at h3
    have h5 : J2.scanner_.position_ = K0.scanner_.position_ := by simpa using hr.2.2.1
    rw [h5, h4] at h3
    exact (Prod.mk.inj h3).1.symm
  · rw [h] at h1
    cases h1
    refine ⟨J2, h2, ?_, by simpa using hr.2.2.1, hr.2.2.2⟩
    have h3 := hr.2.1.1
    have h4 := hr.1.1
    simp only [List.nil_append, List.append_nil] at h3
    have h5 : J2.scanner_.position_ = K0.scanner_.position_ := by simpa using hr.2.2.1
    rw [h5, h4] at h3
    exact (Prod.mk.inj h3).1.symm
  · simp at hq

theorem Set_scanner (source : Str) (I : Interp) (pos : Nat) :
    (I.Set source pos).scanner_.lexme_ = (Scanner.Peek source pos).1 ∧
    (I.Set source pos).scanner_.position_ = (Scanner.Peek source pos).2 := by
  simp [Interp.Set, Scanner.Set, Scanner.Next]

/-- The iterations of a map over a list after the first one. -/
theorem each_rest (source : Str) (body : Interp → Result) (d : Nat) (S0 : Scanner)
    (hS0 : Scanner.Peek source S0.position_ = (S0.lexme_, S0.position_)) (e : Nat) :
    ∀ (l rs acc : List Value) (I : Interp),
      I.scanner_.lexme_ = S0.lexme_ → I.scanner_.position_ = S0.position_ →
      rs.length = l.length →
      (∀ (i : Nat) (x : Value), l[i]? = some x → ∀ J : Interp, SameCore J ⟨S0, Dollar.elem d x, []⟩ →
        ∃ r J', rs[i]? = some r ∧ body J = Result.ret (some r) J') →
      ∃ K, Interp.InterpExp.each source body d S0.position_ l (some e) acc I =
          Result.ret (some (VALUE_LIST (acc ++ rs))) K ∧
        K.scanner_.position_ = (Scanner.Peek source e).2 := by
  intro l
  induction l with
  | nil =>
    intro rs acc I _ _ hlen _
    have : rs = [] := List.length_eq_zero.mp hlen
    subst this
    refine ⟨{ (I.Set source e) with dollar_value_ := Dollar.killList d I.dollar_value_ },
      by simp [Interp.InterpExp.each], ?_⟩
    exact (Set_scanner source I e).2
  | cons x xs ih =>
    intro rs acc I hl hp hlen hb
    obtain ⟨r, J', hr, hrun⟩ := hb 0 x (by simp) { I with dollar_value_ := Dollar.elem d x }
      ⟨hl, hp, rfl⟩
    cases rs with
    | nil => simp at hr
    | cons r0 rs' =>
      simp only [List.getElem?_cons_zero, Option.some.injEq] at hr
      subst hr
      obtain ⟨hsl, hsp⟩ := Set_scanner source J' S0.position_
      rw [hS0] at hsl hsp
      obtain ⟨K, hK, hKp⟩ := ih rs' (acc ++ [r0]) (J'.Set source S0.position_) hsl hsp
        (by simpa using hlen)
        (fun i y hy J hJ => by
          have := hb (i + 1) y (by simpa using hy) J hJ
          simpa using this)
      refine ⟨K, ?_, hKp⟩
      rw [Interp.InterpExp.each, hrun]
      simp only []
      rw [hK]
      simp

/-- C5 (map over a list): if `E` evaluates to a list with elements `e1..en` (`n >= 1`), `{`
follows, and the body evaluated from there with `$` bound to `ei` succeeds with `ri` for
each `i` (whatever the error string holds), the first evaluation stopping on the `}` at
offset `q`, then `E{B}` evaluates to the list `[r1..rn]` (same length, same order) and the
evaluator ends just past that `}`: at the first offset after `q` that holds no blank. -/
theorem map_over_list (source : Str) (context : Option Context) (fuel : Nat)
    (env : List Value) (I I1 : Interp) (es rs : List Value) (q : Nat)
    (hE : Interp.InterpPostExp source context (Interp.InterpExp source context fuel) fuel env I =
      Result.ret (some (VALUE_LIST es)) I1)
    (hbr : I1.token = TK_LBRA) (hne : es ≠ []) (hlen : rs.length = es.length)
    (hbody : ∀ (i : Nat) (e : Value), es[i]? = some e → ∀ J : Interp,
      SameCore J ⟨(I1.Move source).scanner_, Dollar.elem env.length e, []⟩ →
      ∃ r J', rs[i]? = some r ∧
        Interp.InterpExp source context fuel (env ++ [VALUE_LIST es]) J =
          Result.ret (some r) J' ∧
        (i = 0 → J'.scanner_.lexme_ = ⟨TK_RBRA, 1⟩ ∧ J'.scanner_.position_ = q)) :
    ∃ K, Interp.InterpExp source context (fuel + 1) env I = Result.ret (some (VALUE_LIST rs)) K ∧
      K.scanner_.position_ = (Scanner.Peek source (q + 1)).2 := by
  have hS0 : Scanner.Peek source (I1.Move source).scanner_.position_ =
      ((I1.Move source).scanner_.lexme_, (I1.Move source).scanner_.position_) := by
    simp only [Interp.Move, Scanner.Move, Scanner.Next]
    exact Peek_idem source _
  cases es with
  | nil => exact absurd rfl hne
  | cons x xs =>
    cases rs with
    | nil => simp at hlen
    | cons r0 rs' =>
      obtain ⟨r, J', hr, hrun, hfirst⟩ := hbody 0 x (by simp)
        { (I1.Move source) with dollar_value_ := Dollar.elem env.length x } ⟨rfl, rfl, rfl⟩
      simp only [List.getElem?_cons_zero, Option.some.injEq] at hr
      subst hr
      obtain ⟨hlex, hq⟩ := hfirst rfl
      have htok : J'.token = TK_RBRA := by simp [Interp.token, hlex]
      have hmove : (J'.Move source).scanner_.position_ = (Scanner.Peek source (q + 1)).2 := by
        simp [Interp.Move, Scanner.Move, Scanner.Next, hlex, hq]
      obtain ⟨hsl, hsp⟩ := Set_scanner source (J'.Move source) (I1.Move source).scanner_.position_
      rw [hS0] at hsl hsp
      obtain ⟨K, hK, hKp⟩ := each_rest source
        (Interp.InterpExp source context fuel (env ++ [VALUE_LIST (x :: xs)])) env.length
        (I1.Move source).scanner_ hS0 (J'.Move source).scanner_.position_ xs rs' [r0]
        ((J'.Move source).Set source (I1.Move source).scanner_.position_) hsl hsp
        (by simpa using hlen)
        (fun i y hy J hJ => by
          obtain ⟨r, K', h1, h2, _⟩ := hbody (i + 1) y (by simpa using hy) J hJ
          exact ⟨r, K', by simpa using h1, h2⟩)
      refine ⟨K, ?_, ?_⟩
      · rw [Interp.InterpExp, hE]
        simp only []
        rw [if_pos hbr, Interp.InterpExp.each, hrun]
        simp only [List.nil_append]
        rw [if_neg (by simp [htok]), hK]
        simp
      · rw [hKp, hmove]
        exact congrArg Prod.snd (Peek_idem source (q + 1))

/-- C5, witness: `[1..3]{$+10}` evaluates to the list `[11, 12]` (12 at index 1) with the
scanner at the end of the 12 characters, and the template of `[1..4]{$*10}` gives `10`,
`20`, `30`. -/
theorem map_over_list_witness :
    (∃ K, Interp.InterpExp "[1..3]\x7b$+10\x7d".toList none 11 []
          (Interp.init "[1..3]\x7b$+10\x7d".toList 0 []) =
        Result.ret (some (VALUE_LIST [VALUE_NUMBER 11, VALUE_NUMBER 12])) K ∧
      K.scanner_.position_ = (Scanner.Peek "[1..3]\x7b$+10\x7d".toList (11 + 1)).2) ∧
    (Scanner.Peek "[1..3]\x7b$+10\x7d".toList (11 + 1)).2 = "[1..3]\x7b$+10\x7d".toList.length ∧
    Run 50 none "\x60[1..4]\x7b$*10\x7d\x60".toList [] =
      RunResult.ok ["10".toList, "20".toList, "30".toList] [] :=
  ⟨map_over_list "[1..3]\x7b$+10\x7d".toList none 10 []
      (Interp.init "[1..3]\x7b$+10\x7d".toList 0 []) ⟨⟨⟨TK_LBRA, 1⟩, 6, 0⟩, Dollar.null, []⟩
      [VALUE_NUMBER 1, VALUE_NUMBER 2] [VALUE_NUMBER 11, VALUE_NUMBER 12] 11
      (by decide!) (by decide!) (by simp) rfl
      (fun i e he J hJ => by
        match i, he with
        | 0, he =>
          simp only [List.getElem?_cons_zero, Option.some.injEq] at he
          subst he
          obtain ⟨K, hK, hc⟩ := InterpExp_core "[1..3]\x7b$+10\x7d".toList none 10
            ([] ++ [VALUE_LIST [VALUE_NUMBER 1, VALUE_NUMBER 2]])
            ⟨⟨⟨TK_DOLLAR, 1⟩, 7, 0⟩, Dollar.elem 0 (VALUE_NUMBER 1), []⟩ J ⟨by decide!, by decide⟩ hJ
            (some (VALUE_NUMBER 11))
            ⟨⟨⟨TK_RBRA, 1⟩, 11, 0⟩, Dollar.elem 0 (VALUE_NUMBER 1), []⟩ (by decide!)
          exact ⟨VALUE_NUMBER 11, K, rfl, hK, fun _ => ⟨hc.1, hc.2.1⟩⟩
        | 1, he =>
          simp only [List.getElem?_cons_succ, List.getElem?_cons_zero, Option.some.injEq] at he
          subst he
          obtain ⟨K, hK, _⟩ := InterpExp_core "[1..3]\x7b$+10\x7d".toList none 10
            ([] ++ [VALUE_LIST [VALUE_NUMBER 1, VALUE_NUMBER 2]])
            ⟨⟨⟨TK_DOLLAR, 1⟩, 7, 0⟩, Dollar.elem 0 (VALUE_NUMBER 2), []⟩ J ⟨by decide!, by decide⟩ hJ
            (some (VALUE_NUMBER 12))
            ⟨⟨⟨TK_RBRA, 1⟩, 11, 0⟩, Dollar.elem 0 (VALUE_NUMBER 2), []⟩ (by decide!)
          exact ⟨VALUE_NUMBER 12, K, rfl, hK, fun h => absurd h (by decide)⟩
        | n + 2, he => simp at he),
    by decide!, by decide!⟩

end tsub

namespace tsub
open Value TokenId

/-! ## Invariants of the evaluator -/

section Invariant
variable {P : Dollar → Prop} {G : Value → Prop}

/-- Sequencing for an invariant. -/
theorem inv_bind (g : Interp → Interp) (K : Value → Interp → Result)
    (hg : ∀ J : Interp, P J.dollar_value_ → P (g J).dollar_value_)
    (hK : ∀ v (J : Interp), G v → P J.dollar_value_ → InvRes P G (K v J)) :
    ∀ r : Result, InvRes P G r →
    InvRes P G
      (match r with
        | Result.crash c => Result.crash c
        | Result.ret none I1 => Result.ret none (g I1)
        | Result.ret (some v) I1 => K v I1) := by
  intro r h
  cases r with
  | crash c => trivial
  | ret o J =>
    cases o with
    | none => exact hg J h
    | some v => exact hK v J h.2 h.1

theorem inv_dead (hc : DollarInv P G) : P Dollar.dead := by
  have h := hc.kill 0 (Dollar.obj 1) (hc.obj 1)
  simpa [Dollar.kill] using h

theorem inv_rest (hc : DollarInv P G) (d : Nat) (D : Dollar) (h : P D) :
    P (Dollar.rest d D) := by
  cases D with
  | null => exact h
  | dead => exact h
  | elem j v =>
    simp only [Dollar.rest]
    split
    · exact inv_dead hc
    · exact h
  | obj j =>
    simp only [Dollar.rest]
    split
    · exact hc.spare d
    · split
      · exact inv_dead hc
      · exact h
  | spare j =>
    simp only [Dollar.rest]
    split
    · exact inv_dead hc
    · exact h

theorem inv_wake (hc : DollarInv P G) (d : Nat) (D : Dollar) (h : P D) :
    P (Dollar.wake d D) := by
  cases D with
  | spare j =>
    simp only [Dollar.wake]
    split
    · exact hc.obj _
    · exact h
  | null => exact h
  | dead => exact h
  | elem j v => exact h
  | obj j => exact h

theorem inv_formatted (source : Str) (I : Interp) (msg : Str) (hP : P I.dollar_value_) :
    InvRes P G (Interp.ReportFormatted source I msg) := by
  unfold Interp.ReportFormatted
  split
  · trivial
  · exact hP

theorem env_snoc {env : List Value} {v : Value} (henv : ∀ x ∈ env, G x) (hv : G v) :
    ∀ x ∈ env ++ [v], G x := by
  intro x hx
  rcases List.mem_append.mp hx with h | h
  · exact henv x h
  · rw [List.mem_singleton.mp h]; exact hv

theorem ParseNumber_inv (hc : DollarInv P G) (source : Str) (I : Interp)
    (hP : P I.dollar_value_) : InvRes P G (Interp.ParseNumber source I) := by
  unfold Interp.ParseNumber
  cases strtol (source.drop I.scanner_.position_) with
  | mk a b =>
    cases a with
    | none => exact hP
    | some val => exact ⟨hP, hc.number _⟩

theorem ParseString_inv (hc : DollarInv P G) (source : Str) (I : Interp)
    (hP : P I.dollar_value_) : InvRes P G (Interp.ParseString source I) := by
  unfold Interp.ParseString
  cases Interp.ParseString.scan (source.drop (I.scanner_.position_ + 1))
      (I.scanner_.position_ + 1) [] with
  | none => exact hP
  | some p =>
    cases p with
    | mk buffer i => exact ⟨hP, hc.string _⟩

theorem InterpListRange_inv (hc : DollarInv P G) (source : Str) (f : Eval)
    (hf : InvEval P G f)
    (env : List Value) (I : Interp) (henv : ∀ x ∈ env, G x) (hP : P I.dollar_value_) :
    InvRes P G (Interp.InterpListRange source f env I) := by
  unfold Interp.InterpListRange
  split
  · exact hP
  · exact hf _ _ henv (inv_wake hc _ _ hP)

theorem InterpList_item_inv (hc : DollarInv P G) (source : Str) (f : Eval)
    (hf : InvEval P G f) (env : List Value) (I : Interp) (henv : ∀ x ∈ env, G x)
    (hP : P I.dollar_value_) : ItemInv P G (Interp.InterpList.item source f env I) := by
  unfold Interp.InterpList.item
  have h1 := hf (env ++ [VALUE_NULL]) I (env_snoc henv hc.null) hP
  cases e1 : f (env ++ [VALUE_NULL]) I with
  | crash c => trivial
  | ret o J =>
    rw [e1] at h1
    cases o with
    | none => exact hc.kill _ _ h1
    | some val =>
      simp only []
      have henv2 : ∀ x ∈ env ++ [VALUE_NULL, val], G x := by
        intro x hx
        rcases List.mem_append.mp hx with h | h
        · exact henv x h
        · simp only [List.mem_cons, List.mem_singleton, List.not_mem_nil, or_false] at h
          rcases h with h | h
          · rw [h]; exact hc.null
          · rw [h]; exact h1.2
      have h2 := InterpListRange_inv hc source f hf (env ++ [VALUE_NULL, val]) J henv2 h1.1
      cases e2 : Interp.InterpListRange source f (env ++ [VALUE_NULL, val]) J with
      | crash c => trivial
      | ret o2 K =>
        rw [e2] at h2
        cases o2 with
        | none =>
          refine ⟨inv_rest hc _ _ h2, by simp, ?_⟩
          intro x hx
          rw [List.mem_singleton.mp hx]
          exact h1.2
        | some to_ =>
          cases val <;> cases to_ <;> simp only [] <;> try (exact hc.kill _ _ h2.1)
          split
          · exact hc.kill _ _ h2.1
          · rename_i fr en hlt
            refine ⟨inv_rest hc _ _ h2.1, ?_, ?_⟩
            · intro hnil
              have := congrArg List.length hnil
              simp only [List.length_map, List.length_range, List.length_nil] at this
              omega
            · intro x hx
              obtain ⟨k, _, hk⟩ := List.mem_map.mp hx
              rw [← hk]
              exact hc.number _

theorem InterpList_loop_inv (hc : DollarInv P G) (source : Str) (f : Eval)
    (hf : InvEval P G f) :
    ∀ (n : Nat) (env vl : List Value) (I : Interp), (∀ x ∈ env, G x) → (∀ x ∈ vl, G x) →
      P I.dollar_value_ → InvRes P G (Interp.InterpList.loop source f n env vl I) := by
  intro n
  induction n with
  | zero => intro env vl I _ _ _; trivial
  | succ n ih =>
    intro env vl I henv hvl hP
    unfold Interp.InterpList.loop
    have hi := InterpList_item_inv hc source f hf env I henv hP
    cases e1 : Interp.InterpList.item source f env I with
    | crash c => trivial
    | fail J => rw [e1] at hi; exact hi
    | add added J =>
      rw [e1] at hi
      obtain ⟨hJ, hne, hall⟩ := hi
      have hall2 : ∀ x ∈ vl ++ added, G x := by
        intro x hx
        rcases List.mem_append.mp hx with h | h
        · exact hvl x h
        · exact hall x h
      simp only []
      split
      · exact ih _ _ _ henv hall2 hJ
      · split
        · exact ⟨hc.kill _ _ hJ, hc.list _ (by simp [hne]) hall2⟩
        · exact hc.kill _ _ hJ

theorem InterpList_inv (hc : DollarInv P G) (source : Str) (f : Eval)
    (hf : InvEval P G f) (fuel : Nat) : InvEval P G (Interp.InterpList source f fuel) := by
  intro env I henv hP
  unfold Interp.InterpList
  split
  · exact hP
  · exact InterpList_loop_inv hc source f hf _ _ _ _ henv (by simp) hP

theorem InterpFunc_call_inv (source : Str) (context : Option Context)
    (hh : HostInv G context) (func_name : Str) (par : List Value) (I : Interp)
    (hP : P I.dollar_value_) :
    InvRes P G (Interp.InterpFunc.call source context func_name par I) := by
  unfold Interp.InterpFunc.call
  cases context with
  | none => exact inv_formatted _ _ _ hP
  | some c =>
    simp only []
    cases e : c.ExecFunction func_name par with
    | ok v => exact ⟨hP, (hh c rfl).2 _ _ _ e⟩
    | fail e => exact inv_formatted _ _ _ hP
    | abort => trivial

theorem InterpFunc_loop_inv (hc : DollarInv P G) (source : Str) (context : Option Context)
    (hh : HostInv G context) (f : Eval) (hf : InvEval P G f) (func_name : Str) :
    ∀ (n : Nat) (env par : List Value) (I : Interp), (∀ x ∈ env, G x) →
      P I.dollar_value_ →
      InvRes P G (Interp.InterpFunc.loop source context f func_name n env par I) := by
  intro n
  induction n with
  | zero => intro env par I _ _; trivial
  | succ n ih =>
    intro env par I henv hP
    unfold Interp.InterpFunc.loop
    refine inv_bind (Interp.kill env.length) _ (fun J hJ => hc.kill _ _ hJ) ?_ _
      (hf _ _ (env_snoc henv hc.null) hP)
    intro val J hG hJ
    split
    · exact ih _ _ _ henv (hc.kill _ _ hJ)
    · split
      · exact InterpFunc_call_inv source context hh _ _ _ (hc.kill _ _ hJ)
      · exact hc.kill _ _ hJ

theorem InterpPF_inv (hc : DollarInv P G) (source : Str) (context : Option Context)
    (hh : HostInv G context) (f : Eval) (hf : InvEval P G f) (fuel : Nat) :
    InvEval P G (Interp.InterpPF source context f fuel) := by
  intro env I henv hP
  unfold Interp.InterpPF
  split
  · unfold Interp.InterpFunc
    exact InterpFunc_loop_inv hc source context hh f hf _ _ _ _ _ henv hP
  · cases context with
    | none => exact inv_formatted _ _ _ hP
    | some c =>
      simp only []
      cases e : c.GetVariable (Interp.ParseVariable source I).1 with
      | ok v => exact ⟨hP, (hh c rfl).1 _ _ e⟩
      | fail e => exact inv_formatted _ _ _ hP
      | abort => trivial

theorem InterpAtomic_inv (hc : DollarInv P G) (source : Str) (context : Option Context)
    (hh : HostInv G context) (f : Eval) (hf : InvEval P G f) (fuel : Nat) :
    InvEval P G (Interp.InterpAtomic source context f fuel) := by
  intro env I henv hP
  unfold Interp.InterpAtomic
  cases htk : I.token <;> simp only [] <;> try (exact hP)
  · exact ParseString_inv hc source I hP
  · exact InterpPF_inv hc source context hh f hf fuel env I henv hP
  · exact ParseNumber_inv hc source I hP
  · refine inv_bind id _ (fun _ h => h) ?_ _ (hf _ _ henv hP)
    intro v J hG hJ
    split
    · exact hJ
    · exact ⟨hJ, hG⟩
  · have hP2 := hP
    cases hd : I.dollar_value_ with
    | null => exact hP
    | elem j v => rw [hd] at hP2; exact ⟨hP, hc.read _ _ hP2⟩
    | obj j =>
      simp only []
      cases hg : env.get? j with
      | none => exact ⟨hP, hc.null⟩
      | some v => exact ⟨hP, henv v (List.get?_mem hg)⟩
    | spare j => exact ⟨hP, hc.null⟩
    | dead => trivial
  · exact InterpList_inv hc source f hf fuel env I henv hP

theorem InterpUnary_inv (hc : DollarInv P G) (source : Str) (context : Option Context)
    (hh : HostInv G context) (f : Eval) (hf : InvEval P G f) (fuel : Nat) :
    InvEval P G (Interp.InterpUnary source context f fuel) := by
  intro env I henv hP
  have ha := InterpAtomic_inv hc source context hh f hf fuel env (I.Move source) henv hP
  unfold Interp.InterpUnary
  cases htk : I.token <;> simp only [] <;> try trivial
  · refine inv_bind id _ (fun _ h => h) ?_ _ ha
    intro v J hG hJ
    cases v <;> simp only [] <;> first | exact ⟨hJ, hc.number _⟩ | exact hJ
  · refine inv_bind id _ (fun _ h => h) ?_ _ ha
    intro v J hG hJ
    cases v <;> simp only [] <;> first | exact ⟨hJ, hc.number _⟩ | exact hJ
  · refine inv_bind id _ (fun _ h => h) ?_ _ ha
    intro v J hG hJ
    cases v <;> simp only [] <;> exact ⟨hJ, hc.number _⟩

theorem InterpFactor_inv (hc : DollarInv P G) (source : Str) (context : Option Context)
    (hh : HostInv G context) (f : Eval) (hf : InvEval P G f) (fuel : Nat) :
    InvEval P G (Interp.InterpFactor source context f fuel) := by
  intro env I henv hP
  unfold Interp.InterpFactor
  split
  · exact InterpUnary_inv hc source context hh f hf fuel env I henv hP
  · exact InterpAtomic_inv hc source context hh f hf fuel env I henv hP

theorem InterpTerm_loop_inv (hc : DollarInv P G) (source : Str) (f : Eval)
    (hf : InvEval P G f) :
    ∀ (n : Nat) (env : List Value) (output : Value) (I : Interp), (∀ x ∈ env, G x) →
      G output → P I.dollar_value_ →
      InvRes P G (Interp.InterpTerm.loop source f n env output I) := by
  intro n
  induction n with
  | zero => intro env output I _ _ _; trivial
  | succ n ih =>
    intro env output I henv hout hP
    unfold Interp.InterpTerm.loop
    split
    · refine inv_bind (Interp.kill env.length) _ (fun J hJ => hc.kill _ _ hJ) ?_ _
        (hf _ _ (env_snoc henv hout) hP)
      intro rhs J hG hJ
      cases output <;> cases rhs <;> simp only [] <;> try (exact hc.kill _ _ hJ)
      split
      · exact ih _ _ _ henv (hc.number _) (hc.kill _ _ hJ)
      · split
        · exact hc.kill _ _ hJ
        · split
          · trivial
          · exact ih _ _ _ henv (hc.number _) (hc.kill _ _ hJ)
    · exact ⟨hc.kill _ _ hP, hout⟩

theorem InterpComp_loop_inv (hc : DollarInv P G) (source : Str) (f : Eval)
    (hf : InvEval P G f) :
    ∀ (n : Nat) (env : List Value) (output : Value) (I : Interp), (∀ x ∈ env, G x) →
      G output → P I.dollar_value_ →
      InvRes P G (Interp.InterpComp.loop source f n env output I) := by
  intro n
  induction n with
  | zero => intro env output I _ _ _; trivial
  | succ n ih =>
    intro env output I henv hout hP
    unfold Interp.InterpComp.loop
    split
    · refine inv_bind (Interp.kill env.length) _ (fun J hJ => hc.kill _ _ hJ) ?_ _
        (hf _ _ (env_snoc henv hout) hP)
      intro rhs J hG hJ
      cases output <;> cases rhs <;> simp only [] <;> try (exact hc.kill _ _ hJ)
      split
      · exact ih _ _ _ henv (hc.number _) (hc.kill _ _ hJ)
      · exact ih _ _ _ henv (hc.number _) (hc.kill _ _ hJ)
    · exact ⟨hc.kill _ _ hP, hout⟩

theorem InterpLogic_loop_inv (hc : DollarInv P G) (source : Str) (f : Eval)
    (hf : InvEval P G f) :
    ∀ (n : Nat) (env : List Value) (output : Value) (I : Interp), (∀ x ∈ env, G x) →
      G output → P I.dollar_value_ →
      InvRes P G (Interp.InterpLogic.loop source f n env output I) := by
  intro n
  induction n with
  | zero => intro env output I _ _ _; trivial
  | succ n ih =>
    intro env output I henv hout hP
    unfold Interp.InterpLogic.loop
    split
    · refine inv_bind (Interp.kill env.length) _ (fun J hJ => hc.kill _ _ hJ) ?_ _
        (hf _ _ (env_snoc henv hout) hP)
      intro rhs J hG hJ
      cases rhs <;> cases output <;> simp only [] <;> try (exact hc.kill _ _ hJ)
      · split
        · exact ih _ _ _ henv (hc.number _) (hc.kill _ _ hJ)
        · trivial
      · split
        · exact ih _ _ _ henv (hc.number _) (hc.kill _ _ hJ)
        · trivial
    · exact ⟨hc.kill _ _ hP, hout⟩

theorem InterpTenery_loop_inv (hc : DollarInv P G) (source : Str) (f : Eval)
    (hf : InvEval P G f) :
    ∀ (n : Nat) (env : List Value) (output : Value) (I : Interp), (∀ x ∈ env, G x) →
      G output → P I.dollar_value_ →
      InvRes P G (Interp.InterpTenery.loop source f n env output I) := by
  intro n
  induction n with
  | zero => intro env output I _ _ _; trivial
  | succ n ih =>
    intro env output I henv hout hP
    unfold Interp.InterpTenery.loop
    split
    · refine inv_bind (Interp.kill env.length) _ (fun J hJ => hc.kill _ _ hJ) ?_ _
        (hf _ _ (env_snoc henv hout) hP)
      intro rhs J hG hJ
      split
      · trivial
      · split
        · exact ih _ _ _ henv (hc.number _) (hc.kill _ _ hJ)
        · exact ih _ _ _ henv (hc.number _) (hc.kill _ _ hJ)
    · exact ⟨hc.kill _ _ hP, hout⟩

/-- A level of binary operators keeps the invariant. -/
theorem level_inv (f : Eval) (L : List Value → Value → Interp → Result)
    (hf : InvEval P G f)
    (hL : ∀ env output (I : Interp), (∀ x ∈ env, G x) → G output → P I.dollar_value_ →
      InvRes P G (L env output I)) :
    ∀ env (I : Interp), (∀ x ∈ env, G x) → P I.dollar_value_ →
    InvRes P G
      (match f env I with
        | Result.crash c => Result.crash c
        | Result.ret none J => Result.ret none J
        | Result.ret (some output) J => L env output J) := by
  intro env I henv hP
  exact inv_bind id _ (fun _ h => h) (fun v J hG hJ => hL env v J henv hG hJ) _ (hf env I henv hP)

theorem InterpTerm_inv (hc : DollarInv P G) (source : Str) (context : Option Context)
    (hh : HostInv G context) (f : Eval) (hf : InvEval P G f) (fuel : Nat) :
    InvEval P G (Interp.InterpTerm source context f fuel) := by
  have h0 := InterpFactor_inv hc source context hh f hf fuel
  intro env I henv hP
  unfold Interp.InterpTerm
  exact level_inv _ _ h0 (fun env output J => InterpTerm_loop_inv hc source _ h0 fuel env output J)
    env I henv hP

theorem InterpComp_inv (hc : DollarInv P G) (source : Str) (context : Option Context)
    (hh : HostInv G context) (f : Eval) (hf : InvEval P G f) (fuel : Nat) :
    InvEval P G (Interp.InterpComp source context f fuel) := by
  have h0 := InterpTerm_inv hc source context hh f hf fuel
  intro env I henv hP
  unfold Interp.InterpComp
  exact level_inv _ _ h0 (fun env output J => InterpComp_loop_inv hc source _ h0 fuel env output J)
    env I henv hP

theorem InterpLogic_inv (hc : DollarInv P G) (source : Str) (context : Option Context)
    (hh : HostInv G context) (f : Eval) (hf : InvEval P G f) (fuel : Nat) :
    InvEval P G (Interp.InterpLogic source context f fuel) := by
  have h0 := InterpComp_inv hc source context hh f hf fuel
  intro env I henv hP
  unfold Interp.InterpLogic
  exact level_inv _ _ h0 (fun env output J => InterpLogic_loop_inv hc source _ h0 fuel env output J)
    env I henv hP

theorem InterpTenery_inv (hc : DollarInv P G) (source : Str) (context : Option Context)
    (hh : HostInv G context) (f : Eval) (hf : InvEval P G f) (fuel : Nat) :
    InvEval P G (Interp.InterpTenery source context f fuel) := by
  have h0 := InterpLogic_inv hc source context hh f hf fuel
  intro env I henv hP
  unfold Interp.InterpTenery
  exact level_inv _ _ h0
    (fun env output J => InterpTenery_loop_inv hc source _ h0 fuel env output J) env I henv hP

theorem InterpPostExp_inv (hc : DollarInv P G) (source : Str) (context : Option Context)
    (hh : HostInv G context) (f : Eval) (hf : InvEval P G f) (fuel : Nat) :
    InvEval P G (Interp.InterpPostExp source context f fuel) := by
  intro env I henv hP
  unfold Interp.InterpPostExp
  refine inv_bind id _ (fun _ h => h) ?_ _
    (InterpTenery_inv hc source context hh f hf fuel env I henv hP)
  intro output J hG hJ
  split
  · refine inv_bind (Interp.kill env.length) _ (fun K hK => hc.kill _ _ hK) ?_ _
      (hf _ _ (env_snoc henv hG) hJ)
    intro l K hGl hK
    split
    · exact hc.kill _ _ hK
    · have henv2 : ∀ x ∈ env ++ [output, l], G x := by
        intro x hx
        rcases List.mem_append.mp hx with h | h
        · exact henv x h
        · simp only [List.mem_cons, List.mem_singleton, List.not_mem_nil, or_false] at h
          rcases h with h | h
          · rw [h]; exact hG
          · rw [h]; exact hGl
      refine inv_bind (Interp.kill env.length) _ (fun L hL => hc.kill _ _ hL) ?_ _
        (hf _ _ henv2 hK)
      intro r L hGr hL
      refine ⟨hc.kill _ _ hL, ?_⟩
      split
      · exact hGl
      · exact hGr
  · exact ⟨hJ, hG⟩

theorem InterpExp_each_inv (hc : DollarInv P G) (source : Str) (body : Interp → Result)
    (hb : ∀ J : Interp, P J.dollar_value_ → InvRes P G (body J)) (d pos : Nat) :
    ∀ (l : List Value) (end_ : Option Nat) (new_list : List Value) (I : Interp),
      (∀ x ∈ l, P (Dollar.elem d x)) → (∀ x ∈ new_list, G x) →
      (end_ ≠ none → new_list ≠ [] ∧ P I.dollar_value_) →
      InvRes P G (Interp.InterpExp.each source body d pos l end_ new_list I) := by
  intro l
  induction l with
  | nil =>
    intro end_ new_list I hl hnew hne
    cases end_ with
    | none => trivial
    | some e =>
      exact ⟨hc.killList _ _ (hne (by simp)).2, hc.list _ (hne (by simp)).1 hnew⟩
  | cons x xs ih =>
    intro end_ new_list I hl hnew hne
    unfold Interp.InterpExp.each
    refine inv_bind (Interp.kill d) _ (fun K hK => hc.kill _ _ hK) ?_ _
      (hb _ (hl x (List.mem_cons_self _ _)))
    intro new_val J hG hJ
    have hnew2 : ∀ y ∈ new_list ++ [new_val], G y := env_snoc hnew hG
    cases end_ with
    | none =>
      simp only []
      split
      · exact hc.kill _ _ hJ
      · exact ih _ _ _ (fun y hy => hl y (List.mem_cons_of_mem _ hy)) hnew2
          (fun _ => ⟨by simp, hJ⟩)
    | some e =>
      exact ih _ _ _ (fun y hy => hl y (List.mem_cons_of_mem _ hy)) hnew2
        (fun _ => ⟨by simp, hJ⟩)

/-- A map-expression keeps the invariant whatever the pointer was before it: the pointer
is set when the body starts. -/
theorem InterpExp_map_inv (hc : DollarInv P G) (source : Str) (context : Option Context)
    (fuel : Nat) (ih : InvEval P G (Interp.InterpExp source context fuel))
    (env : List Value) (I : Interp) (output : Value) (J : Interp)
    (hE : Interp.InterpPostExp source context (Interp.InterpExp source context fuel) fuel env I =
      Result.ret (some output) J)
    (hbr : J.token = TK_LBRA) (henv : ∀ x ∈ env, G x) (hG : G output) :
    InvRes P G (Interp.InterpExp source context (fuel + 1) env I) := by
  rw [Interp.InterpExp, hE]
  simp only []
  rw [if_pos hbr]
  have hscalar : InvRes P G
      (match Interp.InterpExp source context fuel (env ++ [output])
          { (J.Move source) with dollar_value_ := Dollar.obj env.length } with
      | Result.crash c => Result.crash c
      | Result.ret none I2 => Result.ret none (I2.kill env.length)
      | Result.ret (some new_val) I2 =>
        if I2.token ≠ TK_RBRA then
          Result.ret none (Interp.ReportError source (I2.kill env.length)
            "Post expression needs \x7d to close the body".toList)
        else Result.ret (some new_val) ((I2.kill env.length).Move source)) := by
    refine inv_bind (Interp.kill env.length) _ (fun K hK => hc.kill _ _ hK) ?_ _
      (ih _ _ (env_snoc henv hG) (hc.obj _))
    intro new_val K hGn hK
    split
    · exact hc.kill _ _ hK
    · exact ⟨hc.kill _ _ hK, hGn⟩
  cases output with
  | VALUE_LIST l =>
    exact InterpExp_each_inv hc source _
      (fun K hK => ih (env ++ [VALUE_LIST l]) K (env_snoc henv hG) hK) env.length _ l none []
      _ (fun x hx => hc.elem _ l x hG hx) (by simp) (fun h => absurd rfl h)
  | VALUE_STRING s => exact hscalar
  | VALUE_NUMBER n => exact hscalar
  | VALUE_NULL => exact hscalar

/-- The evaluator keeps every invariant of the dollar pointer and of the values. -/
theorem InterpExp_inv (hc : DollarInv P G) (source : Str) (context : Option Context)
    (hh : HostInv G context) :
    ∀ fuel, InvEval P G (Interp.InterpExp source context fuel) := by
  intro fuel
  induction fuel with
  | zero => intro env I _ _; trivial
  | succ fuel ih =>
    intro env I henv hP
    have hpost := InterpPostExp_inv hc source context hh _ ih fuel env I henv hP
    cases hE : Interp.InterpPostExp source context (Interp.InterpExp source context fuel) fuel
        env I with
    | crash c => rw [Interp.InterpExp, hE]; trivial
    | ret o J =>
      rw [hE] at hpost
      cases o with
      | none => rw [Interp.InterpExp, hE]; exact hpost
      | some output =>
        by_cases hbr : J.token = TK_LBRA
        · exact InterpExp_map_inv hc source context fuel ih env I output J hE hbr henv hpost.2
        · rw [Interp.InterpExp, hE]
          simp only []
          rw [if_neg hbr]
          exact hpost

end Invariant

end tsub

namespace tsub
open Value TokenId

/-- "The pointer is set" is an invariant of the evaluator. -/
theorem bound_inv : DollarInv (fun D => D ≠ Dollar.null) (fun _ => True) where
  kill := by
    intro d D h
    cases D with
    | null => exact absurd rfl h
    | elem j v =>
      show (if d < j then Dollar.dead else Dollar.elem j v) ≠ Dollar.null
      split_ifs <;> simp
    | obj j =>
      show (if d < j then Dollar.dead else Dollar.obj j) ≠ Dollar.null
      split_ifs <;> simp
    | spare j =>
      show (if d ≤ j then Dollar.dead else Dollar.spare j) ≠ Dollar.null
      split_ifs <;> simp
    | dead => simp [Dollar.kill]
  killList := by
    intro d D h
    cases D with
    | null => exact absurd rfl h
    | elem j v =>
      show (if d ≤ j then Dollar.dead else Dollar.elem j v) ≠ Dollar.null
      split_ifs <;> simp
    | obj j =>
      show (if d < j then Dollar.dead else Dollar.obj j) ≠ Dollar.null
      split_ifs <;> simp
    | spare j =>
      show (if d ≤ j then Dollar.dead else Dollar.spare j) ≠ Dollar.null
      split_ifs <;> simp
    | dead => simp [Dollar.killList, Dollar.kill]
  elem := by intro d l x _ _; simp
  obj := by intro d; simp
  spare := by intro d; simp
  read := by intro o v _; trivial
  null := trivial
  number := fun _ => trivial
  string := fun _ => trivial
  list := fun _ _ _ => trivial

theorem HostInv_true (context : Option Context) : HostInv (fun _ => True) context :=
  fun _ _ => ⟨fun _ _ _ => trivial, fun _ _ _ _ => trivial⟩

theorem InvRes_bound {o : Option Value} {K : Interp}
    (h : InvRes (fun D => D ≠ Dollar.null) (fun _ => True) (Result.ret o K)) :
    K.dollar_value_ ≠ Dollar.null := by
  cases o with
  | none => exact h
  | some v => exact h.1

/-- C7, as stated, fails: with no host `[1,2]{(10{$})+$}` evaluates to `[20, 20]`, not to
`[11, 12]`: the `$` after the nested map reads the object of that map.  After the map
`1{$}` in `(1{$})+$` the second `$` is not an error: it reads the mapped object and the
value is 2.  In `[1{$},$]` the second `$` is not reported as an error either: the pointer
points to the local of the first item, which the second item constructs again in the same
storage, and the item is the null of that local. -/
theorem dollar_scoped_counterexample :
    Interp.DoInterp "[1,2]\x7b(10\x7b$\x7d)+$\x7d".toList none 50 0 [] =
      Result.ret (some (VALUE_LIST [VALUE_NUMBER 20, VALUE_NUMBER 20]))
        ⟨⟨⟨TK_EOF, 0⟩, 16, 0⟩, Dollar.dead, []⟩ ∧
    Interp.DoInterp "(1\x7b$\x7d)+$".toList none 50 0 [] =
      Result.ret (some (VALUE_NUMBER 2)) ⟨⟨⟨TK_EOF, 0⟩, 8, 0⟩, Dollar.obj 0, []⟩ ∧
    Interp.DoInterp "[1\x7b$\x7d,$]".toList none 50 0 [] =
      Result.ret (some (VALUE_LIST [VALUE_NUMBER 1, VALUE_NULL]))
        ⟨⟨⟨TK_EOF, 0⟩, 8, 0⟩, Dollar.dead, []⟩ := by
  decide!

/-- C7 (amended): the dollar binding is not restored when a map-expression finishes.
Whenever `InterpExp` returns, with success or with failure: a pointer that was set before
is still set, and if the call was a map-expression (the expression before the body
succeeded and `{` followed) the pointer is set, whatever it was before. -/
theorem dollar_binding_not_restored (source : Str) (context : Option Context) (fuel : Nat)
    (env : List Value) (I : Interp) (o : Option Value) (K : Interp)
    (hK : Interp.InterpExp source context (fuel + 1) env I = Result.ret o K) :
    (I.dollar_value_ ≠ Dollar.null → K.dollar_value_ ≠ Dollar.null) ∧
    (∀ v I1,
      Interp.InterpPostExp source context (Interp.InterpExp source context fuel) fuel env I =
        Result.ret (some v) I1 →
      I1.token = TK_LBRA → K.dollar_value_ ≠ Dollar.null) := by
  refine ⟨?_, ?_⟩
  · intro h
    have := InterpExp_inv bound_inv source context (HostInv_true context) (fuel + 1) env I
      (fun _ _ => trivial) h
    rw [hK] at this
    exact InvRes_bound this
  · intro v I1 hE hbr
    have := InterpExp_map_inv bound_inv source context fuel
      (InterpExp_inv bound_inv source context (HostInv_true context) fuel) env I v I1 hE hbr
      (fun _ _ => trivial) trivial
    rw [hK] at this
    exact InvRes_bound this

/-- C7, witness: the map-expression `1{$}`, evaluated with the pointer not set, returns
the value 1 and a state in which the pointer is set: it points to the mapped object.  So
`(1{$})+$` is 2, and `[1,2]{(10{$})+$}` is `[20, 20]`. -/
theorem dollar_binding_not_restored_witness :
    Interp.InterpExp "1\x7b$\x7d".toList none 11 [] (Interp.init "1\x7b$\x7d".toList 0 []) =
      Result.ret (some (VALUE_NUMBER 1)) ⟨⟨⟨TK_EOF, 0⟩, 4, 0⟩, Dollar.obj 0, []⟩ ∧
    (Interp.init "1\x7b$\x7d".toList 0 []).dollar_value_ = Dollar.null ∧
    (⟨⟨⟨TK_EOF, 0⟩, 4, 0⟩, Dollar.obj 0, []⟩ : Interp).dollar_value_ ≠ Dollar.null ∧
    Run 50 none "\x60(1\x7b$\x7d)+$\x60".toList [] = RunResult.ok ["2".toList] [] ∧
    Run 50 none "\x60[1,2]\x7b(10\x7b$\x7d)+$\x7d\x60".toList [] =
      RunResult.ok ["20".toList, "20".toList] [] :=
  ⟨by decide!, rfl,
   (dollar_binding_not_restored "1\x7b$\x7d".toList none 10 []
    (Interp.init "1\x7b$\x7d".toList 0 []) (some (VALUE_NUMBER 1))
    ⟨⟨⟨TK_EOF, 0⟩, 4, 0⟩, Dollar.obj 0, []⟩ (by decide!)).2 (VALUE_NUMBER 1)
    ⟨⟨⟨TK_LBRA, 1⟩, 1, 0⟩, Dollar.null, []⟩ (by decide!) (by decide!),
   by decide!, by decide!⟩

end tsub

namespace tsub
open Value TokenId

theorem goodList_mem : ∀ (l : List Value) (x : Value), Value.goodList l = true → x ∈ l →
    Value.good x = true
  | [], x, _, hx => by simp at hx
  | v :: vs, x, h, hx => by
    simp only [Value.goodList, Bool.and_eq_true] at h
    rcases List.mem_cons.mp hx with e | e
    · rw [e]; exact h.1
    · exact goodList_mem vs x h.2 e

theorem goodList_of : ∀ (l : List Value), (∀ x ∈ l, Value.good x = true) →
    Value.goodList l = true
  | [], _ => rfl
  | v :: vs, h => by
    simp only [Value.goodList, Bool.and_eq_true]
    exact ⟨h v (List.mem_cons_self _ _),
      goodList_of vs (fun x hx => h x (List.mem_cons_of_mem _ hx))⟩

/-- "No list is empty" is an invariant of the evaluator. -/
theorem good_inv : DollarInv Dollar.good (fun v => Value.good v = true) where
  kill := by
    intro d D h
    cases D with
    | null => exact h
    | elem j v =>
      show Dollar.good (if d < j then Dollar.dead else Dollar.elem j v)
      split_ifs
      · trivial
      · exact h
    | obj j =>
      show Dollar.good (if d < j then Dollar.dead else Dollar.obj j)
      split_ifs <;> trivial
    | spare j =>
      show Dollar.good (if d ≤ j then Dollar.dead else Dollar.spare j)
      split_ifs <;> trivial
    | dead => exact h
  killList := by
    intro d D h
    cases D with
    | null => exact h
    | elem j v =>
      show Dollar.good (if d ≤ j then Dollar.dead else Dollar.elem j v)
      split_ifs
      · trivial
      · exact h
    | obj j =>
      show Dollar.good (if d < j then Dollar.dead else Dollar.obj j)
      split_ifs <;> trivial
    | spare j =>
      show Dollar.good (if d ≤ j then Dollar.dead else Dollar.spare j)
      split_ifs <;> trivial
    | dead => exact h
  elem := by
    intro d l x hl hx
    simp only [Value.good, Bool.and_eq_true] at hl
    exact goodList_mem l x hl.2 hx
  obj := fun _ => trivial
  spare := fun _ => trivial
  read := fun _ _ h => h
  null := rfl
  number := fun _ => rfl
  string := fun _ => rfl
  list := by
    intro l hne h
    simp only [Value.good, Bool.and_eq_true, Bool.not_eq_true', List.isEmpty_eq_false]
    exact ⟨hne, goodList_of l h⟩

theorem HostInv_none (G : Value → Prop) : HostInv G none := by
  intro c hc
  cases hc

/-- With no host, a value the evaluator returns holds no empty list. -/
theorem DoInterp_good (input : Str) (fuel pos : Nat) (error : Str) (v : Value) (K : Interp)
    (h : Interp.DoInterp input none fuel pos error = Result.ret (some v) K) :
    Value.good v = true := by
  have := InterpExp_inv good_inv input none (HostInv_none _) fuel [] (Interp.init input pos error)
    (by simp) trivial
  unfold Interp.DoInterp at h
  rw [h] at this
  exact this.2

theorem flat_good : ∀ (v : Value) (strs : List Str), Value.good v = true →
    v.flat = some strs → strs ≠ []
  | VALUE_STRING s, strs, _, h => by
    simp only [Value.flat, Option.some.injEq] at h
    rw [← h]; simp
  | VALUE_NUMBER n, strs, _, h => by
    simp only [Value.flat, Option.some.injEq] at h
    rw [← h]; simp
  | VALUE_NULL, strs, _, h => by simp [Value.flat] at h
  | VALUE_LIST [], strs, hg, _ => by simp [Value.good] at hg
  | VALUE_LIST (x :: xs), strs, hg, h => by
    simp only [Value.good, Value.goodList, Bool.and_eq_true] at hg
    simp only [Value.flat, Value.flatList] at h
    cases hx : x.flat with
    | none => rw [hx] at h; simp at h
    | some a =>
      rw [hx] at h
      simp only [] at h
      cases hxs : Value.flatList xs with
      | none => rw [hxs] at h; simp at h
      | some b =>
        rw [hxs] at h
        simp only [Option.some.injEq] at h
        have := flat_good x a hg.2.1 hx
        rw [← h]
        simp [this]

/-- The references `ValueToStringList` returns are as many as the strings of the value. -/
theorem VTSL_count (pool : List Str) (v : Value) (refs : List Nat) (pool1 : List Str)
    (h : TextProcessor.ValueToStringList pool v [] = some (refs, pool1)) :
    ∃ strs, value_to_strings v = some strs ∧ refs.length = strs.length := by
  cases hf : v.flat with
  | none => rw [VTSL_none v pool [] hf] at h; cases h
  | some strs =>
    obtain ⟨refs1, pool2, e, _, hm, _⟩ := VTSL_some v pool [] strs hf
    rw [e] at h
    simp only [List.nil_append, Option.some.injEq, Prod.mk.injEq] at h
    refine ⟨strs, by rw [value_to_strings_eq_flat, hf], ?_⟩
    rw [← h.1, ← hm, List.length_map]

theorem Expand_length (rs : List (List Nat)) (s : Nat) :
    (TextProcessor.Expand rs s).length = if rs = [] then 1 else rs.length := by
  unfold TextProcessor.Expand
  split <;> simp

theorem Concatenate_length (rs : List (List Nat)) (sl : List Nat) :
    (TextProcessor.Concatenate rs sl).length =
      if rs = [] then sl.length else sl.length * rs.length := by
  unfold TextProcessor.Concatenate
  split
  · simp
  · simp only [List.length_flatten, List.map_map]
    have : (List.map (List.length ∘ fun s => List.map (fun rep => rep ++ [s]) rs) sl) =
        List.replicate sl.length rs.length := by
      apply List.ext_getElem
      · simp
      · intro i h1 h2
        simp
    rw [this]
    simp

theorem ProcessExp_ok (input : Str) (fuel : Nat) (T T1 : TextProcessor) (val : Value)
    (h : TextProcessor.ProcessExp input none fuel T = Except.ok (some val, T1)) :
    T1.result_set_ = T.result_set_ ∧ Value.good val = true := by
  unfold TextProcessor.ProcessExp at h
  cases hd : Interp.DoInterp input none fuel T.position_ T.error_desp_ with
  | crash c => rw [hd] at h; cases h
  | ret o I =>
    rw [hd] at h
    cases o with
    | none => simp at h
    | some w =>
      simp only [] at h
      split_ifs at h
      · simp at h
      · simp only [Except.ok.injEq, Prod.mk.injEq, Option.some.injEq] at h
        obtain ⟨hw, hT⟩ := h
        subst hw
        exact ⟨by rw [← hT], DoInterp_good input fuel _ _ _ _ hd⟩

end tsub

namespace tsub
open Value TokenId

theorem stringCount_pos (v : Value) (h : ∃ strs, value_to_strings v = some strs ∧ strs ≠ []) :
    1 ≤ stringCount v := by
  obtain ⟨strs, h1, h2⟩ := h
  unfold stringCount
  rw [h1]
  simp only [Option.getD_some]
  exact List.length_pos.mpr h2

theorem prod_pos : ∀ (vs : List Value),
    (∀ v ∈ vs, ∃ strs, value_to_strings v = some strs ∧ strs ≠ []) →
    1 ≤ (vs.map stringCount).prod
  | [], _ => by simp
  | v :: vs, h => by
    simp only [List.map_cons, List.prod_cons]
    have h1 := stringCount_pos v (h v (List.mem_cons_self _ _))
    have h2 := prod_pos vs (fun x hx => h x (List.mem_cons_of_mem _ hx))
    exact Nat.mul_pos h1 h2

/-- The size of the result set: nothing before the first region or segment, the product
of the numbers of strings of the regions afterwards. -/
theorem size_cases (rs : List (List Nat)) (vs : List Value) (lit : Bool)
    (hN : rs.length = (if vs = [] ∧ lit = false then 0 else (vs.map stringCount).prod))
    (hv : ∀ v ∈ vs, ∃ strs, value_to_strings v = some strs ∧ strs ≠ []) :
    (rs = [] ∧ vs = [] ∧ lit = false) ∨ (rs ≠ [] ∧ rs.length = (vs.map stringCount).prod) := by
  by_cases hc : vs = [] ∧ lit = false
  · rw [if_pos hc] at hN
    exact Or.inl ⟨List.length_eq_zero.mp hN, hc⟩
  · rw [if_neg hc] at hN
    have hpos := prod_pos vs hv
    refine Or.inr ⟨?_, hN⟩
    intro h
    rw [h] at hN
    simp only [List.length_nil] at hN
    omega

theorem expand_count (rs : List (List Nat)) (s : Nat) (vs : List Value) (lit : Bool)
    (hN : rs.length = (if vs = [] ∧ lit = false then 0 else (vs.map stringCount).prod))
    (hv : ∀ v ∈ vs, ∃ strs, value_to_strings v = some strs ∧ strs ≠ []) :
    TextProcessor.Expand rs s ≠ [] ∧
    (TextProcessor.Expand rs s).length = (vs.map stringCount).prod := by
  have hlen : (TextProcessor.Expand rs s).length = (vs.map stringCount).prod := by
    rw [Expand_length]
    rcases size_cases rs vs lit hN hv with ⟨h1, h2, _⟩ | ⟨h1, h2⟩
    · rw [if_pos h1, h2]; simp
    · rw [if_neg h1, h2]
  refine ⟨?_, hlen⟩
  intro h
  rw [h] at hlen
  have := prod_pos vs hv
  simp only [List.length_nil] at hlen
  omega

theorem concat_count (rs : List (List Nat)) (sl : List Nat) (vs : List Value) (val : Value)
    (h : (rs = [] ∧ vs = []) ∨ (rs ≠ [] ∧ rs.length = (vs.map stringCount).prod))
    (hm : sl.length = stringCount val) :
    (TextProcessor.Concatenate rs sl).length = ((vs ++ [val]).map stringCount).prod := by
  rw [Concatenate_length]
  simp only [List.map_append, List.map_cons, List.map_nil, List.prod_append, List.prod_cons,
    List.prod_nil, mul_one]
  rcases h with ⟨h1, h2⟩ | ⟨h1, h2⟩
  · rw [if_pos h1, h2, hm]; simp
  · rw [if_neg h1, h2, hm, Nat.mul_comm]

/-- The loop of `Run` with no host: when it returns success, the number of outputs is 0 if
no region and no segment was met, and otherwise the product of the numbers of strings of
the values of the regions. -/
theorem loop_count (input : Str) (fuel : Nat) :
    ∀ (n : Nat) (T : TextProcessor) (segment : Str) (vs : List Value) (lit : Bool)
      (outs : List Str) (e : Str),
      TextProcessor.Run.loop input none fuel n T segment = RunResult.ok outs e →
      T.result_set_.length = (if vs = [] ∧ lit = false then 0 else (vs.map stringCount).prod) →
      (∀ v ∈ vs, ∃ strs, value_to_strings v = some strs ∧ strs ≠ []) →
      ∃ vs1 lit1,
        TextProcessor.Run.regions input none fuel n T segment vs lit = some (vs1, lit1) ∧
        (∀ v ∈ vs1, ∃ strs, value_to_strings v = some strs ∧ strs ≠ []) ∧
        outs.length = (if vs1 = [] ∧ lit1 = false then 0 else (vs1.map stringCount).prod) := by
  intro n
  induction n with
  | zero =>
    intro T segment vs lit outs e h
    simp [TextProcessor.Run.loop] at h
  | succ n ih =>
    intro T segment vs lit outs e h hN hv
    unfold TextProcessor.Run.loop at h
    unfold TextProcessor.Run.regions
    by_cases h1 : T.position_ < input.length
    · rw [if_pos h1] at h
      rw [if_pos h1]
      by_cases h2 : input.getD T.position_ ' ' = '\\'
      · rw [if_pos h2] at h
        rw [if_pos h2]
        by_cases h3 : T.position_ + 1 < input.length ∧
            TextProcessor.IsEscapeChar (input.getD (T.position_ + 1) ' ')
        · rw [if_pos h3] at h
          rw [if_pos h3]
          exact ih _ _ _ _ _ _ h hN hv
        · rw [if_neg h3] at h
          rw [if_neg h3]
          exact ih _ _ _ _ _ _ h hN hv
      · rw [if_neg h2] at h
        rw [if_neg h2]
        by_cases h4 : input.getD T.position_ ' ' = '\x60'
        · rw [if_pos h4] at h
          rw [if_pos h4]
          have hT : ∀ T0 : TextProcessor,
              T0 = (if segment ≠ [] then
                { T with position_ := T.position_ + 1,
                         result_set_ := TextProcessor.Expand T.result_set_
                           (TextProcessor.GetString T.str_pool_ segment).1,
                         str_pool_ := (TextProcessor.GetString T.str_pool_ segment).2 }
               else { T with position_ := T.position_ + 1 }) →
              (T0.result_set_ = [] ∧ vs = []) ∨
              (T0.result_set_ ≠ [] ∧ T0.result_set_.length = (vs.map stringCount).prod) := by
            intro T0 hT0
            by_cases hseg : segment ≠ []
            · rw [if_pos hseg] at hT0
              rw [hT0]
              exact Or.inr (expand_count _ _ vs lit hN hv)
            · rw [if_neg hseg] at hT0
              rw [hT0]
              rcases size_cases _ vs lit hN hv with ⟨a, b, _⟩ | ⟨a, b⟩
              · exact Or.inl ⟨a, b⟩
              · exact Or.inr ⟨a, b⟩
          generalize hg : (if segment ≠ [] then
                ({ T with position_ := T.position_ + 1,
                          result_set_ := TextProcessor.Expand T.result_set_
                            (TextProcessor.GetString T.str_pool_ segment).1,
                          str_pool_ := (TextProcessor.GetString T.str_pool_ segment).2 } :
                  TextProcessor)
               else { T with position_ := T.position_ + 1 }) = T0 at h ⊢
          have hT0 := hT T0 hg.symm
          cases hp : TextProcessor.ProcessExp input none fuel T0 with
          | error c => rw [hp] at h; cases h
          | ok p =>
            obtain ⟨o, T1⟩ := p
            rw [hp] at h
            cases o with
            | none => cases h
            | some val =>
              simp only [] at h ⊢
              obtain ⟨hrs, hgood⟩ := ProcessExp_ok input fuel T0 T1 val hp
              cases hvt : TextProcessor.ValueToStringList T1.str_pool_ val [] with
              | none => rw [hvt] at h; cases h
              | some q =>
                obtain ⟨str_list, pool⟩ := q
                rw [hvt] at h
                simp only [] at h ⊢
                obtain ⟨strs, hs1, hs2⟩ := VTSL_count _ _ _ _ hvt
                have hs3 : strs ≠ [] :=
                  flat_good val strs hgood (by rw [← value_to_strings_eq_flat]; exact hs1)
                have hm : str_list.length = stringCount val := by
                  unfold stringCount
                  rw [hs1, hs2]
                  rfl
                refine ih _ _ _ _ _ _ h ?_ ?_
                · rw [if_neg (by simp)]
                  show (TextProcessor.Concatenate T1.result_set_ str_list).length = _
                  rw [hrs]
                  exact concat_count _ _ vs val hT0 hm
                · intro v hv1
                  rcases List.mem_append.mp hv1 with hv2 | hv2
                  · exact hv v hv2
                  · rw [List.mem_singleton.mp hv2]
                    exact ⟨strs, hs1, hs3⟩
        · rw [if_neg h4] at h
          rw [if_neg h4]
          exact ih _ _ _ _ _ _ h hN hv
    · rw [if_neg h1] at h
      rw [if_neg h1]
      refine ⟨vs, lit || decide (segment ≠ []), rfl, hv, ?_⟩
      by_cases hseg : segment ≠ []
      · rw [if_pos hseg] at h
        simp only [RunResult.ok.injEq] at h
        rw [← h.1]
        simp only [TextProcessor.GenerateResult, List.length_map]
        rw [(expand_count _ _ vs lit hN hv).2, if_neg (by simp [hseg])]
      · rw [if_neg hseg] at h
        simp only [RunResult.ok.injEq] at h
        rw [← h.1]
        simp only [TextProcessor.GenerateResult, List.length_map]
        rw [hN]
        simp [hseg]

end tsub

namespace tsub
open Value TokenId

end tsub

namespace tsub
open Value TokenId

/-- C11 (code defect): a backslash of the template that starts no escape is not kept.
For every host, `Run` on the 3-byte template `a\b` gives the one output `ab` (2 bytes),
and on the 2-byte template `a\`, which ends with the backslash, the one output `a`. -/
theorem lone_backslash_dropped (context : Option Context) (fuel : Nat) (error : Str) :
    Run fuel context "a\\b".toList error = RunResult.ok ["ab".toList] error ∧
    Run fuel context "a\\".toList error = RunResult.ok ["a".toList] error := by
  constructor <;>
    simp [Run, TextProcessor.Run, TextProcessor.Run.loop, TextProcessor.IsEscapeChar,
      TextProcessor.GenerateResult, TextProcessor.Expand, TextProcessor.GetString,
      TextProcessor.find, TextProcessor.JoinString, TextProcessor.deref]

/-- C12 (code defect): a region that the end of the input terminates is not reported.
With no host, on the 2-byte template of a backtick and `1` the evaluator succeeds and
stops at offset 2, the end of the input; `input_->at(2)` throws `std::out_of_range`, which
nothing catches.  When the byte at the offset where the evaluator stops is inside the
input and is not a backtick, `Run` returns failure with a diagnostic. -/
theorem unterminated_region_throws :
    Interp.DoInterp "\x601".toList none 50 1 [] =
      Result.ret (some (VALUE_NUMBER 1)) ⟨⟨⟨TK_EOF, 0⟩, 2, 1⟩, Dollar.null, []⟩ ∧
    Run 50 none "\x601".toList [] = RunResult.crash Crash.exception ∧
    Run 50 none "\x601 x".toList [] =
      RunResult.fail
        "[Module:TextProcessor]:The expression needs to be ended with \"\x60\"".toList := by
  decide!

/-- C13 (code defect): a failure of `ParseString` or of `ParseNumber` carries no
diagnostic.  With no host and an empty error string on entry, `Run` returns failure and
leaves the error string empty on the template of the string literal `"abc` that does not
end, and on the template of the number `99999999999999999999`, which `strtol` rejects. -/
theorem failure_without_diagnostic :
    Run 50 none "\x60\"abc\x60".toList [] = RunResult.fail [] ∧
    Run 50 none "\x6099999999999999999999\x60".toList [] = RunResult.fail [] := by
  decide!

/-- C20 (code defect): in `X || Y` an operand that is not an integer counts as false.  A
string or a list on the left with the integer 0 on the right gives 0, and so do two
strings; with no host the templates of `"a" || 0` and of `"a" || "b"` give `0`, while
that of `"a" && "b"` gives `1`. -/
theorem logical_or_non_integer :
    (∀ s, Interp.logicOr (VALUE_STRING s) (VALUE_NUMBER 0) = 0) ∧
    (∀ l, Interp.logicOr (VALUE_LIST l) (VALUE_NUMBER 0) = 0) ∧
    (∀ s t, Interp.logicOr (VALUE_STRING s) (VALUE_STRING t) = 0) ∧
    Run 50 none "\x60\"a\" || 0\x60".toList [] = RunResult.ok ["0".toList] [] ∧
    Run 50 none "\x60\"a\" || \"b\"\x60".toList [] = RunResult.ok ["0".toList] [] ∧
    Run 50 none "\x60\"a\" && \"b\"\x60".toList [] = RunResult.ok ["1".toList] [] := by
  refine ⟨fun _ => rfl, fun _ => rfl, fun _ _ => rfl, by decide!, by decide!, by decide!⟩

end tsub

namespace tsub
open Value TokenId

/-- The loop of `GetLocation` counts the newlines and the bytes after the last one. -/
theorem GetLocation_fold (seg : Str) :
    seg.foldl
      (fun (lp : Nat × Nat) (c : Char) => if c = '\n' then (lp.1 + 1, 1) else (lp.1, lp.2 + 1))
      (1, 1) = lineCol seg := by
  induction seg using List.reverseRecOn with
  | nil => rfl
  | append_singleton l x ih =>
    rw [List.foldl_append, ih]
    simp only [List.foldl_cons, List.foldl_nil, lineCol, List.count_append,
      List.reverse_append, List.reverse_cons, List.reverse_nil, List.nil_append,
      List.singleton_append]
    by_cases hx : x = '\n'
    · subst hx
      simp
      try omega
    · have h1 : List.count '\n' [x] = 0 := by
        simp [List.count_cons, hx]
      rw [if_neg hx, h1, List.takeWhile_cons]
      simp [hx]
      try omega

theorem GetLocation_lineCol (source : Str) (s : Scanner) :
    s.GetLocation source =
      lineCol ((source.drop s.start_position_).take (s.position_ - s.start_position_)) := by
  unfold Scanner.GetLocation
  exact GetLocation_fold _

theorem lineCol_pos (seg : Str) : 1 ≤ (lineCol seg).1 ∧ 1 ≤ (lineCol seg).2 := by
  simp [lineCol]

/-- A lexeme of the scanner that is a `$` is one byte long. -/
theorem PeekToken_dollar (cha next : Char)
    (h : (Scanner.PeekToken cha next).token = TK_DOLLAR) :
    (Scanner.PeekToken cha next).offset = 1 := by
  unfold Scanner.PeekToken at h ⊢
  by_cases h0 : cha.toNat = 0
  · rw [if_pos h0] at h; cases h
  · rw [if_neg h0] at h ⊢
    cases hs : Scanner.single.lookup cha with
    | some tk => rfl
    | none =>
      rw [hs] at h
      simp only [] at h ⊢
      cases hp : Scanner.paired.lookup cha with
      | some q =>
        rw [hp] at h
        obtain ⟨d, tk, l⟩ := q
        have hm := lookup_mem _ _ _ hp
        simp only [] at h
        simp only [Scanner.paired, List.mem_cons, Prod.mk.injEq, List.mem_singleton,
          List.not_mem_nil, or_false] at hm
        rcases hm with hm | hm | hm | hm | hm | hm | hm <;>
          (obtain ⟨_, rfl, rfl, rfl⟩ := hm; split at h; all_goals cases h)
      | none =>
        rw [hp] at h
        simp only [] at h
        split_ifs at h
        all_goals cases h

theorem Consistent_dollar (source : Str) (s : Scanner) (hc : Scanner.Consistent source s)
    (ht : s.lexme_.token = TK_DOLLAR) : s.lexme_.offset = 1 := by
  have h1 := hc.1
  unfold Scanner.Peek at h1
  cases hp : Scanner.PeekCase (Scanner.NChar source s.position_)
      (Scanner.NChar source (s.position_ + 1)) with
  | some l =>
    rw [hp] at h1
    simp only [Prod.mk.injEq, and_true] at h1
    subst h1
    unfold Scanner.PeekCase at hp
    split_ifs at hp
    simp only [Option.some.injEq] at hp
    rw [← hp] at ht ⊢
    exact PeekToken_dollar _ _ ht
  | none =>
    rw [hp] at h1
    simp only [] at h1
    cases hq : Scanner.PeekCase (Scanner.NChar source (Scanner.SkipSpace source s.position_))
        (Scanner.NChar source (Scanner.SkipSpace source s.position_ + 1)) with
    | some l =>
      rw [hq] at h1
      simp only [Prod.mk.injEq] at h1
      obtain ⟨h2, _⟩ := h1
      subst h2
      unfold Scanner.PeekCase at hq
      split_ifs at hq
      simp only [Option.some.injEq] at hq
      rw [← hq] at ht ⊢
      exact PeekToken_dollar _ _ ht
    | none =>
      rw [hq] at h1
      simp only [Prod.mk.injEq] at h1
      rw [← h1.1] at ht
      cases ht

/-- C14 (the atom `$`): on a state of the scanner whose lexeme is `$`.  With no dollar
binding the evaluation fails, and the error string becomes
`[Module:Interp,Location:(line,col)]:`, newline, `Dollar value is not set!`, newline, where
`line` and `col` are counted from 1 over the bytes from `start_position_`, the offset at
which the interpreter was constructed, to the `$`; no operation of the scanner changes
`start_position_`.  With a binding to a list element or to an object, the value is that
of the element or of the object and the scanner steps over one byte. -/
theorem unbound_dollar (source : Str) (context : Option Context) (exp : Eval) (fuel : Nat)
    (env : List Value) (I : Interp) (hc : Scanner.Consistent source I.scanner_)
    (ht : I.token = TK_DOLLAR) :
    (I.dollar_value_ = Dollar.null →
      Interp.InterpAtomic source context exp fuel env I =
        Result.ret none ⟨I.scanner_, I.dollar_value_,
          "[Module:Interp,Location:(".toList ++
          sprintf_d (lineCol ((source.drop I.scanner_.start_position_).take
            (I.scanner_.position_ - I.scanner_.start_position_))).1 ++ ",".toList ++
          sprintf_d (lineCol ((source.drop I.scanner_.start_position_).take
            (I.scanner_.position_ - I.scanner_.start_position_))).2 ++
          ")]:\nDollar value is not set!\n".toList⟩) ∧
    (∀ seg, 1 ≤ (lineCol seg).1 ∧ 1 ≤ (lineCol seg).2) ∧
    (∀ pos error, (Interp.init source pos error).scanner_.start_position_ = pos) ∧
    (∀ (J : Interp) p, (J.Move source).scanner_.start_position_ = J.scanner_.start_position_ ∧
      (J.Set source p).scanner_.start_position_ = J.scanner_.start_position_ ∧
      (J.scanner_.MoveBy source p).start_position_ = J.scanner_.start_position_) ∧
    (∀ d v, I.dollar_value_ = Dollar.elem d v →
      Interp.InterpAtomic source context exp fuel env I = Result.ret (some v) (I.Move source)) ∧
    (∀ j v, I.dollar_value_ = Dollar.obj j → env.get? j = some v →
      Interp.InterpAtomic source context exp fuel env I = Result.ret (some v) (I.Move source)) ∧
    (I.Move source).scanner_ =
      Scanner.Next source { I.scanner_ with position_ := I.scanner_.position_ + 1 } := by
  refine ⟨?_, lineCol_pos, fun _ _ => rfl, fun _ _ => ⟨rfl, rfl, rfl⟩, ?_, ?_, ?_⟩
  · intro hd
    unfold Interp.InterpAtomic
    rw [ht]
    simp only []
    simp only [hd, Interp.ReportError, GetLocation_lineCol, List.append_assoc]
    rfl
  · intro d v hd
    unfold Interp.InterpAtomic
    rw [ht]
    simp only []
    rw [hd]
  · intro j v hd hv
    unfold Interp.InterpAtomic
    rw [ht]
    simp only []
    rw [hd]
    simp only []
    rw [hv]
  · have := Consistent_dollar source I.scanner_ hc ht
    simp only [Interp.Move, Scanner.Move, this]

/-- C14, witness: in the template of `$` alone the atom is met with no binding, at the
first byte of the region: the diagnostic names line 1, column 1, and `Run` fails with it.
When the region starts after `ab` and the `$` is on its second line after a blank, the
diagnostic names line 2, column 2.  In `[1..3]{$+10}` the `$` of the body, bound to the
element 1, evaluates to 1. -/
theorem unbound_dollar_witness :
    Interp.InterpAtomic "\x60$\x60".toList none (Interp.InterpExp "\x60$\x60".toList none 10) 10 []
        (Interp.init "\x60$\x60".toList 1 []) =
      Result.ret none ⟨⟨⟨TK_DOLLAR, 1⟩, 1, 1⟩, Dollar.null,
        "[Module:Interp,Location:(1,1)]:\nDollar value is not set!\n".toList⟩ ∧
    Run 50 none "\x60$\x60".toList [] =
      RunResult.fail "[Module:Interp,Location:(1,1)]:\nDollar value is not set!\n".toList ∧
    Run 50 none "ab\x60\n $\x60".toList [] =
      RunResult.fail "[Module:Interp,Location:(2,2)]:\nDollar value is not set!\n".toList ∧
    Interp.InterpAtomic "[1..3]\x7b$+10\x7d".toList none
        (Interp.InterpExp "[1..3]\x7b$+10\x7d".toList none 10) 10 []
        ⟨⟨⟨TK_DOLLAR, 1⟩, 7, 0⟩, Dollar.elem 0 (VALUE_NUMBER 1), []⟩ =
      Result.ret (some (VALUE_NUMBER 1))
        (Interp.Move "[1..3]\x7b$+10\x7d".toList
          ⟨⟨⟨TK_DOLLAR, 1⟩, 7, 0⟩, Dollar.elem 0 (VALUE_NUMBER 1), []⟩) :=
  ⟨((unbound_dollar "\x60$\x60".toList none (Interp.InterpExp "\x60$\x60".toList none 10) 10 []
      (Interp.init "\x60$\x60".toList 1 []) ⟨by decide!, by decide⟩ (by decide!)).1 rfl).trans
      (by decide!),
   by decide!, by decide!,
   (unbound_dollar "[1..3]\x7b$+10\x7d".toList none
      (Interp.InterpExp "[1..3]\x7b$+10\x7d".toList none 10) 10 []
      ⟨⟨⟨TK_DOLLAR, 1⟩, 7, 0⟩, Dollar.elem 0 (VALUE_NUMBER 1), []⟩ ⟨by decide!, by decide⟩
      (by decide!)).2.2.2.2.1 0 (VALUE_NUMBER 1) rfl⟩

end tsub

namespace tsub
open Value TokenId

/-- A lexeme of a consistent scanner is the one the `switch` of `Peek` gives for the byte
at the position, unless it is the unknown lexeme. -/
theorem Consistent_PeekToken (source : Str) (s : Scanner) (hc : Scanner.Consistent source s) :
    s.lexme_ = Lexme.unknown ∨
    s.lexme_ = Scanner.PeekToken (Scanner.NChar source s.position_)
      (Scanner.NChar source (s.position_ + 1)) := by
  have h1 := hc.1
  unfold Scanner.Peek at h1
  cases hp : Scanner.PeekCase (Scanner.NChar source s.position_)
      (Scanner.NChar source (s.position_ + 1)) with
  | some l =>
    rw [hp] at h1
    simp only [Prod.mk.injEq, and_true] at h1
    subst h1
    unfold Scanner.PeekCase at hp
    split_ifs at hp
    simp only [Option.some.injEq] at hp
    exact Or.inr hp.symm
  | none =>
    rw [hp] at h1
    simp only [] at h1
    cases hq : Scanner.PeekCase (Scanner.NChar source (Scanner.SkipSpace source s.position_))
        (Scanner.NChar source (Scanner.SkipSpace source s.position_ + 1)) with
    | some l =>
      rw [hq] at h1
      simp only [Prod.mk.injEq] at h1
      obtain ⟨h2, h3⟩ := h1
      subst h2
      unfold Scanner.PeekCase at hq
      split_ifs at hq
      simp only [Option.some.injEq] at hq
      rw [h3] at hq
      exact Or.inr hq.symm
    | none =>
      rw [hq] at h1
      simp only [Prod.mk.injEq] at h1
      exact Or.inl h1.1.symm

/-- The `switch` of `Peek` gives the token of a name only for a byte that starts one. -/
theorem PeekToken_variable (cha next : Char)
    (h : (Scanner.PeekToken cha next).token = TK_VARIABLE) : IsIdInitialChar cha = true := by
  unfold Scanner.PeekToken at h
  by_cases h0 : cha.toNat = 0
  · rw [if_pos h0] at h; cases h
  · rw [if_neg h0] at h
    cases hs : Scanner.single.lookup cha with
    | some tk =>
      rw [hs] at h
      have hm := lookup_mem _ _ _ hs
      simp only [] at h
      subst h
      simp [Scanner.single] at hm
    | none =>
      rw [hs] at h
      simp only [] at h
      cases hp : Scanner.paired.lookup cha with
      | some q =>
        rw [hp] at h
        obtain ⟨d, tk, l⟩ := q
        have hm := lookup_mem _ _ _ hp
        simp only [] at h
        simp only [Scanner.paired, List.mem_cons, Prod.mk.injEq, List.mem_singleton,
          List.not_mem_nil, or_false] at hm
        rcases hm with hm | hm | hm | hm | hm | hm | hm <;>
          (obtain ⟨_, rfl, rfl, rfl⟩ := hm; split at h; all_goals cases h)
      | none =>
        rw [hp] at h
        simp only [] at h
        split_ifs at h with h1 h2 h3 <;> first | exact h3 | cases h

theorem take_takeWhile_length {α : Type} (p : α → Bool) (l : List α) :
    l.take (l.takeWhile p).length = l.takeWhile p := by
  induction l with
  | nil => rfl
  | cons a t ih =>
    rw [List.takeWhile_cons]
    split
    · simp [ih]
    · simp

/-- The name `ParseVariable` reads: the byte at the position and the longest run of bytes
of a name after it. -/
theorem ParseVariable_name (source : Str) (I : Interp) (c : Char) (rest : Str)
    (h : source.drop I.scanner_.position_ = c :: rest) :
    (Interp.ParseVariable source I).1 = c :: rest.takeWhile IsIdRestChar := by
  have hr : source.drop (I.scanner_.position_ + 1) = rest := by
    rw [← List.drop_drop, h]
    rfl
  simp only [Interp.ParseVariable, hr, h]
  have : I.scanner_.position_ + 1 + (List.takeWhile IsIdRestChar rest).length -
      I.scanner_.position_ = (List.takeWhile IsIdRestChar rest).length + 1 := by omega
  rw [this, List.take_succ_cons, take_takeWhile_length]

/-- The bytes of a text without a zero byte are what `%s` prints of it. -/
theorem c_str_eq (l : Str) (h : ∀ x ∈ l, x ≠ Char.ofNat 0) : Interp.c_str l = l := by
  unfold Interp.c_str
  rw [List.takeWhile_eq_self_iff]
  intro x hx
  simpa using h x hx

theorem IsIdInitialChar_ne_zero (c : Char) (h : IsIdInitialChar c = true) :
    c ≠ Char.ofNat 0 := by
  intro e
  subst e
  exact absurd h (by decide)

theorem IsIdRestChar_ne_zero (c : Char) (h : IsIdRestChar c = true) : c ≠ Char.ofNat 0 := by
  intro e
  subst e
  exact absurd h (by decide)

theorem c_str_name (c : Char) (rest : Str) (h : IsIdInitialChar c = true) :
    Interp.c_str (c :: rest.takeWhile IsIdRestChar) = c :: rest.takeWhile IsIdRestChar := by
  apply c_str_eq
  intro x hx
  rcases List.mem_cons.mp hx with e | e
  · rw [e]; exact IsIdInitialChar_ne_zero c h
  · exact IsIdRestChar_ne_zero x (List.mem_takeWhile_imp e)

theorem ReportFormatted_short (source : Str) (I : Interp) (msg : Str)
    (h : msg.length < 1024) :
    Interp.ReportFormatted source I msg = Result.ret none (Interp.ReportError source I msg) := by
  unfold Interp.ReportFormatted
  rw [if_neg (by omega)]

theorem ReportFormatted_long (source : Str) (I : Interp) (msg : Str)
    (h : 1024 ≤ msg.length) :
    Interp.ReportFormatted source I msg = Result.crash Crash.undefined := by
  unfold Interp.ReportFormatted
  rw [if_pos h]

theorem ReportFormatted_not_ok (source : Str) (I : Interp) (msg : Str) (v : Value)
    (K : Interp) : Interp.ReportFormatted source I msg ≠ Result.ret (some v) K := by
  unfold Interp.ReportFormatted
  split
  · intro h; cases h
  · intro h; cases h

/-- C15 (variable reference): on a state of the scanner whose lexeme is a name that is not
followed by `(`.  The name is the byte at the position, which is a letter or `_`, and the
longest run of letters, digits and `_` after it.  The evaluation succeeds if and only if a
host is present and its `GetVariable` succeeds for exactly that name, and the value is the
one the host returned.  With no host, a name of fewer than 983 bytes fails with the
diagnostic; a name of 983 bytes or more makes a message of 1024 bytes or more, which
`ReportError` writes beyond the end of its buffer: the call does not return false, its
behaviour is undefined.  The same with a host whose `GetVariable` fails, from 1000 bytes
on. -/
theorem variable_reference (source : Str) (context : Option Context) (exp : Eval) (fuel : Nat)
    (env : List Value) (I : Interp) (hc : Scanner.Consistent source I.scanner_)
    (ht : I.token = TK_VARIABLE) (hnp : (Interp.ParseVariable source I).2.token ≠ TK_LPAR) :
    (∃ c rest, source.drop I.scanner_.position_ = c :: rest ∧ IsIdInitialChar c = true ∧
      (Interp.ParseVariable source I).1 = c :: rest.takeWhile IsIdRestChar) ∧
    (context = none →
      ((Interp.ParseVariable source I).1.length < 983 →
        ∃ K, Interp.InterpAtomic source context exp fuel env I = Result.ret none K ∧
          K = Interp.ReportError source (Interp.ParseVariable source I).2
            ("Variable:".toList ++ (Interp.ParseVariable source I).1 ++
              " doesn't have context to look up".toList) ∧
          K.error_ ≠ []) ∧
      (983 ≤ (Interp.ParseVariable source I).1.length →
        Interp.InterpAtomic source context exp fuel env I = Result.crash Crash.undefined)) ∧
    (∀ h, context = some h →
      (∀ v, h.GetVariable (Interp.ParseVariable source I).1 = HostResult.ok v →
        Interp.InterpAtomic source context exp fuel env I =
          Result.ret (some v) (Interp.ParseVariable source I).2) ∧
      (∀ e, h.GetVariable (Interp.ParseVariable source I).1 = HostResult.fail e →
        ((Interp.ParseVariable source I).1.length < 1000 →
          ∃ K, Interp.InterpAtomic source context exp fuel env I = Result.ret none K ∧
            K = Interp.ReportError source (Interp.ParseVariable source I).2
              ("Variable:".toList ++ (Interp.ParseVariable source I).1 ++
                " is not existed".toList) ∧
            K.error_ ≠ []) ∧
        (1000 ≤ (Interp.ParseVariable source I).1.length →
          Interp.InterpAtomic source context exp fuel env I =
            Result.crash Crash.undefined))) ∧
    ((∃ v K, Interp.InterpAtomic source context exp fuel env I = Result.ret (some v) K) ↔
      ∃ h v, context = some h ∧
        h.GetVariable (Interp.ParseVariable source I).1 = HostResult.ok v) := by
  have hname : ∃ c rest, source.drop I.scanner_.position_ = c :: rest ∧
      IsIdInitialChar c = true ∧
      (Interp.ParseVariable source I).1 = c :: rest.takeWhile IsIdRestChar := by
    have hl : I.scanner_.lexme_.token = TK_VARIABLE := ht
    rcases Consistent_PeekToken source I.scanner_ hc with h1 | h1
    · rw [h1] at hl; cases hl
    · rw [h1] at hl
      have hi := PeekToken_variable _ _ hl
      cases hd : source.drop I.scanner_.position_ with
      | nil =>
        rw [NChar_eq_head, hd] at hi
        exact absurd hi (by decide)
      | cons c rest =>
        rw [NChar_eq_head, hd] at hi
        exact ⟨c, rest, rfl, by simpa using hi, ParseVariable_name source I c rest hd⟩
  have hcs : Interp.c_str (Interp.ParseVariable source I).1 = (Interp.ParseVariable source I).1 := by
    obtain ⟨c, rest, _, h2, h3⟩ := hname
    rw [h3]
    exact c_str_name c rest h2
  have hA : Interp.InterpAtomic source context exp fuel env I =
      (match context with
        | none =>
          Interp.ReportFormatted source (Interp.ParseVariable source I).2
            ("Variable:".toList ++ (Interp.ParseVariable source I).1 ++
              " doesn't have context to look up".toList)
        | some c =>
          match c.GetVariable (Interp.ParseVariable source I).1 with
          | HostResult.ok v => Result.ret (some v) (Interp.ParseVariable source I).2
          | HostResult.fail _ =>
            Interp.ReportFormatted source (Interp.ParseVariable source I).2
              ("Variable:".toList ++ (Interp.ParseVariable source I).1 ++
                " is not existed".toList)
          | HostResult.abort => Result.crash Crash.assertion) := by
    unfold Interp.InterpAtomic
    rw [ht]
    simp only []
    unfold Interp.InterpPF
    rw [if_neg hnp, hcs]
    try rfl
  have hl1 : ("Variable:".toList ++ (Interp.ParseVariable source I).1 ++
      " doesn't have context to look up".toList).length =
      (Interp.ParseVariable source I).1.length + 41 := by
    simp only [List.length_append]
    have e1 : "Variable:".toList.length = 9 := by decide
    have e2 : " doesn't have context to look up".toList.length = 32 := by decide
    omega
  have hl2 : ("Variable:".toList ++ (Interp.ParseVariable source I).1 ++
      " is not existed".toList).length = (Interp.ParseVariable source I).1.length + 24 := by
    simp only [List.length_append]
    have e1 : "Variable:".toList.length = 9 := by decide
    have e2 : " is not existed".toList.length = 15 := by decide
    omega
  refine ⟨hname, ?_, ?_, ?_⟩
  · intro hn
    subst hn
    refine ⟨?_, ?_⟩
    · intro hlen
      rw [hA]
      simp only []
      rw [ReportFormatted_short _ _ _ (by rw [hl1]; omega)]
      exact ⟨_, rfl, rfl, by simp [Interp.ReportError]⟩
    · intro hlen
      rw [hA]
      simp only []
      rw [ReportFormatted_long _ _ _ (by rw [hl1]; omega)]
  · intro h hh
    subst hh
    refine ⟨?_, ?_⟩
    · intro v hv
      rw [hA]
      simp only []
      rw [hv]
    · intro e he
      refine ⟨?_, ?_⟩
      · intro hlen
        rw [hA]
        simp only []
        rw [he]
        simp only []
        rw [ReportFormatted_short _ _ _ (by rw [hl2]; omega)]
        exact ⟨_, rfl, rfl, by simp [Interp.ReportError]⟩
      · intro hlen
        rw [hA]
        simp only []
        rw [he]
        simp only []
        rw [ReportFormatted_long _ _ _ (by rw [hl2]; omega)]
  · rw [hA]
    constructor
    · rintro ⟨v, K, hK⟩
      cases context with
      | none => exact absurd hK (ReportFormatted_not_ok _ _ _ _ _)
      | some h =>
        simp only [] at hK
        cases hg : h.GetVariable (Interp.ParseVariable source I).1 with
        | ok w => exact ⟨h, w, rfl, hg⟩
        | fail e => rw [hg] at hK; exact absurd hK (ReportFormatted_not_ok _ _ _ _ _)
        | abort => rw [hg] at hK; cases hK
    · rintro ⟨h, v, hh, hv⟩
      subst hh
      simp only []
      rw [hv]
      exact ⟨v, _, rfl⟩

/-- C15, witness: with the test host the name `abcd` evaluates to 5 and the template of
`abcd` gives `5`; with no host the template fails, with a diagnostic; with no host the
template of a name of 1500 bytes does not return false: its diagnostic is written beyond
the end of the buffer of `ReportError`. -/
theorem variable_reference_witness :
    Interp.InterpAtomic "abcd".toList (some TestContext)
        (Interp.InterpExp "abcd".toList (some TestContext) 10) 10 []
        (Interp.init "abcd".toList 0 []) =
      Result.ret (some (VALUE_NUMBER 5))
        (Interp.ParseVariable "abcd".toList (Interp.init "abcd".toList 0 [])).2 ∧
    Run 50 (some TestContext) "\x60abcd\x60".toList [] = RunResult.ok ["5".toList] [] ∧
    Run 50 none "\x60abcd\x60".toList [] =
      RunResult.fail
        "[Module:Interp,Location:(1,5)]:\nVariable:abcd doesn't have context to look up\n".toList ∧
    Run 50 none ("\x60".toList ++ List.replicate 1500 'a' ++ "\x60".toList) [] =
      RunResult.crash Crash.undefined :=
  ⟨((variable_reference "abcd".toList (some TestContext)
      (Interp.InterpExp "abcd".toList (some TestContext) 10) 10 []
      (Interp.init "abcd".toList 0 []) ⟨by decide!, by decide⟩ (by decide!)
      (by decide!)).2.2.1 TestContext rfl).1 (VALUE_NUMBER 5) rfl,
   by decide!, by decide!, by decide!⟩

end tsub

namespace tsub
open Value TokenId

/-- An expression that starts with `)` fails: unexpected token. -/
theorem InterpExp_rpar (source : Str) (context : Option Context) (fuel : Nat)
    (env : List Value) (I : Interp) (h : I.token = TK_RPAR) :
    Interp.InterpExp source context (fuel + 1) env I =
      Result.ret none
        (Interp.ReportError source I ("Unexpected token:".toList ++ GetTokenName TK_RPAR)) := by
  simp [Interp.InterpExp, Interp.InterpPostExp, Interp.InterpTenery, Interp.InterpLogic,
    Interp.InterpComp, Interp.InterpTerm, Interp.InterpFactor, Interp.InterpAtomic, h]

/-- The loop of `InterpFunc` over arguments that all succeed ends with the call of the
host on their values, in the order of the source. -/
theorem InterpFunc_loop_chain (source : Str) (context : Option Context) (exp : Eval)
    (func_name : Str) (env : List Value) :
    ∀ (vs : List Value) (n : Nat) (par : List Value) (I K : Interp),
      ArgsChain source exp env I vs K → vs.length ≤ n →
      Interp.InterpFunc.loop source context exp func_name n env par I =
        Interp.InterpFunc.call source context func_name (par ++ vs) K := by
  intro vs
  induction vs with
  | nil => intro n par I K h; simp [ArgsChain] at h
  | cons v t ih =>
    intro n par I K h hn
    cases n with
    | zero => simp at hn
    | succ m =>
      cases t with
      | nil =>
        simp only [ArgsChain] at h
        obtain ⟨J, hJ, htok, hK⟩ := h
        unfold Interp.InterpFunc.loop
        rw [hJ]
        simp only []
        rw [if_neg (by rw [htok]; decide), if_pos htok, hK]
      | cons w vs =>
        simp only [ArgsChain] at h
        obtain ⟨J, hJ, htok, hrest⟩ := h
        unfold Interp.InterpFunc.loop
        rw [hJ]
        simp only []
        rw [if_pos htok, ih m (par ++ [v]) _ K hrest (by simpa using hn)]
        simp

/-- With no host the loop of `InterpFunc` never returns success. -/
theorem InterpFunc_loop_none (source : Str) (exp : Eval) (func_name : Str) :
    ∀ (n : Nat) (env par : List Value) (I : Interp) (v : Value) (K : Interp),
      Interp.InterpFunc.loop source none exp func_name n env par I ≠ Result.ret (some v) K := by
  intro n
  induction n with
  | zero => intro env par I v K h; simp [Interp.InterpFunc.loop] at h
  | succ n ih =>
    intro env par I v K h
    unfold Interp.InterpFunc.loop at h
    cases he : exp (env ++ [VALUE_NULL]) I with
    | crash c => rw [he] at h; cases h
    | ret o J =>
      rw [he] at h
      cases o with
      | none => cases h
      | some val =>
        simp only [] at h
        split_ifs at h
        · exact ih _ _ _ _ _ h
        · exact absurd h (ReportFormatted_not_ok _ _ _ _ _)
        · cases h

/-- C16 (function call): `InterpFunc` on the state whose lexeme is the `(` after the name.
When the arguments, which are at least one, evaluate from left to right to the values
`vs`, the call is the one call of the host on the name and on `vs`, in the order of the
source: with a host whose `ExecFunction` returns `v` the value is `v`; when it reports
failure, and with no host, the call fails with a diagnostic, provided the message is
shorter than the 1024 bytes of the buffer of `ReportError`; a message of 1024 bytes or
more is written beyond the end of the buffer, and the behaviour is undefined.  An empty
argument list always fails, and with no host no call returns success. -/
theorem function_call (source : Str) (context : Option Context) (exp : Eval) (n : Nat)
    (env : List Value) (func_name : Str) (I : Interp) :
    (∀ vs K, ArgsChain source exp env (I.Move source) vs K → vs.length ≤ n →
      1 ≤ vs.length ∧
      (∀ h, context = some h →
        (∀ v, h.ExecFunction func_name vs = HostResult.ok v →
          Interp.InterpFunc source context exp n env func_name I = Result.ret (some v) K) ∧
        (∀ e, h.ExecFunction func_name vs = HostResult.fail e →
          (("Function:".toList ++ Interp.c_str func_name ++
              " cannot be executed with error:".toList ++ Interp.c_str e).length < 1024 →
            ∃ K1, Interp.InterpFunc source context exp n env func_name I = Result.ret none K1 ∧
              K1 = Interp.ReportError source K ("Function:".toList ++ Interp.c_str func_name ++
                " cannot be executed with error:".toList ++ Interp.c_str e) ∧
              K1.error_ ≠ []) ∧
          (1024 ≤ ("Function:".toList ++ Interp.c_str func_name ++
              " cannot be executed with error:".toList ++ Interp.c_str e).length →
            Interp.InterpFunc source context exp n env func_name I =
              Result.crash Crash.undefined))) ∧
      (context = none →
        ((Interp.c_str func_name).length < 979 →
          ∃ K1, Interp.InterpFunc source context exp n env func_name I = Result.ret none K1 ∧
            K1 = Interp.ReportError source K ("Function:".toList ++ Interp.c_str func_name ++
              " doesn't have context to be executed".toList) ∧
            K1.error_ ≠ []) ∧
        (979 ≤ (Interp.c_str func_name).length →
          Interp.InterpFunc source context exp n env func_name I =
            Result.crash Crash.undefined))) ∧
    ((I.Move source).token = TK_RPAR → ∀ fuel,
      ∃ K, Interp.InterpFunc source context (Interp.InterpExp source context (fuel + 1)) (n + 1)
        env func_name I = Result.ret none K ∧ K.error_ ≠ []) ∧
    (context = none → ∀ v K,
      Interp.InterpFunc source context exp n env func_name I ≠ Result.ret (some v) K) ∧
    (∀ name : Str, (∀ x ∈ name, x ≠ Char.ofNat 0) → Interp.c_str name = name) := by
  have hl1 : ("Function:".toList ++ Interp.c_str func_name ++
      " doesn't have context to be executed".toList).length =
      (Interp.c_str func_name).length + 45 := by
    simp only [List.length_append]
    have e1 : "Function:".toList.length = 9 := by decide
    have e2 : " doesn't have context to be executed".toList.length = 36 := by decide
    omega
  refine ⟨?_, ?_, ?_, c_str_eq⟩
  · intro vs K hch hn
    have hloop := InterpFunc_loop_chain source context exp func_name env vs n [] _ K hch hn
    simp only [List.nil_append] at hloop
    refine ⟨?_, ?_, ?_⟩
    · cases vs with
      | nil => simp [ArgsChain] at hch
      | cons v t => simp
    · intro h hh
      subst hh
      refine ⟨?_, ?_⟩
      · intro v hv
        unfold Interp.InterpFunc
        rw [hloop]
        unfold Interp.InterpFunc.call
        simp only []
        rw [hv]
      · intro e he
        refine ⟨?_, ?_⟩
        · intro hlen
          unfold Interp.InterpFunc
          rw [hloop]
          unfold Interp.InterpFunc.call
          simp only []
          rw [he]
          simp only []
          rw [ReportFormatted_short _ _ _ hlen]
          exact ⟨_, rfl, rfl, by simp [Interp.ReportError]⟩
        · intro hlen
          unfold Interp.InterpFunc
          rw [hloop]
          unfold Interp.InterpFunc.call
          simp only []
          rw [he]
          simp only []
          rw [ReportFormatted_long _ _ _ hlen]
    · intro hn
      subst hn
      refine ⟨?_, ?_⟩
      · intro hlen
        unfold Interp.InterpFunc
        rw [hloop]
        unfold Interp.InterpFunc.call
        simp only []
        rw [ReportFormatted_short _ _ _ (by rw [hl1]; omega)]
        exact ⟨_, rfl, rfl, by simp [Interp.ReportError]⟩
      · intro hlen
        unfold Interp.InterpFunc
        rw [hloop]
        unfold Interp.InterpFunc.call
        simp only []
        rw [ReportFormatted_long _ _ _ (by rw [hl1]; omega)]
  · intro ht fuel
    unfold Interp.InterpFunc Interp.InterpFunc.loop
    rw [InterpExp_rpar source context fuel _ _ ht]
    exact ⟨_, rfl, by simp [Interp.ReportError, Interp.kill]⟩
  · intro hn v K
    subst hn
    unfold Interp.InterpFunc
    exact InterpFunc_loop_none source exp func_name n env [] _ v K

/-- C16, witness: with the test host, in `func(7)` the argument evaluates to 7, `)`
follows, and the call gives 8; the template of `func(7)` gives `8`; the template of
`func()` fails; with no host the template of `func(7)` fails with a diagnostic, and the
template of the call of a name of 1500 bytes does not return false: its diagnostic is
written beyond the end of the buffer of `ReportError`. -/
theorem function_call_witness :
    Interp.InterpFunc "func(7)".toList (some TestContext)
        (Interp.InterpExp "func(7)".toList (some TestContext) 10) 10 [] "func".toList
        ⟨⟨⟨TK_LPAR, 1⟩, 4, 0⟩, Dollar.null, []⟩ =
      Result.ret (some (VALUE_NUMBER 8)) ⟨⟨⟨TK_EOF, 0⟩, 7, 0⟩, Dollar.null, []⟩ ∧
    Run 50 (some TestContext) "\x60func(7)\x60".toList [] = RunResult.ok ["8".toList] [] ∧
    Run 50 (some TestContext) "\x60func()\x60".toList [] =
      RunResult.fail "[Module:Interp,Location:(1,6)]:\nUnexpected token:)\n".toList ∧
    Run 50 none "\x60func(7)\x60".toList [] =
      RunResult.fail
        "[Module:Interp,Location:(1,8)]:\nFunction:func doesn't have context to be executed\n".toList ∧
    Run 50 none ("\x60".toList ++ List.replicate 1500 'a' ++ "(1)\x60".toList) [] =
      RunResult.crash Crash.undefined :=
  ⟨(((function_call "func(7)".toList (some TestContext)
      (Interp.InterpExp "func(7)".toList (some TestContext) 10) 10 [] "func".toList
      ⟨⟨⟨TK_LPAR, 1⟩, 4, 0⟩, Dollar.null, []⟩).1 [VALUE_NUMBER 7]
      ⟨⟨⟨TK_EOF, 0⟩, 7, 0⟩, Dollar.null, []⟩
      (by
        simp only [ArgsChain]
        exact ⟨⟨⟨⟨TK_RPAR, 1⟩, 6, 0⟩, Dollar.null, []⟩, by decide!, by decide!, by decide!⟩)
      (by decide)).2.1 TestContext rfl).1 (VALUE_NUMBER 8) rfl,
   by decide!, by decide!, by decide!, by decide!⟩

end tsub

namespace tsub
open Value TokenId

theorem wrap32_fits (r : Int) (h1 : -2147483648 ≤ r) (h2 : r < 2147483648) : wrap32 r = r := by
  unfold wrap32
  omega

/-- C17 (arithmetic): one step of the loops of `InterpTerm` (`*`, `/`) and of `InterpComp`
(`+`, `-`), on a left operand `x` and an operator whose right operand evaluates to `y`.
When `x` and `y` are the integers `a` and `b`, the step succeeds and the loop goes on with
the integer `a*b`, the quotient of `a` by `b` truncated toward zero (`b` not 0), `a+b` or
`a-b`, wrapped to 32 bits, which is the exact result when that fits in a signed 32-bit
integer; `a/0` fails with the message `Divide zero!`.  The one division whose quotient does
not fit, of `-2147483648` by `-1`, is not guarded: the step does not return, the division
traps.  When `x` or `y` is not an integer the step fails with a diagnostic.  The loop stops
with its left operand as the value at a token that is not one of its operators. -/
theorem arithmetic_law (source : Str) (f : Eval) (n : Nat) (env : List Value) (x y : Value)
    (I I2 : Interp) (hY : f (env ++ [x]) (I.Move source) = Result.ret (some y) I2) :
    (∀ a b, x = VALUE_NUMBER a → y = VALUE_NUMBER b →
      (I.token = TK_MUL →
        Interp.InterpTerm.loop source f (n + 1) env x I =
          Interp.InterpTerm.loop source f n env (VALUE_NUMBER (wrap32 (a * b)))
            (I2.kill (env.length + 1))) ∧
      (I.token = TK_DIV → b ≠ 0 → ¬ (a = -2147483648 ∧ b = -1) →
        Interp.InterpTerm.loop source f (n + 1) env x I =
          Interp.InterpTerm.loop source f n env (VALUE_NUMBER (wrap32 (Int.tdiv a b)))
            (I2.kill (env.length + 1))) ∧
      (I.token = TK_DIV → a = -2147483648 → b = -1 →
        Interp.InterpTerm.loop source f (n + 1) env x I = Result.crash Crash.trap) ∧
      (I.token = TK_DIV → b = 0 →
        Interp.InterpTerm.loop source f (n + 1) env x I =
          Result.ret none
            (Interp.ReportError source (I2.kill env.length) "Divide zero!".toList)) ∧
      (I.token = TK_ADD →
        Interp.InterpComp.loop source f (n + 1) env x I =
          Interp.InterpComp.loop source f n env (VALUE_NUMBER (wrap32 (a + b)))
            (I2.kill (env.length + 1))) ∧
      (I.token = TK_SUB →
        Interp.InterpComp.loop source f (n + 1) env x I =
          Interp.InterpComp.loop source f n env (VALUE_NUMBER (wrap32 (a - b)))
            (I2.kill (env.length + 1)))) ∧
    ((∀ a, x ≠ VALUE_NUMBER a) ∨ (∀ b, y ≠ VALUE_NUMBER b) →
      (I.token = TK_MUL ∨ I.token = TK_DIV →
        ∃ K, Interp.InterpTerm.loop source f (n + 1) env x I = Result.ret none K ∧
          K.error_ ≠ []) ∧
      (I.token = TK_ADD ∨ I.token = TK_SUB →
        ∃ K, Interp.InterpComp.loop source f (n + 1) env x I = Result.ret none K ∧
          K.error_ ≠ [])) ∧
    (∀ (v : Value) (J : Interp),
      (J.token ≠ TK_MUL → J.token ≠ TK_DIV →
        Interp.InterpTerm.loop source f (n + 1) env v J =
          Result.ret (some v) (J.kill env.length)) ∧
      (J.token ≠ TK_ADD → J.token ≠ TK_SUB →
        Interp.InterpComp.loop source f (n + 1) env v J =
          Result.ret (some v) (J.kill env.length))) ∧
    (∀ r : Int, -2147483648 ≤ r → r < 2147483648 → wrap32 r = r) := by
  refine ⟨?_, ?_, ?_, wrap32_fits⟩
  · intro a b hx hy
    subst hx; subst hy
    refine ⟨?_, ?_, ?_, ?_, ?_, ?_⟩
    · intro ht
      rw [Interp.InterpTerm.loop, if_pos (Or.inl ht), hY]
      simp only []
      rw [if_pos ht]
    · intro ht hb hmin
      rw [Interp.InterpTerm.loop, if_pos (Or.inr ht), hY]
      simp only []
      rw [if_neg (by rw [ht]; decide), if_neg hb, if_neg hmin]
    · intro ht ha hb
      rw [Interp.InterpTerm.loop, if_pos (Or.inr ht), hY]
      simp only []
      rw [if_neg (by rw [ht]; decide), if_neg (by omega), if_pos ⟨ha, hb⟩]
    · intro ht hb
      rw [Interp.InterpTerm.loop, if_pos (Or.inr ht), hY]
      simp only []
      rw [if_neg (by rw [ht]; decide), if_pos hb]
    · intro ht
      rw [Interp.InterpComp.loop, if_pos (Or.inl ht), hY]
      simp only []
      rw [if_pos ht]
    · intro ht
      rw [Interp.InterpComp.loop, if_pos (Or.inr ht), hY]
      simp only []
      rw [if_neg (by rw [ht]; decide)]
  · intro hnot
    refine ⟨?_, ?_⟩
    · intro ht
      unfold Interp.InterpTerm.loop
      rw [if_pos ht, hY]
      rcases hnot with hnot | hnot
      · cases x with
        | VALUE_NUMBER a => exact absurd rfl (hnot a)
        | VALUE_STRING s => exact ⟨_, rfl, by simp [Interp.ReportError]⟩
        | VALUE_LIST l => exact ⟨_, rfl, by simp [Interp.ReportError]⟩
        | VALUE_NULL => exact ⟨_, rfl, by simp [Interp.ReportError]⟩
      · cases y with
        | VALUE_NUMBER b => exact absurd rfl (hnot b)
        | VALUE_STRING s => cases x <;> exact ⟨_, rfl, by simp [Interp.ReportError]⟩
        | VALUE_LIST l => cases x <;> exact ⟨_, rfl, by simp [Interp.ReportError]⟩
        | VALUE_NULL => cases x <;> exact ⟨_, rfl, by simp [Interp.ReportError]⟩
    · intro ht
      unfold Interp.InterpComp.loop
      rw [if_pos ht, hY]
      rcases hnot with hnot | hnot
      · cases x with
        | VALUE_NUMBER a => exact absurd rfl (hnot a)
        | VALUE_STRING s => exact ⟨_, rfl, by simp [Interp.ReportError]⟩
        | VALUE_LIST l => exact ⟨_, rfl, by simp [Interp.ReportError]⟩
        | VALUE_NULL => exact ⟨_, rfl, by simp [Interp.ReportError]⟩
      · cases y with
        | VALUE_NUMBER b => exact absurd rfl (hnot b)
        | VALUE_STRING s => cases x <;> exact ⟨_, rfl, by simp [Interp.ReportError]⟩
        | VALUE_LIST l => cases x <;> exact ⟨_, rfl, by simp [Interp.ReportError]⟩
        | VALUE_NULL => cases x <;> exact ⟨_, rfl, by simp [Interp.ReportError]⟩
  · intro v J
    refine ⟨?_, ?_⟩
    · intro h1 h2
      unfold Interp.InterpTerm.loop
      rw [if_neg (by simp [h1, h2])]
    · intro h1 h2
      unfold Interp.InterpComp.loop
      rw [if_neg (by simp [h1, h2])]

/-- C17, witness: in `6*7` the step of `*` on 6 and 7 goes on with 42; the templates of
`(0-7)/2`, `2+3*4` and `7-10` give `-3`, `14` and `-3`; those of `"a"+"b"` and of `1/0`
fail, the second with the message `Divide zero!`; on the template of
`(0-2147483647-1)/(0-1)` the division traps and `Run` does not return. -/
theorem arithmetic_law_witness :
    Interp.InterpTerm.loop "6*7".toList
        (Interp.InterpFactor "6*7".toList none (Interp.InterpExp "6*7".toList none 10) 10)
        (5 + 1) [] (VALUE_NUMBER 6) ⟨⟨⟨TK_MUL, 1⟩, 1, 0⟩, Dollar.null, []⟩ =
      Interp.InterpTerm.loop "6*7".toList
        (Interp.InterpFactor "6*7".toList none (Interp.InterpExp "6*7".toList none 10) 10)
        5 [] (VALUE_NUMBER (wrap32 (6 * 7)))
        (Interp.kill (0 + 1) ⟨⟨⟨TK_EOF, 0⟩, 3, 0⟩, Dollar.null, []⟩) ∧
    wrap32 (6 * 7) = 42 ∧ Int.tdiv (0 - 7) 2 = -3 ∧
    Run 50 none "\x60(0-7)/2\x60".toList [] = RunResult.ok ["-3".toList] [] ∧
    Run 50 none "\x602+3*4\x60".toList [] = RunResult.ok ["14".toList] [] ∧
    Run 50 none "\x607-10\x60".toList [] = RunResult.ok ["-3".toList] [] ∧
    Run 50 none "\x60\"a\"+\"b\"\x60".toList [] =
      RunResult.fail
        "[Module:Interp,Location:(1,8)]:\n+ - can only work with number operand\n".toList ∧
    Run 50 none "\x601/0\x60".toList [] =
      RunResult.fail "[Module:Interp,Location:(1,4)]:\nDivide zero!\n".toList ∧
    Run 50 none "\x60(0-2147483647-1)/(0-1)\x60".toList [] = RunResult.crash Crash.trap :=
  ⟨((arithmetic_law "6*7".toList
      (Interp.InterpFactor "6*7".toList none (Interp.InterpExp "6*7".toList none 10) 10) 5 []
      (VALUE_NUMBER 6) (VALUE_NUMBER 7) ⟨⟨⟨TK_MUL, 1⟩, 1, 0⟩, Dollar.null, []⟩
      ⟨⟨⟨TK_EOF, 0⟩, 3, 0⟩, Dollar.null, []⟩ (by decide!)).1 6 7 rfl rfl).1 (by decide),
   by decide, by decide, by decide!, by decide!, by decide!, by decide!, by decide!,
   by decide!⟩

end tsub

namespace tsub
open Value TokenId

theorem Char_toNat_inj (a b : Char) (h : a.toNat = b.toNat) : a = b := by
  rw [← Char.ofNat_toNat a, ← Char.ofNat_toNat b, h]

theorem lexLt_nil_cons (b : Char) (bs : Str) : lexLt [] (b :: bs) :=
  Or.inl ⟨b, bs, rfl⟩

theorem lexLt_nil_right (a : Str) : ¬ lexLt a [] := by
  rintro (⟨c, t, h⟩ | ⟨p, x, s, y, t, _, h, _⟩)
  · simp at h
  · simp at h

theorem lexLt_cons (a b : Char) (as bs : Str) :
    lexLt (a :: as) (b :: bs) ↔ a.toNat < b.toNat ∨ (a = b ∧ lexLt as bs) := by
  constructor
  · rintro (⟨c, t, h⟩ | ⟨p, x, s, y, t, h1, h2, h3⟩)
    · simp only [List.cons_append, List.cons.injEq] at h
      exact Or.inr ⟨h.1.symm, Or.inl ⟨c, t, h.2⟩⟩
    · cases p with
      | nil =>
        simp only [List.nil_append, List.cons.injEq] at h1 h2
        rw [h1.1, h2.1]
        exact Or.inl h3
      | cons q p =>
        simp only [List.cons_append, List.cons.injEq] at h1 h2
        exact Or.inr ⟨h1.1.trans h2.1.symm, Or.inr ⟨p, x, s, y, t, h1.2, h2.2, h3⟩⟩
  · rintro (h | ⟨rfl, (⟨c, t, h⟩ | ⟨p, x, s, y, t, h1, h2, h3⟩)⟩)
    · exact Or.inr ⟨[], a, as, b, bs, rfl, rfl, h⟩
    · exact Or.inl ⟨c, t, by rw [h]; rfl⟩
    · exact Or.inr ⟨a :: p, x, s, y, t, by rw [h1]; rfl, by rw [h2]; rfl, h3⟩

/-- The comparison of `std::string` is the lexicographic order of the bytes. -/
theorem Str_lt_iff : ∀ (a b : Str), Str.lt a b = true ↔ lexLt a b
  | [], [] => by simp [Str.lt, lexLt_nil_right]
  | [], b :: bs => by simp [Str.lt, lexLt_nil_cons]
  | a :: as, [] => by simp [Str.lt, lexLt_nil_right]
  | a :: as, b :: bs => by
    rw [lexLt_cons, Str.lt]
    by_cases h1 : a.toNat < b.toNat
    · simp [h1]
    · rw [if_neg h1]
      by_cases h2 : b.toNat < a.toNat
      · rw [if_pos h2]
        simp only [Bool.false_eq_true, false_iff, not_or, not_and]
        refine ⟨h1, fun e => ?_⟩
        rw [e] at h2
        omega
      · rw [if_neg h2, Str_lt_iff as bs]
        have e : a = b := Char_toNat_inj a b (by omega)
        simp [h1, e]

/-- The lexicographic order is total and asymmetric. -/
theorem Str_lt_total : ∀ (a b : Str), Str.lt b a = false ↔ (Str.lt a b = true ∨ a = b)
  | [], [] => by simp [Str.lt]
  | [], b :: bs => by simp [Str.lt]
  | a :: as, [] => by simp [Str.lt]
  | a :: as, b :: bs => by
    rw [Str.lt, Str.lt]
    by_cases h1 : a.toNat < b.toNat
    · have h2 : ¬ b.toNat < a.toNat := by omega
      simp [h1, h2]
    · by_cases h2 : b.toNat < a.toNat
      · have e : a ≠ b := by
          intro e
          rw [e] at h2
          omega
        simp [h1, h2, e]
      · have e : a = b := Char_toNat_inj a b (by omega)
        rw [if_neg h2, if_neg h1, if_neg h1, if_neg h2, Str_lt_total as bs]
        simp [e]

theorem compareNumber_spec (op : TokenId) (a b : Int) (h : Interp.isRelational op = true) :
    ∃ r, Interp.compareNumber op a b = some r ∧
      ((relInt op a b ∧ r = 1) ∨ (¬ relInt op a b ∧ r = 0)) := by
  cases op <;> simp [Interp.isRelational] at h <;>
    (simp only [Interp.compareNumber, relInt]
     refine ⟨_, rfl, ?_⟩
     split_ifs with hc
     · exact Or.inl ⟨hc, rfl⟩
     · exact Or.inr ⟨hc, rfl⟩)

theorem compareString_spec (op : TokenId) (a b : Str) (h : Interp.isRelational op = true) :
    ∃ r, Interp.compareString op a b = some r ∧
      ((relStr op a b ∧ r = 1) ∨ (¬ relStr op a b ∧ r = 0)) := by
  have hle : ∀ u v : Str, Str.lt v u = false ↔ (lexLt u v ∨ u = v) := by
    intro u v
    rw [Str_lt_total, Str_lt_iff]
  cases op <;> simp [Interp.isRelational] at h <;>
    simp only [Interp.compareString, relStr] <;> refine ⟨_, rfl, ?_⟩
  · -- TK_LT
    by_cases hc : Str.lt a b = true
    · rw [if_pos hc]; exact Or.inl ⟨(Str_lt_iff a b).mp hc, rfl⟩
    · rw [if_neg hc]; exact Or.inr ⟨fun h => hc ((Str_lt_iff a b).mpr h), rfl⟩
  · -- TK_LET
    by_cases hc : Str.lt b a = true
    · rw [if_pos hc]
      refine Or.inr ⟨fun h => ?_, rfl⟩
      have := (hle a b).mpr h
      rw [hc] at this
      cases this
    · rw [if_neg hc]
      exact Or.inl ⟨(hle a b).mp (by simpa using hc), rfl⟩
  · -- TK_GT
    by_cases hc : Str.lt b a = true
    · rw [if_pos hc]; exact Or.inl ⟨(Str_lt_iff b a).mp hc, rfl⟩
    · rw [if_neg hc]; exact Or.inr ⟨fun h => hc ((Str_lt_iff b a).mpr h), rfl⟩
  · -- TK_GET
    by_cases hc : Str.lt a b = true
    · rw [if_pos hc]
      refine Or.inr ⟨fun h => ?_, rfl⟩
      have := (hle b a).mpr (h.imp id Eq.symm)
      rw [hc] at this
      cases this
    · rw [if_neg hc]
      exact Or.inl ⟨((hle b a).mp (by simpa using hc)).imp id Eq.symm, rfl⟩
  · -- TK_EQ
    split_ifs with hc
    · exact Or.inl ⟨hc, rfl⟩
    · exact Or.inr ⟨hc, rfl⟩
  · -- TK_NEQ
    split_ifs with hc
    · exact Or.inl ⟨hc, rfl⟩
    · exact Or.inr ⟨hc, rfl⟩

/-- C18 (relational operators): one step of the loop of `InterpLogic`, on a left operand
`x` and one of the six operators whose right operand evaluates to `y`.  When both are
integers, or both are strings, the step succeeds and the loop goes on with the integer 1
if the relation holds and 0 if not: integers are compared as numbers, strings in the
lexicographic order of their bytes.  In every other case (a list, a null, a string with an
integer) the step fails with a diagnostic. -/
theorem relational_law (source : Str) (f : Eval) (n : Nat) (env : List Value) (x y : Value)
    (I I2 : Interp) (hY : f (env ++ [x]) (I.Move source) = Result.ret (some y) I2)
    (hop : Interp.isRelational I.token = true) :
    (∀ a b, x = VALUE_NUMBER a → y = VALUE_NUMBER b →
      ∃ r, Interp.InterpLogic.loop source f (n + 1) env x I =
          Interp.InterpLogic.loop source f n env (VALUE_NUMBER r)
            (I2.kill (env.length + 1)) ∧
        ((relInt I.token a b ∧ r = 1) ∨ (¬ relInt I.token a b ∧ r = 0))) ∧
    (∀ a b, x = VALUE_STRING a → y = VALUE_STRING b →
      ∃ r, Interp.InterpLogic.loop source f (n + 1) env x I =
          Interp.InterpLogic.loop source f n env (VALUE_NUMBER r)
            (I2.kill (env.length + 1)) ∧
        ((relStr I.token a b ∧ r = 1) ∨ (¬ relStr I.token a b ∧ r = 0))) ∧
    ((¬ ∃ a b, x = VALUE_NUMBER a ∧ y = VALUE_NUMBER b) →
      (¬ ∃ a b, x = VALUE_STRING a ∧ y = VALUE_STRING b) →
      ∃ K, Interp.InterpLogic.loop source f (n + 1) env x I = Result.ret none K ∧
        K.error_ ≠ []) ∧
    (∀ (v : Value) (J : Interp), Interp.isRelational J.token = false →
      Interp.InterpLogic.loop source f (n + 1) env v J =
        Result.ret (some v) (J.kill env.length)) := by
  refine ⟨?_, ?_, ?_, ?_⟩
  · intro a b hx hy
    subst hx; subst hy
    obtain ⟨r, hr, hs⟩ := compareNumber_spec I.token a b hop
    refine ⟨r, ?_, hs⟩
    rw [Interp.InterpLogic.loop, if_pos hop, hY]
    simp only []
    rw [hr]
  · intro a b hx hy
    subst hx; subst hy
    obtain ⟨r, hr, hs⟩ := compareString_spec I.token a b hop
    refine ⟨r, ?_, hs⟩
    rw [Interp.InterpLogic.loop, if_pos hop, hY]
    simp only []
    rw [hr]
  · intro h1 h2
    rw [Interp.InterpLogic.loop, if_pos hop, hY]
    cases y with
    | VALUE_NUMBER b =>
      cases x with
      | VALUE_NUMBER a => exact absurd ⟨a, b, rfl, rfl⟩ h1
      | VALUE_STRING s => exact ⟨_, rfl, by simp [Interp.ReportError]⟩
      | VALUE_LIST l => exact ⟨_, rfl, by simp [Interp.ReportError]⟩
      | VALUE_NULL => exact ⟨_, rfl, by simp [Interp.ReportError]⟩
    | VALUE_STRING b =>
      cases x with
      | VALUE_STRING a => exact absurd ⟨a, b, rfl, rfl⟩ h2
      | VALUE_NUMBER s => exact ⟨_, rfl, by simp [Interp.ReportError]⟩
      | VALUE_LIST l => exact ⟨_, rfl, by simp [Interp.ReportError]⟩
      | VALUE_NULL => exact ⟨_, rfl, by simp [Interp.ReportError]⟩
    | VALUE_LIST l => exact ⟨_, rfl, by simp [Interp.ReportError]⟩
    | VALUE_NULL => exact ⟨_, rfl, by simp [Interp.ReportError]⟩
  · intro v J hJ
    rw [Interp.InterpLogic.loop, if_neg (by simp [hJ])]

end tsub

namespace tsub
open Value TokenId

/-- C18, witness: in `"ab"<"b"` the step of `<` on the strings `ab` and `b` goes on with
an integer that is 1 exactly when `ab` is before `b`, which it is; the templates of
`"ab"<"b"`, `1<2`, `2<=1` and `"b"!="b"` give `1`, `1`, `0` and `0`; those of `"a"<1`
and of `[1]==[1]` fail. -/
theorem relational_law_witness :
    (∃ r, Interp.InterpLogic.loop "\"ab\"<\"b\"".toList
          (Interp.InterpComp "\"ab\"<\"b\"".toList none
            (Interp.InterpExp "\"ab\"<\"b\"".toList none 10) 10)
          (5 + 1) [] (VALUE_STRING "ab".toList) ⟨⟨⟨TK_LT, 1⟩, 4, 0⟩, Dollar.null, []⟩ =
        Interp.InterpLogic.loop "\"ab\"<\"b\"".toList
          (Interp.InterpComp "\"ab\"<\"b\"".toList none
            (Interp.InterpExp "\"ab\"<\"b\"".toList none 10) 10)
          5 [] (VALUE_NUMBER r)
          (Interp.kill (0 + 1) ⟨⟨⟨TK_EOF, 0⟩, 8, 0⟩, Dollar.null, []⟩) ∧
      ((relStr TK_LT "ab".toList "b".toList ∧ r = 1) ∨
        (¬ relStr TK_LT "ab".toList "b".toList ∧ r = 0))) ∧
    lexLt "ab".toList "b".toList ∧
    Run 50 none "\x60\"ab\"<\"b\"\x60".toList [] = RunResult.ok ["1".toList] [] ∧
    Run 50 none "\x601<2\x60".toList [] = RunResult.ok ["1".toList] [] ∧
    Run 50 none "\x602<=1\x60".toList [] = RunResult.ok ["0".toList] [] ∧
    Run 50 none "\x60\"b\"!=\"b\"\x60".toList [] = RunResult.ok ["0".toList] [] ∧
    Run 50 none "\x60\"a\" < 1\x60".toList [] =
      RunResult.fail
        "[Module:Interp,Location:(1,8)]:\nNumber can only compared to number\n".toList ∧
    Run 50 none "\x60[1] == [1]\x60".toList [] =
      RunResult.fail
        "[Module:Interp,Location:(1,11)]:\nOnly string/number can do comparison!\n".toList :=
  ⟨(relational_law "\"ab\"<\"b\"".toList
      (Interp.InterpComp "\"ab\"<\"b\"".toList none
        (Interp.InterpExp "\"ab\"<\"b\"".toList none 10) 10) 5 []
      (VALUE_STRING "ab".toList) (VALUE_STRING "b".toList)
      ⟨⟨⟨TK_LT, 1⟩, 4, 0⟩, Dollar.null, []⟩ ⟨⟨⟨TK_EOF, 0⟩, 8, 0⟩, Dollar.null, []⟩
      (by decide!) (by decide)).2.1 "ab".toList "b".toList rfl rfl,
   Or.inr ⟨[], 'a', "b".toList, 'b', [], rfl, rfl, by decide⟩,
   by decide!, by decide!, by decide!, by decide!, by decide!, by decide!⟩

end tsub

namespace tsub
open Value TokenId

/-- C21 (ternary): `InterpPostExp` on `C ? A : B`.  When `C` fails the expression fails.
When `C` gives `c` and `?` follows: `A` is evaluated; if it fails, or is not followed by
`:`, the expression fails; then `B` is evaluated whatever `c` is; if it fails the
expression fails; when `A` gives `a` and `B` gives `b` the value is `a` if `c` is truthy
and `b` otherwise.  An integer other than 0, every string and every list are truthy, the
integer 0 is not. -/
theorem ternary_law (source : Str) (context : Option Context) (exp : Eval) (fuel : Nat)
    (env : List Value) (I : Interp) :
    (∀ J, Interp.InterpTenery source context exp fuel env I = Result.ret none J →
      Interp.InterpPostExp source context exp fuel env I = Result.ret none J) ∧
    (∀ c I1, Interp.InterpTenery source context exp fuel env I = Result.ret (some c) I1 →
      I1.token = TK_QUESTION →
      (∀ J, exp (env ++ [c]) (I1.Move source) = Result.ret none J →
        Interp.InterpPostExp source context exp fuel env I =
          Result.ret none (J.kill env.length)) ∧
      (∀ a I2, exp (env ++ [c]) (I1.Move source) = Result.ret (some a) I2 →
        (I2.token ≠ TK_COLON →
          ∃ K, Interp.InterpPostExp source context exp fuel env I = Result.ret none K ∧
            K.error_ ≠ []) ∧
        (I2.token = TK_COLON →
          (∀ J, exp (env ++ [c, a]) (I2.Move source) = Result.ret none J →
            Interp.InterpPostExp source context exp fuel env I =
              Result.ret none (J.kill env.length)) ∧
          (∀ b I3, exp (env ++ [c, a]) (I2.Move source) = Result.ret (some b) I3 →
            (Interp.ToBool c = true →
              Interp.InterpPostExp source context exp fuel env I =
                Result.ret (some a) (I3.kill env.length)) ∧
            (Interp.ToBool c = false →
              Interp.InterpPostExp source context exp fuel env I =
                Result.ret (some b) (I3.kill env.length)))))) ∧
    (∀ n, Interp.ToBool (VALUE_NUMBER n) = true ↔ n ≠ 0) ∧
    (∀ s, Interp.ToBool (VALUE_STRING s) = true) ∧
    (∀ l, Interp.ToBool (VALUE_LIST l) = true) := by
  refine ⟨?_, ?_, ?_, fun _ => rfl, fun _ => rfl⟩
  · intro J hJ
    rw [Interp.InterpPostExp, hJ]
  · intro c I1 hC hq
    refine ⟨?_, ?_⟩
    · intro J hJ
      rw [Interp.InterpPostExp, hC]
      simp only []
      rw [if_pos hq, hJ]
    · intro a I2 hA
      refine ⟨?_, ?_⟩
      · intro hnc
        rw [Interp.InterpPostExp, hC]
        simp only []
        rw [if_pos hq, hA]
        simp only []
        rw [if_pos hnc]
        exact ⟨_, rfl, by simp [Interp.ReportError]⟩
      · intro hc
        refine ⟨?_, ?_⟩
        · intro J hJ
          rw [Interp.InterpPostExp, hC]
          simp only []
          rw [if_pos hq, hA]
          simp only []
          rw [if_neg (by simp [hc]), hJ]
        · intro b I3 hB
          refine ⟨?_, ?_⟩
          · intro ht
            rw [Interp.InterpPostExp, hC]
            simp only []
            rw [if_pos hq, hA]
            simp only []
            rw [if_neg (by simp [hc]), hB]
            simp only []
            rw [if_pos ht]
          · intro ht
            rw [Interp.InterpPostExp, hC]
            simp only []
            rw [if_pos hq, hA]
            simp only []
            rw [if_neg (by simp [hc]), hB]
            simp only []
            rw [if_neg (by simp [ht])]
  · intro n
    simp [Interp.ToBool]

/-- C21, witness: in `1 ? 2 : 1/0` the condition gives 1 and `A` gives 2, then `B` fails
and so does the expression; the templates of `1 ? 2 : 3`, `0 ? 2 : 3`, `"" ? 2 : 3` and
`[0] ? 2 : 3` give `2`, `3`, `2` and `2`; that of `1 ? 2` fails. -/
theorem ternary_law_witness :
    Interp.InterpPostExp "1 ? 2 : 1/0".toList none
        (Interp.InterpExp "1 ? 2 : 1/0".toList none 10) 10 []
        (Interp.init "1 ? 2 : 1/0".toList 0 []) =
      Result.ret none
        (Interp.kill 0 ⟨⟨⟨TK_EOF, 0⟩, 11, 0⟩, Dollar.null,
          "[Module:Interp,Location:(1,12)]:\nDivide zero!\n".toList⟩) ∧
    Run 50 none "\x601 ? 2 : 1/0\x60".toList [] =
      RunResult.fail "[Module:Interp,Location:(1,12)]:\nDivide zero!\n".toList ∧
    Run 50 none "\x601 ? 2 : 3\x60".toList [] = RunResult.ok ["2".toList] [] ∧
    Run 50 none "\x600 ? 2 : 3\x60".toList [] = RunResult.ok ["3".toList] [] ∧
    Run 50 none "\x60\"\" ? 2 : 3\x60".toList [] = RunResult.ok ["2".toList] [] ∧
    Run 50 none "\x60[0] ? 2 : 3\x60".toList [] = RunResult.ok ["2".toList] [] ∧
    Run 50 none "\x601 ? 2\x60".toList [] =
      RunResult.fail
        "[Module:Interp,Location:(1,6)]:\nTenery expression requires \":\"\n".toList :=
  ⟨((((ternary_law "1 ? 2 : 1/0".toList none (Interp.InterpExp "1 ? 2 : 1/0".toList none 10)
      10 [] (Interp.init "1 ? 2 : 1/0".toList 0 [])).2.1 (VALUE_NUMBER 1)
      ⟨⟨⟨TK_QUESTION, 1⟩, 2, 0⟩, Dollar.null, []⟩ (by decide!) (by decide)).2 (VALUE_NUMBER 2)
      ⟨⟨⟨TK_COLON, 1⟩, 6, 0⟩, Dollar.null, []⟩ (by decide!)).2 (by decide)).1
      ⟨⟨⟨TK_EOF, 0⟩, 11, 0⟩, Dollar.null,
        "[Module:Interp,Location:(1,12)]:\nDivide zero!\n".toList⟩ (by decide!),
   by decide!, by decide!, by decide!, by decide!, by decide!, by decide!⟩

/-- C22 (unary operators): `InterpUnary` on a prefix operator whose atomic operand
evaluates to `x`.  `+x` succeeds exactly when `x` is an integer and gives `x`; `-x`
succeeds exactly when `x` is an integer and gives its negation (wrapped to 32 bits, which
changes nothing unless `x` is the least integer); `!x` always succeeds: it gives 1 when
`x` is the integer 0, 0 when `x` is another integer, 0 when `x` is a string and 1 when `x`
is a list.  `InterpFactor` calls `InterpUnary` exactly on these three operators. -/
theorem unary_law (source : Str) (context : Option Context) (exp : Eval) (fuel : Nat)
    (env : List Value) (I : Interp) (x : Value) (I1 : Interp)
    (hA : Interp.InterpAtomic source context exp fuel env (I.Move source) =
      Result.ret (some x) I1) :
    (I.token = TK_ADD →
      (∀ n, x = VALUE_NUMBER n →
        Interp.InterpUnary source context exp fuel env I =
          Result.ret (some (VALUE_NUMBER n)) I1) ∧
      ((∀ n, x ≠ VALUE_NUMBER n) →
        ∃ K, Interp.InterpUnary source context exp fuel env I = Result.ret none K ∧
          K.error_ ≠ [])) ∧
    (I.token = TK_SUB →
      (∀ n, x = VALUE_NUMBER n →
        Interp.InterpUnary source context exp fuel env I =
          Result.ret (some (VALUE_NUMBER (wrap32 (-n)))) I1 ∧
        (-2147483648 < n → n < 2147483648 → wrap32 (-n) = -n)) ∧
      ((∀ n, x ≠ VALUE_NUMBER n) →
        ∃ K, Interp.InterpUnary source context exp fuel env I = Result.ret none K ∧
          K.error_ ≠ [])) ∧
    (I.token = TK_NOT →
      (x = VALUE_NUMBER 0 →
        Interp.InterpUnary source context exp fuel env I =
          Result.ret (some (VALUE_NUMBER 1)) I1) ∧
      (∀ n, x = VALUE_NUMBER n → n ≠ 0 →
        Interp.InterpUnary source context exp fuel env I =
          Result.ret (some (VALUE_NUMBER 0)) I1) ∧
      (∀ s, x = VALUE_STRING s →
        Interp.InterpUnary source context exp fuel env I =
          Result.ret (some (VALUE_NUMBER 0)) I1) ∧
      (∀ l, x = VALUE_LIST l →
        Interp.InterpUnary source context exp fuel env I =
          Result.ret (some (VALUE_NUMBER 1)) I1)) ∧
    (I.token = TK_ADD ∨ I.token = TK_SUB ∨ I.token = TK_NOT →
      Interp.InterpFactor source context exp fuel env I =
        Interp.InterpUnary source context exp fuel env I) := by
  refine ⟨?_, ?_, ?_, ?_⟩
  · intro ht
    refine ⟨?_, ?_⟩
    · intro n hn
      subst hn
      unfold Interp.InterpUnary
      rw [ht]
      simp only []
      rw [hA]
    · intro hn
      unfold Interp.InterpUnary
      rw [ht]
      simp only []
      rw [hA]
      cases x with
      | VALUE_NUMBER n => exact absurd rfl (hn n)
      | VALUE_STRING s => exact ⟨_, rfl, by simp [Interp.ReportError]⟩
      | VALUE_LIST l => exact ⟨_, rfl, by simp [Interp.ReportError]⟩
      | VALUE_NULL => exact ⟨_, rfl, by simp [Interp.ReportError]⟩
  · intro ht
    refine ⟨?_, ?_⟩
    · intro n hn
      subst hn
      refine ⟨?_, fun h1 h2 => wrap32_fits _ (by omega) (by omega)⟩
      unfold Interp.InterpUnary
      rw [ht]
      simp only []
      rw [hA]
    · intro hn
      unfold Interp.InterpUnary
      rw [ht]
      simp only []
      rw [hA]
      cases x with
      | VALUE_NUMBER n => exact absurd rfl (hn n)
      | VALUE_STRING s => exact ⟨_, rfl, by simp [Interp.ReportError]⟩
      | VALUE_LIST l => exact ⟨_, rfl, by simp [Interp.ReportError]⟩
      | VALUE_NULL => exact ⟨_, rfl, by simp [Interp.ReportError]⟩
  · intro ht
    refine ⟨?_, ?_, ?_, ?_⟩
    · intro hx
      subst hx
      unfold Interp.InterpUnary
      rw [ht]
      simp only []
      rw [hA]
      rfl
    · intro n hx hn
      subst hx
      unfold Interp.InterpUnary
      rw [ht]
      simp only []
      rw [hA]
      simp only []
      rw [if_neg hn]
    · intro s hx
      subst hx
      unfold Interp.InterpUnary
      rw [ht]
      simp only []
      rw [hA]
    · intro l hx
      subst hx
      unfold Interp.InterpUnary
      rw [ht]
      simp only []
      rw [hA]
  · intro ht
    unfold Interp.InterpFactor
    rw [if_pos ht]

/-- C22, witness: in `!"hello"` the operand is the string `hello` and `!` gives 0; the
templates of `!"hello"`, `-5`, `+5`, `![1]`, `!0` and `!7` give `0`, `-5`, `5`, `1`, `1`
and `0`; that of `-"a"` fails. -/
theorem unary_law_witness :
    Interp.InterpUnary "!\"hello\"".toList none (Interp.InterpExp "!\"hello\"".toList none 10)
        10 [] (Interp.init "!\"hello\"".toList 0 []) =
      Result.ret (some (VALUE_NUMBER 0)) ⟨⟨⟨TK_EOF, 0⟩, 8, 0⟩, Dollar.null, []⟩ ∧
    Run 50 none "\x60!\"hello\"\x60".toList [] = RunResult.ok ["0".toList] [] ∧
    Run 50 none "\x60-5\x60".toList [] = RunResult.ok ["-5".toList] [] ∧
    Run 50 none "\x60+5\x60".toList [] = RunResult.ok ["5".toList] [] ∧
    Run 50 none "\x60![1]\x60".toList [] = RunResult.ok ["1".toList] [] ∧
    Run 50 none "\x60!0\x60".toList [] = RunResult.ok ["1".toList] [] ∧
    Run 50 none "\x60!7\x60".toList [] = RunResult.ok ["0".toList] [] ∧
    Run 50 none "\x60-\"a\"\x60".toList [] =
      RunResult.fail
        "[Module:Interp,Location:(1,5)]:\nCannot prefix +/- for string\n".toList :=
  ⟨((unary_law "!\"hello\"".toList none (Interp.InterpExp "!\"hello\"".toList none 10) 10 []
      (Interp.init "!\"hello\"".toList 0 []) (VALUE_STRING "hello".toList)
      ⟨⟨⟨TK_EOF, 0⟩, 8, 0⟩, Dollar.null, []⟩ (by decide!)).2.2.1 (by decide!)).2.2.1
      "hello".toList rfl,
   by decide!, by decide!, by decide!, by decide!, by decide!, by decide!, by decide!⟩

/-- C30 (code defect, the one of C9): with no host `[1,0]{[0..![9/$]]}` evaluates with
success, to the list of `[0]` and `[0]`, and ends at offset 18.  For the element 1 the body
ends with the scanner on the `}` at offset 17, which the map records.  For the element 0
the end `![9/$]` of the range fails in the inner list (division by zero), the failure is
taken for "no range", the outer list ends on the inner `]`, and the body ends with success
with the scanner on the `]` at offset 16, not on the `}`. -/
theorem first_brace_not_reached :
    Interp.DoInterp "[1,0]\x7b[0..![9/$]]\x7d".toList none 50 0 [] =
      Result.ret (some (VALUE_LIST [VALUE_LIST [VALUE_NUMBER 0], VALUE_LIST [VALUE_NUMBER 0]]))
        ⟨⟨⟨TK_EOF, 0⟩, 18, 0⟩, Dollar.dead,
          "[Module:Interp,Location:(1,16)]:\nDivide zero!\n".toList⟩ ∧
    Interp.InterpExp "[1,0]\x7b[0..![9/$]]\x7d".toList none 40
        [VALUE_LIST [VALUE_NUMBER 1, VALUE_NUMBER 0]]
        ⟨⟨⟨TK_LSQR, 1⟩, 6, 0⟩, Dollar.elem 0 (VALUE_NUMBER 1), []⟩ =
      Result.ret (some (VALUE_LIST [VALUE_NUMBER 0]))
        ⟨⟨⟨TK_RBRA, 1⟩, 17, 0⟩, Dollar.elem 0 (VALUE_NUMBER 1), []⟩ ∧
    Interp.InterpExp "[1,0]\x7b[0..![9/$]]\x7d".toList none 40
        [VALUE_LIST [VALUE_NUMBER 1, VALUE_NUMBER 0]]
        ⟨⟨⟨TK_LSQR, 1⟩, 6, 0⟩, Dollar.elem 0 (VALUE_NUMBER 0), []⟩ =
      Result.ret (some (VALUE_LIST [VALUE_NUMBER 0]))
        ⟨⟨⟨TK_RSQR, 1⟩, 16, 0⟩, Dollar.elem 0 (VALUE_NUMBER 0),
          "[Module:Interp,Location:(1,16)]:\nDivide zero!\n".toList⟩ ∧
    Run 50 none "\x60[1,0]\x7b[0..![9/$]]\x7d\x60".toList [] =
      RunResult.ok ["0".toList, "0".toList]
        "[Module:Interp,Location:(1,16)]:\nDivide zero!\n".toList := by
  decide!

end tsub

namespace tsub
open Value TokenId

/-! ### String literals -/

theorem decodeString_step (d : Char) (rest : Str) (h1 : d ≠ '\"') (h2 : d ≠ '\\') :
    decodeString (d :: rest) =
      (decodeString rest).map (fun (r : Str × Nat) => (d :: r.1, r.2 + 1)) := by
  cases rest with
  | nil => simp [decodeString, h1]
  | cons e rest => simp [decodeString, h1, h2]

theorem scan_eq_decode : ∀ (n : Nat) (s : Str) (i : Nat) (buffer : Str), s.length ≤ n →
    Interp.ParseString.scan s i buffer =
      (decodeString s).map (fun (r : Str × Nat) => (buffer ++ r.1, i + r.2 - 1)) := by
  intro n
  induction n with
  | zero =>
    intro s i buffer h
    cases s with
    | nil => simp [Interp.ParseString.scan, decodeString]
    | cons c s => simp at h
  | succ n ih =>
    intro s i buffer h
    match s, h with
    | [], _ => simp [Interp.ParseString.scan, decodeString]
    | [c], _ =>
      by_cases hc : c = '\"' <;> simp [Interp.ParseString.scan, decodeString, hc]
    | c :: d :: rest, h =>
      simp only [List.length_cons] at h
      rw [Interp.ParseString.scan, decodeString]
      by_cases hq : c = '\"'
      · subst hq
        have : ¬ ('\"' = '\\') := by decide
        simp [this]
      · by_cases hb : c = '\\'
        · subst hb
          by_cases he : Interp.IsEscapeChar d = true
          · simp only [he, and_self, if_true, if_neg hq]
            rw [ih rest (i + 2) _ (by omega)]
            cases decodeString rest with
            | none => rfl
            | some r =>
              simp only [Option.map_some', List.append_assoc, List.singleton_append]
              congr 2
              omega
          · have hd1 : d ≠ '\"' := by
              intro e; subst e; exact he (by decide)
            have hd2 : d ≠ '\\' := by
              intro e; subst e; exact he (by decide)
            simp only [he, and_false, if_false, if_neg hq, if_true, Bool.false_eq_true]
            rw [ih (d :: rest) (i + 1) _ (by simp; omega), decodeString_step d rest hd1 hd2]
            cases decodeString rest with
            | none => rfl
            | some r =>
              simp only [Option.map_some', List.append_assoc, List.singleton_append]
              congr 2
              omega
        · simp only [hb, false_and, if_false, if_neg hq]
          rw [ih (d :: rest) (i + 1) _ (by simp; omega)]
          cases decodeString (d :: rest) with
          | none => rfl
          | some r =>
            simp only [Option.map_some', List.append_assoc, List.singleton_append]
            congr 2
            omega

theorem decodeString_quote : ∀ (n : Nat) (s v : Str) (k : Nat), s.length ≤ n →
    decodeString s = some (v, k) → 1 ≤ k ∧ s.get? (k - 1) = some '\"' := by
  intro n
  induction n with
  | zero =>
    intro s v k h hd
    cases s with
    | nil => simp [decodeString] at hd
    | cons c s => simp at h
  | succ n ih =>
    intro s v k h hd
    match s, h, hd with
    | [], _, hd => simp [decodeString] at hd
    | [c], _, hd =>
      simp only [decodeString] at hd
      split_ifs at hd with hc
      simp only [Option.some.injEq, Prod.mk.injEq] at hd
      obtain ⟨_, rfl⟩ := hd
      simp [hc]
    | c :: d :: rest, h, hd =>
      simp only [List.length_cons] at h
      rw [decodeString] at hd
      split_ifs at hd with hq hb he
      · simp only [Option.some.injEq, Prod.mk.injEq] at hd
        obtain ⟨_, rfl⟩ := hd
        simp [hq]
      · cases hr : decodeString rest with
        | none => rw [hr] at hd; simp at hd
        | some r =>
          rw [hr] at hd
          simp only [Option.map_some', Option.some.injEq, Prod.mk.injEq] at hd
          obtain ⟨_, rfl⟩ := hd
          obtain ⟨h1, h2⟩ := ih rest r.1 r.2 (by omega) (by rw [hr])
          refine ⟨by omega, ?_⟩
          have : r.2 + 2 - 1 = (r.2 - 1) + 2 := by omega
          rw [this]
          simpa using h2
      · cases hr : decodeString rest with
        | none => rw [hr] at hd; simp at hd
        | some r =>
          rw [hr] at hd
          simp only [Option.map_some', Option.some.injEq, Prod.mk.injEq] at hd
          obtain ⟨_, rfl⟩ := hd
          obtain ⟨h1, h2⟩ := ih rest r.1 r.2 (by omega) (by rw [hr])
          refine ⟨by omega, ?_⟩
          have : r.2 + 2 - 1 = (r.2 - 1) + 2 := by omega
          rw [this]
          simpa using h2
      · cases hr : decodeString (d :: rest) with
        | none => rw [hr] at hd; simp at hd
        | some r =>
          rw [hr] at hd
          simp only [Option.map_some', Option.some.injEq, Prod.mk.injEq] at hd
          obtain ⟨_, rfl⟩ := hd
          obtain ⟨h1, h2⟩ := ih (d :: rest) r.1 r.2 (by simp; omega) (by rw [hr])
          refine ⟨by omega, ?_⟩
          have : r.2 + 1 - 1 = (r.2 - 1) + 1 := by omega
          rw [this]
          simpa using h2

theorem decodeString_none_of_no_quote : ∀ (n : Nat) (s : Str), s.length ≤ n →
    '\"' ∉ s → decodeString s = none := by
  intro n s h hq
  cases hd : decodeString s with
  | none => rfl
  | some r =>
    obtain ⟨h1, h2⟩ := decodeString_quote n s r.1 r.2 h (by rw [hd])
    exact absurd (List.get?_mem h2) hq

/-- C24. `ParseString`, called on a scanner positioned at a double quote, decodes the text after it
as the specification says (`decodeString`): it fails, leaving the state as it was, exactly
when `decodeString` finds no closing quote; otherwise the value is the decoded string and
the scanner is set just past the closing quote, which is the byte before that offset.  A
text without any double quote has no closing quote. -/
theorem string_literal_decoding (source : Str) (I : Interp) :
    (decodeString (source.drop (I.scanner_.position_ + 1)) = none →
      Interp.ParseString source I = Result.ret none I) ∧
    (∀ v k, decodeString (source.drop (I.scanner_.position_ + 1)) = some (v, k) →
      Interp.ParseString source I =
        Result.ret (some (VALUE_STRING v)) (I.Set source (I.scanner_.position_ + 1 + k)) ∧
      1 ≤ k ∧ source.get? (I.scanner_.position_ + k) = some '\"') ∧
    ('\"' ∉ source.drop (I.scanner_.position_ + 1) →
      Interp.ParseString source I = Result.ret none I) ∧
    (∀ (d : Char) (rest : Str), Interp.IsEscapeChar d = true →
      decodeString ('\\' :: d :: rest) =
        (decodeString rest).map (fun (r : Str × Nat) => (d :: r.1, r.2 + 2))) ∧
    (∀ (d : Char) (rest : Str), Interp.IsEscapeChar d = false →
      decodeString ('\\' :: d :: rest) =
        (decodeString rest).map (fun (r : Str × Nat) => ('\\' :: d :: r.1, r.2 + 2))) ∧
    (∀ (c : Char) (rest : Str), c ≠ '\"' → c ≠ '\\' →
      decodeString (c :: rest) =
        (decodeString rest).map (fun (r : Str × Nat) => (c :: r.1, r.2 + 1))) ∧
    (∀ (rest : Str), decodeString ('\"' :: rest) = some ([], 1)) ∧
    (∀ d : Char, Interp.IsEscapeChar d = true ↔
      (d = 'n' ∨ d = 't' ∨ d = 'r' ∨ d = 'b' ∨ d = '\"' ∨ d = '\\')) := by
  have hscan := scan_eq_decode (source.drop (I.scanner_.position_ + 1)).length
    (source.drop (I.scanner_.position_ + 1)) (I.scanner_.position_ + 1) [] (le_refl _)
  have hnone : decodeString (source.drop (I.scanner_.position_ + 1)) = none →
      Interp.ParseString source I = Result.ret none I := by
    intro h
    rw [Interp.ParseString, hscan, h]
    rfl
  refine ⟨hnone, ?_, ?_, ?_, ?_, ?_, ?_, ?_⟩
  · intro v k h
    obtain ⟨h1, h2⟩ := decodeString_quote _ _ v k (le_refl _) h
    refine ⟨?_, h1, ?_⟩
    · rw [Interp.ParseString, hscan, h]
      simp only [Option.map_some', List.nil_append]
      have : I.scanner_.position_ + 1 + k - 1 + 1 = I.scanner_.position_ + 1 + k := by omega
      rw [this]
    · rw [List.get?_eq_getElem?, List.getElem?_drop, ← List.get?_eq_getElem?] at h2
      have : I.scanner_.position_ + 1 + (k - 1) = I.scanner_.position_ + k := by omega
      rw [this] at h2
      exact h2
  · intro h
    exact hnone (decodeString_none_of_no_quote _ _ (le_refl _) h)
  · intro d rest hd
    have : ¬ ('\\' = '\"') := by decide
    simp [decodeString, hd, this]
  · intro d rest hd
    have : ¬ ('\\' = '\"') := by decide
    simp [decodeString, hd, this]
  · intro c rest h1 h2
    exact decodeString_step c rest h1 h2
  · intro rest
    cases rest <;> simp [decodeString]
  · intro d
    simp [Interp.IsEscapeChar]

/-- C24, witness: the literal `"a\nb\qc"` followed by `+1`, the unterminated `"abc`, and
`"abc\"` whose last quote is escaped. -/
theorem string_literal_decoding_witness :
    Interp.ParseString "\"a\\nb\\qc\"+1".toList (Interp.init "\"a\\nb\\qc\"+1".toList 0 []) =
      Result.ret (some (VALUE_STRING "anb\\qc".toList))
        ⟨⟨⟨TK_ADD, 1⟩, 9, 0⟩, Dollar.null, []⟩ ∧
    Interp.ParseString "\"abc".toList (Interp.init "\"abc".toList 0 []) =
      Result.ret none (Interp.init "\"abc".toList 0 []) ∧
    Interp.ParseString "\"abc\\\"".toList (Interp.init "\"abc\\\"".toList 0 []) =
      Result.ret none (Interp.init "\"abc\\\"".toList 0 []) ∧
    Interp.DoInterp "\"abc".toList none 5 0 [] =
      Result.ret none (Interp.init "\"abc".toList 0 []) ∧
    Interp.DoInterp "\"abc\\\"".toList none 5 0 [] =
      Result.ret none (Interp.init "\"abc\\\"".toList 0 []) := by
  have h := string_literal_decoding "\"a\\nb\\qc\"+1".toList
    (Interp.init "\"a\\nb\\qc\"+1".toList 0 [])
  have h1 := (h.2.1 "anb\\qc".toList 8 (by decide)).1
  have h2 := string_literal_decoding "\"abc".toList (Interp.init "\"abc".toList 0 [])
  have h3 := string_literal_decoding "\"abc\\\"".toList
    (Interp.init "\"abc\\\"".toList 0 [])
  refine ⟨?_, h2.1 (by decide), h3.1 (by decide), by decide!, by decide!⟩
  rw [h1]
  decide

end tsub

namespace tsub
open Value TokenId

/-! ### Flattening -/

theorem flatList_forall2 : ∀ (l : List Value) (strs : List (List Str)),
    List.Forall₂ (fun x s => Value.flat x = some s) l strs →
    Value.flatList l = some strs.flatten
  | [], _, h => by cases h; rfl
  | x :: xs, _, h => by
    cases h with
    | cons h1 h2 =>
      rw [Value.flatList, h1]
      simp only []
      rw [flatList_forall2 xs _ h2]
      simp

theorem flatList_append : ∀ (a b : List Value),
    Value.flatList (a ++ b) =
      match Value.flatList a with
      | none => none
      | some x =>
        match Value.flatList b with
        | none => none
        | some y => some (x ++ y)
  | [], b => by
    simp only [List.nil_append, Value.flatList]
    cases Value.flatList b <;> simp
  | v :: a, b => by
    simp only [List.cons_append, Value.flatList, List.append_eq]
    rw [flatList_append a b]
    cases Value.flat v <;> simp only []
    cases Value.flatList a <;> simp only []
    cases Value.flatList b <;> simp

mutual
theorem flat_scalars : ∀ (v : Value), Value.flatList (Value.scalars v) = Value.flat v
  | VALUE_STRING s => by simp [Value.scalars, Value.flatList, Value.flat]
  | VALUE_NUMBER n => by simp [Value.scalars, Value.flatList, Value.flat]
  | VALUE_NULL => by simp [Value.scalars, Value.flatList, Value.flat]
  | VALUE_LIST l => by
    simp only [Value.scalars, Value.flat]
    exact flat_scalarsList l
theorem flat_scalarsList : ∀ (l : List Value),
    Value.flatList (Value.scalarsList l) = Value.flatList l
  | [] => by simp [Value.scalarsList]
  | v :: vs => by
    have h := flatList_append (Value.scalars v) (Value.scalarsList vs)
    rw [flat_scalars v, flat_scalarsList vs] at h
    exact h
end

mutual
theorem flat_noNull : ∀ (v : Value), v.noNull = true → ∃ strs, Value.flat v = some strs
  | VALUE_STRING s, _ => ⟨_, rfl⟩
  | VALUE_NUMBER n, _ => ⟨_, rfl⟩
  | VALUE_NULL, h => by simp [Value.noNull] at h
  | VALUE_LIST l, h => by
    simp only [Value.noNull] at h
    simp only [Value.flat]
    exact flatList_noNull l h
theorem flatList_noNull : ∀ (l : List Value), Value.noNullList l = true →
    ∃ strs, Value.flatList l = some strs
  | [], _ => ⟨_, rfl⟩
  | v :: vs, h => by
    simp only [Value.noNullList, Bool.and_eq_true] at h
    obtain ⟨a, ha⟩ := flat_noNull v h.1
    obtain ⟨b, hb⟩ := flatList_noNull vs h.2
    exact ⟨a ++ b, by simp [Value.flatList, ha, hb]⟩
end

mutual
theorem scalars_scalar : ∀ (v : Value), ∀ x ∈ Value.scalars v, ∀ l, x ≠ VALUE_LIST l
  | VALUE_STRING s, x, hx, l => by
    simp only [Value.scalars, List.mem_singleton] at hx
    subst hx
    intro h
    cases h
  | VALUE_NUMBER n, x, hx, l => by
    simp only [Value.scalars, List.mem_singleton] at hx
    subst hx
    intro h
    cases h
  | VALUE_NULL, x, hx, l => by
    simp only [Value.scalars, List.mem_singleton] at hx
    subst hx
    intro h
    cases h
  | VALUE_LIST l1, x, hx, l => by
    simp only [Value.scalars] at hx
    exact scalarsList_scalar l1 x hx l
theorem scalarsList_scalar : ∀ (l1 : List Value), ∀ x ∈ Value.scalarsList l1,
    ∀ l, x ≠ VALUE_LIST l
  | [], x, hx, l => by simp [Value.scalarsList] at hx
  | v :: vs, x, hx, l => by
    simp only [Value.scalarsList, List.mem_append] at hx
    rcases hx with hx | hx
    · exact scalars_scalar v x hx l
    · exact scalarsList_scalar vs x hx l
end

/-- C26. The strings of a list are the strings of its elements one after the other; a
string gives itself and an integer its decimal text; a value without a null inside has
strings; and a list gives the same strings as the flat list of its scalars from left to
right. -/
theorem flattening_law :
    (∀ (l : List Value) (strs : List (List Str)),
      List.Forall₂ (fun x s => value_to_strings x = some s) l strs →
      value_to_strings (VALUE_LIST l) = some strs.flatten) ∧
    (∀ s, value_to_strings (VALUE_STRING s) = some [s]) ∧
    (∀ n, value_to_strings (VALUE_NUMBER n) = some [sprintf_d n]) ∧
    (∀ v, v.noNull = true → ∃ strs, value_to_strings v = some strs) ∧
    (∀ l, value_to_strings (VALUE_LIST (Value.scalarsList l)) = value_to_strings (VALUE_LIST l) ∧
      ∀ x ∈ Value.scalarsList l, ∀ l1, x ≠ VALUE_LIST l1) := by
  refine ⟨?_, ?_, ?_, ?_, ?_⟩
  · intro l strs h
    rw [value_to_strings_eq_flat, Value.flat]
    apply flatList_forall2
    simpa only [value_to_strings_eq_flat] using h
  · intro s
    rw [value_to_strings_eq_flat]
    rfl
  · intro n
    rw [value_to_strings_eq_flat]
    rfl
  · intro v h
    rw [value_to_strings_eq_flat]
    exact flat_noNull v h
  · intro l
    refine ⟨?_, scalarsList_scalar l⟩
    rw [value_to_strings_eq_flat, value_to_strings_eq_flat, Value.flat, Value.flat]
    exact flat_scalarsList l

/-- C26, witness: `[[1,2],[3]]` and `[1,2,3]` both give `1`, `2`, `3`. -/
theorem flattening_law_witness :
    value_to_strings (VALUE_LIST [VALUE_LIST [VALUE_NUMBER 1, VALUE_NUMBER 2],
      VALUE_LIST [VALUE_NUMBER 3]]) = some ["1".toList, "2".toList, "3".toList] ∧
    value_to_strings (VALUE_LIST [VALUE_NUMBER 1, VALUE_NUMBER 2, VALUE_NUMBER 3]) =
      some ["1".toList, "2".toList, "3".toList] ∧
    Value.scalarsList [VALUE_LIST [VALUE_NUMBER 1, VALUE_NUMBER 2], VALUE_LIST [VALUE_NUMBER 3]] =
      [VALUE_NUMBER 1, VALUE_NUMBER 2, VALUE_NUMBER 3] ∧
    value_to_strings (VALUE_LIST [VALUE_STRING "a".toList, VALUE_LIST [VALUE_NUMBER (-4)]]) =
      some ["a".toList, "-4".toList] ∧
    Run 50 none "\x60[[1,2],[3]]\x60".toList [] =
      RunResult.ok ["1".toList, "2".toList, "3".toList] [] := by
  refine ⟨?_, by decide!, by decide!, by decide!, by decide!⟩
  exact flattening_law.1
    [VALUE_LIST [VALUE_NUMBER 1, VALUE_NUMBER 2], VALUE_LIST [VALUE_NUMBER 3]]
    [["1".toList, "2".toList], ["3".toList]]
    (List.Forall₂.cons (by decide!) (List.Forall₂.cons (by decide!) List.Forall₂.nil))

/-! ### The string pool -/

theorem find_append (pool t : List Str) (s : Str) (i : Nat)
    (h : TextProcessor.find pool s = some i) : TextProcessor.find (pool ++ t) s = some i := by
  induction pool generalizing i with
  | nil => simp [TextProcessor.find] at h
  | cons x xs ih =>
    simp only [List.cons_append, TextProcessor.find, List.append_eq] at h ⊢
    split_ifs at h ⊢ with hx
    · exact h
    · cases hf : TextProcessor.find xs s with
      | none => rw [hf] at h; simp at h
      | some j => rw [ih j hf]; rw [hf] at h; exact h

theorem find_snoc (pool : List Str) (s : Str) (h : TextProcessor.find pool s = none) :
    TextProcessor.find (pool ++ [s]) s = some pool.length := by
  induction pool with
  | nil => simp [TextProcessor.find]
  | cons x xs ih =>
    simp only [List.cons_append, TextProcessor.find, List.append_eq] at h ⊢
    split_ifs at h ⊢ with hx
    cases hf : TextProcessor.find xs s with
    | none => rw [ih hf]; simp
    | some j => rw [hf] at h; simp at h

theorem GetString_find (pool : List Str) (s : Str) :
    TextProcessor.find (TextProcessor.GetString pool s).2 s =
      some (TextProcessor.GetString pool s).1 := by
  unfold TextProcessor.GetString
  cases hf : TextProcessor.find pool s with
  | some i => exact hf
  | none => exact find_snoc pool s hf

theorem internAll_spec : ∀ (strs : List Str) (pool : List Str),
    (internAll pool strs).1.length = strs.length ∧
    (∃ t, (internAll pool strs).2 = pool ++ t) ∧
    ∀ i, i < strs.length →
      TextProcessor.find (internAll pool strs).2 (strs.getD i []) =
        some ((internAll pool strs).1.getD i 0)
  | [], pool => ⟨rfl, ⟨[], by simp [internAll]⟩, fun i h => by simp at h⟩
  | s :: ss, pool => by
    obtain ⟨h1, ⟨t, h2⟩, h3⟩ := internAll_spec ss (TextProcessor.GetString pool s).2
    obtain ⟨_, _, ⟨t0, h0⟩⟩ := GetString_spec pool s
    refine ⟨by simp [internAll, h1], ⟨t0 ++ t, by
      show (internAll (TextProcessor.GetString pool s).2 ss).2 = pool ++ (t0 ++ t)
      rw [h2, h0, List.append_assoc]⟩, ?_⟩
    intro i hi
    cases i with
    | zero =>
      simp only [internAll, List.getD_cons_zero]
      rw [h2]
      exact find_append _ _ _ _ (GetString_find pool s)
    | succ i =>
      simp only [internAll, List.getD_cons_succ]
      exact h3 i (by simpa using hi)

/-- C28. Strings interned one after the other in one pool, whatever the pool held before:
two of the references returned are equal exactly when the two strings are equal; in the
pool after the last call every reference designates the string it was returned for; the
pool only grows at its end, so that a reference into it keeps its content. -/
theorem string_pool (pool : List Str) (strs : List Str) :
    (internAll pool strs).1.length = strs.length ∧
    (∀ i j, i < strs.length → j < strs.length →
      ((internAll pool strs).1.getD i 0 = (internAll pool strs).1.getD j 0 ↔
        strs.getD i [] = strs.getD j [])) ∧
    (∀ i, i < strs.length →
      TextProcessor.deref (internAll pool strs).2 ((internAll pool strs).1.getD i 0) =
        strs.getD i []) ∧
    (∃ t, (internAll pool strs).2 = pool ++ t) ∧
    (∀ (a : Str) (t : List Str),
      TextProcessor.deref ((TextProcessor.GetString pool a).2 ++ t)
        (TextProcessor.GetString pool a).1 = a) ∧
    (∀ a b : Str,
      (TextProcessor.GetString pool a).1 =
        (TextProcessor.GetString (TextProcessor.GetString pool a).2 b).1 ↔ a = b) := by
  obtain ⟨h1, h2, h3⟩ := internAll_spec strs pool
  have hd : ∀ i, i < strs.length →
      TextProcessor.deref (internAll pool strs).2 ((internAll pool strs).1.getD i 0) =
        strs.getD i [] := fun i hi => (find_spec _ _ _ (h3 i hi)).2
  have hiff : ∀ (p : List Str) (ss : List Str) (i j : Nat), i < ss.length → j < ss.length →
      ((internAll p ss).1.getD i 0 = (internAll p ss).1.getD j 0 ↔
        ss.getD i [] = ss.getD j []) := by
    intro p ss i j hi hj
    obtain ⟨_, _, k3⟩ := internAll_spec ss p
    constructor
    · intro e
      have a := (find_spec _ _ _ (k3 i hi)).2
      have b := (find_spec _ _ _ (k3 j hj)).2
      rw [← a, ← b, e]
    · intro e
      have a := k3 i hi
      have b := k3 j hj
      rw [e, b] at a
      exact (Option.some.inj a).symm
  refine ⟨h1, hiff pool strs, hd, h2, ?_, ?_⟩
  · intro a t
    obtain ⟨k1, k2, _⟩ := GetString_spec pool a
    rw [deref_append _ _ _ k2]
    exact k1
  · intro a b
    have := hiff pool [a, b] 0 1 (by simp) (by simp)
    simpa [internAll] using this

/-- C28, witness: `b`, `a`, `b`, `c`, `a` interned in a pool that holds `a` already. -/
theorem string_pool_witness :
    internAll ["a".toList] ["b".toList, "a".toList, "b".toList, "c".toList, "a".toList] =
      ([1, 0, 1, 2, 0], ["a".toList, "b".toList, "c".toList]) ∧
    ((internAll ["a".toList] ["b".toList, "a".toList, "b".toList, "c".toList, "a".toList]).1.getD 0 0 =
      (internAll ["a".toList] ["b".toList, "a".toList, "b".toList, "c".toList, "a".toList]).1.getD 2 0 ↔
      ["b".toList, "a".toList, "b".toList, "c".toList, "a".toList].getD 0 [] =
        ["b".toList, "a".toList, "b".toList, "c".toList, "a".toList].getD 2 []) :=
  ⟨by decide,
    (string_pool ["a".toList]
      ["b".toList, "a".toList, "b".toList, "c".toList, "a".toList]).2.1 0 2 (by decide) (by decide)⟩

end tsub

namespace tsub
open Value TokenId

/-! ### The table of the scanner -/

theorem isBlank_isspace (c : Char) (h : isBlank c = true) : isspace c = true := by
  simp only [isBlank, Bool.decide_or, Bool.or_eq_true, decide_eq_true_eq] at h
  rcases h with h | h | h | h | h <;> subst h <;> decide

theorem isBlank_PeekCase (c next : Char) (h : isBlank c = true) :
    Scanner.PeekCase c next = none := by
  simp only [isBlank, Bool.decide_or, Bool.or_eq_true, decide_eq_true_eq] at h
  rcases h with h | h | h | h | h <;> subst h <;> simp [Scanner.PeekCase]

theorem PeekCase_of_not_isspace (c next : Char) (h : isspace c = false) :
    Scanner.PeekCase c next = some (Scanner.PeekToken c next) := by
  cases hp : Scanner.PeekCase c next with
  | none => rw [PeekCase_eq_none hp] at h; cases h
  | some l =>
    unfold Scanner.PeekCase at hp
    split_ifs at hp
    exact hp.symm ▸ rfl

theorem takeWhile_blanks (ws : Str) (c : Char) (rest : Str)
    (hws : ∀ x ∈ ws, isBlank x = true) (hc : isspace c = false) :
    (ws ++ c :: rest).takeWhile isspace = ws := by
  induction ws with
  | nil => simp [List.takeWhile_cons, hc]
  | cons w ws ih =>
    have hw := isBlank_isspace w (hws w (List.mem_cons_self _ _))
    simp only [List.cons_append, List.takeWhile_cons, hw, if_true]
    rw [ih (fun x hx => hws x (List.mem_cons_of_mem _ hx))]

theorem NChar_of_drop (source : Str) (p : Nat) (c : Char) (rest : Str)
    (h : source.drop p = c :: rest) :
    Scanner.NChar source p = c ∧
      Scanner.NChar source (p + 1) = rest.head?.getD (Char.ofNat 0) := by
  constructor
  · rw [NChar_eq_head, h]; rfl
  · rw [NChar_eq_head]
    have : source.drop (p + 1) = rest := by
      rw [← List.drop_drop, h]; rfl
    rw [this]

/-- The lexeme at a position where the text is a run of blanks followed by a byte that is
not a blank. -/
theorem Peek_blanks (source : Str) (p : Nat) (ws : Str) (c : Char) (rest : Str)
    (hsrc : source.drop p = ws ++ c :: rest) (hws : ∀ x ∈ ws, isBlank x = true)
    (hc : isspace c = false) :
    Scanner.Peek source p =
      (Scanner.PeekToken c (rest.head?.getD (Char.ofNat 0)), p + ws.length) := by
  cases ws with
  | nil =>
    obtain ⟨h1, h2⟩ := NChar_of_drop source p c rest (by simpa using hsrc)
    rw [Scanner.Peek, h1, h2, PeekCase_of_not_isspace _ _ hc]
    rfl
  | cons w ws =>
    obtain ⟨h1, _⟩ := NChar_of_drop source p w (ws ++ c :: rest) (by simpa using hsrc)
    have hp : Scanner.SkipSpace source p = p + (w :: ws).length := by
      rw [Scanner.SkipSpace, hsrc, takeWhile_blanks _ _ _ hws hc]
    have hd : source.drop (p + (w :: ws).length) = c :: rest := by
      rw [← List.drop_drop, hsrc]
      simp
    obtain ⟨h3, h4⟩ := NChar_of_drop source _ c rest hd
    rw [Scanner.Peek, h1, isBlank_PeekCase _ _ (hws w (List.mem_cons_self _ _))]
    simp only []
    rw [hp, h3, h4, PeekCase_of_not_isspace _ _ hc]

theorem PeekToken_single (next : Char) : ∀ x ∈ Scanner.single,
    Scanner.PeekToken x.1 next = ⟨x.2, 1⟩ := by
  have h : ∀ x ∈ Scanner.single,
      x.1.toNat ≠ 0 ∧ Scanner.single.lookup x.1 = some x.2 := by decide
  intro x hx
  obtain ⟨h1, h2⟩ := h x hx
  rw [Scanner.PeekToken, if_neg h1, h2]

theorem PeekToken_paired (next : Char) : ∀ x ∈ Scanner.paired,
    Scanner.PeekToken x.1 next = if next = x.2.1 then ⟨x.2.2.1, 2⟩ else x.2.2.2 := by
  have h : ∀ x ∈ Scanner.paired,
      x.1.toNat ≠ 0 ∧ Scanner.single.lookup x.1 = none ∧
        Scanner.paired.lookup x.1 = some x.2 := by decide
  intro x hx
  obtain ⟨h1, h2, h3⟩ := h x hx
  rw [Scanner.PeekToken, if_neg h1, h2]
  simp only []
  rw [h3]

theorem head_ne (rest : Str) (c : Char) (h : rest.head? ≠ some c) (hc : c ≠ Char.ofNat 0) :
    rest.head?.getD (Char.ofNat 0) ≠ c := by
  cases rest with
  | nil => simpa using hc.symm
  | cons d rest => simpa using h

/-- The lexeme at a position where the text is a run of blanks followed by the name of
an operator or of a punctuation mark. -/
theorem Peek_operator (source : Str) (p : Nat) (ws rest : Str) (t : TokenId)
    (ht : t ∈ operatorTokens) (hws : ∀ x ∈ ws, isBlank x = true)
    (hsrc : source.drop p = ws ++ GetTokenName t ++ rest) (hg : ¬ extends_ t rest) :
    Scanner.Peek source p = (⟨t, (GetTokenName t).length⟩, p + ws.length) := by
  have key : ∀ (c : Char) (rest1 : Str), GetTokenName t ++ rest = c :: rest1 →
      isspace c = false →
      Scanner.PeekToken c (rest1.head?.getD (Char.ofNat 0)) = ⟨t, (GetTokenName t).length⟩ →
      Scanner.Peek source p = (⟨t, (GetTokenName t).length⟩, p + ws.length) := by
    intro c rest1 e hc hp
    rw [List.append_assoc, e] at hsrc
    rw [Peek_blanks source p ws c rest1 hsrc hws hc, hp]
  simp only [operatorTokens, List.mem_cons, List.mem_singleton, List.not_mem_nil,
    or_false] at ht
  have hne : rest.head?.getD (Char.ofNat 0) = '=' → rest.head? = some '=' := by
    intro h
    cases rest with
    | nil => exact absurd h (by decide)
    | cons d rest => simpa using h
  rcases ht with rfl | rfl | rfl | rfl | rfl | rfl | rfl | rfl | rfl | rfl | rfl | rfl |
    rfl | rfl | rfl | rfl | rfl | rfl | rfl | rfl | rfl | rfl | rfl | rfl
  case inr.inr.inr.inr.inl =>
    refine key '<' rest rfl (by decide) ?_
    have := PeekToken_paired (rest.head?.getD (Char.ofNat 0)) ('<', '=', TK_LET, ⟨TK_LT, 1⟩)
      (by decide)
    rw [this, if_neg]
    · rfl
    · intro h
      exact hg ⟨by simp, hne h⟩
  case inr.inr.inr.inr.inr.inr.inl =>
    refine key '>' rest rfl (by decide) ?_
    have := PeekToken_paired (rest.head?.getD (Char.ofNat 0)) ('>', '=', TK_GET, ⟨TK_GT, 1⟩)
      (by decide)
    rw [this, if_neg]
    · rfl
    · intro h
      exact hg ⟨by simp, hne h⟩
  case inr.inr.inr.inr.inr.inr.inr.inr.inr.inr.inr.inr.inl =>
    refine key '!' rest rfl (by decide) ?_
    have := PeekToken_paired (rest.head?.getD (Char.ofNat 0)) ('!', '=', TK_NEQ, ⟨TK_NOT, 1⟩)
      (by decide)
    rw [this, if_neg]
    · rfl
    · intro h
      exact hg ⟨by simp, hne h⟩
  all_goals first
    | exact key _ rest rfl (by decide) (PeekToken_single _ (_, _) (by decide))
    | exact key _ (_ :: rest) rfl (by decide)
        (by simp only [List.head?_cons, Option.getD_some]; decide)

/-- C29. The text at the position being a run of the blanks `\r \n \t \v` and space (it may
be empty) followed by the name of one of the 24 tokens of operators and punctuation, `Peek`
returns that token with the length of its name and leaves the position on its first byte;
for `>`, `<` and `!` this is so when no `=` follows, for with the `=` the text is the name
of the longer operator, which is the one returned.  A `=`, `&`, `|` or `.` not followed by
its second byte gives the token `TK_UNKNOWN` of length 0.  The loop of `TestScanner`
prints `( ) , + - * / > < >= >= == != ! && ||` and stops at the end of the text, no `Move`
being made over a lexeme of length 0. -/
theorem scanner_token_table :
    (∀ (source : Str) (p : Nat) (ws rest : Str) (t : TokenId), t ∈ operatorTokens →
      (∀ x ∈ ws, isBlank x = true) →
      source.drop p = ws ++ GetTokenName t ++ rest → ¬ extends_ t rest →
      Scanner.Peek source p = (⟨t, (GetTokenName t).length⟩, p + ws.length)) ∧
    (∀ (source : Str) (p : Nat) (ws rest : Str) (c : Char),
      (c = '=' ∨ c = '&' ∨ c = '|' ∨ c = '.') →
      (∀ x ∈ ws, isBlank x = true) →
      source.drop p = ws ++ c :: rest → rest.head? ≠ some c →
      Scanner.Peek source p = (⟨TK_UNKNOWN, 0⟩, p + ws.length)) ∧
    TestScanner = some ["(".toList, ")".toList, ",".toList, "+".toList, "-".toList,
      "*".toList, "/".toList, ">".toList, "<".toList, ">=".toList, ">=".toList, "==".toList,
      "!=".toList, "!".toList, "&&".toList, "||".toList] := by
  refine ⟨Peek_operator, ?_, by decide!⟩
  · intro source p ws rest c hc hws hsrc hn
    have hsp : isspace c = false := by
      rcases hc with h | h | h | h <;> subst h <;> decide
    rw [Peek_blanks source p ws c rest hsrc hws hsp]
    congr 1
    rcases hc with h | h | h | h <;> subst h
    · have := PeekToken_paired (rest.head?.getD (Char.ofNat 0))
        ('=', '=', TK_EQ, Lexme.unknown) (by decide)
      rw [this, if_neg (head_ne rest _ hn (by decide))]
      rfl
    · have := PeekToken_paired (rest.head?.getD (Char.ofNat 0))
        ('&', '&', TK_AND, Lexme.unknown) (by decide)
      rw [this, if_neg (head_ne rest _ hn (by decide))]
      rfl
    · have := PeekToken_paired (rest.head?.getD (Char.ofNat 0))
        ('|', '|', TK_OR, Lexme.unknown) (by decide)
      rw [this, if_neg (head_ne rest _ hn (by decide))]
      rfl
    · have := PeekToken_paired (rest.head?.getD (Char.ofNat 0))
        ('.', '.', TK_TO, Lexme.unknown) (by decide)
      rw [this, if_neg (head_ne rest _ hn (by decide))]
      rfl

/-- C29, witness: `>=` after a space and a tab, `>` before a digit, and a lone `=`. -/
theorem scanner_token_table_witness :
    Scanner.Peek " \t>=1".toList 0 = (⟨TK_GET, 2⟩, 2) ∧
    Scanner.Peek "1 > 2".toList 1 = (⟨TK_GT, 1⟩, 2) ∧
    Scanner.Peek "= 1".toList 0 = (⟨TK_UNKNOWN, 0⟩, 0) :=
  ⟨scanner_token_table.1 " \t>=1".toList 0 " \t".toList "1".toList TK_GET (by decide)
      (by decide) (by decide) (by simp [extends_]),
    scanner_token_table.1 "1 > 2".toList 1 " ".toList " 2".toList TK_GT (by decide)
      (by decide) (by decide) (by simp [extends_]),
    scanner_token_table.2.1 "= 1".toList 0 [] " 1".toList '=' (by decide) (by decide)
      (by decide) (by decide)⟩

end tsub

namespace tsub
open Value TokenId

/-! ### Decimal texts -/

theorem digitChar_spec : ∀ k, k < 10 →
    isdigit (Nat.digitChar k) = true ∧ ((Nat.digitChar k).toNat : Int) - 48 = (k : Int) := by
  decide

theorem toDigitsCore_append : ∀ (fuel n : Nat) (ds : List Char),
    Nat.toDigitsCore 10 fuel n ds = Nat.toDigitsCore 10 fuel n [] ++ ds := by
  intro fuel
  induction fuel with
  | zero => intro n ds; simp [Nat.toDigitsCore]
  | succ fuel ih =>
    intro n ds
    simp only [Nat.toDigitsCore]
    split_ifs with h
    · simp
    · rw [ih (n / 10) (Nat.digitChar (n % 10) :: ds), ih (n / 10) [Nat.digitChar (n % 10)]]
      simp

theorem digitsVal_snoc (ds : Str) (c : Char) :
    digitsVal (ds ++ [c]) = digitsVal ds * 10 + ((c.toNat : Int) - 48) := by
  simp [digitsVal, List.foldl_append]

theorem toDigitsCore_spec : ∀ (fuel n : Nat), n < fuel →
    (∀ c ∈ Nat.toDigitsCore 10 fuel n [], isdigit c = true) ∧
    Nat.toDigitsCore 10 fuel n [] ≠ [] ∧
    digitsVal (Nat.toDigitsCore 10 fuel n []) = (n : Int) := by
  intro fuel
  induction fuel with
  | zero => intro n h; omega
  | succ fuel ih =>
    intro n h
    obtain ⟨d1, d2⟩ := digitChar_spec (n % 10) (Nat.mod_lt _ (by decide))
    simp only [Nat.toDigitsCore]
    split_ifs with h0
    · refine ⟨by simpa using d1, by simp, ?_⟩
      have : n % 10 = n := by omega
      simp only [digitsVal, List.foldl_cons, List.foldl_nil, zero_mul, zero_add, d2]
      rw [this]
    · rw [toDigitsCore_append]
      obtain ⟨i1, i2, i3⟩ := ih (n / 10) (by omega)
      refine ⟨?_, by simp [i2], ?_⟩
      · intro c hc
        simp only [List.mem_append, List.mem_singleton] at hc
        rcases hc with hc | hc
        · exact i1 c hc
        · rw [hc]; exact d1
      · rw [digitsVal_snoc, i3, d2]
        omega

theorem dec_spec (n : Nat) :
    (∀ c ∈ dec n, isdigit c = true) ∧ dec n ≠ [] ∧ digitsVal (dec n) = (n : Int) :=
  toDigitsCore_spec (n + 1) n (by omega)

theorem digitsVal_zeros : ∀ (z : Nat) (ds : Str),
    digitsVal (List.replicate z '0' ++ ds) = digitsVal ds := by
  intro z
  induction z with
  | zero => intro ds; rfl
  | succ z ih =>
    intro ds
    have := ih ds
    simp only [digitsVal, List.replicate_succ, List.cons_append, List.foldl_cons] at this ⊢
    exact this

theorem digitsVal_nonneg_aux : ∀ (ds : Str) (a : Int), 0 ≤ a → (∀ c ∈ ds, isdigit c = true) →
    0 ≤ ds.foldl (fun (a : Int) (c : Char) => a * 10 + ((c.toNat : Int) - 48)) a := by
  intro ds
  induction ds with
  | nil => intro a h _; simpa using h
  | cons d ds ih =>
    intro a h hd
    simp only [List.foldl_cons]
    apply ih
    · have := hd d (List.mem_cons_self _ _)
      simp only [isdigit, Bool.and_eq_true, decide_eq_true_eq] at this
      omega
    · intro c hc
      exact hd c (List.mem_cons_of_mem _ hc)

theorem digitsVal_nonneg (ds : Str) (h : ∀ c ∈ ds, isdigit c = true) : 0 ≤ digitsVal ds :=
  digitsVal_nonneg_aux ds 0 (le_refl _) h

theorem isdigit_not_isspace (c : Char) (h : isdigit c = true) : isspace c = false := by
  simp only [isdigit, Bool.and_eq_true, decide_eq_true_eq] at h
  simp only [isspace, Bool.or_eq_false_iff, beq_eq_false_iff_ne, ne_eq, Bool.and_eq_false_imp,
    decide_eq_true_eq, decide_eq_false_iff_not]
  omega

theorem takeWhile_prefix (f : Char → Bool) (ds rest : Str) (h : ∀ c ∈ ds, f c = true)
    (hr : ∀ c, rest.head? = some c → f c = false) : (ds ++ rest).takeWhile f = ds := by
  induction ds with
  | nil =>
    cases rest with
    | nil => rfl
    | cons r rest => simp [List.takeWhile_cons, hr r rfl]
  | cons d ds ih =>
    simp only [List.cons_append, List.takeWhile_cons, h d (List.mem_cons_self _ _), if_true]
    rw [ih (fun c hc => h c (List.mem_cons_of_mem _ hc))]

/-- What `strtol` does on a text of digits followed by a byte that is not a digit. -/
theorem strtol_digits (ds rest : Str) (hne : ds ≠ []) (hd : ∀ c ∈ ds, isdigit c = true)
    (hr : ∀ c, rest.head? = some c → isdigit c = false) :
    strtol (ds ++ rest) =
      (if digitsVal ds ≤ 9223372036854775807 then some (digitsVal ds) else none,
        ds.length) := by
  cases ds with
  | nil => exact absurd rfl hne
  | cons d ds =>
    have hdd := hd d (List.mem_cons_self _ _)
    have hsp := isdigit_not_isspace d hdd
    have h1 : ((d :: (ds ++ rest)).takeWhile isspace) = [] := by
      simp [List.takeWhile_cons, hsp]
    have hm : d ≠ '-' := by
      intro e; subst e; exact absurd hdd (by decide)
    have hp : d ≠ '+' := by
      intro e; subst e; exact absurd hdd (by decide)
    have h2 := takeWhile_prefix isdigit (d :: ds) rest hd hr
    have h3 := digitsVal_nonneg (d :: ds) hd
    simp only [List.cons_append] at h2
    show strtol (d :: (ds ++ rest)) = _
    unfold strtol
    simp only [h1, List.length_nil, List.drop_zero, List.head?_cons,
      Option.some.injEq, hm, hp, or_self, if_false, h2]
    simp only [List.cons_ne_nil, if_false, zero_add]
    unfold digitsVal at h3 ⊢
    split_ifs with a b b
    all_goals first
      | rfl
      | (exfalso; omega)

theorem wrap32_fits_nat (n : Nat) (h : n < 2147483648) : wrap32 (n : Int) = (n : Int) := by
  unfold wrap32
  omega

end tsub

namespace tsub
open Value TokenId

/-! ### States set to an offset -/

theorem atPos_token (source : Str) (start : Nat) (err : Str) (q : Nat) :
    (Interp.atPos source start err q).token = (Scanner.Peek source q).1.token := rfl

theorem atPos_kill (source : Str) (start : Nat) (err : Str) (q d : Nat) :
    (Interp.atPos source start err q).kill d = Interp.atPos source start err q := rfl

theorem atPos_dollar (source : Str) (start : Nat) (err : Str) (q : Nat) :
    (Interp.atPos source start err q).dollar_value_ = Dollar.null := rfl

theorem atPos_Move (source : Str) (start : Nat) (err : Str) (q : Nat) (t : TokenId) (n : Nat)
    (h : Scanner.Peek source q = (⟨t, n⟩, q)) :
    (Interp.atPos source start err q).Move source = Interp.atPos source start err (q + n) := by
  simp only [Interp.atPos, Interp.Move, Scanner.Move, Scanner.Next, h]

theorem atPos_init (source : Str) (pos : Nat) (err : Str) :
    Interp.init source pos err = Interp.atPos source pos err pos := rfl

theorem drop_append_length (source : Str) (q : Nat) (a rest : Str)
    (h : source.drop q = a ++ rest) : source.drop (q + a.length) = rest := by
  rw [← List.drop_drop, h]
  simp

theorem head_of_NChar (source : Str) (q : Nat) (rest : Str) (h : source.drop q = rest)
    (hd : isdigit (Scanner.NChar source q) = false) :
    ∀ c, rest.head? = some c → isdigit c = false := by
  intro c hc
  rw [NChar_eq_head, h, hc] at hd
  exact hd

theorem isdigit_mem (c : Char) (h : isdigit c = true) : c ∈ "0123456789".toList := by
  simp only [isdigit, Bool.and_eq_true, decide_eq_true_eq] at h
  have e : Char.ofNat c.toNat = c := Char.ofNat_toNat c
  obtain ⟨h1, h2⟩ := h
  generalize c.toNat = k at e h1 h2
  subst e
  interval_cases k <;> decide

theorem PeekToken_digit (c next : Char) (h : isdigit c = true) :
    Scanner.PeekToken c next = ⟨TK_NUMBER, 0⟩ := by
  have key : ∀ c ∈ "0123456789".toList, c.toNat ≠ 0 ∧ Scanner.single.lookup c = none ∧
      Scanner.paired.lookup c = none ∧ c ≠ '\"' ∧ isdigit c = true := by decide
  obtain ⟨h1, h2, h3, h4, h5⟩ := key c (isdigit_mem c h)
  rw [Scanner.PeekToken, if_neg h1, h2]
  simp only []
  rw [h3]
  simp only []
  rw [if_neg h4, if_pos h5]

theorem Peek_digit (source : Str) (q : Nat) (c : Char) (rest : Str)
    (h : source.drop q = c :: rest) (hc : isdigit c = true) :
    Scanner.Peek source q = (⟨TK_NUMBER, 0⟩, q) := by
  rw [Peek_blanks source q [] c rest (by simpa using h) (by simp) (isdigit_not_isspace c hc),
    PeekToken_digit c _ hc]
  rfl

theorem Peek_end (source : Str) (q : Nat) (h : source.drop q = []) :
    Scanner.Peek source q = (⟨TK_EOF, 0⟩, q) := by
  have h1 : Scanner.NChar source q = Char.ofNat 0 := by
    rw [NChar_eq_head, h]; rfl
  rw [Scanner.Peek, h1, PeekCase_of_not_isspace _ _ isspace_zero]
  rfl

theorem NChar_end_not_digit (source : Str) (q : Nat) (h : source.drop q = []) :
    isdigit (Scanner.NChar source q) = false := by
  rw [NChar_eq_head, h]; rfl

theorem Peek_name (source : Str) (q : Nat) (t : TokenId) (rest : Str)
    (ht : t ∈ operatorTokens) (h : source.drop q = GetTokenName t ++ rest)
    (hg : ¬ extends_ t rest) :
    Scanner.Peek source q = (⟨t, (GetTokenName t).length⟩, q) :=
  Peek_operator source q [] rest t ht (by simp) (by simpa using h) hg

theorem name_not_digit : ∀ t ∈ operatorTokens, ∀ rest : Str,
    ∀ c, (GetTokenName t ++ rest).head? = some c → isdigit c = false := by
  have key : ∀ t ∈ operatorTokens,
      GetTokenName t ≠ [] ∧ ∀ c, (GetTokenName t).head? = some c → isdigit c = false := by
    decide
  intro t ht rest c hc
  obtain ⟨h1, h2⟩ := key t ht
  obtain ⟨c1, r, e⟩ := List.exists_cons_of_ne_nil h1
  rw [e] at hc h2
  simp only [List.cons_append, List.head?_cons, Option.some.injEq] at hc
  exact h2 c (by simp [hc])

theorem Starts_not_extends (t : TokenId) (text rest : Str) (h : Starts text) :
    ¬ extends_ t (text ++ rest) := by
  obtain ⟨c, r, e, hc⟩ := h
  intro hx
  have := hx.2
  rw [e] at this
  simp only [List.cons_append, List.head?_cons, Option.some.injEq] at this
  exact hc this

/-! ### Literals -/

theorem ParseNumber_digits (source : Str) (q : Nat) (ds rest : Str) (start : Nat) (err : Str)
    (h : source.drop q = ds ++ rest) (hne : ds ≠ []) (hd : ∀ c ∈ ds, isdigit c = true)
    (hr : isdigit (Scanner.NChar source (q + ds.length)) = false) :
    Interp.ParseNumber source (Interp.atPos source start err q) =
      if digitsVal ds ≤ 9223372036854775807 then
        Result.ret (some (VALUE_NUMBER (wrap32 (digitsVal ds))))
          (Interp.atPos source start err (q + ds.length))
      else Result.ret none (Interp.atPos source start err q) := by
  obtain ⟨c, r, e⟩ := List.exists_cons_of_ne_nil hne
  have hp := Peek_digit source q c (r ++ rest) (by rw [h, e]; rfl)
    (hd c (by rw [e]; exact List.mem_cons_self _ _))
  have hs := strtol_digits ds rest hne hd
    (head_of_NChar source _ rest (drop_append_length source q ds rest h) hr)
  have hpos : (Interp.atPos source start err q).scanner_.position_ = q := by
    simp only [Interp.atPos, hp]
  rw [Interp.ParseNumber, hpos, h, hs]
  split_ifs with hv
  · simp only [Interp.atPos, Scanner.MoveBy, Scanner.Next, hp]
  · rfl

/-- The evaluator of a factor on a text of digits. -/
theorem Factor_digits (source : Str) (context : Option Context) (exp : Eval) (f : Nat)
    (ds : Str) (hne : ds ≠ []) (hd : ∀ c ∈ ds, isdigit c = true) :
    Parses source (Interp.InterpFactor source context exp f) 6
      (ds, if digitsVal ds ≤ 9223372036854775807 then Out.val (wrap32 (digitsVal ds))
        else Out.fail) := by
  intro q rest env start err h hend
  obtain ⟨c, r, e⟩ := List.exists_cons_of_ne_nil hne
  have hp := Peek_digit source q c (r ++ rest) (by rw [h, e]; rfl)
    (hd c (by rw [e]; exact List.mem_cons_self _ _))
  have ht : (Interp.atPos source start err q).token = TK_NUMBER := by
    rw [atPos_token, hp]
  have hF : Interp.InterpFactor source context exp f env (Interp.atPos source start err q) =
      Interp.ParseNumber source (Interp.atPos source start err q) := by
    rw [Interp.InterpFactor, if_neg (by rw [ht]; decide), Interp.InterpAtomic, ht]
  rw [hF, ParseNumber_digits source q ds rest start err h hne hd hend.1]
  by_cases hv : digitsVal ds ≤ 9223372036854775807
  · rw [if_pos hv, if_pos hv]
    rfl
  · rw [if_neg hv, if_neg hv]
    exact ⟨_, rfl⟩

theorem Starts_digits (ds : Str) (hne : ds ≠ []) (hd : ∀ c ∈ ds, isdigit c = true) :
    Starts ds := by
  obtain ⟨c, r, e⟩ := List.exists_cons_of_ne_nil hne
  refine ⟨c, r, e, ?_⟩
  intro h
  have := hd c (by rw [e]; exact List.mem_cons_self _ _)
  rw [h] at this
  exact absurd this (by decide)

theorem Factor_dec (source : Str) (context : Option Context) (exp : Eval) (f : Nat) (n : Nat) :
    Parses source (Interp.InterpFactor source context exp f) 6 (dec n, litVal n) ∧
      Starts (dec n) := by
  obtain ⟨h1, h2, h3⟩ := dec_spec n
  have := Factor_digits source context exp f (dec n) h2 h1
  rw [h3] at this
  exact ⟨this, Starts_digits _ h2 h1⟩

end tsub

namespace tsub
open Value TokenId

/-! ### The loops of the binary operators -/

theorem lvl_eq_5 (t : TokenId) : lvl t = 5 ↔ (t = TK_MUL ∨ t = TK_DIV) := by
  cases t <;> simp [lvl]

theorem lvl_eq_4 (t : TokenId) : lvl t = 4 ↔ (t = TK_ADD ∨ t = TK_SUB) := by
  cases t <;> simp [lvl]

theorem lvl_eq_3 (t : TokenId) : lvl t = 3 ↔ Interp.isRelational t = true := by
  cases t <;> simp [lvl, Interp.isRelational]

theorem lvl_eq_2 (t : TokenId) : lvl t = 2 ↔ (t = TK_AND ∨ t = TK_OR) := by
  cases t <;> simp [lvl]

theorem lvl_lt_1 (t : TokenId) (h : lvl t < 1) : t ≠ TK_QUESTION ∧ t ≠ TK_LBRA := by
  cases t <;> simp [lvl] at h ⊢

theorem LoopSpec_Term (source : Str) (S : Eval) :
    LoopSpec source 5 (Interp.InterpTerm.loop source S) S := by
  refine ⟨?_, ?_, ?_, ?_⟩
  · intro n env a I h
    rw [Interp.InterpTerm.loop, if_neg (fun x => h ((lvl_eq_5 _).2 x))]
  · intro n env a I b I1 h hS
    have ht := (lvl_eq_5 _).1 h
    have hunf : Interp.InterpTerm.loop source S (n + 1) env (VALUE_NUMBER a) I =
        if I.token = TK_MUL then
          Interp.InterpTerm.loop source S n env (VALUE_NUMBER (wrap32 (a * b)))
            (I1.kill (env.length + 1))
        else if b = 0 then
          Result.ret none (Interp.ReportError source (I1.kill env.length) "Divide zero!".toList)
        else if a = -2147483648 ∧ b = -1 then Result.crash Crash.trap
        else
          Interp.InterpTerm.loop source S n env (VALUE_NUMBER (wrap32 (Int.tdiv a b)))
            (I1.kill (env.length + 1)) := by
      rw [Interp.InterpTerm.loop, if_pos ht, hS]
    rw [hunf]
    rcases ht with ht | ht
    · rw [ht]
      simp only [binop, if_true]
      refine ⟨?_, ?_, ?_⟩
      · intro r hr
        simp only [Out.val.injEq] at hr
        rw [hr]
      · intro hr; cases hr
      · intro hr; cases hr
    · rw [ht]
      have hbin : binop TK_DIV a b =
          if b = 0 then Out.fail
          else if a = -2147483648 ∧ b = -1 then Out.trap
          else Out.val (wrap32 (Int.tdiv a b)) := rfl
      rw [hbin, if_neg (by decide : ¬ TK_DIV = TK_MUL)]
      by_cases hb : b = 0
      · rw [if_pos hb, if_pos hb]
        refine ⟨?_, ?_, ?_⟩
        · intro r hr; cases hr
        · intro _; exact ⟨_, rfl⟩
        · intro hr; cases hr
      · rw [if_neg hb, if_neg hb]
        by_cases hm : a = -2147483648 ∧ b = -1
        · rw [if_pos hm, if_pos hm]
          refine ⟨?_, ?_, ?_⟩
          · intro r hr; cases hr
          · intro hr; cases hr
          · intro _; rfl
        · rw [if_neg hm, if_neg hm]
          refine ⟨?_, ?_, ?_⟩
          · intro r hr
            simp only [Out.val.injEq] at hr
            rw [hr]
          · intro hr; cases hr
          · intro hr; cases hr
  · intro n env a I I1 h hS
    rw [Interp.InterpTerm.loop, if_pos ((lvl_eq_5 _).1 h), hS]
    exact ⟨_, rfl⟩
  · intro n env a I c h hS
    rw [Interp.InterpTerm.loop, if_pos ((lvl_eq_5 _).1 h), hS]

theorem LoopSpec_Comp (source : Str) (S : Eval) :
    LoopSpec source 4 (Interp.InterpComp.loop source S) S := by
  refine ⟨?_, ?_, ?_, ?_⟩
  · intro n env a I h
    rw [Interp.InterpComp.loop, if_neg (fun x => h ((lvl_eq_4 _).2 x))]
  · intro n env a I b I1 h hS
    have ht := (lvl_eq_4 _).1 h
    have hunf : Interp.InterpComp.loop source S (n + 1) env (VALUE_NUMBER a) I =
        if I.token = TK_ADD then
          Interp.InterpComp.loop source S n env (VALUE_NUMBER (wrap32 (a + b)))
            (I1.kill (env.length + 1))
        else
          Interp.InterpComp.loop source S n env (VALUE_NUMBER (wrap32 (a - b)))
            (I1.kill (env.length + 1)) := by
      rw [Interp.InterpComp.loop, if_pos ht, hS]
    rw [hunf]
    rcases ht with ht | ht
    · rw [ht]
      simp only [binop, if_true]
      refine ⟨?_, ?_, ?_⟩
      · intro r hr
        simp only [Out.val.injEq] at hr
        rw [hr]
      · intro hr; cases hr
      · intro hr; cases hr
    · rw [ht]
      simp only [binop]
      try rw [if_neg (by decide)]
      try simp only [reduceCtorEq, if_false]
      refine ⟨?_, ?_, ?_⟩
      · intro r hr
        simp only [Out.val.injEq] at hr
        rw [hr]
      · intro hr; cases hr
      · intro hr; cases hr
  · intro n env a I I1 h hS
    rw [Interp.InterpComp.loop, if_pos ((lvl_eq_4 _).1 h), hS]
    exact ⟨_, rfl⟩
  · intro n env a I c h hS
    rw [Interp.InterpComp.loop, if_pos ((lvl_eq_4 _).1 h), hS]

theorem binop_relational (t : TokenId) (a b : Int) (h : Interp.isRelational t = true) :
    ∃ r, Interp.compareNumber t a b = some r ∧ binop t a b = Out.val r := by
  cases t <;> simp [Interp.isRelational] at h <;> simp [binop, Interp.compareNumber]

theorem LoopSpec_Logic (source : Str) (S : Eval) :
    LoopSpec source 3 (Interp.InterpLogic.loop source S) S := by
  refine ⟨?_, ?_, ?_, ?_⟩
  · intro n env a I h
    rw [Interp.InterpLogic.loop, if_neg (fun x => h ((lvl_eq_3 _).2 x))]
  · intro n env a I b I1 h hS
    have ht := (lvl_eq_3 _).1 h
    obtain ⟨r0, e1, e2⟩ := binop_relational I.token a b ht
    have hunf : Interp.InterpLogic.loop source S (n + 1) env (VALUE_NUMBER a) I =
        Interp.InterpLogic.loop source S n env (VALUE_NUMBER r0) (I1.kill (env.length + 1)) := by
      rw [Interp.InterpLogic.loop, if_pos ht, hS]
      simp only []
      rw [e1]
    rw [hunf, e2]
    refine ⟨?_, ?_, ?_⟩
    · intro r hr
      simp only [Out.val.injEq] at hr
      rw [hr]
    · intro hr; cases hr
    · intro hr; cases hr
  · intro n env a I I1 h hS
    rw [Interp.InterpLogic.loop, if_pos ((lvl_eq_3 _).1 h), hS]
    exact ⟨_, rfl⟩
  · intro n env a I c h hS
    rw [Interp.InterpLogic.loop, if_pos ((lvl_eq_3 _).1 h), hS]

theorem LoopSpec_Tenery (source : Str) (S : Eval) :
    LoopSpec source 2 (Interp.InterpTenery.loop source S) S := by
  refine ⟨?_, ?_, ?_, ?_⟩
  · intro n env a I h
    rw [Interp.InterpTenery.loop, if_neg (fun x => h ((lvl_eq_2 _).2 x))]
  · intro n env a I b I1 h hS
    have ht := (lvl_eq_2 _).1 h
    have hn : ¬ (VALUE_NUMBER a = VALUE_NULL ∨ VALUE_NUMBER b = VALUE_NULL) := by
      intro x
      rcases x with x | x <;> cases x
    have hunf : Interp.InterpTenery.loop source S (n + 1) env (VALUE_NUMBER a) I =
        if I.token = TK_AND then
          Interp.InterpTenery.loop source S n env
            (VALUE_NUMBER (Interp.logicAnd (VALUE_NUMBER a) (VALUE_NUMBER b)))
            (I1.kill (env.length + 1))
        else
          Interp.InterpTenery.loop source S n env
            (VALUE_NUMBER (Interp.logicOr (VALUE_NUMBER a) (VALUE_NUMBER b)))
            (I1.kill (env.length + 1)) := by
      rw [Interp.InterpTenery.loop, if_pos ht, hS]
      simp only []
      rw [if_neg hn]
    rw [hunf]
    rcases ht with ht | ht
    · rw [ht]
      simp only [binop, if_true]
      refine ⟨?_, ?_, ?_⟩
      · intro r hr
        simp only [Out.val.injEq] at hr
        rw [hr]
      · intro hr; cases hr
      · intro hr; cases hr
    · rw [ht]
      simp only [binop]
      try rw [if_neg (by decide)]
      try simp only [reduceCtorEq, if_false]
      refine ⟨?_, ?_, ?_⟩
      · intro r hr
        simp only [Out.val.injEq] at hr
        rw [hr]
      · intro hr; cases hr
      · intro hr; cases hr
  · intro n env a I I1 h hS
    rw [Interp.InterpTenery.loop, if_pos ((lvl_eq_2 _).1 h), hS]
    exact ⟨_, rfl⟩
  · intro n env a I c h hS
    rw [Interp.InterpTenery.loop, if_pos ((lvl_eq_2 _).1 h), hS]

end tsub

namespace tsub
open Value TokenId

/-! ### One rank of operators -/

section Rank

variable {source : Str} {F S : Eval} {loop : Nat → List Value → Value → Interp → Result}
  {k f : Nat}

theorem run_base (hFs : ∀ env I out I1, S env I = Result.ret (some out) I1 →
      F env I = loop f env out I1)
    (hFn : ∀ env I I1, S env I = Result.ret none I1 → F env I = Result.ret none I1)
    (hFc : ∀ env I c, S env I = Result.crash c → F env I = Result.crash c)
    (it : Item) (h : Parses source S (k + 1) it) : InRun source F loop k f it 0 := by
  intro q rest env start err hsrc hd hl
  have := h q rest env start err hsrc ⟨hd, by omega⟩
  cases hv : it.2 with
  | fail =>
    rw [hv] at this
    obtain ⟨J, hJ⟩ := this
    exact ⟨J, hFn _ _ _ hJ⟩
  | trap =>
    rw [hv] at this
    exact hFc _ _ _ this
  | val v =>
    rw [hv] at this
    exact hFs _ _ _ _ this

theorem run_stop (hL : LoopSpec source k loop S) (it : Item) (j : Nat)
    (h : InRun source F loop k f it j) (hj : j < f) : Parses source F k it := by
  intro q rest env start err hsrc hend
  have := h q rest env start err hsrc hend.1 (by have := hend.2; omega)
  cases hv : it.2 with
  | fail =>
    rw [hv] at this
    exact this
  | trap =>
    rw [hv] at this
    exact this
  | val v =>
    rw [hv] at this
    simp only [Yields]
    rw [this]
    obtain ⟨n, hn⟩ : ∃ n, f - j = n + 1 := ⟨f - j - 1, by omega⟩
    rw [hn, hL.1 n env v _ (by rw [atPos_token]; have := hend.2; omega), atPos_kill]

theorem run_step (hL : LoopSpec source k loop S) (cur x : Item) (op : TokenId) (j : Nat)
    (h : InRun source F loop k f cur j) (hj : j < f) (hop : op ∈ operatorTokens)
    (hl : lvl op = k) (hx : Parses source S (k + 1) x) (hs : Starts x.1) :
    InRun source F loop k f (joinItem op cur x) (j + 1) := by
  intro q rest env start err hsrc hd hlv
  have hlen : (joinItem op cur x).1.length =
      cur.1.length + (GetTokenName op).length + x.1.length := by
    simp [joinItem]; omega
  have hsrc1 : source.drop q = cur.1 ++ (GetTokenName op ++ (x.1 ++ rest)) := by
    rw [hsrc]; simp [joinItem]
  have hsrc2 := drop_append_length source q _ _ hsrc1
  have hsrc3 := drop_append_length source _ _ _ hsrc2
  have hpk := Peek_name source (q + cur.1.length) op (x.1 ++ rest) hop hsrc2
    (Starts_not_extends op x.1 rest hs)
  have hnd : isdigit (Scanner.NChar source (q + cur.1.length)) = false := by
    rw [NChar_eq_head, hsrc2]
    cases hh : (GetTokenName op ++ (x.1 ++ rest)).head? with
    | none => rfl
    | some c => exact name_not_digit op hop _ c hh
  have h1 := h q _ env start err hsrc1 hnd (by rw [hpk]; exact le_of_eq hl)
  cases hc : cur.2 with
  | fail =>
    rw [hc] at h1
    have e : (joinItem op cur x).2 = Out.fail := by simp [joinItem, Out.join, hc]
    rw [e]
    exact h1
  | trap =>
    rw [hc] at h1
    have e : (joinItem op cur x).2 = Out.trap := by simp [joinItem, Out.join, hc]
    rw [e]
    exact h1
  | val a =>
    rw [hc] at h1
    simp only [] at h1
    obtain ⟨n, hn⟩ : ∃ n, f - j = n + 1 := ⟨f - j - 1, by omega⟩
    have hn2 : f - (j + 1) = n := by omega
    have htok : (Interp.atPos source start err (q + cur.1.length)).token = op := by
      rw [atPos_token, hpk]
    have hmv := atPos_Move source start err (q + cur.1.length) op _ hpk
    have hpos : q + (joinItem op cur x).1.length =
        q + cur.1.length + (GetTokenName op).length + x.1.length := by
      rw [hlen]; omega
    rw [hpos] at hd hlv ⊢
    have h2 := hx (q + cur.1.length + (GetTokenName op).length) rest (env ++ [VALUE_NUMBER a])
      start err hsrc3 ⟨hd, by omega⟩
    cases hxv : x.2 with
    | fail =>
      rw [hxv] at h2
      obtain ⟨J, hJ⟩ := h2
      have e : (joinItem op cur x).2 = Out.fail := by simp [joinItem, Out.join, hc, hxv]
      rw [e]
      simp only []
      rw [h1, hn]
      exact hL.2.2.1 n env a _ J (by rw [htok]; exact hl) (by rw [hmv]; exact hJ)
    | trap =>
      rw [hxv] at h2
      simp only [Yields] at h2
      have e : (joinItem op cur x).2 = Out.trap := by simp [joinItem, Out.join, hc, hxv]
      rw [e]
      simp only []
      rw [h1, hn]
      exact hL.2.2.2 n env a _ _ (by rw [htok]; exact hl) (by rw [hmv]; exact h2)
    | val b =>
      rw [hxv] at h2
      simp only [Yields] at h2
      have e : (joinItem op cur x).2 = binop op a b := by simp [joinItem, Out.join, hc, hxv]
      obtain ⟨s1, s2, s3⟩ :=
        hL.2.1 n env a _ b _ (by rw [htok]; exact hl) (by rw [hmv]; exact h2)
      rw [htok] at s1 s2 s3
      rw [e]
      cases hb : binop op a b with
      | fail =>
        simp only []
        rw [h1, hn]
        exact s2 hb
      | trap =>
        simp only []
        rw [h1, hn]
        exact s3 hb
      | val r =>
        simp only []
        rw [h1, hn, s1 r hb, atPos_kill, hn2]

theorem Starts_join (op : TokenId) (cur x : Item) (h : Starts cur.1) :
    Starts (joinItem op cur x).1 := by
  obtain ⟨c, r, e, hc⟩ := h
  exact ⟨c, r ++ GetTokenName op ++ x.1, by simp [joinItem, e], hc⟩

/-- One pass over a chain: the evaluator of rank `k + 1` evaluates every operand of the
chain that the pass leaves. -/
theorem level_pass (hL : LoopSpec source (k + 1) loop S)
    (hFs : ∀ env I out I1, S env I = Result.ret (some out) I1 → F env I = loop f env out I1)
    (hFn : ∀ env I I1, S env I = Result.ret none I1 → F env I = Result.ret none I1)
    (hFc : ∀ env I c, S env I = Result.crash c → F env I = Result.crash c) :
    ∀ (rest : List (TokenId × Item)) (cur : Item) (j : Nat),
      InRun source F loop (k + 1) f cur j → Starts cur.1 → j + rest.length < f →
      (∀ x ∈ rest, OkSep source S (k + 1) x) →
      Parses source F (k + 1) (passG joinItem (k + 1) cur rest).1 ∧
      Starts (passG joinItem (k + 1) cur rest).1.1 ∧
      (passG joinItem (k + 1) cur rest).2.length ≤ rest.length ∧
      ∀ y ∈ (passG joinItem (k + 1) cur rest).2, OkSep source F k y := by
  intro rest
  induction rest with
  | nil =>
    intro cur j h hs hj _
    exact ⟨run_stop hL cur j h (by simpa using hj), hs, le_refl _, by simp [passG]⟩
  | cons x rest ih =>
    intro cur j h hs hj hall
    obtain ⟨o1, o2, o3, o4, o5⟩ := hall x (List.mem_cons_self _ _)
    have hrest : ∀ y ∈ rest, OkSep source S (k + 1) y :=
      fun y hy => hall y (List.mem_cons_of_mem _ hy)
    simp only [List.length_cons] at hj
    obtain ⟨op, it⟩ := x
    by_cases hl : lvl op = k + 1
    · have e : passG joinItem (k + 1) cur ((op, it) :: rest) =
          passG joinItem (k + 1) (joinItem op cur it) rest := by
        simp [passG, hl]
      rw [e]
      obtain ⟨r1, r2, r3, r4⟩ := ih (joinItem op cur it) (j + 1)
        (run_step hL cur it op j h (by omega) o1 hl o4 o5) (Starts_join op cur it hs)
        (by omega) hrest
      exact ⟨r1, r2, by simp only [List.length_cons]; omega, r4⟩
    · have e : passG joinItem (k + 1) cur ((op, it) :: rest) =
          (cur, (op, (passG joinItem (k + 1) it rest).1) ::
            (passG joinItem (k + 1) it rest).2) := by
        simp [passG, hl]
      rw [e]
      obtain ⟨r1, r2, r3, r4⟩ := ih it 0 (run_base hFs hFn hFc it o4) o5 (by omega) hrest
      refine ⟨run_stop hL cur j h (by omega), hs, by simp only [List.length_cons]; omega, ?_⟩
      intro y hy
      simp only [List.mem_cons] at hy
      rcases hy with hy | hy
      · rw [hy]
        have o3' : lvl op ≤ k + 1 := o3
        have o6 : lvl op ≤ k := by omega
        exact ⟨o1, o2, o6, r1, r2⟩
      · exact r4 y hy

/-- One pass over a chain whose operands the evaluator of the rank above evaluates. -/
theorem level_chain (hL : LoopSpec source (k + 1) loop S)
    (hFs : ∀ env I out I1, S env I = Result.ret (some out) I1 → F env I = loop f env out I1)
    (hFn : ∀ env I I1, S env I = Result.ret none I1 → F env I = Result.ret none I1)
    (hFc : ∀ env I c, S env I = Result.crash c → F env I = Result.crash c)
    (cur : Item) (rest : List (TokenId × Item))
    (hc : Parses source S (k + 2) cur) (hs : Starts cur.1) (hlen : rest.length < f)
    (hall : ∀ x ∈ rest, OkSep source S (k + 1) x) :
    Parses source F (k + 1) (passG joinItem (k + 1) cur rest).1 ∧
    Starts (passG joinItem (k + 1) cur rest).1.1 ∧
    (passG joinItem (k + 1) cur rest).2.length < f ∧
    ∀ y ∈ (passG joinItem (k + 1) cur rest).2, OkSep source F k y := by
  obtain ⟨r1, r2, r3, r4⟩ := level_pass hL hFs hFn hFc rest cur 0 (run_base hFs hFn hFc cur hc) hs
    (by omega) hall
  exact ⟨r1, r2, by omega, r4⟩

end Rank

end tsub

namespace tsub
open Value TokenId

/-! ### The ranks one above the other -/

theorem Parses_PostExp (source : Str) (context : Option Context) (exp : Eval) (f : Nat)
    (it : Item) (h : Parses source (Interp.InterpTenery source context exp f) 2 it) :
    Parses source (Interp.InterpPostExp source context exp f) 1 it := by
  intro q rest env start err hsrc hend
  have := h q rest env start err hsrc ⟨hend.1, by have := hend.2; omega⟩
  cases hv : it.2 with
  | fail =>
    rw [hv] at this
    obtain ⟨J, hJ⟩ := this
    exact ⟨J, by rw [Interp.InterpPostExp, hJ]⟩
  | trap =>
    rw [hv] at this
    simp only [Yields] at this ⊢
    rw [Interp.InterpPostExp, this]
  | val v =>
    rw [hv] at this
    simp only [Yields] at this ⊢
    rw [Interp.InterpPostExp, this]
    simp only []
    rw [if_neg]
    rw [atPos_token]
    exact (lvl_lt_1 _ hend.2).1

theorem Parses_Exp (source : Str) (context : Option Context) (f : Nat) (it : Item)
    (h : Parses source
      (Interp.InterpPostExp source context (Interp.InterpExp source context f) f) 1 it) :
    Parses source (Interp.InterpExp source context (f + 1)) 1 it := by
  intro q rest env start err hsrc hend
  have := h q rest env start err hsrc hend
  cases hv : it.2 with
  | fail =>
    rw [hv] at this
    obtain ⟨J, hJ⟩ := this
    exact ⟨J, by rw [Interp.InterpExp, hJ]⟩
  | trap =>
    rw [hv] at this
    simp only [Yields] at this ⊢
    rw [Interp.InterpExp, this]
  | val v =>
    rw [hv] at this
    simp only [Yields] at this ⊢
    rw [Interp.InterpExp, this]
    simp only []
    rw [if_neg]
    rw [atPos_token]
    exact (lvl_lt_1 _ hend.2).2

/-- The four ranks of binary operators, then the level of `?`: the chain is evaluated to
the one item that the four passes make of it. -/
theorem all_levels (source : Str) (context : Option Context) (exp : Eval) (f : Nat)
    (cur : Item) (rest : List (TokenId × Item))
    (hc : Parses source (Interp.InterpFactor source context exp f) 6 cur) (hs : Starts cur.1)
    (hlen : rest.length < f)
    (hall : ∀ x ∈ rest, OkSep source (Interp.InterpFactor source context exp f) 5 x) :
    Parses source (Interp.InterpPostExp source context exp f) 1 (passAll joinItem cur rest).1 ∧
    Starts (passAll joinItem cur rest).1.1 ∧
    (passAll joinItem cur rest).2 = [] := by
  obtain ⟨a1, a2, a3, a4⟩ := @level_chain source (Interp.InterpTerm source context exp f)
    (Interp.InterpFactor source context exp f)
    (Interp.InterpTerm.loop source (Interp.InterpFactor source context exp f)) 4 f
    (LoopSpec_Term source _)
    (by intro env I out I1 h; rw [Interp.InterpTerm, h])
    (by intro env I I1 h; rw [Interp.InterpTerm, h])
    (by intro env I c h; rw [Interp.InterpTerm, h]) cur rest hc hs hlen hall
  obtain ⟨b1, b2, b3, b4⟩ := @level_chain source (Interp.InterpComp source context exp f)
    (Interp.InterpTerm source context exp f)
    (Interp.InterpComp.loop source (Interp.InterpTerm source context exp f)) 3 f
    (LoopSpec_Comp source _)
    (by intro env I out I1 h; rw [Interp.InterpComp, h])
    (by intro env I I1 h; rw [Interp.InterpComp, h])
    (by intro env I c h; rw [Interp.InterpComp, h]) _ _ a1 a2 a3 a4
  obtain ⟨c1, c2, c3, c4⟩ := @level_chain source (Interp.InterpLogic source context exp f)
    (Interp.InterpComp source context exp f)
    (Interp.InterpLogic.loop source (Interp.InterpComp source context exp f)) 2 f
    (LoopSpec_Logic source _)
    (by intro env I out I1 h; rw [Interp.InterpLogic, h])
    (by intro env I I1 h; rw [Interp.InterpLogic, h])
    (by intro env I c h; rw [Interp.InterpLogic, h]) _ _ b1 b2 b3 b4
  obtain ⟨d1, d2, d3, d4⟩ := @level_chain source (Interp.InterpTenery source context exp f)
    (Interp.InterpLogic source context exp f)
    (Interp.InterpTenery.loop source (Interp.InterpLogic source context exp f)) 1 f
    (LoopSpec_Tenery source _)
    (by intro env I out I1 h; rw [Interp.InterpTenery, h])
    (by intro env I I1 h; rw [Interp.InterpTenery, h])
    (by intro env I c h; rw [Interp.InterpTenery, h]) _ _ c1 c2 c3 c4
  refine ⟨Parses_PostExp source context exp f _ d1, d2, ?_⟩
  unfold passAll
  cases hl : (passG joinItem 2
      (passG joinItem 3 (passG joinItem 4 (passG joinItem 5 cur rest).1
        (passG joinItem 5 cur rest).2).1 (passG joinItem 4 (passG joinItem 5 cur rest).1
        (passG joinItem 5 cur rest).2).2).1
      (passG joinItem 3 (passG joinItem 4 (passG joinItem 5 cur rest).1
        (passG joinItem 5 cur rest).2).1 (passG joinItem 4 (passG joinItem 5 cur rest).1
        (passG joinItem 5 cur rest).2).2).2).2 with
  | nil => rfl
  | cons y ys =>
    have := d4 y (by rw [hl]; exact List.mem_cons_self _ _)
    obtain ⟨_, y2, y3, _⟩ := this
    omega

end tsub

namespace tsub
open Value TokenId

/-! ### Grouped expressions -/

theorem passG_map {α β : Type} (join : TokenId → α → α → α) (join2 : TokenId → β → β → β)
    (g : α → β) (hg : ∀ op a b, g (join op a b) = join2 op (g a) (g b)) (k : Nat) :
    ∀ (rest : List (TokenId × α)) (cur : α),
      passG join2 k (g cur) (rest.map (fun x => (x.1, g x.2))) =
        (g (passG join k cur rest).1, (passG join k cur rest).2.map (fun x => (x.1, g x.2))) := by
  intro rest
  induction rest with
  | nil => intro cur; rfl
  | cons x rest ih =>
    intro cur
    obtain ⟨op, y⟩ := x
    by_cases hl : lvl op = k
    · simp only [List.map_cons, passG, hl, if_true]
      rw [← hg, ih]
    · simp only [List.map_cons, passG, hl, if_false]
      rw [ih]

theorem passAll_map {α β : Type} (join : TokenId → α → α → α) (join2 : TokenId → β → β → β)
    (g : α → β) (hg : ∀ op a b, g (join op a b) = join2 op (g a) (g b))
    (rest : List (TokenId × α)) (cur : α) :
    passAll join2 (g cur) (rest.map (fun x => (x.1, g x.2))) =
      (g (passAll join cur rest).1, (passAll join cur rest).2.map (fun x => (x.1, g x.2))) := by
  unfold passAll
  simp only [passG_map join join2 g hg]

theorem itemF_join (op : TokenId) (a b : Tree) :
    itemF (Tree.bin op a b) = joinItem op (itemF a) (itemF b) := by
  cases h1 : a.eval <;> cases h2 : b.eval <;>
    simp [itemF, joinItem, Tree.flatText, Tree.eval, h1, h2]

theorem itemsText_pass (k : Nat) : ∀ (rest : List (TokenId × Item)) (cur : Item),
    itemsText (passG joinItem k cur rest).1 (passG joinItem k cur rest).2 =
      itemsText cur rest := by
  intro rest
  induction rest with
  | nil => intro cur; rfl
  | cons x rest ih =>
    intro cur
    obtain ⟨op, y⟩ := x
    by_cases hl : lvl op = k
    · simp only [passG, hl, if_true]
      rw [ih]
      simp [itemsText, joinItem]
    · simp only [passG, hl, if_false]
      have := ih y
      simp only [itemsText, List.map_cons, List.flatten_cons, List.append_assoc] at this ⊢
      rw [this]

theorem itemsText_passAll (rest : List (TokenId × Item)) (cur : Item) :
    itemsText (passAll joinItem cur rest).1 (passAll joinItem cur rest).2 =
      itemsText cur rest := by
  unfold passAll
  rw [itemsText_pass, itemsText_pass, itemsText_pass, itemsText_pass]

/-- The operators and the number of operators of a chain of grouped expressions. -/
theorem pass_ops (k : Nat) : ∀ (rest : List (TokenId × Tree)) (cur : Tree) (n : Nat),
    (∀ op ∈ cur.ops, 2 ≤ lvl op) → (∀ x ∈ rest, 2 ≤ lvl x.1 ∧ ∀ op ∈ x.2.ops, 2 ≤ lvl op) →
    cur.size + (rest.map (fun x => x.2.size + 1)).sum = n →
    (∀ op ∈ (passG Tree.bin k cur rest).1.ops, 2 ≤ lvl op) ∧
    (∀ x ∈ (passG Tree.bin k cur rest).2, 2 ≤ lvl x.1 ∧ ∀ op ∈ x.2.ops, 2 ≤ lvl op) ∧
    (passG Tree.bin k cur rest).1.size +
      ((passG Tree.bin k cur rest).2.map (fun x => x.2.size + 1)).sum = n := by
  intro rest
  induction rest with
  | nil => intro cur n h1 h2 h3; exact ⟨h1, h2, h3⟩
  | cons x rest ih =>
    intro cur n h1 h2 h3
    obtain ⟨op, y⟩ := x
    obtain ⟨x1, x2⟩ := h2 (op, y) (List.mem_cons_self _ _)
    have hrest : ∀ x ∈ rest, 2 ≤ lvl x.1 ∧ ∀ op ∈ x.2.ops, 2 ≤ lvl op :=
      fun z hz => h2 z (List.mem_cons_of_mem _ hz)
    simp only [List.map_cons, List.sum_cons] at h3
    by_cases hl : lvl op = k
    · simp only [passG, hl, if_true]
      apply ih
      · intro o ho
        simp only [Tree.ops, List.mem_cons, List.mem_append] at ho
        rcases ho with ho | ho | ho
        · rw [ho]; exact x1
        · exact h1 o ho
        · exact x2 o ho
      · exact hrest
      · simp only [Tree.size]
        omega
    · simp only [passG, hl, if_false]
      obtain ⟨r1, r2, r3⟩ := ih y ((rest.map (fun x => x.2.size + 1)).sum + y.size) x2 hrest
        (by omega)
      refine ⟨h1, ?_, ?_⟩
      · intro z hz
        simp only [List.mem_cons] at hz
        rcases hz with hz | hz
        · rw [hz]; exact ⟨x1, r1⟩
        · exact r2 z hz
      · simp only [List.map_cons, List.sum_cons]
        omega

theorem passAll_ops (rest : List (TokenId × Tree)) (cur : Tree) (n : Nat)
    (h1 : ∀ op ∈ cur.ops, 2 ≤ lvl op)
    (h2 : ∀ x ∈ rest, 2 ≤ lvl x.1 ∧ ∀ op ∈ x.2.ops, 2 ≤ lvl op)
    (h3 : cur.size + (rest.map (fun x => x.2.size + 1)).sum = n) :
    (∀ op ∈ (passAll Tree.bin cur rest).1.ops, 2 ≤ lvl op) ∧
    (passAll Tree.bin cur rest).1.size +
      ((passAll Tree.bin cur rest).2.map (fun x => x.2.size + 1)).sum = n := by
  unfold passAll
  obtain ⟨a1, a2, a3⟩ := pass_ops 5 rest cur n h1 h2 h3
  obtain ⟨b1, b2, b3⟩ := pass_ops 4 _ _ n a1 a2 a3
  obtain ⟨c1, c2, c3⟩ := pass_ops 3 _ _ n b1 b2 b3
  obtain ⟨d1, d2, d3⟩ := pass_ops 2 _ _ n c1 c2 c3
  exact ⟨d1, d3⟩

theorem lvl_binary_mem (op : TokenId) (h : 2 ≤ lvl op) : op ∈ operatorTokens ∧ lvl op ≤ 5 := by
  cases op <;> simp [lvl] at h <;> simp [lvl, operatorTokens]

theorem passAll_single {α : Type} (join : TokenId → α → α → α) (op : TokenId) (a b : α)
    (h : 2 ≤ lvl op) : passAll join a [(op, b)] = (join op a b, []) := by
  have h5 := (lvl_binary_mem op h).2
  have : lvl op = 2 ∨ lvl op = 3 ∨ lvl op = 4 ∨ lvl op = 5 := by omega
  rcases this with e | e | e | e <;> simp [passAll, passG, e]

theorem passAll_nil {α : Type} (join : TokenId → α → α → α) (a : α) :
    passAll join a [] = (a, []) := rfl

end tsub

namespace tsub
open Value TokenId

/-! ### Parenthesised texts -/

theorem itemP_join_text (op : TokenId) (l r : Tree) :
    (joinItem op (itemP l) (itemP r)).1 = l.parenText ++ GetTokenName op ++ r.parenText := rfl

theorem itemP_join_val (op : TokenId) (l r : Tree) :
    (joinItem op (itemP l) (itemP r)).2 = (Tree.bin op l r).eval := by
  cases h1 : l.eval <;> cases h2 : r.eval <;> simp [itemP, joinItem, Tree.eval, h1, h2]

/-- The evaluator of a factor on the parenthesised text of a grouped expression. -/
theorem Factor_paren (source : Str) (context : Option Context) : ∀ (t : Tree) (f : Nat),
    (∀ op ∈ t.ops, 2 ≤ lvl op) → t.size + 2 ≤ f →
    Parses source
      (Interp.InterpFactor source context (Interp.InterpExp source context f) f) 6 (itemP t) ∧
    Starts (itemP t).1 := by
  intro t
  induction t with
  | lit n =>
    intro f _ _
    exact Factor_dec source context _ f n
  | bin op l r ihl ihr =>
    intro f hops hf
    simp only [Tree.size] at hf
    obtain ⟨g, rfl⟩ : ∃ g, f = g + 1 := ⟨f - 1, by omega⟩
    have hop : 2 ≤ lvl op := hops op (by simp [Tree.ops])
    obtain ⟨l1, l2⟩ := ihl g (fun o ho => hops o (by simp [Tree.ops, ho])) (by omega)
    obtain ⟨r1, r2⟩ := ihr g (fun o ho => hops o (by simp [Tree.ops, ho])) (by omega)
    obtain ⟨m1, m2⟩ := lvl_binary_mem op hop
    have hall := all_levels source context (Interp.InterpExp source context g) g (itemP l)
      [(op, itemP r)] l1 l2 (by simp; omega)
      (by
        intro x hx
        simp only [List.mem_singleton] at hx
        rw [hx]
        exact ⟨m1, hop, m2, r1, r2⟩)
    rw [passAll_single joinItem op _ _ hop] at hall
    have hexp := Parses_Exp source context g _ hall.1
    refine ⟨?_, ⟨'(', _, rfl, by decide⟩⟩
    intro q rest env start err hsrc hend
    have htxt : (itemP (Tree.bin op l r)).1 =
        '(' :: ((joinItem op (itemP l) (itemP r)).1 ++ [')']) := by
      simp [itemP, Tree.parenText, joinItem]
    have hlen : (itemP (Tree.bin op l r)).1.length =
        1 + (joinItem op (itemP l) (itemP r)).1.length + 1 := by
      rw [htxt]; simp; omega
    rw [htxt] at hsrc
    have hsrc0 : source.drop q = GetTokenName TK_LPAR ++
        ((joinItem op (itemP l) (itemP r)).1 ++ (')' :: rest)) := by
      rw [hsrc]
      show _ = '(' :: _
      simp
    have hpk := Peek_name source q TK_LPAR _ (by decide) hsrc0 (by simp [extends_])
    have hsrc1 := drop_append_length source q _ _ hsrc0
    have hsrc2 := drop_append_length source _ _ _ hsrc1
    have hsrc3 : source.drop (q + (GetTokenName TK_LPAR).length +
        (joinItem op (itemP l) (itemP r)).1.length) = GetTokenName TK_RPAR ++ rest := hsrc2
    have hpk2 := Peek_name source _ TK_RPAR rest (by decide) hsrc3 (by simp [extends_])
    have hnd : isdigit (Scanner.NChar source (q + (GetTokenName TK_LPAR).length +
        (joinItem op (itemP l) (itemP r)).1.length)) = false := by
      rw [NChar_eq_head, hsrc2]; rfl
    have hy := hexp (q + (GetTokenName TK_LPAR).length) (')' :: rest) env start err hsrc1
      ⟨hnd, by rw [hpk2]; show lvl TK_RPAR < 1; decide⟩
    have htok : (Interp.atPos source start err q).token = TK_LPAR := by
      rw [atPos_token, hpk]
    have hmv := atPos_Move source start err q TK_LPAR _ hpk
    have hF : Interp.InterpFactor source context (Interp.InterpExp source context (g + 1))
        (g + 1) env (Interp.atPos source start err q) =
        match Interp.InterpExp source context (g + 1) env
          (Interp.atPos source start err (q + (GetTokenName TK_LPAR).length)) with
        | Result.crash c => Result.crash c
        | Result.ret none I1 => Result.ret none I1
        | Result.ret (some v) I1 =>
          if I1.token ≠ TK_RPAR then
            Result.ret none (Interp.ReportError source I1 "Expect ')'".toList)
          else Result.ret (some v) (I1.Move source) := by
      rw [Interp.InterpFactor, if_neg (by rw [htok]; decide), Interp.InterpAtomic, htok]
      simp only []
      rw [hmv]
      try rfl
    rw [hF]
    have hval : (itemP (Tree.bin op l r)).2 = (joinItem op (itemP l) (itemP r)).2 :=
      (itemP_join_val op l r).symm
    rw [hval]
    cases hv : (joinItem op (itemP l) (itemP r)).2 with
    | fail =>
      rw [hv] at hy
      obtain ⟨J, hJ⟩ := hy
      rw [hJ]
      exact ⟨J, rfl⟩
    | trap =>
      rw [hv] at hy
      simp only [Yields] at hy ⊢
      rw [hy]
    | val v =>
      rw [hv] at hy
      simp only [Yields] at hy ⊢
      rw [hy]
      simp only []
      have htok2 : (Interp.atPos source start err (q + (GetTokenName TK_LPAR).length +
          (joinItem op (itemP l) (itemP r)).1.length)).token = TK_RPAR := by
        rw [atPos_token, hpk2]
      rw [if_neg (by rw [htok2]; simp), atPos_Move source start err _ TK_RPAR _ hpk2]
      have e : q + (GetTokenName TK_LPAR).length +
          (joinItem op (itemP l) (itemP r)).1.length + (GetTokenName TK_RPAR).length =
          q + (itemP (Tree.bin op l r)).1.length := by
        rw [hlen]
        show q + 1 + _ + 1 = _
        omega
      rw [e]

/-- A text evaluated alone: the whole source is the text of the item. -/
theorem DoInterp_of_Parses (context : Option Context) (f : Nat) (it : Item)
    (h : Parses it.1 (Interp.InterpExp it.1 context (f + 1)) 1 it) (err : Str) :
    Yields (Interp.DoInterp it.1 context (f + 1) 0 err) it.2
      (Interp.atPos it.1 0 err it.1.length) := by
  have hend : it.1.drop (0 + it.1.length) = [] := by simp
  have := h 0 [] [] 0 err (by simp)
    ⟨NChar_end_not_digit _ _ hend, by rw [Peek_end _ _ hend]; show lvl TK_EOF < 1; decide⟩
  simp only [zero_add] at this
  exact this

theorem atPos_end_position (source : Str) (start : Nat) (err : Str) :
    (Interp.atPos source start err source.length).scanner_.position_ = source.length := by
  simp only [Interp.atPos]
  rw [Peek_end source source.length (by simp)]

end tsub

namespace tsub
open Value TokenId

/-! ### Precedence and associativity -/

theorem chain_items (c : List (TokenId × Nat)) :
    (c.map (fun x => (x.1, Tree.lit x.2))).map (fun x => (x.1, itemF x.2)) =
      c.map (fun x => (x.1, ((dec x.2, litVal x.2) : Item))) := by
  rw [List.map_map]
  rfl

theorem group_item (n0 : Nat) (c : List (TokenId × Nat)) :
    passAll joinItem (dec n0, litVal n0)
        (c.map (fun x => (x.1, ((dec x.2, litVal x.2) : Item)))) =
      (itemF (group n0 c),
        (passAll Tree.bin (Tree.lit n0) (c.map (fun x => (x.1, Tree.lit x.2)))).2.map
          (fun x => (x.1, itemF x.2))) := by
  rw [← chain_items c]
  exact passAll_map Tree.bin joinItem itemF itemF_join _ (Tree.lit n0)

theorem chain_all_levels (source : Str) (context : Option Context) (exp : Eval) (f : Nat)
    (n0 : Nat) (c : List (TokenId × Nat)) (hops : ∀ x ∈ c, 2 ≤ lvl x.1) (hf : c.length < f) :
    Parses source (Interp.InterpPostExp source context exp f) 1 (itemF (group n0 c)) ∧
    (passAll Tree.bin (Tree.lit n0) (c.map (fun x => (x.1, Tree.lit x.2)))).2 = [] ∧
    (group n0 c).flatText = chainText n0 c := by
  have h := all_levels source context exp f (dec n0, litVal n0)
    (c.map (fun x => (x.1, ((dec x.2, litVal x.2) : Item))))
    (Factor_dec source context exp f n0).1 (Factor_dec source context exp f n0).2
    (by simpa using hf)
    (by
      intro x hx
      simp only [List.mem_map] at hx
      obtain ⟨y, hy, rfl⟩ := hx
      obtain ⟨m1, m2⟩ := lvl_binary_mem y.1 (hops y hy)
      exact ⟨m1, hops y hy, m2, (Factor_dec source context exp f y.2).1,
        (Factor_dec source context exp f y.2).2⟩)
  have ht := itemsText_passAll (c.map (fun x => (x.1, ((dec x.2, litVal x.2) : Item))))
    (dec n0, litVal n0)
  rw [group_item] at h ht
  obtain ⟨h1, _, h3⟩ := h
  simp only [List.map_eq_nil_iff] at h3
  refine ⟨h1, h3, ?_⟩
  simp only [h3, List.map_nil] at ht
  simp only [itemsText, List.map_nil, List.flatten_nil, List.append_nil, List.map_map] at ht
  rw [chainText]
  exact ht

theorem group_ops (n0 : Nat) (c : List (TokenId × Nat)) (hops : ∀ x ∈ c, 2 ≤ lvl x.1)
    (h2 : (passAll Tree.bin (Tree.lit n0) (c.map (fun x => (x.1, Tree.lit x.2)))).2 = []) :
    (∀ op ∈ (group n0 c).ops, 2 ≤ lvl op) ∧ (group n0 c).size = c.length := by
  obtain ⟨a1, a2⟩ := passAll_ops (c.map (fun x => (x.1, Tree.lit x.2))) (Tree.lit n0) c.length
    (by simp [Tree.ops])
    (by
      intro x hx
      simp only [List.mem_map] at hx
      obtain ⟨y, hy, rfl⟩ := hx
      exact ⟨hops y hy, by simp [Tree.ops]⟩)
    (by
      simp only [Tree.size, List.map_map, zero_add]
      have : ∀ l : List (TokenId × Nat),
          (l.map ((fun (x : TokenId × Tree) => x.2.size + 1) ∘
            (fun (x : TokenId × Nat) => (x.1, Tree.lit x.2)))).sum = l.length := by
        intro l
        induction l with
        | nil => rfl
        | cons a l ih => simp only [List.map_cons, List.sum_cons, ih, List.length_cons,
            Function.comp, Tree.size]; omega
      exact this c)
  rw [h2] at a2
  exact ⟨a1, by simpa [group] using a2⟩

/-- C23. A chain `n0 op1 n1 op2 n2 ...` of binary operators over integer literals, evaluated
alone, has the outcome of its full parenthesisation (`group`: the operators `* /` first,
then `+ -`, then the relational ones, then `&& ||`, each rank from left to right): both
return, with the same value or a failure in both cases, and on a success both texts are
read to their end; or both stop in the trap of the division of `-2147483648` by `-1`.  The
parenthesisation is one of the chain: without its parentheses it is the text of the chain.
The budget of recursion needed is the number of operators plus 3. -/
theorem precedence_law (context : Option Context) (n0 : Nat) (c : List (TokenId × Nat))
    (hops : ∀ x ∈ c, 2 ≤ lvl x.1) (fuel : Nat) (hfuel : c.length + 3 ≤ fuel) (err : Str) :
    ((∃ (v : Option Value) (I J : Interp),
        Interp.DoInterp (chainText n0 c) context fuel 0 err = Result.ret v I ∧
        Interp.DoInterp (group n0 c).parenText context fuel 0 err = Result.ret v J ∧
        (v ≠ none → I.scanner_.position_ = (chainText n0 c).length ∧
          J.scanner_.position_ = (group n0 c).parenText.length)) ∨
      (Interp.DoInterp (chainText n0 c) context fuel 0 err = Result.crash Crash.trap ∧
        Interp.DoInterp (group n0 c).parenText context fuel 0 err =
          Result.crash Crash.trap)) ∧
    (group n0 c).flatText = chainText n0 c := by
  obtain ⟨f, rfl⟩ : ∃ f, fuel = f + 1 := ⟨fuel - 1, by omega⟩
  obtain ⟨a1, a2, a3⟩ := chain_all_levels (chainText n0 c) context
    (Interp.InterpExp (chainText n0 c) context f) f n0 c hops (by omega)
  obtain ⟨g1, g2⟩ := group_ops n0 c hops a2
  have hA := DoInterp_of_Parses context f (itemF (group n0 c))
    (by
      have e : (itemF (group n0 c)).1 = chainText n0 c := a3
      rw [e]
      exact Parses_Exp _ context f _ a1) err
  obtain ⟨p1, p2⟩ := Factor_paren (group n0 c).parenText context (group n0 c) f g1 (by omega)
  have hp := all_levels (group n0 c).parenText context
    (Interp.InterpExp (group n0 c).parenText context f) f (itemP (group n0 c)) [] p1 p2
    (by simp; omega) (by simp)
  rw [passAll_nil] at hp
  have hB := DoInterp_of_Parses context f (itemP (group n0 c))
    (Parses_Exp _ context f _ hp.1) err
  have e1 : (itemF (group n0 c)).1 = chainText n0 c := a3
  have e2 : (itemP (group n0 c)).1 = (group n0 c).parenText := rfl
  have e3 : (itemF (group n0 c)).2 = (group n0 c).eval := rfl
  have e4 : (itemP (group n0 c)).2 = (group n0 c).eval := rfl
  rw [e1, e3] at hA
  rw [e2, e4] at hB
  refine ⟨?_, a3⟩
  cases hv : (group n0 c).eval with
  | fail =>
    rw [hv] at hA hB
    obtain ⟨I, hI⟩ := hA
    obtain ⟨J, hJ⟩ := hB
    exact Or.inl ⟨none, I, J, hI, hJ, fun h => absurd rfl h⟩
  | trap =>
    rw [hv] at hA hB
    exact Or.inr ⟨hA, hB⟩
  | val v =>
    rw [hv] at hA hB
    simp only [Yields] at hA hB
    exact Or.inl ⟨_, _, _, hA, hB,
      fun _ => ⟨atPos_end_position _ _ _, atPos_end_position _ _ _⟩⟩

/-- C23, witness: the chain `1+2*3`, whose parenthesisation is `(1+(2*3))`, the values of
`1+2*3`, `10-3-2`, `8/2/2`, `1+2<2*3` and `1 || 0 && 0`, and the chain
`2147483648/4294967295`, the division of `-2147483648` by `-1`, which traps with and
without its parentheses. -/
theorem precedence_law_witness :
    (((∃ (v : Option Value) (I J : Interp),
        Interp.DoInterp (chainText 1 [(TK_ADD, 2), (TK_MUL, 3)]) none 5 0 [] = Result.ret v I ∧
        Interp.DoInterp (group 1 [(TK_ADD, 2), (TK_MUL, 3)]).parenText none 5 0 [] =
          Result.ret v J ∧
        (v ≠ none → I.scanner_.position_ = (chainText 1 [(TK_ADD, 2), (TK_MUL, 3)]).length ∧
          J.scanner_.position_ = (group 1 [(TK_ADD, 2), (TK_MUL, 3)]).parenText.length)) ∨
      (Interp.DoInterp (chainText 1 [(TK_ADD, 2), (TK_MUL, 3)]) none 5 0 [] =
          Result.crash Crash.trap ∧
        Interp.DoInterp (group 1 [(TK_ADD, 2), (TK_MUL, 3)]).parenText none 5 0 [] =
          Result.crash Crash.trap)) ∧
      (group 1 [(TK_ADD, 2), (TK_MUL, 3)]).flatText = chainText 1 [(TK_ADD, 2), (TK_MUL, 3)]) ∧
    chainText 1 [(TK_ADD, 2), (TK_MUL, 3)] = "1+2*3".toList ∧
    (group 1 [(TK_ADD, 2), (TK_MUL, 3)]).parenText = "(1+(2*3))".toList ∧
    (group 10 [(TK_SUB, 3), (TK_SUB, 2)]).parenText = "((10-3)-2)".toList ∧
    (group 8 [(TK_DIV, 2), (TK_DIV, 2)]).parenText = "((8/2)/2)".toList ∧
    (group 1 [(TK_ADD, 2), (TK_LT, 2), (TK_MUL, 3)]).parenText = "((1+2)<(2*3))".toList ∧
    (group 1 [(TK_OR, 0), (TK_AND, 0)]).parenText = "((1||0)&&0)".toList ∧
    Run 50 none "\x601+2*3\x60".toList [] = RunResult.ok ["7".toList] [] ∧
    Run 50 none "\x6010-3-2\x60".toList [] = RunResult.ok ["5".toList] [] ∧
    Run 50 none "\x608/2/2\x60".toList [] = RunResult.ok ["2".toList] [] ∧
    Run 50 none "\x601+2<2*3\x60".toList [] = RunResult.ok ["1".toList] [] ∧
    Run 50 none "\x601 || 0 && 0\x60".toList [] = RunResult.ok ["0".toList] [] ∧
    Run 50 none "\x60((1||0)&&0)\x60".toList [] = RunResult.ok ["0".toList] [] ∧
    chainText 2147483648 [(TK_DIV, 4294967295)] = "2147483648/4294967295".toList ∧
    (group 2147483648 [(TK_DIV, 4294967295)]).parenText =
      "(2147483648/4294967295)".toList ∧
    Interp.DoInterp "2147483648/4294967295".toList none 5 0 [] = Result.crash Crash.trap ∧
    Interp.DoInterp "(2147483648/4294967295)".toList none 5 0 [] =
      Result.crash Crash.trap ∧
    Interp.DoInterp "1+2*3".toList none 5 0 [] =
      Result.ret (some (VALUE_NUMBER 7)) ⟨⟨⟨TK_EOF, 0⟩, 5, 0⟩, Dollar.null, []⟩ ∧
    Interp.DoInterp "(1+(2*3))".toList none 5 0 [] =
      Result.ret (some (VALUE_NUMBER 7)) ⟨⟨⟨TK_EOF, 0⟩, 9, 0⟩, Dollar.null, []⟩ :=
  ⟨precedence_law none 1 [(TK_ADD, 2), (TK_MUL, 3)] (by decide) 5 (by decide) [],
    by decide!, by decide!, by decide!, by decide!, by decide!, by decide!, by decide!,
    by decide!, by decide!, by decide!, by decide!, by decide!, by decide!, by decide!,
    by decide!, by decide!, by decide!, by decide!⟩

end tsub

namespace tsub
open Value TokenId

/-! ### Integer literals -/

theorem Run_single (context : Option Context) (fuel : Nat) (E error : Str) (v : Value)
    (outs : List Str) (hev : EvalsTo context fuel E v) (hout : value_to_strings v = some outs) :
    ∃ e, Run fuel context ('\x60' :: (E ++ ['\x60'])) error = RunResult.ok outs e := by
  obtain ⟨I1, h1, hend⟩ := EvalsTo_elim hev
  unfold Run TextProcessor.Run
  obtain ⟨T1, hl, hval, hpos, hgen⟩ := loop_region ('\x60' :: (E ++ ['\x60'])) context fuel
    ('\x60' :: (E ++ ['\x60'])).length
    { result_set_ := [], str_pool_ := [], error_desp_ := error, position_ := 0 } [] E [] v I1 []
    outs rfl h1 hend (value_flat_of hout) (init_Valid error)
  rw [hl]
  have e : ('\x60' :: (E ++ ['\x60'])).length = (E.length + 1) + 1 := by simp
  rw [e, loop_end _ _ _ _ _ _ (by rw [hpos]; simp)]
  simp only [ne_eq, not_true_eq_false, if_false]
  refine ⟨T1.error_desp_, ?_⟩
  rw [hgen]
  simp [concatOut, expandOut, TextProcessor.GenerateResult]

theorem EvalsTo_of_Parses (context : Option Context) (f : Nat) (text : Str) (v : Int)
    (h : Parses text (Interp.InterpFactor text context (Interp.InterpExp text context f) f) 6
      (text, Out.val v)) (hs : Starts text) (hf : 0 < f) :
    EvalsTo context (f + 1) text (VALUE_NUMBER v) := by
  have hp := all_levels text context (Interp.InterpExp text context f) f (text, Out.val v) [] h hs
    (by simpa using hf) (by simp)
  rw [passAll_nil] at hp
  have hB := DoInterp_of_Parses context f (text, Out.val v) (Parses_Exp _ context f _ hp.1) []
  simp only [Yields] at hB
  unfold EvalsTo
  rw [hB]
  exact ⟨rfl, atPos_end_position _ _ _⟩

theorem digitChar_ne_zero : ∀ k, k < 10 → k ≠ 0 → Nat.digitChar k ≠ '0' := by decide

theorem toDigitsCore_head : ∀ (fuel n : Nat), n < fuel → n ≠ 0 →
    (Nat.toDigitsCore 10 fuel n []).head? ≠ some '0' := by
  intro fuel
  induction fuel with
  | zero => intro n h; omega
  | succ fuel ih =>
    intro n h h0
    simp only [Nat.toDigitsCore]
    split_ifs with hz
    · have : n % 10 = n := by omega
      rw [this]
      simp only [List.head?_cons, ne_eq, Option.some.injEq]
      exact digitChar_ne_zero n (by omega) h0
    · rw [toDigitsCore_append]
      obtain ⟨_, i2, _⟩ := toDigitsCore_spec fuel (n / 10) (by omega)
      obtain ⟨c, r, e⟩ := List.exists_cons_of_ne_nil i2
      have := ih (n / 10) (by omega) hz
      rw [e] at this ⊢
      simpa using this

theorem sprintf_d_nat (n : Nat) : sprintf_d (n : Int) = dec n := by
  unfold sprintf_d dec
  rw [if_neg (by omega)]
  simp

theorem sprintf_d_neg (n : Nat) (h : 0 < n) : sprintf_d (-(n : Int)) = '-' :: dec n := by
  unfold sprintf_d dec
  rw [if_pos (by omega)]
  simp

theorem wrap32_neg_nat (n : Nat) (h : n < 2147483648) :
    wrap32 (-(wrap32 (n : Int))) = -(n : Int) := by
  unfold wrap32
  omega

/-- The evaluator of a factor on a literal with the sign `-`. -/
theorem Factor_neg (source : Str) (context : Option Context) (exp : Eval) (f : Nat) (n : Nat)
    (hn : n < 2147483648) :
    Parses source (Interp.InterpFactor source context exp f) 6
      ('-' :: dec n, Out.val (-(n : Int))) := by
  intro q rest env start err hsrc hend
  obtain ⟨d1, d2, d3⟩ := dec_spec n
  have hsrc0 : source.drop q = GetTokenName TK_SUB ++ (dec n ++ rest) := by
    rw [hsrc]; rfl
  have hpk := Peek_name source q TK_SUB _ (by decide) hsrc0 (by simp [extends_])
  have hsrc1 := drop_append_length source q _ _ hsrc0
  have htok : (Interp.atPos source start err q).token = TK_SUB := by
    rw [atPos_token, hpk]
  have hmv := atPos_Move source start err q TK_SUB _ hpk
  obtain ⟨c, r, e⟩ := List.exists_cons_of_ne_nil d2
  have hp := Peek_digit source (q + (GetTokenName TK_SUB).length) c (r ++ rest)
    (by rw [hsrc1, e]; rfl) (d1 c (by rw [e]; exact List.mem_cons_self _ _))
  have ht2 : (Interp.atPos source start err (q + (GetTokenName TK_SUB).length)).token =
      TK_NUMBER := by
    rw [atPos_token, hp]
  have hlen : q + ('-' :: dec n).length = q + (GetTokenName TK_SUB).length + (dec n).length := by
    show q + ((dec n).length + 1) = q + 1 + (dec n).length
    omega
  have hpn := ParseNumber_digits source (q + (GetTokenName TK_SUB).length) (dec n) rest start err
    hsrc1 d2 d1 (by rw [← hlen]; exact hend.1)
  rw [d3, if_pos (by omega)] at hpn
  have hA : Interp.InterpAtomic source context exp f env
      (Interp.atPos source start err (q + (GetTokenName TK_SUB).length)) =
      Result.ret (some (VALUE_NUMBER (wrap32 (n : Int))))
        (Interp.atPos source start err (q + (GetTokenName TK_SUB).length + (dec n).length)) := by
    rw [Interp.InterpAtomic, ht2]
    exact hpn
  simp only [Yields]
  rw [Interp.InterpFactor, if_pos (by rw [htok]; simp), Interp.InterpUnary, htok]
  simp only []
  rw [hmv, hA]
  simp only []
  rw [wrap32_neg_nat n hn, hlen]

/-- C25. An integer literal and its rendering: for `0 ≤ n < 2^31` the template made of the
decimal text of `n` between two backticks, with any number of zeros before it, gives the
one output `dec n`; with a `-` before the literal of `n > 0` it gives `-` followed by
`dec n`, the sign being applied by the unary operator.  The text `dec n` is made of digits,
has the value `n` and does not begin with `0` unless `n = 0`. -/
theorem integer_round_trip (n : Nat) (hn : n < 2147483648) (fuel : Nat) (hf : 2 ≤ fuel)
    (error : Str) :
    (∃ e, Run fuel none ('\x60' :: (dec n ++ ['\x60'])) error = RunResult.ok [dec n] e) ∧
    (∀ z, ∃ e, Run fuel none ('\x60' :: ((List.replicate z '0' ++ dec n) ++ ['\x60'])) error =
      RunResult.ok [dec n] e) ∧
    (0 < n → ∃ e, Run fuel none ('\x60' :: (('-' :: dec n) ++ ['\x60'])) error =
      RunResult.ok ['-' :: dec n] e) ∧
    (dec n ≠ [] ∧ (∀ c ∈ dec n, isdigit c = true) ∧ digitsVal (dec n) = (n : Int) ∧
      (n ≠ 0 → (dec n).head? ≠ some '0')) := by
  obtain ⟨f, rfl⟩ : ∃ f, fuel = f + 1 := ⟨fuel - 1, by omega⟩
  obtain ⟨d1, d2, d3⟩ := dec_spec n
  have hz : ∀ z, ∃ e, Run (f + 1) none
      ('\x60' :: ((List.replicate z '0' ++ dec n) ++ ['\x60'])) error =
      RunResult.ok [dec n] e := by
    intro z
    have hne : List.replicate z '0' ++ dec n ≠ [] := by simp [d2]
    have hd : ∀ c ∈ List.replicate z '0' ++ dec n, isdigit c = true := by
      intro c hc
      simp only [List.mem_append, List.mem_replicate] at hc
      rcases hc with hc | hc
      · rw [hc.2]; decide
      · exact d1 c hc
    have hF := Factor_digits (List.replicate z '0' ++ dec n) none
      (Interp.InterpExp (List.replicate z '0' ++ dec n) none f) f _ hne hd
    rw [digitsVal_zeros, d3, if_pos (by omega), wrap32_fits_nat n hn] at hF
    have hE := EvalsTo_of_Parses none f _ _ hF (Starts_digits _ hne hd) (by omega)
    exact Run_single none (f + 1) _ error _ [dec n] hE
      (by rw [value_to_strings_eq_flat, Value.flat, sprintf_d_nat])
  refine ⟨?_, hz, ?_, d2, d1, d3, toDigitsCore_head (n + 1) n (by omega)⟩
  · simpa using hz 0
  · intro h0
    have hF := Factor_neg ('-' :: dec n) none (Interp.InterpExp ('-' :: dec n) none f) f n hn
    have hE := EvalsTo_of_Parses none f _ _ hF ⟨'-', dec n, rfl, by decide⟩ (by omega)
    exact Run_single none (f + 1) _ error _ ['-' :: dec n] hE
      (by rw [value_to_strings_eq_flat, Value.flat, sprintf_d_neg n h0])

/-- C25, witness: `2147483647`, `007` and `-42`. -/
theorem integer_round_trip_witness :
    ((∃ e, Run 50 none ('\x60' :: (dec 2147483647 ++ ['\x60'])) [] =
        RunResult.ok [dec 2147483647] e) ∧
      (∀ z, ∃ e, Run 50 none
        ('\x60' :: ((List.replicate z '0' ++ dec 2147483647) ++ ['\x60'])) [] =
        RunResult.ok [dec 2147483647] e) ∧
      (0 < 2147483647 → ∃ e, Run 50 none ('\x60' :: (('-' :: dec 2147483647) ++ ['\x60'])) [] =
        RunResult.ok ['-' :: dec 2147483647] e) ∧
      (dec 2147483647 ≠ [] ∧ (∀ c ∈ dec 2147483647, isdigit c = true) ∧
        digitsVal (dec 2147483647) = ((2147483647 : Nat) : Int) ∧
        (2147483647 ≠ 0 → (dec 2147483647).head? ≠ some '0'))) ∧
    dec 2147483647 = "2147483647".toList ∧
    Run 50 none "\x60007\x60".toList [] = RunResult.ok ["7".toList] [] ∧
    Run 50 none "\x60-42\x60".toList [] = RunResult.ok ["-42".toList] [] ∧
    Run 50 none "\x600\x60".toList [] = RunResult.ok ["0".toList] [] ∧
    Run 50 none "\x602147483648\x60".toList [] = RunResult.ok ["-2147483648".toList] [] :=
  ⟨integer_round_trip 2147483647 (by decide) 50 (by decide) [],
    by decide!, by decide!, by decide!, by decide!, by decide!⟩

end tsub

namespace tsub
open Value TokenId

theorem each_length (source : Str) (body : Interp → Result) (d pos : Nat) :
    ∀ (l : List Value) (end_ : Option Nat) (new_list : List Value) (I : Interp) (out : Value)
      (K : Interp),
      Interp.InterpExp.each source body d pos l end_ new_list I = Result.ret (some out) K →
      ∃ l2, out = VALUE_LIST l2 ∧ l2.length = new_list.length + l.length := by
  intro l
  induction l with
  | nil =>
    intro end_ new_list I out K h
    cases end_ with
    | none => simp [Interp.InterpExp.each] at h
    | some e =>
      simp only [Interp.InterpExp.each, Result.ret.injEq, Option.some.injEq] at h
      exact ⟨new_list, h.1.symm, by simp⟩
  | cons x xs ih =>
    intro end_ new_list I out K h
    unfold Interp.InterpExp.each at h
    cases hb : body { I with dollar_value_ := Dollar.elem d x } with
    | crash c => rw [hb] at h; cases h
    | ret o J =>
      rw [hb] at h
      cases o with
      | none => simp at h
      | some new_val =>
        simp only [] at h
        cases end_ with
        | none =>
          simp only [] at h
          split_ifs at h
          · simp at h
          · obtain ⟨l2, h1, h2⟩ := ih _ _ _ _ _ h
            exact ⟨l2, h1, by simp only [List.length_append, List.length_cons,
              List.length_nil] at h2 ⊢; omega⟩
        | some e =>
          simp only [] at h
          obtain ⟨l2, h1, h2⟩ := ih _ _ _ _ _ h
          exact ⟨l2, h1, by simp only [List.length_append, List.length_cons,
            List.length_nil] at h2 ⊢; omega⟩

theorem item_nonempty (source : Str) (f : Eval) (env : List Value) (I : Interp)
    (vs : List Value) (K : Interp)
    (h : Interp.InterpList.item source f env I = Interp.ItemResult.add vs K) : vs ≠ [] := by
  unfold Interp.InterpList.item at h
  cases e1 : f (env ++ [VALUE_NULL]) I with
  | crash c => rw [e1] at h; cases h
  | ret o J =>
    rw [e1] at h
    cases o with
    | none => cases h
    | some val =>
      simp only [] at h
      cases e2 : Interp.InterpListRange source f (env ++ [VALUE_NULL, val]) J with
      | crash c => rw [e2] at h; cases h
      | ret o2 K2 =>
        rw [e2] at h
        cases o2 with
        | none =>
          simp only [Interp.ItemResult.add.injEq] at h
          rw [← h.1]
          simp
        | some to_ =>
          cases val <;> cases to_ <;> simp only [] at h <;> try (cases h)
          rename_i fr en
          split_ifs at h with hge
          simp only [Interp.ItemResult.add.injEq] at h
          rw [← h.1]
          intro hnil
          have := congrArg List.length hnil
          simp only [List.length_map, List.length_range, List.length_nil] at this
          omega

/-- C27 (code defect): a null value is returned.  Without a host, in `[1{$},$]` the map of
the first item leaves `dollar_value_` on the local `val` of the loop of `InterpList`; in the
next round the local is created again, null, in the same storage, and `$` assigns it to
itself: the evaluation succeeds and returns the list of 1 and null, which is not strict,
and `Run` fails the assertion of the default branch of `ValueToStringList`.  In the same
way `$&&1` as the second item fails the assertion of the logical operators on a null, and
`$?1:2` takes the null branch of `ToBool`.  What holds of the invariant: the literal `[]`
is rejected, every item of a list literal adds at least one value, and a map over a list
returns a list of the same length. -/
theorem null_value_returned :
    Interp.DoInterp "[1\x7b$\x7d,$]".toList none 50 0 [] =
      Result.ret (some (VALUE_LIST [VALUE_NUMBER 1, VALUE_NULL]))
        ⟨⟨⟨TK_EOF, 0⟩, 8, 0⟩, Dollar.dead, []⟩ ∧
    (VALUE_LIST [VALUE_NUMBER 1, VALUE_NULL]).strict = false ∧
    Run 50 none "\x60[1\x7b$\x7d,$]\x60".toList [] = RunResult.crash Crash.assertion ∧
    Interp.DoInterp "[1\x7b$\x7d,$&&1]".toList none 50 0 [] = Result.crash Crash.assertion ∧
    Interp.DoInterp "[1\x7b$\x7d,$?1:2]".toList none 50 0 [] =
      Result.ret (some (VALUE_LIST [VALUE_NUMBER 1, VALUE_NUMBER 2]))
        ⟨⟨⟨TK_EOF, 0⟩, 12, 0⟩, Dollar.dead, []⟩ ∧
    Interp.ToBool VALUE_NULL = false ∧
    (∀ (source : Str) (exp : Eval) (f : Nat) (env : List Value) (I : Interp),
      (I.Move source).token = TK_RSQR →
      ∃ K, Interp.InterpList source exp f env I = Result.ret none K) ∧
    (∀ (source : Str) (exp : Eval) (env : List Value) (I : Interp) (vs : List Value)
      (K : Interp),
      Interp.InterpList.item source exp env I = Interp.ItemResult.add vs K → vs ≠ []) ∧
    (∀ (source : Str) (body : Interp → Result) (d p : Nat) (l : List Value) (I : Interp)
      (out : Value) (K : Interp),
      Interp.InterpExp.each source body d p l none [] I = Result.ret (some out) K →
      ∃ l2, out = VALUE_LIST l2 ∧ l2.length = l.length) := by
  refine ⟨by decide!, by decide!, by decide!, by decide!, by decide!, rfl, ?_, ?_, ?_⟩
  · intro source exp f env I h
    exact ⟨_, by rw [Interp.InterpList, if_pos h]⟩
  · intro source exp env I vs K h
    exact item_nonempty source exp env I vs K h
  · intro source body d p l I out K h
    obtain ⟨l2, h1, h2⟩ := each_length source body d p l none [] I out K h
    exact ⟨l2, h1, by simpa using h2⟩

/-- C27, witness: the literal `[]` is rejected, and the map of `[1..3,"a"]` by `[$]` gives a
list of three lists of one element each. -/
theorem null_value_returned_witness :
    (∃ K, Interp.InterpList "[]".toList (Interp.InterpExp "[]".toList none 10) 10 []
      (Interp.init "[]".toList 0 []) = Result.ret none K) ∧
    Interp.DoInterp "[1..3,\"a\"]\x7b[$]\x7d".toList none 50 0 [] =
      Result.ret (some (VALUE_LIST [VALUE_LIST [VALUE_NUMBER 1], VALUE_LIST [VALUE_NUMBER 2],
        VALUE_LIST [VALUE_STRING "a".toList]]))
        ⟨⟨⟨TK_EOF, 0⟩, 15, 0⟩, Dollar.dead, []⟩ :=
  ⟨null_value_returned.2.2.2.2.2.2.1 "[]".toList (Interp.InterpExp "[]".toList none 10) 10 []
    (Interp.init "[]".toList 0 []) (by decide!), by decide!⟩

end tsub

namespace tsub
open Value TokenId

/-! ### The scanner advances -/

theorem PeekToken_op_offset (cha next : Char)
    (h : (Scanner.PeekToken cha next).token ∈ operatorTokens) :
    1 ≤ (Scanner.PeekToken cha next).offset := by
  unfold Scanner.PeekToken at h ⊢
  by_cases h0 : cha.toNat = 0
  · rw [if_pos h0] at h
    exact absurd h (by decide)
  · rw [if_neg h0] at h ⊢
    cases hs : Scanner.single.lookup cha with
    | some tk => simp
    | none =>
      rw [hs] at h
      simp only [] at h ⊢
      cases hp : Scanner.paired.lookup cha with
      | some e =>
        obtain ⟨d, tk, l⟩ := e
        rw [hp] at h
        simp only [] at h ⊢
        have hm := lookup_mem _ _ _ hp
        have hall : ∀ x ∈ Scanner.paired,
            x.2.2.2.token ∈ operatorTokens → 1 ≤ x.2.2.2.offset := by decide
        have := hall _ hm
        simp only at this
        split_ifs at h ⊢ with hn
        · simp
        · exact this h
      | none =>
        rw [hp] at h
        simp only [] at h
        split_ifs at h <;> exact absurd h (by decide)

theorem Consistent_op_offset (source : Str) (s : Scanner) (hc : Scanner.Consistent source s)
    (h : s.lexme_.token ∈ operatorTokens) : 1 ≤ s.lexme_.offset := by
  rcases Consistent_PeekToken source s hc with e | e
  · rw [e] at h
    exact absurd h (by decide)
  · rw [e] at h ⊢
    exact PeekToken_op_offset _ _ h

theorem Next_pos_ge (source : Str) (s : Scanner) :
    s.position_ ≤ (Scanner.Next source s).position_ := by
  simp only [Scanner.Next]
  exact Peek_pos_ge source s.position_

/-- A step over an operator or a punctuation mark moves the scanner forward. -/
theorem Move_adv (source : Str) (I : Interp) (hc : Scanner.Consistent source I.scanner_)
    (h : I.token ∈ operatorTokens) :
    Scanner.Consistent source (I.Move source).scanner_ ∧
      I.scanner_.position_ + 1 ≤ (I.Move source).scanner_.position_ := by
  refine ⟨Move_Consistent source _ hc, ?_⟩
  have h1 := Consistent_op_offset source I.scanner_ hc h
  have h2 := Peek_pos_ge source (I.scanner_.position_ + I.scanner_.lexme_.offset)
  simp only [Interp.Move, Scanner.Move, Scanner.Next]
  omega

theorem Set_adv (source : Str) (I : Interp) (i : Nat) (hi : i ≤ source.length) :
    Scanner.Consistent source (I.Set source i).scanner_ ∧
      i ≤ (I.Set source i).scanner_.position_ := by
  refine ⟨Set_Consistent source _ i hi, ?_⟩
  simp only [Interp.Set, Scanner.Set, Scanner.Next]
  exact Peek_pos_ge source i

theorem PeekToken_number (cha next : Char)
    (h : (Scanner.PeekToken cha next).token = TK_NUMBER) : isdigit cha = true := by
  unfold Scanner.PeekToken at h
  by_cases h0 : cha.toNat = 0
  · rw [if_pos h0] at h; cases h
  · rw [if_neg h0] at h
    cases hs : Scanner.single.lookup cha with
    | some tk =>
      rw [hs] at h
      simp only [] at h
      have hm := lookup_mem _ _ _ hs
      have hall : ∀ x ∈ Scanner.single, x.2 ≠ TK_NUMBER := by decide
      exact absurd h (hall _ hm)
    | none =>
      rw [hs] at h
      simp only [] at h
      cases hp : Scanner.paired.lookup cha with
      | some e =>
        obtain ⟨d, tk, l⟩ := e
        rw [hp] at h
        simp only [] at h
        have hm := lookup_mem _ _ _ hp
        have hall : ∀ x ∈ Scanner.paired,
            x.2.2.1 ≠ TK_NUMBER ∧ x.2.2.2.token ≠ TK_NUMBER := by decide
        have := hall _ hm
        simp only at this
        split_ifs at h
        · exact absurd h this.1
        · exact absurd h this.2
      | none =>
        rw [hp] at h
        simp only [] at h
        by_cases b : isdigit cha = true
        · exact b
        · split_ifs at h
          all_goals cases h

theorem strtol_pos (c : Char) (rest : Str) (hc : isdigit c = true) :
    1 ≤ (strtol (c :: rest)).2 := by
  have hsplit : c :: rest = (c :: rest).takeWhile isdigit ++ (c :: rest).dropWhile isdigit :=
    (List.takeWhile_append_dropWhile _ _).symm
  have hne : (c :: rest).takeWhile isdigit ≠ [] := by
    simp [List.takeWhile_cons, hc]
  have hd : ∀ x ∈ (c :: rest).takeWhile isdigit, isdigit x = true :=
    fun x hx => List.mem_takeWhile_imp hx
  have hr : ∀ x, ((c :: rest).dropWhile isdigit).head? = some x → isdigit x = false := by
    intro x hx
    have := List.head?_dropWhile_not isdigit (c :: rest)
    rw [hx] at this
    simpa using this
  have := strtol_digits _ _ hne hd hr
  rw [← hsplit] at this
  rw [this]
  simp only []
  cases h : (c :: rest).takeWhile isdigit with
  | nil => exact absurd h hne
  | cons a t => simp

theorem Adv_mono {source : Str} {ok ok2 : Prop} {d d2 p p2 : Nat} {r : Result}
    (h : Adv source ok2 d2 p2 r) (hok : ok → ok2) (hp : p ≤ p2) (hd : p + d ≤ p2 + d2) :
    Adv source ok d p r := by
  cases r with
  | crash c => exact fun o => h (hok o)
  | ret o K =>
    cases o with
    | none => exact ⟨h.1, le_trans hp h.2⟩
    | some v => exact ⟨h.1, le_trans hd h.2⟩

/-- Sequencing for the outcomes that advance. -/
theorem adv_bind (source : Str) (ok ok2 : Prop) (d d2 p p2 : Nat) (g : Interp → Interp)
    (K : Value → Interp → Result) (hok : ok → ok2)
    (hg : ∀ J : Interp, Scanner.Consistent source J.scanner_ → p2 ≤ J.scanner_.position_ →
      Scanner.Consistent source (g J).scanner_ ∧ p ≤ (g J).scanner_.position_)
    (hK : ∀ v (J : Interp), Scanner.Consistent source J.scanner_ →
      p2 + d2 ≤ J.scanner_.position_ → Adv source ok d p (K v J)) :
    ∀ r : Result, Adv source ok2 d2 p2 r →
    Adv source ok d p
      (match r with
        | Result.crash c => Result.crash c
        | Result.ret none I1 => Result.ret none (g I1)
        | Result.ret (some v) I1 => K v I1) := by
  intro r h
  cases r with
  | crash c => exact fun o => h (hok o)
  | ret o J =>
    cases o with
    | none => exact hg J h.1 h.2
    | some v => exact hK v J h.1 h.2

theorem ParseNumber_adv (source : Str) (ok : Prop) (I : Interp)
    (hc : Scanner.Consistent source I.scanner_) (ht : I.token = TK_NUMBER) :
    Adv source ok 1 I.scanner_.position_ (Interp.ParseNumber source I) := by
  have hlt := Consistent_lt hc (by
    have : I.scanner_.lexme_.token = TK_NUMBER := ht
    rw [this]; decide)
  have hdig : isdigit (Scanner.NChar source I.scanner_.position_) = true := by
    rcases Consistent_PeekToken source I.scanner_ hc with e | e
    · have : I.scanner_.lexme_.token = TK_NUMBER := ht
      rw [e] at this
      cases this
    · have : I.scanner_.lexme_.token = TK_NUMBER := ht
      rw [e] at this
      exact PeekToken_number _ _ this
  obtain ⟨c, rest, hd⟩ : ∃ c rest, source.drop I.scanner_.position_ = c :: rest := by
    cases h : source.drop I.scanner_.position_ with
    | nil =>
      have := congrArg List.length h
      simp at this
      omega
    | cons c rest => exact ⟨c, rest, rfl⟩
  have hc0 : Scanner.NChar source I.scanner_.position_ = c := by
    rw [NChar_eq_head, hd]; rfl
  rw [hc0] at hdig
  have h1 := strtol_pos c rest hdig
  have h2 := strtol_le (source.drop I.scanner_.position_)
  simp only [List.length_drop] at h2
  unfold Interp.ParseNumber
  rw [hd] at h2 ⊢
  cases hs : strtol (c :: rest) with
  | mk a n =>
    rw [hs] at h1 h2
    simp only [] at h1 h2
    cases a with
    | none => exact ⟨hc, le_refl _⟩
    | some val =>
      refine ⟨MoveBy_Consistent source _ n (by omega), ?_⟩
      have := Peek_pos_ge source (I.scanner_.position_ + n)
      simp only [Scanner.MoveBy, Scanner.Next]
      omega

theorem scan_ge : ∀ (n : Nat) (s : Str) (i : Nat) (buffer : Str) (r : Str × Nat),
    s.length ≤ n → Interp.ParseString.scan s i buffer = some r → i ≤ r.2 := by
  intro n s i buffer r hn h
  rw [scan_eq_decode n s i buffer hn] at h
  cases hd : decodeString s with
  | none => rw [hd] at h; cases h
  | some x =>
    rw [hd] at h
    simp only [Option.map_some', Option.some.injEq] at h
    obtain ⟨h1, _⟩ := decodeString_quote n s x.1 x.2 hn (by rw [hd])
    rw [← h]
    simp only []
    omega

theorem ParseString_adv (source : Str) (ok : Prop) (I : Interp)
    (hc : Scanner.Consistent source I.scanner_) :
    Adv source ok 1 I.scanner_.position_ (Interp.ParseString source I) := by
  unfold Interp.ParseString
  cases hs : Interp.ParseString.scan (source.drop (I.scanner_.position_ + 1))
      (I.scanner_.position_ + 1) [] with
  | none => exact ⟨hc, le_refl _⟩
  | some r =>
    obtain ⟨buffer, i⟩ := r
    have h1 := scan_ge _ _ _ _ _ (le_refl _) hs
    have h2 := (scan_append_some [] _ _ _ _ hs).2
    simp only [List.length_drop] at h1 h2
    have hi : i + 1 ≤ source.length := by omega
    obtain ⟨s1, s2⟩ := Set_adv source I (i + 1) hi
    exact ⟨s1, by omega⟩

theorem ParseVariable_adv (source : Str) (I : Interp)
    (hc : Scanner.Consistent source I.scanner_) (ht : I.token = TK_VARIABLE) :
    Scanner.Consistent source (Interp.ParseVariable source I).2.scanner_ ∧
      I.scanner_.position_ + 1 ≤ (Interp.ParseVariable source I).2.scanner_.position_ := by
  have hlt := Consistent_lt hc (by
    have : I.scanner_.lexme_.token = TK_VARIABLE := ht
    rw [this]; decide)
  have hl := takeWhile_length_le IsIdRestChar (source.drop (I.scanner_.position_ + 1))
  simp only [List.length_drop] at hl
  obtain ⟨s1, s2⟩ := Set_adv source I (I.scanner_.position_ + 1 +
    ((source.drop (I.scanner_.position_ + 1)).takeWhile IsIdRestChar).length) (by omega)
  exact ⟨s1, by
    simp only [Interp.ParseVariable]
    omega⟩

end tsub

namespace tsub
open Value TokenId

/-! ### The evaluator advances and its budget is enough -/

theorem undefined_ne_fuel : Crash.undefined ≠ Crash.fuel := by decide

theorem assertion_ne_fuel : Crash.assertion ≠ Crash.fuel := by decide

theorem trap_ne_fuel : Crash.trap ≠ Crash.fuel := by decide

theorem adv_formatted (source : Str) (ok : Prop) (d p : Nat) (J : Interp) (msg : Str)
    (hc : Scanner.Consistent source J.scanner_) (h : p ≤ J.scanner_.position_) :
    Adv source ok d p (Interp.ReportFormatted source J msg) := by
  unfold Interp.ReportFormatted
  split
  · exact fun _ => undefined_ne_fuel
  · exact ⟨hc, h⟩

theorem adv_fail (source : Str) (ok : Prop) (d p : Nat) (J : Interp) (msg : Str)
    (hc : Scanner.Consistent source J.scanner_) (h : p ≤ J.scanner_.position_) :
    Adv source ok d p (Result.ret none (Interp.ReportError source J msg)) := ⟨hc, h⟩

theorem InterpListRange_adv (source : Str) (f : Nat) (exp : Eval) (hexp : AdvEval source f exp)
    (ok : Prop) (env : List Value) (I : Interp) (hc : Scanner.Consistent source I.scanner_)
    (hok : ok → source.length - I.scanner_.position_ + 1 ≤ f) :
    Adv source ok 1 I.scanner_.position_ (Interp.InterpListRange source exp env I) := by
  unfold Interp.InterpListRange
  split
  · exact ⟨hc, le_refl _⟩
  · rename_i ht
    have ht2 : I.token = TK_TO := by
      by_contra h
      exact ht h
    obtain ⟨m1, m2⟩ := Move_adv source I hc (by rw [ht2]; decide)
    have m3 := m1.2
    have m4 : Scanner.Consistent source ((I.Move source).wake (env.length - 2)).scanner_ := m1
    have m5 : ((I.Move source).wake (env.length - 2)).scanner_.position_ =
        (I.Move source).scanner_.position_ := rfl
    exact Adv_mono (hexp env _ m4) (fun o => by have := hok o; omega) (by omega) (by omega)

theorem InterpList_item_adv (source : Str) (f : Nat) (exp : Eval)
    (hexp : AdvEval source f exp) (ok : Prop) (env : List Value) (I : Interp)
    (hc : Scanner.Consistent source I.scanner_)
    (hok : ok → source.length - I.scanner_.position_ + 2 ≤ f) :
    AdvItem source ok I.scanner_.position_ (Interp.InterpList.item source exp env I) := by
  unfold Interp.InterpList.item
  have h1 := hexp (env ++ [VALUE_NULL]) I hc
  cases e1 : exp (env ++ [VALUE_NULL]) I with
  | crash c => rw [e1] at h1; exact fun o => h1 (hok o)
  | ret o J =>
    rw [e1] at h1
    cases o with
    | none => exact ⟨h1.1, h1.2⟩
    | some val =>
      simp only []
      obtain ⟨j1, j2⟩ := h1
      have j3 := j1.2
      have h2 := InterpListRange_adv source f exp hexp ok (env ++ [VALUE_NULL, val]) J j1
        (fun o => by have := hok o; omega)
      cases e2 : Interp.InterpListRange source exp (env ++ [VALUE_NULL, val]) J with
      | crash c => rw [e2] at h2; exact h2
      | ret o2 K =>
        rw [e2] at h2
        cases o2 with
        | none =>
          have hk : I.scanner_.position_ + 1 ≤ K.scanner_.position_ := le_trans j2 h2.2
          exact ⟨h2.1, hk⟩
        | some to_ =>
          have hk : I.scanner_.position_ + 1 ≤ K.scanner_.position_ := by
            have := h2.2
            omega
          have hk0 : I.scanner_.position_ ≤ K.scanner_.position_ := by omega
          have hfail : ∀ msg, AdvItem source ok I.scanner_.position_
              (Interp.ItemResult.fail (Interp.ReportError source (K.kill env.length) msg)) :=
            fun msg => ⟨h2.1, hk0⟩
          cases val <;> cases to_ <;> simp only [] <;> try (exact hfail _)
          rename_i fr en
          by_cases hge : fr ≥ en
          · rw [if_pos hge]
            exact hfail _
          · rw [if_neg hge]
            exact ⟨h2.1, hk⟩

theorem InterpList_loop_adv (source : Str) (f : Nat) (exp : Eval)
    (hexp : AdvEval source f exp) (ok : Prop) :
    ∀ (n : Nat) (env vl : List Value) (I : Interp), Scanner.Consistent source I.scanner_ →
      (ok → source.length - I.scanner_.position_ + 1 ≤ n) →
      (ok → source.length - I.scanner_.position_ + 2 ≤ f) →
      Adv source ok 1 I.scanner_.position_ (Interp.InterpList.loop source exp n env vl I) := by
  intro n
  induction n with
  | zero =>
    intro env vl I hc hn hf o
    have := hn o
    omega
  | succ n ih =>
    intro env vl I hc hn hf
    unfold Interp.InterpList.loop
    have hi := InterpList_item_adv source f exp hexp ok env I hc hf
    cases e1 : Interp.InterpList.item source exp env I with
    | crash c => rw [e1] at hi; exact hi
    | fail J => rw [e1] at hi; exact hi
    | add added J =>
      rw [e1] at hi
      obtain ⟨j1, j2⟩ := hi
      have j3 := j1.2
      simp only []
      split
      · rename_i ht
        obtain ⟨m1, m2⟩ := Move_adv source J j1 (by rw [ht]; decide)
        have m3 := m1.2
        exact Adv_mono (ih env (vl ++ added) _ m1 (fun o => by have := hn o; omega)
          (fun o => by have := hf o; omega)) id (by omega) (by omega)
      · split
        · rename_i ht
          have jk : Scanner.Consistent source (J.kill env.length).scanner_ := j1
          obtain ⟨m1, m2⟩ := Move_adv source (J.kill env.length) jk (by
            show J.token ∈ operatorTokens
            rw [ht]; decide)
          have m4 : J.scanner_.position_ + 1 ≤
              ((J.kill env.length).Move source).scanner_.position_ := m2
          exact ⟨m1, by omega⟩
        · have jk : Scanner.Consistent source (J.kill env.length).scanner_ := j1
          exact adv_fail _ _ _ _ _ _ jk (by
            show I.scanner_.position_ ≤ J.scanner_.position_
            omega)

theorem InterpList_adv (source : Str) (f : Nat) (exp : Eval) (hexp : AdvEval source f exp)
    (env : List Value) (I : Interp) (hc : Scanner.Consistent source I.scanner_)
    (ht : I.token = TK_LSQR) :
    Adv source (source.length - I.scanner_.position_ + 1 ≤ f) 1 I.scanner_.position_
      (Interp.InterpList source exp f env I) := by
  obtain ⟨m1, m2⟩ := Move_adv source I hc (by rw [ht]; decide)
  have m3 := m1.2
  unfold Interp.InterpList
  split
  · exact adv_fail _ _ _ _ _ _ m1 (by omega)
  · exact Adv_mono (InterpList_loop_adv source f exp hexp
      (source.length - I.scanner_.position_ + 1 ≤ f) f env [] _ m1
      (fun o => by omega) (fun o => by omega)) id (by omega) (by omega)

theorem InterpFunc_call_adv (source : Str) (context : Option Context) (ok : Prop)
    (func_name : Str) (par : List Value) (I : Interp)
    (hc : Scanner.Consistent source I.scanner_) :
    Adv source ok 0 I.scanner_.position_
      (Interp.InterpFunc.call source context func_name par I) := by
  unfold Interp.InterpFunc.call
  cases context with
  | none => exact adv_formatted _ _ _ _ _ _ hc (le_refl _)
  | some c =>
    simp only []
    cases e : c.ExecFunction func_name par with
    | ok v => exact ⟨hc, le_refl _⟩
    | fail e => exact adv_formatted _ _ _ _ _ _ hc (le_refl _)
    | abort => exact fun _ => assertion_ne_fuel

theorem InterpFunc_loop_adv (source : Str) (context : Option Context) (f : Nat) (exp : Eval)
    (hexp : AdvEval source f exp) (ok : Prop) (func_name : Str) :
    ∀ (n : Nat) (env par : List Value) (I : Interp), Scanner.Consistent source I.scanner_ →
      (ok → source.length - I.scanner_.position_ + 1 ≤ n) →
      (ok → source.length - I.scanner_.position_ + 2 ≤ f) →
      Adv source ok 1 I.scanner_.position_
        (Interp.InterpFunc.loop source context exp func_name n env par I) := by
  intro n
  induction n with
  | zero =>
    intro env par I hc hn hf o
    have := hn o
    omega
  | succ n ih =>
    intro env par I hc hn hf
    unfold Interp.InterpFunc.loop
    have h1 := hexp (env ++ [VALUE_NULL]) I hc
    cases e1 : exp (env ++ [VALUE_NULL]) I with
    | crash c => rw [e1] at h1; exact fun o => h1 (hf o)
    | ret o J =>
      rw [e1] at h1
      cases o with
      | none => exact ⟨h1.1, h1.2⟩
      | some val =>
        obtain ⟨j1, j2⟩ := h1
        have j3 := j1.2
        have jk : Scanner.Consistent source (J.kill env.length).scanner_ := j1
        simp only []
        split
        · rename_i ht
          have jk1 : Scanner.Consistent source (J.kill (env.length + 1)).scanner_ := j1
          obtain ⟨m1, m2⟩ := Move_adv source (J.kill (env.length + 1)) jk1 (by
            show J.token ∈ operatorTokens
            have ht0 : J.token = TK_COMMA := ht
            rw [ht0]; decide)
          have m3 := m1.2
          have m4 : J.scanner_.position_ + 1 ≤
              ((J.kill (env.length + 1)).Move source).scanner_.position_ := m2
          exact Adv_mono (ih env (par ++ [val]) _ m1 (fun o => by have := hn o; omega)
            (fun o => by have := hf o; omega)) id (by omega) (by omega)
        · split
          · rename_i ht
            obtain ⟨m1, m2⟩ := Move_adv source (J.kill env.length) jk (by rw [ht]; decide)
            have m4 : J.scanner_.position_ + 1 ≤
                ((J.kill env.length).Move source).scanner_.position_ := m2
            exact Adv_mono (InterpFunc_call_adv source context ok func_name (par ++ [val]) _ m1)
              id (by omega) (by omega)
          · exact adv_fail _ _ _ _ _ _ jk (by
              show I.scanner_.position_ ≤ J.scanner_.position_
              omega)

theorem InterpPF_adv (source : Str) (context : Option Context) (f : Nat) (exp : Eval)
    (hexp : AdvEval source f exp) (env : List Value) (I : Interp)
    (hc : Scanner.Consistent source I.scanner_) (ht : I.token = TK_VARIABLE) :
    Adv source (source.length - I.scanner_.position_ + 1 ≤ f) 1 I.scanner_.position_
      (Interp.InterpPF source context exp f env I) := by
  obtain ⟨v1, v2⟩ := ParseVariable_adv source I hc ht
  have v3 := v1.2
  unfold Interp.InterpPF
  split
  · rename_i hl
    obtain ⟨m1, m2⟩ := Move_adv source (Interp.ParseVariable source I).2 v1
      (by rw [hl]; decide)
    have m3 := m1.2
    unfold Interp.InterpFunc
    exact Adv_mono (InterpFunc_loop_adv source context f exp hexp
      (source.length - I.scanner_.position_ + 1 ≤ f) _ f env [] _ m1
      (fun o => by omega) (fun o => by omega)) id (by omega) (by omega)
  · cases context with
    | none => exact adv_formatted _ _ _ _ _ _ v1 (by omega)
    | some c =>
      simp only []
      cases e : c.GetVariable (Interp.ParseVariable source I).1 with
      | ok v => exact ⟨v1, v2⟩
      | fail e => exact adv_formatted _ _ _ _ _ _ v1 (by omega)
      | abort => exact fun _ => assertion_ne_fuel

theorem InterpAtomic_adv (source : Str) (context : Option Context) (f : Nat) (exp : Eval)
    (hexp : AdvEval source f exp) :
    AdvLevel source f (Interp.InterpAtomic source context exp f) := by
  intro env I hc
  have hfail : ∀ msg, Adv source (source.length - I.scanner_.position_ + 1 ≤ f) 1
      I.scanner_.position_ (Result.ret none (Interp.ReportError source I msg)) :=
    fun msg => ⟨hc, le_refl _⟩
  unfold Interp.InterpAtomic
  cases htk : I.token <;> simp only [] <;> try (exact hfail _)
  · exact ParseString_adv source _ I hc
  · exact InterpPF_adv source context f exp hexp env I hc htk
  · exact ParseNumber_adv source _ I hc htk
  · obtain ⟨m1, m2⟩ := Move_adv source I hc (by rw [htk]; decide)
    have m3 := m1.2
    refine adv_bind source _ _ 1 1 _ _ id _ (fun o => by omega) ?_ ?_ _ (hexp env _ m1)
    · intro J j1 j2
      exact ⟨j1, by simp only [id]; omega⟩
    · intro v J j1 j2
      split
      · exact adv_fail _ _ _ _ _ _ j1 (by omega)
      · rename_i ht
        have ht2 : J.token = TK_RPAR := by
          by_contra h
          exact ht h
        obtain ⟨n1, n2⟩ := Move_adv source J j1 (by rw [ht2]; decide)
        exact ⟨n1, by omega⟩
  · obtain ⟨m1, m2⟩ := Move_adv source I hc (by rw [htk]; decide)
    cases hd : I.dollar_value_ with
    | null => exact hfail _
    | elem j v => exact ⟨m1, m2⟩
    | obj j =>
      simp only []
      cases hg : env.get? j with
      | none => exact ⟨m1, m2⟩
      | some v => exact ⟨m1, m2⟩
    | spare j => exact ⟨m1, m2⟩
    | dead => exact fun _ => undefined_ne_fuel
  · exact InterpList_adv source f exp hexp env I hc htk

theorem InterpUnary_adv (source : Str) (context : Option Context) (f : Nat) (exp : Eval)
    (hexp : AdvEval source f exp) :
    AdvLevel source f (Interp.InterpUnary source context exp f) := by
  intro env I hc
  unfold Interp.InterpUnary
  have key : I.token ∈ operatorTokens →
      Adv source (source.length - I.scanner_.position_ + 1 ≤ f) 1 I.scanner_.position_
        (Interp.InterpAtomic source context exp f env (I.Move source)) ∧
      ∀ (J : Interp), Scanner.Consistent source J.scanner_ →
        (I.Move source).scanner_.position_ + 1 ≤ J.scanner_.position_ →
        I.scanner_.position_ + 1 ≤ J.scanner_.position_ := by
    intro hm
    obtain ⟨m1, m2⟩ := Move_adv source I hc hm
    have m3 := m1.2
    exact ⟨Adv_mono (InterpAtomic_adv source context f exp hexp env _ m1)
      (fun o => by omega) (by omega) (by omega), fun J _ h => by omega⟩
  cases htk : I.token <;> simp only [] <;> try (exact fun _ => assertion_ne_fuel)
  · obtain ⟨ha, _⟩ := key (by rw [htk]; decide)
    refine adv_bind source _ _ 1 1 _ _ id _ id (fun J j1 j2 => ⟨j1, j2⟩) ?_ _ ha
    intro v J j1 j2
    cases v <;> simp only [] <;>
      first
        | exact ⟨j1, j2⟩
        | exact ⟨j1, Nat.le_of_succ_le j2⟩
  · obtain ⟨ha, _⟩ := key (by rw [htk]; decide)
    refine adv_bind source _ _ 1 1 _ _ id _ id (fun J j1 j2 => ⟨j1, j2⟩) ?_ _ ha
    intro v J j1 j2
    cases v <;> simp only [] <;>
      first
        | exact ⟨j1, j2⟩
        | exact ⟨j1, Nat.le_of_succ_le j2⟩
  · obtain ⟨ha, _⟩ := key (by rw [htk]; decide)
    refine adv_bind source _ _ 1 1 _ _ id _ id (fun J j1 j2 => ⟨j1, j2⟩) ?_ _ ha
    intro v J j1 j2
    cases v <;> simp only [] <;> exact ⟨j1, j2⟩

theorem InterpFactor_adv (source : Str) (context : Option Context) (f : Nat) (exp : Eval)
    (hexp : AdvEval source f exp) :
    AdvLevel source f (Interp.InterpFactor source context exp f) := by
  intro env I hc
  unfold Interp.InterpFactor
  split
  · exact InterpUnary_adv source context f exp hexp env I hc
  · exact InterpAtomic_adv source context f exp hexp env I hc

end tsub

namespace tsub
open Value TokenId

theorem InterpTerm_loop_adv (source : Str) (f : Nat) (S : Eval) (hS : AdvLevel source f S)
    (ok : Prop) :
    ∀ (n : Nat) (env : List Value) (output : Value) (I : Interp),
      Scanner.Consistent source I.scanner_ →
      (ok → source.length - I.scanner_.position_ + 1 ≤ n) →
      (ok → source.length - I.scanner_.position_ + 1 ≤ f) →
      Adv source ok 0 I.scanner_.position_ (Interp.InterpTerm.loop source S n env output I) := by
  intro n
  induction n with
  | zero =>
    intro env output I hc hn hf o
    have := hn o
    omega
  | succ n ih =>
    intro env output I hc hn hf
    unfold Interp.InterpTerm.loop
    split
    · rename_i ht
      obtain ⟨m1, m2⟩ := Move_adv source I hc (by rcases ht with h | h <;> rw [h] <;> decide)
      have m3 := m1.2
      refine adv_bind source ok _ 0 1 _ _ (Interp.kill env.length) _
        (fun o => by have := hf o; omega) ?_ ?_ _ (hS (env ++ [output]) _ m1)
      · intro J j1 j2
        exact ⟨j1, by
          show I.scanner_.position_ ≤ J.scanner_.position_
          omega⟩
      · intro rhs J j1 j2
        have j3 := j1.2
        have jk : Scanner.Consistent source (J.kill env.length).scanner_ := j1
        have jp : I.scanner_.position_ + 2 ≤ (J.kill env.length).scanner_.position_ := by
          show I.scanner_.position_ + 2 ≤ J.scanner_.position_
          omega
        have jk1 : Scanner.Consistent source (J.kill (env.length + 1)).scanner_ := j1
        have jp1 : (J.kill (env.length + 1)).scanner_.position_ = J.scanner_.position_ := rfl
        have hrec : ∀ v, Adv source ok 0 I.scanner_.position_
            (Interp.InterpTerm.loop source S n env v (J.kill (env.length + 1))) :=
          fun v => Adv_mono (ih env v _ jk1 (fun o => by have := hn o; omega)
            (fun o => by have := hf o; omega)) id (by omega) (by omega)
        have hfail : ∀ msg, Adv source ok 0 I.scanner_.position_
            (Result.ret none (Interp.ReportError source (J.kill env.length) msg)) :=
          fun msg => adv_fail _ _ _ _ _ _ jk (by omega)
        cases output <;> cases rhs <;> simp only [] <;> try (exact hfail _)
        split
        · exact hrec _
        · split
          · exact hfail _
          · split
            · exact fun _ => trap_ne_fuel
            · exact hrec _
    · exact ⟨hc, le_refl _⟩

theorem InterpComp_loop_adv (source : Str) (f : Nat) (S : Eval) (hS : AdvLevel source f S)
    (ok : Prop) :
    ∀ (n : Nat) (env : List Value) (output : Value) (I : Interp),
      Scanner.Consistent source I.scanner_ →
      (ok → source.length - I.scanner_.position_ + 1 ≤ n) →
      (ok → source.length - I.scanner_.position_ + 1 ≤ f) →
      Adv source ok 0 I.scanner_.position_ (Interp.InterpComp.loop source S n env output I) := by
  intro n
  induction n with
  | zero =>
    intro env output I hc hn hf o
    have := hn o
    omega
  | succ n ih =>
    intro env output I hc hn hf
    unfold Interp.InterpComp.loop
    split
    · rename_i ht
      obtain ⟨m1, m2⟩ := Move_adv source I hc (by rcases ht with h | h <;> rw [h] <;> decide)
      have m3 := m1.2
      refine adv_bind source ok _ 0 1 _ _ (Interp.kill env.length) _
        (fun o => by have := hf o; omega) ?_ ?_ _ (hS (env ++ [output]) _ m1)
      · intro J j1 j2
        exact ⟨j1, by
          show I.scanner_.position_ ≤ J.scanner_.position_
          omega⟩
      · intro rhs J j1 j2
        have j3 := j1.2
        have jk : Scanner.Consistent source (J.kill env.length).scanner_ := j1
        have jp : I.scanner_.position_ + 2 ≤ (J.kill env.length).scanner_.position_ := by
          show I.scanner_.position_ + 2 ≤ J.scanner_.position_
          omega
        have jk1 : Scanner.Consistent source (J.kill (env.length + 1)).scanner_ := j1
        have jp1 : (J.kill (env.length + 1)).scanner_.position_ = J.scanner_.position_ := rfl
        have hrec : ∀ v, Adv source ok 0 I.scanner_.position_
            (Interp.InterpComp.loop source S n env v (J.kill (env.length + 1))) :=
          fun v => Adv_mono (ih env v _ jk1 (fun o => by have := hn o; omega)
            (fun o => by have := hf o; omega)) id (by omega) (by omega)
        have hfail : ∀ msg, Adv source ok 0 I.scanner_.position_
            (Result.ret none (Interp.ReportError source (J.kill env.length) msg)) :=
          fun msg => adv_fail _ _ _ _ _ _ jk (by omega)
        cases output <;> cases rhs <;> simp only [] <;> try (exact hfail _)
        split
        · exact hrec _
        · exact hrec _
    · exact ⟨hc, le_refl _⟩

theorem isRelational_mem (t : TokenId) (h : Interp.isRelational t = true) :
    t ∈ operatorTokens := by
  cases t <;> simp [Interp.isRelational] at h <;> simp [operatorTokens]

theorem InterpLogic_loop_adv (source : Str) (f : Nat) (S : Eval) (hS : AdvLevel source f S)
    (ok : Prop) :
    ∀ (n : Nat) (env : List Value) (output : Value) (I : Interp),
      Scanner.Consistent source I.scanner_ →
      (ok → source.length - I.scanner_.position_ + 1 ≤ n) →
      (ok → source.length - I.scanner_.position_ + 1 ≤ f) →
      Adv source ok 0 I.scanner_.position_ (Interp.InterpLogic.loop source S n env output I) := by
  intro n
  induction n with
  | zero =>
    intro env output I hc hn hf o
    have := hn o
    omega
  | succ n ih =>
    intro env output I hc hn hf
    unfold Interp.InterpLogic.loop
    split
    · rename_i ht
      obtain ⟨m1, m2⟩ := Move_adv source I hc (isRelational_mem _ ht)
      have m3 := m1.2
      refine adv_bind source ok _ 0 1 _ _ (Interp.kill env.length) _
        (fun o => by have := hf o; omega) ?_ ?_ _ (hS (env ++ [output]) _ m1)
      · intro J j1 j2
        exact ⟨j1, by
          show I.scanner_.position_ ≤ J.scanner_.position_
          omega⟩
      · intro rhs J j1 j2
        have j3 := j1.2
        have jk : Scanner.Consistent source (J.kill env.length).scanner_ := j1
        have jp : I.scanner_.position_ + 2 ≤ (J.kill env.length).scanner_.position_ := by
          show I.scanner_.position_ + 2 ≤ J.scanner_.position_
          omega
        have jk1 : Scanner.Consistent source (J.kill (env.length + 1)).scanner_ := j1
        have jp1 : (J.kill (env.length + 1)).scanner_.position_ = J.scanner_.position_ := rfl
        have hrec : ∀ v, Adv source ok 0 I.scanner_.position_
            (Interp.InterpLogic.loop source S n env v (J.kill (env.length + 1))) :=
          fun v => Adv_mono (ih env v _ jk1 (fun o => by have := hn o; omega)
            (fun o => by have := hf o; omega)) id (by omega) (by omega)
        have hfail : ∀ msg, Adv source ok 0 I.scanner_.position_
            (Result.ret none (Interp.ReportError source (J.kill env.length) msg)) :=
          fun msg => adv_fail _ _ _ _ _ _ jk (by omega)
        cases rhs <;> cases output <;> simp only [] <;> try (exact hfail _)
        · split
          · exact hrec _
          · exact fun _ => assertion_ne_fuel
        · split
          · exact hrec _
          · exact fun _ => assertion_ne_fuel
    · exact ⟨hc, le_refl _⟩

theorem InterpTenery_loop_adv (source : Str) (f : Nat) (S : Eval) (hS : AdvLevel source f S)
    (ok : Prop) :
    ∀ (n : Nat) (env : List Value) (output : Value) (I : Interp),
      Scanner.Consistent source I.scanner_ →
      (ok → source.length - I.scanner_.position_ + 1 ≤ n) →
      (ok → source.length - I.scanner_.position_ + 1 ≤ f) →
      Adv source ok 0 I.scanner_.position_
        (Interp.InterpTenery.loop source S n env output I) := by
  intro n
  induction n with
  | zero =>
    intro env output I hc hn hf o
    have := hn o
    omega
  | succ n ih =>
    intro env output I hc hn hf
    unfold Interp.InterpTenery.loop
    split
    · rename_i ht
      obtain ⟨m1, m2⟩ := Move_adv source I hc (by rcases ht with h | h <;> rw [h] <;> decide)
      have m3 := m1.2
      refine adv_bind source ok _ 0 1 _ _ (Interp.kill env.length) _
        (fun o => by have := hf o; omega) ?_ ?_ _ (hS (env ++ [output]) _ m1)
      · intro J j1 j2
        exact ⟨j1, by
          show I.scanner_.position_ ≤ J.scanner_.position_
          omega⟩
      · intro rhs J j1 j2
        have j3 := j1.2
        have jk : Scanner.Consistent source (J.kill env.length).scanner_ := j1
        have jp : I.scanner_.position_ + 2 ≤ (J.kill env.length).scanner_.position_ := by
          show I.scanner_.position_ + 2 ≤ J.scanner_.position_
          omega
        have jk1 : Scanner.Consistent source (J.kill (env.length + 1)).scanner_ := j1
        have jp1 : (J.kill (env.length + 1)).scanner_.position_ = J.scanner_.position_ := rfl
        have hrec : ∀ v, Adv source ok 0 I.scanner_.position_
            (Interp.InterpTenery.loop source S n env v (J.kill (env.length + 1))) :=
          fun v => Adv_mono (ih env v _ jk1 (fun o => by have := hn o; omega)
            (fun o => by have := hf o; omega)) id (by omega) (by omega)
        split
        · exact fun _ => assertion_ne_fuel
        · split
          · exact hrec _
          · exact hrec _
    · exact ⟨hc, le_refl _⟩

/-- A level of binary operators advances. -/
theorem level_adv (source : Str) (f : Nat) (S : Eval)
    (L : List Value → Value → Interp → Result) (hS : AdvLevel source f S)
    (hL : ∀ (ok : Prop) env output (I : Interp), Scanner.Consistent source I.scanner_ →
      (ok → source.length - I.scanner_.position_ + 1 ≤ f) →
      Adv source ok 0 I.scanner_.position_ (L env output I)) :
    ∀ env (I : Interp), Scanner.Consistent source I.scanner_ →
    Adv source (source.length - I.scanner_.position_ + 1 ≤ f) 1 I.scanner_.position_
      (match S env I with
        | Result.crash c => Result.crash c
        | Result.ret none J => Result.ret none J
        | Result.ret (some output) J => L env output J) := by
  intro env I hc
  refine adv_bind source _ _ 1 1 _ _ id _ id (fun J j1 j2 => ⟨j1, j2⟩) ?_ _ (hS env I hc)
  intro v J j1 j2
  have j3 := j1.2
  exact Adv_mono (hL _ env v J j1 (fun o => by omega)) id (by omega) (by omega)

theorem InterpTerm_adv (source : Str) (context : Option Context) (f : Nat) (exp : Eval)
    (hexp : AdvEval source f exp) :
    AdvLevel source f (Interp.InterpTerm source context exp f) := by
  have h0 := InterpFactor_adv source context f exp hexp
  intro env I hc
  unfold Interp.InterpTerm
  exact level_adv source f _ _ h0
    (fun ok env output J j1 hf => InterpTerm_loop_adv source f _ h0 ok f env output J j1 hf hf)
    env I hc

theorem InterpComp_adv (source : Str) (context : Option Context) (f : Nat) (exp : Eval)
    (hexp : AdvEval source f exp) :
    AdvLevel source f (Interp.InterpComp source context exp f) := by
  have h0 := InterpTerm_adv source context f exp hexp
  intro env I hc
  unfold Interp.InterpComp
  exact level_adv source f _ _ h0
    (fun ok env output J j1 hf => InterpComp_loop_adv source f _ h0 ok f env output J j1 hf hf)
    env I hc

theorem InterpLogic_adv (source : Str) (context : Option Context) (f : Nat) (exp : Eval)
    (hexp : AdvEval source f exp) :
    AdvLevel source f (Interp.InterpLogic source context exp f) := by
  have h0 := InterpComp_adv source context f exp hexp
  intro env I hc
  unfold Interp.InterpLogic
  exact level_adv source f _ _ h0
    (fun ok env output J j1 hf => InterpLogic_loop_adv source f _ h0 ok f env output J j1 hf hf)
    env I hc

theorem InterpTenery_adv (source : Str) (context : Option Context) (f : Nat) (exp : Eval)
    (hexp : AdvEval source f exp) :
    AdvLevel source f (Interp.InterpTenery source context exp f) := by
  have h0 := InterpLogic_adv source context f exp hexp
  intro env I hc
  unfold Interp.InterpTenery
  exact level_adv source f _ _ h0
    (fun ok env output J j1 hf => InterpTenery_loop_adv source f _ h0 ok f env output J j1 hf hf)
    env I hc

theorem InterpPostExp_adv (source : Str) (context : Option Context) (f : Nat) (exp : Eval)
    (hexp : AdvEval source f exp) :
    AdvLevel source f (Interp.InterpPostExp source context exp f) := by
  intro env I hc
  unfold Interp.InterpPostExp
  refine adv_bind source _ _ 1 1 _ _ id _ id (fun J j1 j2 => ⟨j1, j2⟩) ?_ _
    (InterpTenery_adv source context f exp hexp env I hc)
  intro output J j1 j2
  have j3 := j1.2
  split
  · rename_i ht
    obtain ⟨m1, m2⟩ := Move_adv source J j1 (by rw [ht]; decide)
    have m3 := m1.2
    refine adv_bind source _ _ 1 1 _ _ (Interp.kill env.length) _
      (fun o => by omega) ?_ ?_ _ (hexp (env ++ [output]) _ m1)
    · intro K k1 k2
      exact ⟨k1, by
        show I.scanner_.position_ ≤ K.scanner_.position_
        omega⟩
    · intro l K k1 k2
      have k3 := k1.2
      have kk : Scanner.Consistent source (K.kill env.length).scanner_ := k1
      split
      · exact adv_fail _ _ _ _ _ _ kk (by
          show I.scanner_.position_ ≤ K.scanner_.position_
          omega)
      · rename_i ht2
        have ht3 : K.token = TK_COLON := by
          by_contra h
          exact ht2 h
        obtain ⟨n1, n2⟩ := Move_adv source K k1 (by rw [ht3]; decide)
        have n3 := n1.2
        refine adv_bind source _ _ 1 1 _ _ (Interp.kill env.length) _
          (fun o => by omega) ?_ ?_ _ (hexp (env ++ [output, l]) _ n1)
        · intro L l1 l2
          exact ⟨l1, by
            show I.scanner_.position_ ≤ L.scanner_.position_
            omega⟩
        · intro r L l1 l2
          exact ⟨l1, by
            show I.scanner_.position_ + 1 ≤ L.scanner_.position_
            omega⟩
  · exact ⟨j1, j2⟩

theorem InterpExp_each_adv (source : Str) (ok : Prop) (body : Interp → Result) (d pos P : Nat)
    (hb : ∀ J : Interp, Scanner.Consistent source J.scanner_ → pos ≤ J.scanner_.position_ →
      Adv source ok 1 J.scanner_.position_ (body J))
    (hpos : pos ≤ source.length) (hP : P ≤ pos) :
    ∀ (l : List Value) (end_ : Option Nat) (new_list : List Value) (I : Interp),
      Scanner.Consistent source I.scanner_ → pos ≤ I.scanner_.position_ →
      (∀ e, end_ = some e → e ≤ source.length ∧ P + 1 ≤ e) →
      Adv source ok 1 P (Interp.InterpExp.each source body d pos l end_ new_list I) := by
  intro l
  induction l with
  | nil =>
    intro end_ new_list I hc hI he
    cases end_ with
    | none => exact fun _ => undefined_ne_fuel
    | some e =>
      obtain ⟨e1, e2⟩ := he e rfl
      obtain ⟨s1, s2⟩ := Set_adv source I e e1
      exact ⟨s1, le_trans e2 s2⟩
  | cons x xs ih =>
    intro end_ new_list I hc hI he
    unfold Interp.InterpExp.each
    refine adv_bind source ok ok 1 1 P I.scanner_.position_ (Interp.kill d) _ id ?_ ?_ _
      (hb { I with dollar_value_ := Dollar.elem d x } hc hI)
    · intro K k1 k2
      exact ⟨k1, by
        show P ≤ K.scanner_.position_
        omega⟩
    · intro new_val J j1 j2
      have j3 := j1.2
      have jk : Scanner.Consistent source (J.kill d).scanner_ := j1
      obtain ⟨s1, s2⟩ := Set_adv source J pos hpos
      cases end_ with
      | none =>
        simp only []
        split
        · exact adv_fail _ _ _ _ _ _ jk (by
            show P ≤ J.scanner_.position_
            omega)
        · rename_i ht
          have ht2 : J.token = TK_RBRA := by
            by_contra h
            exact ht h
          obtain ⟨m1, m2⟩ := Move_adv source J j1 (by rw [ht2]; decide)
          have m3 := m1.2
          obtain ⟨t1, t2⟩ := Set_adv source (J.Move source) pos hpos
          exact ih _ _ _ t1 t2 (fun e he2 => by
            simp only [Option.some.injEq] at he2
            rw [← he2]
            exact ⟨m3, by omega⟩)
      | some e =>
        exact ih _ _ _ s1 s2 he

/-- The evaluator advances at every depth of recursion, and a budget that exceeds the
number of bytes left by 2 is enough. -/
theorem InterpExp_adv (source : Str) (context : Option Context) :
    ∀ fuel, AdvEval source fuel (Interp.InterpExp source context fuel) := by
  intro fuel
  induction fuel with
  | zero =>
    intro env I hc o
    omega
  | succ f ih =>
    intro env I hc
    have hpost := InterpPostExp_adv source context f _ ih env I hc
    rw [Interp.InterpExp]
    refine adv_bind source _ _ 1 1 _ _ id _ (fun o => by omega) (fun J j1 j2 => ⟨j1, j2⟩) ?_ _ hpost
    intro output J j1 j2
    have j3 := j1.2
    split
    · rename_i ht
      obtain ⟨m1, m2⟩ := Move_adv source J j1 (by rw [ht]; decide)
      have m3 := m1.2
      have hbody : ∀ K : Interp, Scanner.Consistent source K.scanner_ →
          (J.Move source).scanner_.position_ ≤ K.scanner_.position_ →
          Adv source (source.length - I.scanner_.position_ + 2 ≤ f + 1) 1 K.scanner_.position_
            (Interp.InterpExp source context f (env ++ [output]) K) := by
        intro K k1 k2
        have k3 := k1.2
        exact Adv_mono (ih (env ++ [output]) K k1) (fun o => by omega) (le_refl _) (le_refl _)
      have hscalar : Adv source (source.length - I.scanner_.position_ + 2 ≤ f + 1) 1
          I.scanner_.position_
          (match Interp.InterpExp source context f (env ++ [output])
              { (J.Move source) with dollar_value_ := Dollar.obj env.length } with
          | Result.crash c => Result.crash c
          | Result.ret none I2 => Result.ret none (I2.kill env.length)
          | Result.ret (some new_val) I2 =>
            if I2.token ≠ TK_RBRA then
              Result.ret none (Interp.ReportError source (I2.kill env.length)
                "Post expression needs \x7d to close the body".toList)
            else Result.ret (some new_val) ((I2.kill env.length).Move source)) := by
        refine adv_bind source _ _ 1 1 _ (J.Move source).scanner_.position_
          (Interp.kill env.length) _ id ?_ ?_ _
          (hbody { (J.Move source) with dollar_value_ := Dollar.obj env.length } m1 (le_refl _))
        · intro K k1 k2
          exact ⟨k1, by
            show I.scanner_.position_ ≤ K.scanner_.position_
            omega⟩
        · intro new_val K k1 k2
          have kk : Scanner.Consistent source (K.kill env.length).scanner_ := k1
          split
          · exact adv_fail _ _ _ _ _ _ kk (by
              show I.scanner_.position_ ≤ K.scanner_.position_
              omega)
          · rename_i ht2
            have ht3 : (K.kill env.length).token = TK_RBRA := by
              by_contra h
              exact ht2 h
            obtain ⟨n1, n2⟩ := Move_adv source (K.kill env.length) kk (by rw [ht3]; decide)
            have n4 : K.scanner_.position_ + 1 ≤
                ((K.kill env.length).Move source).scanner_.position_ := n2
            exact ⟨n1, by omega⟩
      cases output with
      | VALUE_LIST l =>
        exact InterpExp_each_adv source _ _ env.length (J.Move source).scanner_.position_
          I.scanner_.position_ hbody m3 (by omega) l none [] (J.Move source) m1 (le_refl _)
          (fun e he => by cases he)
      | VALUE_STRING s => exact hscalar
      | VALUE_NUMBER n => exact hscalar
      | VALUE_NULL => exact hscalar
    · exact ⟨j1, j2⟩

theorem DoInterp_adv (source : Str) (context : Option Context) (fuel p : Nat) (error : Str)
    (hp : p ≤ source.length) :
    Adv source (source.length + 2 ≤ fuel) 1 p (Interp.DoInterp source context fuel p error) := by
  have hc : Scanner.Consistent source (Interp.init source p error).scanner_ :=
    init_Consistent source p hp
  have hge : p ≤ (Interp.init source p error).scanner_.position_ := by
    simp only [Interp.init, Scanner.init, Scanner.Next]
    exact Peek_pos_ge source p
  exact Adv_mono (InterpExp_adv source context fuel [] _ hc) (fun o => by omega) hge (by omega)

end tsub

namespace tsub
open Value TokenId

/-! ### The loop of `Run` advances -/

theorem ProcessExp_adv (input : Str) (context : Option Context) (fuel : Nat)
    (T : TextProcessor) (hT : T.position_ ≤ input.length) :
    (∀ c, TextProcessor.ProcessExp input context fuel T = Except.error c →
      input.length + 2 ≤ fuel → c ≠ Crash.fuel) ∧
    (∀ val T1, TextProcessor.ProcessExp input context fuel T = Except.ok (some val, T1) →
      T.position_ < T1.position_ ∧ T1.position_ < input.length) := by
  have hs := DoInterp_adv input context fuel T.position_ T.error_desp_ hT
  unfold TextProcessor.ProcessExp
  cases hd : Interp.DoInterp input context fuel T.position_ T.error_desp_ with
  | crash c =>
    rw [hd] at hs
    refine ⟨?_, ?_⟩
    · intro c1 h hf
      simp only [Except.error.injEq] at h
      rw [← h]
      exact hs hf
    · intro val T1 h
      cases h
  | ret o I =>
    rw [hd] at hs
    cases o with
    | none =>
      refine ⟨?_, ?_⟩
      · intro c h; cases h
      · intro val T1 h
        simp at h
    | some w =>
      simp only []
      refine ⟨?_, ?_⟩
      · intro c h _
        split_ifs at h
        · simp only [Except.error.injEq] at h
          rw [← h]
          decide
      · intro val T1 h
        split_ifs at h with h1 h2
        · simp at h
        · simp only [Except.ok.injEq, Prod.mk.injEq, Option.some.injEq] at h
          rw [← h.2]
          have := hs.2
          exact ⟨by simp only []; omega, by simp only []; omega⟩

theorem region_step (input : Str) (context : Option Context) (fuel n p : Nat)
    (T0 : TextProcessor) (h0 : T0.position_ = p + 1) (hp : p < input.length) :
    StepsTo input context fuel n p
      (match TextProcessor.ProcessExp input context fuel T0 with
        | Except.error c => RunResult.crash c
        | Except.ok (none, T1) => RunResult.fail T1.error_desp_
        | Except.ok (some val, T1) =>
          match TextProcessor.ValueToStringList T1.str_pool_ val [] with
          | none => RunResult.crash Crash.assertion
          | some (str_list, pool) =>
            TextProcessor.Run.loop input context fuel n
              { T1 with position_ := T1.position_ + 1,
                        result_set_ := TextProcessor.Concatenate T1.result_set_ str_list,
                        str_pool_ := pool } []) := by
  obtain ⟨p1, p2⟩ := ProcessExp_adv input context fuel T0 (by omega)
  cases hpe : TextProcessor.ProcessExp input context fuel T0 with
  | error c => exact Or.inr (Or.inr ⟨c, rfl, p1 c hpe⟩)
  | ok q =>
    obtain ⟨o, T1⟩ := q
    cases o with
    | none => exact Or.inr (Or.inl ⟨_, rfl⟩)
    | some val =>
      obtain ⟨q1, q2⟩ := p2 val T1 hpe
      cases hv : TextProcessor.ValueToStringList T1.str_pool_ val [] with
      | none =>
        refine Or.inr (Or.inr ⟨Crash.assertion, ?_, fun _ => assertion_ne_fuel⟩)
        show (match TextProcessor.ValueToStringList T1.str_pool_ val [] with
          | none => RunResult.crash Crash.assertion
          | some (str_list, pool) =>
            TextProcessor.Run.loop input context fuel n
              { T1 with position_ := T1.position_ + 1,
                        result_set_ := TextProcessor.Concatenate T1.result_set_ str_list,
                        str_pool_ := pool } []) = _
        rw [hv]
      | some x =>
        obtain ⟨str_list, pool⟩ := x
        refine Or.inl ⟨⟨TextProcessor.Concatenate T1.result_set_ str_list, pool,
          T1.error_desp_, T1.position_ + 1⟩, [], ?_, ?_, ?_⟩
        · show (match TextProcessor.ValueToStringList T1.str_pool_ val [] with
            | none => RunResult.crash Crash.assertion
            | some (str_list, pool) =>
              TextProcessor.Run.loop input context fuel n
                { T1 with position_ := T1.position_ + 1,
                          result_set_ := TextProcessor.Concatenate T1.result_set_ str_list,
                          str_pool_ := pool } []) = _
          rw [hv]
        · show p < T1.position_ + 1
          omega
        · show T1.position_ + 1 ≤ input.length
          omega

/-- One round of the loop of `Run`. -/
theorem Run_loop_step (input : Str) (context : Option Context) (fuel n : Nat)
    (T : TextProcessor) (segment : Str) (h : T.position_ < input.length) :
    StepsTo input context fuel n T.position_
      (TextProcessor.Run.loop input context fuel (n + 1) T segment) := by
  rw [TextProcessor.Run.loop, if_pos h]
  split_ifs with h2 h3 h4 h5
  · exact Or.inl ⟨_, _, rfl, by show T.position_ < T.position_ + 2; omega, by
      show T.position_ + 2 ≤ input.length
      omega⟩
  · exact Or.inl ⟨_, _, rfl, by show T.position_ < T.position_ + 1; omega, by
      show T.position_ + 1 ≤ input.length
      omega⟩
  · exact region_step input context fuel n T.position_ _ rfl h
  · exact region_step input context fuel n T.position_ _ rfl h
  · exact Or.inl ⟨_, _, rfl, by show T.position_ < T.position_ + 1; omega, by
      show T.position_ + 1 ≤ input.length
      omega⟩

/-- The loop of `Run` does not run out of rounds, nor the evaluator of budget. -/
theorem Run_loop_terminates (input : Str) (context : Option Context) (fuel : Nat)
    (hf : input.length + 2 ≤ fuel) :
    ∀ (n : Nat) (T : TextProcessor) (segment : Str), T.position_ ≤ input.length →
      input.length - T.position_ + 1 ≤ n →
      TextProcessor.Run.loop input context fuel n T segment ≠ RunResult.crash Crash.fuel := by
  intro n
  induction n with
  | zero =>
    intro T segment h1 h2
    omega
  | succ n ih =>
    intro T segment h1 h2
    by_cases h : T.position_ < input.length
    · rcases Run_loop_step input context fuel n T segment h with
        ⟨T1, s1, e, a, b⟩ | ⟨e, he⟩ | ⟨c, hc, hcf⟩
      · rw [e]
        exact ih T1 s1 b (by omega)
      · rw [he]
        intro x
        cases x
      · rw [hc]
        intro x
        exact hcf hf (RunResult.crash.inj x)
    · rw [TextProcessor.Run.loop, if_neg h]
      split_ifs
      · intro x; cases x
      · intro x; cases x

end tsub

namespace tsub
open Value TokenId

/-! ### A larger budget gives the same outcome -/

theorem ext_bind : ∀ (r1 r2 : Result) (g : Interp → Interp) (K1 K2 : Value → Interp → Result),
    (r1 ≠ Result.crash Crash.fuel → r2 = r1) →
    (∀ v (J : Interp), K1 v J ≠ Result.crash Crash.fuel → K2 v J = K1 v J) →
    (match r1 with
        | Result.crash c => Result.crash c
        | Result.ret none I1 => Result.ret none (g I1)
        | Result.ret (some v) I1 => K1 v I1) ≠ Result.crash Crash.fuel →
    (match r2 with
        | Result.crash c => Result.crash c
        | Result.ret none I1 => Result.ret none (g I1)
        | Result.ret (some v) I1 => K2 v I1) =
    (match r1 with
        | Result.crash c => Result.crash c
        | Result.ret none I1 => Result.ret none (g I1)
        | Result.ret (some v) I1 => K1 v I1) := by
  intro r1 r2 g K1 K2 hr hK h
  by_cases h1 : r1 = Result.crash Crash.fuel
  · subst h1
    exact absurd rfl h
  · have e := hr h1
    subst e
    cases r2 with
    | crash c => rfl
    | ret o J =>
      cases o with
      | none => rfl
      | some v => exact hK v J h

theorem InterpListRange_ext (source : Str) (exp1 exp2 : Eval) (hexp : Ext exp1 exp2) :
    Ext (Interp.InterpListRange source exp1) (Interp.InterpListRange source exp2) := by
  intro env I h
  unfold Interp.InterpListRange at h ⊢
  split_ifs at h ⊢ with ht
  · rfl
  · exact hexp _ _ h

theorem InterpList_item_ext (source : Str) (exp1 exp2 : Eval) (hexp : Ext exp1 exp2)
    (env : List Value) (I : Interp)
    (h : Interp.InterpList.item source exp1 env I ≠ Interp.ItemResult.crash Crash.fuel) :
    Interp.InterpList.item source exp2 env I = Interp.InterpList.item source exp1 env I := by
  unfold Interp.InterpList.item at h ⊢
  by_cases h1 : exp1 (env ++ [VALUE_NULL]) I = Result.crash Crash.fuel
  · rw [h1] at h
    exact absurd rfl h
  · rw [hexp _ _ h1]
    cases hr : exp1 (env ++ [VALUE_NULL]) I with
    | crash c => rfl
    | ret o J =>
      cases o with
      | none => rfl
      | some val =>
        rw [hr] at h
        simp only [] at h ⊢
        by_cases h2 : Interp.InterpListRange source exp1 (env ++ [VALUE_NULL, val]) J =
            Result.crash Crash.fuel
        · rw [h2] at h
          exact absurd rfl h
        · rw [InterpListRange_ext source exp1 exp2 hexp _ _ h2]

theorem InterpList_loop_ext (source : Str) (exp1 exp2 : Eval) (hexp : Ext exp1 exp2) :
    ∀ (n1 n2 : Nat), n1 ≤ n2 → ∀ (env vl : List Value) (I : Interp),
      Interp.InterpList.loop source exp1 n1 env vl I ≠ Result.crash Crash.fuel →
      Interp.InterpList.loop source exp2 n2 env vl I =
        Interp.InterpList.loop source exp1 n1 env vl I := by
  intro n1
  induction n1 with
  | zero =>
    intro n2 _ env vl I h
    exact absurd rfl h
  | succ n1 ih =>
    intro n2 hn env vl I h
    obtain ⟨m, rfl⟩ : ∃ m, n2 = m + 1 := ⟨n2 - 1, by omega⟩
    rw [Interp.InterpList.loop] at h
    rw [Interp.InterpList.loop, Interp.InterpList.loop]
    by_cases h1 : Interp.InterpList.item source exp1 env I = Interp.ItemResult.crash Crash.fuel
    · rw [h1] at h
      exact absurd rfl h
    · rw [InterpList_item_ext source exp1 exp2 hexp env I h1]
      cases hr : Interp.InterpList.item source exp1 env I with
      | crash c => rfl
      | fail J => rfl
      | add added J =>
        rw [hr] at h
        simp only [] at h ⊢
        split_ifs at h ⊢
        · exact ih m (by omega) _ _ _ h
        · rfl
        · rfl

theorem InterpList_ext (source : Str) (exp1 exp2 : Eval) (hexp : Ext exp1 exp2)
    (f1 f2 : Nat) (hf : f1 ≤ f2) :
    Ext (Interp.InterpList source exp1 f1) (Interp.InterpList source exp2 f2) := by
  intro env I h
  unfold Interp.InterpList at h ⊢
  split_ifs at h ⊢
  · rfl
  · exact InterpList_loop_ext source exp1 exp2 hexp f1 f2 hf _ _ _ h

theorem InterpFunc_loop_ext (source : Str) (context : Option Context) (exp1 exp2 : Eval)
    (hexp : Ext exp1 exp2) (func_name : Str) :
    ∀ (n1 n2 : Nat), n1 ≤ n2 → ∀ (env par : List Value) (I : Interp),
      Interp.InterpFunc.loop source context exp1 func_name n1 env par I ≠
        Result.crash Crash.fuel →
      Interp.InterpFunc.loop source context exp2 func_name n2 env par I =
        Interp.InterpFunc.loop source context exp1 func_name n1 env par I := by
  intro n1
  induction n1 with
  | zero =>
    intro n2 _ env par I h
    exact absurd rfl h
  | succ n1 ih =>
    intro n2 hn env par I h
    obtain ⟨m, rfl⟩ : ∃ m, n2 = m + 1 := ⟨n2 - 1, by omega⟩
    rw [Interp.InterpFunc.loop] at h
    rw [Interp.InterpFunc.loop, Interp.InterpFunc.loop]
    refine ext_bind _ _ (Interp.kill env.length) _ _ (hexp _ _) ?_ h
    intro val J hK
    split_ifs at hK ⊢
    · exact ih m (by omega) _ _ _ hK
    · rfl
    · rfl

theorem InterpPF_ext (source : Str) (context : Option Context) (exp1 exp2 : Eval)
    (hexp : Ext exp1 exp2) (f1 f2 : Nat) (hf : f1 ≤ f2) :
    Ext (Interp.InterpPF source context exp1 f1) (Interp.InterpPF source context exp2 f2) := by
  intro env I h
  unfold Interp.InterpPF at h ⊢
  split_ifs at h ⊢
  · unfold Interp.InterpFunc at h ⊢
    exact InterpFunc_loop_ext source context exp1 exp2 hexp _ f1 f2 hf _ _ _ h
  · rfl

theorem InterpAtomic_ext (source : Str) (context : Option Context) (exp1 exp2 : Eval)
    (hexp : Ext exp1 exp2) (f1 f2 : Nat) (hf : f1 ≤ f2) :
    Ext (Interp.InterpAtomic source context exp1 f1)
      (Interp.InterpAtomic source context exp2 f2) := by
  intro env I h
  unfold Interp.InterpAtomic at h ⊢
  cases htk : I.token <;> rw [htk] at h <;> simp only [] at h ⊢ <;> try rfl
  · exact InterpPF_ext source context exp1 exp2 hexp f1 f2 hf env I h
  · exact ext_bind _ _ id _ _ (hexp _ _) (fun v J _ => rfl) h
  · exact InterpList_ext source exp1 exp2 hexp f1 f2 hf env I h

theorem InterpUnary_ext (source : Str) (context : Option Context) (exp1 exp2 : Eval)
    (hexp : Ext exp1 exp2) (f1 f2 : Nat) (hf : f1 ≤ f2) :
    Ext (Interp.InterpUnary source context exp1 f1)
      (Interp.InterpUnary source context exp2 f2) := by
  intro env I h
  have ha := InterpAtomic_ext source context exp1 exp2 hexp f1 f2 hf env (I.Move source)
  unfold Interp.InterpUnary at h ⊢
  cases htk : I.token <;> rw [htk] at h <;> simp only [] at h ⊢ <;> try rfl
  · exact ext_bind _ _ id _ _ ha (fun v J _ => rfl) h
  · exact ext_bind _ _ id _ _ ha (fun v J _ => rfl) h
  · exact ext_bind _ _ id _ _ ha (fun v J _ => rfl) h

theorem InterpFactor_ext (source : Str) (context : Option Context) (exp1 exp2 : Eval)
    (hexp : Ext exp1 exp2) (f1 f2 : Nat) (hf : f1 ≤ f2) :
    Ext (Interp.InterpFactor source context exp1 f1)
      (Interp.InterpFactor source context exp2 f2) := by
  intro env I h
  unfold Interp.InterpFactor at h ⊢
  split_ifs at h ⊢
  · exact InterpUnary_ext source context exp1 exp2 hexp f1 f2 hf env I h
  · exact InterpAtomic_ext source context exp1 exp2 hexp f1 f2 hf env I h

theorem opt_ext : ∀ (o : Option Int) (L1 L2 : Int → Result),
    (∀ r, L1 r ≠ Result.crash Crash.fuel → L2 r = L1 r) →
    (match o with
      | some r => L1 r
      | none => Result.crash Crash.assertion) ≠ Result.crash Crash.fuel →
    (match o with
      | some r => L2 r
      | none => Result.crash Crash.assertion) =
    (match o with
      | some r => L1 r
      | none => Result.crash Crash.assertion) := by
  intro o L1 L2 hL h
  cases o with
  | none => rfl
  | some r => exact hL r h

theorem InterpTerm_loop_ext (source : Str) (S1 S2 : Eval) (hS : Ext S1 S2) :
    ∀ (n1 n2 : Nat), n1 ≤ n2 → ∀ (env : List Value) (output : Value) (I : Interp),
      Interp.InterpTerm.loop source S1 n1 env output I ≠ Result.crash Crash.fuel →
      Interp.InterpTerm.loop source S2 n2 env output I =
        Interp.InterpTerm.loop source S1 n1 env output I := by
  intro n1
  induction n1 with
  | zero =>
    intro n2 _ env output I h
    exact absurd rfl h
  | succ n1 ih =>
    intro n2 hn env output I h
    obtain ⟨m, rfl⟩ : ∃ m, n2 = m + 1 := ⟨n2 - 1, by omega⟩
    rw [Interp.InterpTerm.loop] at h
    rw [Interp.InterpTerm.loop, Interp.InterpTerm.loop]
    split_ifs at h ⊢
    all_goals first
      | rfl
      | (refine ext_bind _ _ (Interp.kill env.length) _ _ (hS _ _) ?_ h
         intro rhs J hK
         cases rhs <;> cases output <;> simp only [] at hK ⊢
         first
           | exact ih m (by omega) _ _ _ hK
           | (split_ifs at hK ⊢
              · rfl
              · rfl
              · exact ih m (by omega) _ _ _ hK))

theorem InterpComp_loop_ext (source : Str) (S1 S2 : Eval) (hS : Ext S1 S2) :
    ∀ (n1 n2 : Nat), n1 ≤ n2 → ∀ (env : List Value) (output : Value) (I : Interp),
      Interp.InterpComp.loop source S1 n1 env output I ≠ Result.crash Crash.fuel →
      Interp.InterpComp.loop source S2 n2 env output I =
        Interp.InterpComp.loop source S1 n1 env output I := by
  intro n1
  induction n1 with
  | zero =>
    intro n2 _ env output I h
    exact absurd rfl h
  | succ n1 ih =>
    intro n2 hn env output I h
    obtain ⟨m, rfl⟩ : ∃ m, n2 = m + 1 := ⟨n2 - 1, by omega⟩
    rw [Interp.InterpComp.loop] at h
    rw [Interp.InterpComp.loop, Interp.InterpComp.loop]
    split_ifs at h ⊢
    all_goals first
      | rfl
      | (refine ext_bind _ _ (Interp.kill env.length) _ _ (hS _ _) ?_ h
         intro rhs J hK
         cases rhs <;> cases output <;> simp only [] at hK ⊢
         exact ih m (by omega) _ _ _ hK)

theorem InterpLogic_loop_ext (source : Str) (S1 S2 : Eval) (hS : Ext S1 S2) :
    ∀ (n1 n2 : Nat), n1 ≤ n2 → ∀ (env : List Value) (output : Value) (I : Interp),
      Interp.InterpLogic.loop source S1 n1 env output I ≠ Result.crash Crash.fuel →
      Interp.InterpLogic.loop source S2 n2 env output I =
        Interp.InterpLogic.loop source S1 n1 env output I := by
  intro n1
  induction n1 with
  | zero =>
    intro n2 _ env output I h
    exact absurd rfl h
  | succ n1 ih =>
    intro n2 hn env output I h
    obtain ⟨m, rfl⟩ : ∃ m, n2 = m + 1 := ⟨n2 - 1, by omega⟩
    rw [Interp.InterpLogic.loop] at h
    rw [Interp.InterpLogic.loop, Interp.InterpLogic.loop]
    split_ifs at h ⊢
    all_goals first
      | rfl
      | (refine ext_bind _ _ (Interp.kill env.length) _ _ (hS _ _) ?_ h
         intro rhs J hK
         cases rhs <;> cases output <;> simp only [] at hK ⊢
         all_goals exact opt_ext _ _ _ (fun r hr => ih m (by omega) _ _ _ hr) hK)

theorem InterpTenery_loop_ext (source : Str) (S1 S2 : Eval) (hS : Ext S1 S2) :
    ∀ (n1 n2 : Nat), n1 ≤ n2 → ∀ (env : List Value) (output : Value) (I : Interp),
      Interp.InterpTenery.loop source S1 n1 env output I ≠ Result.crash Crash.fuel →
      Interp.InterpTenery.loop source S2 n2 env output I =
        Interp.InterpTenery.loop source S1 n1 env output I := by
  intro n1
  induction n1 with
  | zero =>
    intro n2 _ env output I h
    exact absurd rfl h
  | succ n1 ih =>
    intro n2 hn env output I h
    obtain ⟨m, rfl⟩ : ∃ m, n2 = m + 1 := ⟨n2 - 1, by omega⟩
    rw [Interp.InterpTenery.loop] at h
    rw [Interp.InterpTenery.loop, Interp.InterpTenery.loop]
    split_ifs at h ⊢
    all_goals first
      | rfl
      | (refine ext_bind _ _ (Interp.kill env.length) _ _ (hS _ _) ?_ h
         intro rhs J hK
         split_ifs at hK ⊢
         · rfl
         · exact ih m (by omega) _ _ _ hK)

theorem InterpTerm_ext (source : Str) (context : Option Context) (exp1 exp2 : Eval)
    (hexp : Ext exp1 exp2) (f1 f2 : Nat) (hf : f1 ≤ f2) :
    Ext (Interp.InterpTerm source context exp1 f1) (Interp.InterpTerm source context exp2 f2) := by
  have h0 := InterpFactor_ext source context exp1 exp2 hexp f1 f2 hf
  intro env I h
  unfold Interp.InterpTerm at h ⊢
  exact ext_bind _ _ id _ _ (h0 _ _)
    (fun v J hK => InterpTerm_loop_ext source _ _ h0 f1 f2 hf env v J hK) h

theorem InterpComp_ext (source : Str) (context : Option Context) (exp1 exp2 : Eval)
    (hexp : Ext exp1 exp2) (f1 f2 : Nat) (hf : f1 ≤ f2) :
    Ext (Interp.InterpComp source context exp1 f1) (Interp.InterpComp source context exp2 f2) := by
  have h0 := InterpTerm_ext source context exp1 exp2 hexp f1 f2 hf
  intro env I h
  unfold Interp.InterpComp at h ⊢
  exact ext_bind _ _ id _ _ (h0 _ _)
    (fun v J hK => InterpComp_loop_ext source _ _ h0 f1 f2 hf env v J hK) h

theorem InterpLogic_ext (source : Str) (context : Option Context) (exp1 exp2 : Eval)
    (hexp : Ext exp1 exp2) (f1 f2 : Nat) (hf : f1 ≤ f2) :
    Ext (Interp.InterpLogic source context exp1 f1)
      (Interp.InterpLogic source context exp2 f2) := by
  have h0 := InterpComp_ext source context exp1 exp2 hexp f1 f2 hf
  intro env I h
  unfold Interp.InterpLogic at h ⊢
  exact ext_bind _ _ id _ _ (h0 _ _)
    (fun v J hK => InterpLogic_loop_ext source _ _ h0 f1 f2 hf env v J hK) h

theorem InterpTenery_ext (source : Str) (context : Option Context) (exp1 exp2 : Eval)
    (hexp : Ext exp1 exp2) (f1 f2 : Nat) (hf : f1 ≤ f2) :
    Ext (Interp.InterpTenery source context exp1 f1)
      (Interp.InterpTenery source context exp2 f2) := by
  have h0 := InterpLogic_ext source context exp1 exp2 hexp f1 f2 hf
  intro env I h
  unfold Interp.InterpTenery at h ⊢
  exact ext_bind _ _ id _ _ (h0 _ _)
    (fun v J hK => InterpTenery_loop_ext source _ _ h0 f1 f2 hf env v J hK) h

theorem InterpPostExp_ext (source : Str) (context : Option Context) (exp1 exp2 : Eval)
    (hexp : Ext exp1 exp2) (f1 f2 : Nat) (hf : f1 ≤ f2) :
    Ext (Interp.InterpPostExp source context exp1 f1)
      (Interp.InterpPostExp source context exp2 f2) := by
  have h0 := InterpTenery_ext source context exp1 exp2 hexp f1 f2 hf
  intro env I h
  unfold Interp.InterpPostExp at h ⊢
  refine ext_bind _ _ id _ _ (h0 _ _) ?_ h
  intro output J hK
  by_cases hq : J.token = TK_QUESTION
  · rw [if_pos hq] at hK
    rw [if_pos hq, if_pos hq]
    refine ext_bind _ _ (Interp.kill env.length) _ _ (hexp _ _) ?_ hK
    intro l K hK2
    by_cases hcol : K.token ≠ TK_COLON
    · rw [if_pos hcol, if_pos hcol]
    · rw [if_neg hcol] at hK2
      rw [if_neg hcol, if_neg hcol]
      exact ext_bind _ _ (Interp.kill env.length) _ _ (hexp _ _) (fun v L _ => rfl) hK2
  · rw [if_neg hq, if_neg hq]

theorem InterpExp_each_ext (source : Str) (body1 body2 : Interp → Result)
    (hb : ∀ J : Interp, body1 J ≠ Result.crash Crash.fuel → body2 J = body1 J) (d pos : Nat) :
    ∀ (l : List Value) (end_ : Option Nat) (new_list : List Value) (I : Interp),
      Interp.InterpExp.each source body1 d pos l end_ new_list I ≠ Result.crash Crash.fuel →
      Interp.InterpExp.each source body2 d pos l end_ new_list I =
        Interp.InterpExp.each source body1 d pos l end_ new_list I := by
  intro l
  induction l with
  | nil =>
    intro end_ new_list I h
    cases end_ <;> rfl
  | cons x xs ih =>
    intro end_ new_list I h
    rw [Interp.InterpExp.each] at h
    rw [Interp.InterpExp.each, Interp.InterpExp.each]
    refine ext_bind _ _ (Interp.kill d) _ _ (hb _) ?_ h
    intro new_val J hK
    cases end_ with
    | none =>
      simp only [] at hK ⊢
      split_ifs at hK ⊢
      · rfl
      · exact ih _ _ _ hK
    | some e => exact ih _ _ _ hK

/-- The outcome of the evaluator does not depend on the budget once it is enough. -/
theorem InterpExp_ext (source : Str) (context : Option Context) :
    ∀ (f1 f2 : Nat), f1 ≤ f2 →
      Ext (Interp.InterpExp source context f1) (Interp.InterpExp source context f2) := by
  intro f1
  induction f1 with
  | zero =>
    intro f2 _ env I h
    exact absurd rfl h
  | succ f1 ih =>
    intro f2 hf env I h
    obtain ⟨m, rfl⟩ : ∃ m, f2 = m + 1 := ⟨f2 - 1, by omega⟩
    have hm : f1 ≤ m := by omega
    rw [Interp.InterpExp] at h
    rw [Interp.InterpExp, Interp.InterpExp]
    refine ext_bind _ _ id _ _
      (InterpPostExp_ext source context _ _ (ih m hm) f1 m hm env I) ?_ h
    intro output J hK
    split_ifs at hK ⊢
    · cases output with
      | VALUE_LIST l =>
        exact InterpExp_each_ext source _ _ (fun K hk => ih m hm _ K hk) _ _ l none [] _ hK
      | VALUE_STRING s =>
        exact ext_bind _ _ (Interp.kill env.length) _ _ (ih m hm _ _) (fun v L _ => rfl) hK
      | VALUE_NUMBER n =>
        exact ext_bind _ _ (Interp.kill env.length) _ _ (ih m hm _ _) (fun v L _ => rfl) hK
      | VALUE_NULL =>
        exact ext_bind _ _ (Interp.kill env.length) _ _ (ih m hm _ _) (fun v L _ => rfl) hK
    · rfl

theorem ProcessExp_ext (input : Str) (context : Option Context) (f1 f2 : Nat) (hf : f1 ≤ f2)
    (T : TextProcessor)
    (h : TextProcessor.ProcessExp input context f1 T ≠ Except.error Crash.fuel) :
    TextProcessor.ProcessExp input context f2 T = TextProcessor.ProcessExp input context f1 T := by
  unfold TextProcessor.ProcessExp at h ⊢
  unfold Interp.DoInterp at h ⊢
  by_cases h1 : Interp.InterpExp input context f1 []
      (Interp.init input T.position_ T.error_desp_) = Result.crash Crash.fuel
  · rw [h1] at h
    exact absurd rfl h
  · rw [InterpExp_ext input context f1 f2 hf _ _ h1]

theorem Run_loop_ext (input : Str) (context : Option Context) (f1 f2 : Nat) (hf : f1 ≤ f2) :
    ∀ (n : Nat) (T : TextProcessor) (segment : Str),
      TextProcessor.Run.loop input context f1 n T segment ≠ RunResult.crash Crash.fuel →
      TextProcessor.Run.loop input context f2 n T segment =
        TextProcessor.Run.loop input context f1 n T segment := by
  intro n
  induction n with
  | zero => intro T segment h; rfl
  | succ n ih =>
    intro T segment h
    have key : ∀ T0 : TextProcessor,
        (match TextProcessor.ProcessExp input context f1 T0 with
          | Except.error c => RunResult.crash c
          | Except.ok (none, T1) => RunResult.fail T1.error_desp_
          | Except.ok (some val, T1) =>
            match TextProcessor.ValueToStringList T1.str_pool_ val [] with
            | none => RunResult.crash Crash.assertion
            | some (str_list, pool) =>
              TextProcessor.Run.loop input context f1 n
                { T1 with position_ := T1.position_ + 1,
                          result_set_ := TextProcessor.Concatenate T1.result_set_ str_list,
                          str_pool_ := pool } []) ≠ RunResult.crash Crash.fuel →
        (match TextProcessor.ProcessExp input context f2 T0 with
          | Except.error c => RunResult.crash c
          | Except.ok (none, T1) => RunResult.fail T1.error_desp_
          | Except.ok (some val, T1) =>
            match TextProcessor.ValueToStringList T1.str_pool_ val [] with
            | none => RunResult.crash Crash.assertion
            | some (str_list, pool) =>
              TextProcessor.Run.loop input context f2 n
                { T1 with position_ := T1.position_ + 1,
                          result_set_ := TextProcessor.Concatenate T1.result_set_ str_list,
                          str_pool_ := pool } []) =
        (match TextProcessor.ProcessExp input context f1 T0 with
          | Except.error c => RunResult.crash c
          | Except.ok (none, T1) => RunResult.fail T1.error_desp_
          | Except.ok (some val, T1) =>
            match TextProcessor.ValueToStringList T1.str_pool_ val [] with
            | none => RunResult.crash Crash.assertion
            | some (str_list, pool) =>
              TextProcessor.Run.loop input context f1 n
                { T1 with position_ := T1.position_ + 1,
                          result_set_ := TextProcessor.Concatenate T1.result_set_ str_list,
                          str_pool_ := pool } []) := by
      intro T0 hk
      by_cases h1 : TextProcessor.ProcessExp input context f1 T0 = Except.error Crash.fuel
      · rw [h1] at hk
        exact absurd rfl hk
      · rw [ProcessExp_ext input context f1 f2 hf T0 h1]
        cases hpe : TextProcessor.ProcessExp input context f1 T0 with
        | error c => rfl
        | ok q =>
          obtain ⟨o, T1⟩ := q
          cases o with
          | none => rfl
          | some val =>
            rw [hpe] at hk
            simp only [] at hk ⊢
            cases hv : TextProcessor.ValueToStringList T1.str_pool_ val [] with
            | none => rfl
            | some x =>
              rw [hv] at hk
              exact ih _ _ hk
    rw [TextProcessor.Run.loop] at h
    rw [TextProcessor.Run.loop, TextProcessor.Run.loop]
    split_ifs at h ⊢
    all_goals first
      | rfl
      | exact ih _ _ h
      | exact key _ h

end tsub

namespace tsub
open Value TokenId

/-! ### Termination of `Run` and of the evaluator -/

theorem DoInterp_no_fuel (source : Str) (context : Option Context) (fuel p : Nat) (error : Str)
    (hp : p ≤ source.length) (hf : source.length + 2 ≤ fuel) :
    Interp.DoInterp source context fuel p error ≠ Result.crash Crash.fuel := by
  intro e
  have h := DoInterp_adv source context fuel p error hp
  rw [e] at h
  exact h hf rfl

theorem DoInterp_stable (source : Str) (context : Option Context) (fuel p : Nat) (error : Str)
    (hp : p ≤ source.length) (hf : source.length + 2 ≤ fuel) :
    Interp.DoInterp source context fuel p error =
      Interp.DoInterp source context (source.length + 2) p error :=
  InterpExp_ext source context (source.length + 2) fuel hf [] _
    (DoInterp_no_fuel source context (source.length + 2) p error hp (le_refl _))

theorem Run_no_fuel (input : Str) (context : Option Context) (fuel : Nat) (error : Str)
    (hf : input.length + 2 ≤ fuel) :
    Run fuel context input error ≠ RunResult.crash Crash.fuel :=
  Run_loop_terminates input context fuel hf (input.length + 1) _ [] (Nat.zero_le _)
    (by show input.length - 0 + 1 ≤ input.length + 1; omega)

theorem Run_stable (input : Str) (context : Option Context) (fuel : Nat) (error : Str)
    (hf : input.length + 2 ≤ fuel) :
    Run fuel context input error = Run (input.length + 2) context input error :=
  Run_loop_ext input context (input.length + 2) fuel hf (input.length + 1) _ []
    (Run_no_fuel input context (input.length + 2) error (le_refl _))

theorem Peek_rounds (source : Str) (pos : Nat) :
    ∃ q l, Scanner.PeekCase (Scanner.NChar source q) (Scanner.NChar source (q + 1)) = some l ∧
      Scanner.Peek source pos = (l, q) ∧ (q = pos ∨ q = Scanner.SkipSpace source pos) := by
  unfold Scanner.Peek
  cases h : Scanner.PeekCase (Scanner.NChar source pos) (Scanner.NChar source (pos + 1)) with
  | some l => exact ⟨pos, l, h, rfl, Or.inl rfl⟩
  | none =>
    cases h2 : Scanner.PeekCase (Scanner.NChar source (Scanner.SkipSpace source pos))
        (Scanner.NChar source (Scanner.SkipSpace source pos + 1)) with
    | some l => exact ⟨Scanner.SkipSpace source pos, l, h2, by simp only [h2], Or.inr rfl⟩
    | none => exact absurd h2 (PeekCase_SkipSpace source pos _)

theorem LoopBounded_of_adv (source : Str)
    (loop : Nat → Nat → List Value → Value → Interp → Result)
    (h : ∀ (f n : Nat) (env : List Value) (output : Value) (I : Interp),
      Scanner.Consistent source I.scanner_ →
      (True → source.length - I.scanner_.position_ + 1 ≤ n) →
      (True → source.length - I.scanner_.position_ + 1 ≤ f) →
      Adv source True 0 I.scanner_.position_ (loop f n env output I)) :
    LoopBounded source loop := by
  intro f n env output I hc hf hn e
  have h1 := h f n env output I hc (fun _ => hn) (fun _ => hf)
  rw [e] at h1
  exact h1 trivial rfl

theorem Term_loop_bounded (source : Str) (context : Option Context) :
    LoopBounded source (fun f => Interp.InterpTerm.loop source
      (Interp.InterpFactor source context (Interp.InterpExp source context f) f)) :=
  LoopBounded_of_adv source _ (fun f => InterpTerm_loop_adv source f _
    (InterpFactor_adv source context f _ (InterpExp_adv source context f)) True)

theorem Comp_loop_bounded (source : Str) (context : Option Context) :
    LoopBounded source (fun f => Interp.InterpComp.loop source
      (Interp.InterpTerm source context (Interp.InterpExp source context f) f)) :=
  LoopBounded_of_adv source _ (fun f => InterpComp_loop_adv source f _
    (InterpTerm_adv source context f _ (InterpExp_adv source context f)) True)

theorem Logic_loop_bounded (source : Str) (context : Option Context) :
    LoopBounded source (fun f => Interp.InterpLogic.loop source
      (Interp.InterpComp source context (Interp.InterpExp source context f) f)) :=
  LoopBounded_of_adv source _ (fun f => InterpLogic_loop_adv source f _
    (InterpComp_adv source context f _ (InterpExp_adv source context f)) True)

theorem Tenery_loop_bounded (source : Str) (context : Option Context) :
    LoopBounded source (fun f => Interp.InterpTenery.loop source
      (Interp.InterpLogic source context (Interp.InterpExp source context f) f)) :=
  LoopBounded_of_adv source _ (fun f => InterpTenery_loop_adv source f _
    (InterpLogic_adv source context f _ (InterpExp_adv source context f)) True)

theorem loop_token_mem (t : TokenId)
    (h : t = TK_MUL ∨ t = TK_DIV ∨ t = TK_ADD ∨ t = TK_SUB ∨ Interp.isRelational t = true ∨
      t = TK_AND ∨ t = TK_OR) : t ∈ operatorTokens := by
  rcases h with h | h | h | h | h | h | h
  all_goals first
    | exact isRelational_mem t h
    | (subst h; decide)

theorem each_results (source : Str) (body : Interp → Result) (d pos : Nat) :
    ∀ (l : List Value) (end_ : Option Nat) (new_list : List Value) (I : Interp) (out : Value)
      (K : Interp),
      Interp.InterpExp.each source body d pos l end_ new_list I = Result.ret (some out) K →
      ∃ vals, out = VALUE_LIST (new_list ++ vals) ∧
        List.Forall₂ (fun x v => ∃ J K1 : Interp, J.dollar_value_ = Dollar.elem d x ∧
          body J = Result.ret (some v) K1) l vals := by
  intro l
  induction l with
  | nil =>
    intro end_ new_list I out K h
    cases end_ with
    | none => simp [Interp.InterpExp.each] at h
    | some e =>
      simp only [Interp.InterpExp.each, Result.ret.injEq, Option.some.injEq] at h
      exact ⟨[], by simpa using h.1.symm, List.Forall₂.nil⟩
  | cons x xs ih =>
    intro end_ new_list I out K h
    unfold Interp.InterpExp.each at h
    cases hb : body { I with dollar_value_ := Dollar.elem d x } with
    | crash c => rw [hb] at h; cases h
    | ret o J =>
      rw [hb] at h
      cases o with
      | none => simp at h
      | some new_val =>
        simp only [] at h
        have step : ∀ e2 I2, Interp.InterpExp.each source body d pos xs e2
            (new_list ++ [new_val]) I2 = Result.ret (some out) K →
            ∃ vals, out = VALUE_LIST (new_list ++ vals) ∧
              List.Forall₂ (fun x v => ∃ J K1 : Interp, J.dollar_value_ = Dollar.elem d x ∧
                body J = Result.ret (some v) K1) (x :: xs) vals := by
          intro e2 I2 h2
          obtain ⟨vals, h3, h4⟩ := ih _ _ _ _ _ h2
          exact ⟨new_val :: vals, by rw [h3, List.append_assoc]; rfl,
            List.Forall₂.cons ⟨_, J, rfl, hb⟩ h4⟩
        cases end_ with
        | none =>
          simp only [] at h
          split_ifs at h
          · simp at h
          · exact step _ _ h
        | some e =>
          simp only [] at h
          exact step _ _ h

/-- C32: the end offset of an evaluation.  For every source, host, budget and start offset
`p` inside the source: when `DoInterp` succeeds, the offset `q` it returns (the position of
the scanner) has `p < q` and `q` is at most the length of the source; when it fails, the
scanner is between `p` and the end of the source; the outcome is never the exhaustion of a
budget of at least the length plus 2, and it does not depend on such a budget.  So one round
of the loop of `Run` at a position inside the input either goes on at a position strictly
beyond, or returns failure, or does not return, and that never for want of budget. -/
theorem end_offset_bound (source : Str) (context : Option Context) (fuel p : Nat)
    (error : Str) (hp : p ≤ source.length) :
    (∀ v J, Interp.DoInterp source context fuel p error = Result.ret (some v) J →
      p < J.scanner_.position_ ∧ J.scanner_.position_ ≤ source.length) ∧
    (∀ J, Interp.DoInterp source context fuel p error = Result.ret none J →
      p ≤ J.scanner_.position_ ∧ J.scanner_.position_ ≤ source.length) ∧
    (source.length + 2 ≤ fuel →
      Interp.DoInterp source context fuel p error ≠ Result.crash Crash.fuel ∧
      Interp.DoInterp source context fuel p error =
        Interp.DoInterp source context (source.length + 2) p error) ∧
    (∀ (n : Nat) (T : TextProcessor) (segment : Str), T.position_ = p → p < source.length →
      StepsTo source context fuel n p
        (TextProcessor.Run.loop source context fuel (n + 1) T segment)) := by
  have h := DoInterp_adv source context fuel p error hp
  refine ⟨?_, ?_, ?_, ?_⟩
  · intro v J e
    rw [e] at h
    exact ⟨h.2, h.1.2⟩
  · intro J e
    rw [e] at h
    exact ⟨h.2, h.1.2⟩
  · intro hf
    exact ⟨DoInterp_no_fuel source context fuel p error hp hf,
      DoInterp_stable source context fuel p error hp hf⟩
  · intro n T segment hT hlt
    subst hT
    exact Run_loop_step source context fuel n T segment hlt

/-- C32, witness: in the template of `1+2` between backticks the evaluation from offset 1
ends at offset 4, the closing backtick, and the round of `Run` at offset 0 goes on. -/
theorem end_offset_bound_witness :
    Interp.DoInterp "\x601+2\x60".toList none 7 1 [] =
      Result.ret (some (VALUE_NUMBER 3)) ⟨⟨Lexme.unknown, 4, 1⟩, Dollar.null, []⟩ ∧
    (1 < 4 ∧ 4 ≤ "\x601+2\x60".toList.length) ∧
    Interp.DoInterp "\x601+2\x60".toList none 7 1 [] ≠ Result.crash Crash.fuel :=
  ⟨by decide!,
    (end_offset_bound "\x601+2\x60".toList none 7 1 [] (by decide)).1 (VALUE_NUMBER 3)
      ⟨⟨Lexme.unknown, 4, 1⟩, Dollar.null, []⟩ (by decide!),
    ((end_offset_bound "\x601+2\x60".toList none 7 1 [] (by decide)).2.2.1 (by decide)).1⟩

end tsub

namespace tsub
open Value TokenId

/-- C33: termination.  With no host and a budget of at least the length of the template
plus 2, the outcome of `Run` is the outcome at the budget of exactly that size, and it is
never the exhaustion of the budget: the execution is finite.  It ends in a return of true
or of false, or it does not return: the exception `std::out_of_range` of `ProcessExp`
escapes, the division of `-2147483648` by `-1` traps, an assertion fails, or the behaviour
is undefined (a message beyond the buffer of `ReportError`, a dollar pointer into the
storage of a function that has returned).  `Scanner::Peek` returns from the first or the
second round of its loop.  A step over an operator token of the loops of `InterpTerm`,
`InterpComp`, `InterpLogic` and `InterpTenery` moves the scanner forward, and none of
these loops uses up a budget of one round more than the bytes left.  When the loop of a
map-expression succeeds, its result holds, in order, one value per element of the mapped
list, each the value of the body on that element. -/
theorem run_terminates (input : Str) (fuel : Nat) (error : Str)
    (hf : input.length + 2 ≤ fuel) :
    Run fuel none input error = Run (input.length + 2) none input error ∧
    Run fuel none input error ≠ RunResult.crash Crash.fuel ∧
    ((∃ out e, Run fuel none input error = RunResult.ok out e) ∨
      (∃ e, Run fuel none input error = RunResult.fail e) ∨
      Run fuel none input error = RunResult.crash Crash.exception ∨
      Run fuel none input error = RunResult.crash Crash.trap ∨
      Run fuel none input error = RunResult.crash Crash.assertion ∨
      Run fuel none input error = RunResult.crash Crash.undefined) ∧
    (∀ pos, ∃ q l,
      Scanner.PeekCase (Scanner.NChar input q) (Scanner.NChar input (q + 1)) = some l ∧
      Scanner.Peek input pos = (l, q) ∧ (q = pos ∨ q = Scanner.SkipSpace input pos)) ∧
    (∀ I : Interp, Scanner.Consistent input I.scanner_ →
      (I.token = TK_MUL ∨ I.token = TK_DIV ∨ I.token = TK_ADD ∨ I.token = TK_SUB ∨
        Interp.isRelational I.token = true ∨ I.token = TK_AND ∨ I.token = TK_OR) →
      I.scanner_.position_ < (I.Move input).scanner_.position_ ∧
      (I.Move input).scanner_.position_ ≤ input.length) ∧
    LoopBounded input (fun f => Interp.InterpTerm.loop input
      (Interp.InterpFactor input none (Interp.InterpExp input none f) f)) ∧
    LoopBounded input (fun f => Interp.InterpComp.loop input
      (Interp.InterpTerm input none (Interp.InterpExp input none f) f)) ∧
    LoopBounded input (fun f => Interp.InterpLogic.loop input
      (Interp.InterpComp input none (Interp.InterpExp input none f) f)) ∧
    LoopBounded input (fun f => Interp.InterpTenery.loop input
      (Interp.InterpLogic input none (Interp.InterpExp input none f) f)) ∧
    (∀ (body : Interp → Result) (d pos : Nat) (l new_list : List Value) (end_ : Option Nat)
      (I K : Interp) (out : Value),
      Interp.InterpExp.each input body d pos l end_ new_list I = Result.ret (some out) K →
      ∃ vals, out = VALUE_LIST (new_list ++ vals) ∧
        List.Forall₂ (fun x v => ∃ J K1 : Interp, J.dollar_value_ = Dollar.elem d x ∧
          body J = Result.ret (some v) K1) l vals) := by
  have h1 := Run_no_fuel input none fuel error hf
  refine ⟨Run_stable input none fuel error hf, h1, ?_, Peek_rounds input, ?_,
    Term_loop_bounded input none, Comp_loop_bounded input none, Logic_loop_bounded input none,
    Tenery_loop_bounded input none, ?_⟩
  · cases h : Run fuel none input error with
    | ok out e => exact Or.inl ⟨out, e, rfl⟩
    | fail e => exact Or.inr (Or.inl ⟨e, rfl⟩)
    | crash c =>
      cases c with
      | fuel => exact absurd h h1
      | exception => exact Or.inr (Or.inr (Or.inl rfl))
      | trap => exact Or.inr (Or.inr (Or.inr (Or.inl rfl)))
      | assertion => exact Or.inr (Or.inr (Or.inr (Or.inr (Or.inl rfl))))
      | undefined => exact Or.inr (Or.inr (Or.inr (Or.inr (Or.inr rfl))))
  · intro I hc ht
    have h := Move_adv input I hc (loop_token_mem I.token ht)
    exact ⟨by omega, h.1.2⟩
  · intro body d pos l new_list end_ I K out h
    exact each_results input body d pos l end_ new_list I out K h

/-- C33, witness: on the 2-byte template of a backtick and `1`, whose region the end of the
input terminates, `Run` does not return: the exception escapes at every budget from 4 on.
Nor does it return on the template of `2147483648/4294967295`, where the division traps,
on that of `[1{$},$]`, where the assertion of `ValueToStringList` fails, and on that of an
identifier of 1500 bytes, whose diagnostic is longer than the buffer of `ReportError`.  On
the template of `[1,2]` mapped by `$+1` it returns the two values. -/
theorem run_terminates_witness :
    "\x601".toList.length + 2 ≤ 9 ∧
    Run 9 none "\x601".toList [] = Run 4 none "\x601".toList [] ∧
    Run 4 none "\x601".toList [] = RunResult.crash Crash.exception ∧
    Run 50 none "\x602147483648/4294967295\x60".toList [] = RunResult.crash Crash.trap ∧
    Run 50 none "\x60[1\x7b$\x7d,$]\x60".toList [] = RunResult.crash Crash.assertion ∧
    Run 50 none ("\x60".toList ++ List.replicate 1500 'a' ++ "\x60".toList) [] =
      RunResult.crash Crash.undefined ∧
    Run 19 none "\x60[1,2]\x7b$+1\x7d\x60".toList [] =
      RunResult.ok ["2".toList, "3".toList] [] :=
  ⟨by decide, (run_terminates "\x601".toList 9 [] (by decide)).1, by decide!, by decide!,
    by decide!, by decide!, by decide!⟩

end tsub

namespace tsub
open Value TokenId

/-! ### The width of a number literal -/

theorem Run_single_fail (context : Option Context) (fuel : Nat) (E error : Str) (I1 : Interp)
    (h : Interp.DoInterp E context fuel 0 [] = Result.ret none I1) :
    ∃ e, Run fuel context ('\x60' :: (E ++ ['\x60'])) error = RunResult.fail e := by
  unfold Run TextProcessor.Run
  exact loop_region_fail _ context fuel _ _ [] E [] I1 [] rfl (by simp) h

theorem EvalFails_of_Parses (context : Option Context) (f : Nat) (text : Str)
    (h : Parses text (Interp.InterpFactor text context (Interp.InterpExp text context f) f) 6
      (text, Out.fail)) (hs : Starts text) (hf : 0 < f) :
    ∃ J, Interp.DoInterp text context (f + 1) 0 [] = Result.ret none J := by
  have hp := all_levels text context (Interp.InterpExp text context f) f (text, Out.fail) [] h hs
    (by simpa using hf) (by simp)
  rw [passAll_nil] at hp
  have hB := DoInterp_of_Parses context f (text, Out.fail) (Parses_Exp _ context f _ hp.1) []
  simp only [Yields] at hB
  exact hB

theorem wrap32_range (x : Int) :
    -2147483648 ≤ wrap32 x ∧ wrap32 x < 2147483648 ∧ (x - wrap32 x) % 4294967296 = 0 := by
  unfold wrap32
  omega

theorem atPos_digit_position (source : Str) (q : Nat) (ds rest : Str) (start : Nat) (err : Str)
    (h : source.drop q = ds ++ rest) (hne : ds ≠ []) (hd : ∀ c ∈ ds, isdigit c = true) :
    (Interp.atPos source start err q).scanner_.position_ = q ∧
      (Interp.atPos source start err q).token = TK_NUMBER := by
  obtain ⟨c, r, e⟩ := List.exists_cons_of_ne_nil hne
  have hp := Peek_digit source q c (r ++ rest) (by rw [h, e]; rfl)
    (hd c (by rw [e]; exact List.mem_cons_self _ _))
  constructor
  · simp only [Interp.atPos, hp]
  · rw [atPos_token, hp]

/-- C31, counterexample: on the literal `99999999999999999999`, beyond the range of `long`,
`ParseNumber` fails and leaves the scanner where it was, on the first digit at offset 0,
not behind the 20 digits.  The difference shows where a failure is not fatal: as the end of
a range the literal leaves the list on the token of the number, and the list fails on it,
while the end `1/0`, which fails behind its text, lets the list close. -/
theorem number_literal_width_counterexample :
    Interp.ParseNumber "99999999999999999999".toList
        (Interp.init "99999999999999999999".toList 0 []) =
      Result.ret none ⟨⟨⟨TK_NUMBER, 0⟩, 0, 0⟩, Dollar.null, []⟩ ∧
    ("99999999999999999999".toList.takeWhile isdigit).length = 20 ∧
    Run 50 none "\x60[1..99999999999999999999]\x60".toList [] =
      RunResult.fail
        "[Module:Interp,Location:(1,5)]:\nlist literal has unexpected token:<number>\n".toList ∧
    Run 50 none "\x60[1..1/0]\x60".toList [] =
      RunResult.ok ["1".toList] "[Module:Interp,Location:(1,8)]:\nDivide zero!\n".toList := by
  decide!

/-- C31: the width of a number literal.  Let `ds` be a maximal run of decimal digits at the
offset `q` of the source, of value `digitsVal ds`.  When the value is below `2^63`,
`ParseNumber` succeeds with the value reduced modulo `2^32` into the range of a signed
32-bit integer, and the scanner is moved by exactly the digits of the run.  When the value
is `2^63` or more, `ParseNumber` fails and the scanner stays at `q`, on the first digit.
With no host, the template of the run between two backticks gives the rendering of the
reduced value in the first case and makes `Run` fail in the second. -/
theorem number_literal_width (source : Str) (q : Nat) (ds rest : Str) (start : Nat) (err : Str)
    (h : source.drop q = ds ++ rest) (hne : ds ≠ []) (hd : ∀ c ∈ ds, isdigit c = true)
    (hr : isdigit (Scanner.NChar source (q + ds.length)) = false) :
    (Interp.atPos source start err q).scanner_.position_ = q ∧
    (digitsVal ds < 9223372036854775808 →
      Interp.ParseNumber source (Interp.atPos source start err q) =
        Result.ret (some (VALUE_NUMBER (wrap32 (digitsVal ds))))
          (Interp.atPos source start err (q + ds.length)) ∧
      -2147483648 ≤ wrap32 (digitsVal ds) ∧ wrap32 (digitsVal ds) < 2147483648 ∧
      (digitsVal ds - wrap32 (digitsVal ds)) % 4294967296 = 0) ∧
    (9223372036854775808 ≤ digitsVal ds →
      Interp.ParseNumber source (Interp.atPos source start err q) =
        Result.ret none (Interp.atPos source start err q)) ∧
    (∀ (fuel : Nat) (error : Str), 2 ≤ fuel →
      (digitsVal ds < 9223372036854775808 →
        ∃ e, Run fuel none ('\x60' :: (ds ++ ['\x60'])) error =
          RunResult.ok [sprintf_d (wrap32 (digitsVal ds))] e) ∧
      (9223372036854775808 ≤ digitsVal ds →
        ∃ e, Run fuel none ('\x60' :: (ds ++ ['\x60'])) error = RunResult.fail e)) := by
  have hP := ParseNumber_digits source q ds rest start err h hne hd hr
  refine ⟨(atPos_digit_position source q ds rest start err h hne hd).1, ?_, ?_, ?_⟩
  · intro hlt
    rw [if_pos (by omega)] at hP
    exact ⟨hP, wrap32_range _⟩
  · intro hge
    rw [if_neg (by omega)] at hP
    exact hP
  · intro fuel error hf
    obtain ⟨f, rfl⟩ : ∃ f, fuel = f + 1 := ⟨fuel - 1, by omega⟩
    have hF := Factor_digits ds none (Interp.InterpExp ds none f) f ds hne hd
    constructor
    · intro hlt
      rw [if_pos (by omega)] at hF
      have hE := EvalsTo_of_Parses none f _ _ hF (Starts_digits _ hne hd) (by omega)
      exact Run_single none (f + 1) _ error _ [sprintf_d (wrap32 (digitsVal ds))] hE
        (by rw [value_to_strings_eq_flat, Value.flat])
    · intro hge
      rw [if_neg (by omega)] at hF
      obtain ⟨J, hJ⟩ := EvalFails_of_Parses none f _ hF (Starts_digits _ hne hd) (by omega)
      exact Run_single_fail none (f + 1) _ error J hJ

/-- C31, witness: the literal `4294967297` has the value 1 and the literal `2147483648` the
value -2147483648, the scanner behind the 10 digits; the template of `4294967297` gives
`1`. -/
theorem number_literal_width_witness :
    Interp.ParseNumber "4294967297".toList (Interp.atPos "4294967297".toList 0 [] 0) =
      Result.ret (some (VALUE_NUMBER 1)) (Interp.atPos "4294967297".toList 0 [] 10) ∧
    Interp.ParseNumber "2147483648".toList (Interp.atPos "2147483648".toList 0 [] 0) =
      Result.ret (some (VALUE_NUMBER (-2147483648)))
        (Interp.atPos "2147483648".toList 0 [] 10) ∧
    (∃ e, Run 2 none "\x604294967297\x60".toList [] = RunResult.ok ["1".toList] e) ∧
    (∃ e, Run 2 none "\x6099999999999999999999\x60".toList [] = RunResult.fail e) :=
  ⟨((number_literal_width "4294967297".toList 0 "4294967297".toList [] 0 [] (by decide)
      (by decide) (by decide) (by decide)).2.1 (by decide)).1,
    ((number_literal_width "2147483648".toList 0 "2147483648".toList [] 0 [] (by decide)
      (by decide) (by decide) (by decide)).2.1 (by decide)).1,
    ((number_literal_width "4294967297".toList 0 "4294967297".toList [] 0 [] (by decide)
      (by decide) (by decide) (by decide)).2.2.2 2 [] (by decide)).1 (by decide),
    ((number_literal_width "99999999999999999999".toList 0 "99999999999999999999".toList []
      0 [] (by decide) (by decide) (by decide) (by decide)).2.2.2 2 [] (by decide)).2
      (by decide)⟩

end tsub
